import Mathlib

/-!
# cgdb: attributed lines, segment highlighting, regex search, drawing, classification
and the line store

A shallow embedding of `highlight_line_segment`, `hl_regex`, `hl_wprintw`,
`highlight_gdb`, `highlight_node` and `highlight` of `src/cgdb/highlight.c`, with the
decode loop of `hl_wprintw2`, and of `parse`, `scr_add`, `scr_up`, `scr_down`, `scr_home`
and `scr_end` of `src/cgdb/scroller.c`.

Conventions of the embedding.

* A C string is the list of its bytes before the terminating NUL; a byte is a
  natural number.  `strlen` is `List.length`, and reading the byte just after
  the last one yields the terminator `0`.
* `int` variables are integers; lines are assumed shorter than `INT_MAX`, so no
  arithmetic of the modelled code wraps.  Allocation is assumed to succeed.
* A pointer that may be `NULL` is an `Option`.  A result `none` of a function
  that returns `Option` for that purpose stands for a read outside an array
  (undefined behaviour in C).
-/

namespace Cgdb

/-! ## Attribute encoding -/

/-- `HL_CHAR`, the marker byte of the encoding: `CHAR_MAX` for an 8-bit signed `char`. -/
def HL_CHAR : Nat := 127

/-- The constants of `enum hl_group_kind` used by `highlight.c`.  The header that
declares them (`highlight_groups.h`) is not among the sources, so their values
are a parameter of the development. -/
structure hl_group_kind where
  HLG_KEYWORD : Nat
  HLG_TYPE : Nat
  HLG_LITERAL : Nat
  HLG_COMMENT : Nat
  HLG_DIRECTIVE : Nat
  HLG_TEXT : Nat
  HLG_SEARCH : Nat
  HLG_PATH : Nat
  HLG_BT_LIST : Nat
  HLG_HEX : Nat
deriving DecidableEq, Repr

/-- The group-id bytes of a numbering. -/
def hl_group_kind.ids (G : hl_group_kind) : List Nat :=
  [G.HLG_KEYWORD, G.HLG_TYPE, G.HLG_LITERAL, G.HLG_COMMENT, G.HLG_DIRECTIVE,
   G.HLG_TEXT, G.HLG_SEARCH, G.HLG_PATH, G.HLG_BT_LIST, G.HLG_HEX]

/-- A numbering is usable when no group id collides with the marker byte. -/
def hl_group_kind.sound (G : hl_group_kind) : Prop := HL_CHAR ∉ G.ids

instance (G : hl_group_kind) : Decidable G.sound := by
  unfold hl_group_kind.sound; infer_instance

/-- One usable numbering, for concrete evaluations: the groups numbered from 1 in the
order in which `highlight.c` mentions them. -/
def sample_groups : hl_group_kind :=
  { HLG_KEYWORD := 1, HLG_TYPE := 2, HLG_LITERAL := 3, HLG_COMMENT := 4, HLG_DIRECTIVE := 5,
    HLG_TEXT := 6, HLG_SEARCH := 7, HLG_PATH := 8, HLG_BT_LIST := 9, HLG_HEX := 10 }

/-- An attributed line is well formed when every marker byte is followed by a group id. -/
def well_formed (G : hl_group_kind) : List Nat → Bool
  | [] => true
  | c :: rest =>
    if c = HL_CHAR then
      match rest with
      | [] => false
      | g :: rest2 => decide (g ∈ G.ids) && well_formed G rest2
    else well_formed G rest

/-- The print loop of `hl_wprintw2` (lines 567-597), with a style lookup that succeeds: the
list of the characters it prints, each with the colour that is switched on when it is
printed.  `color` is the colour on entry; a marker byte consumes the next byte as the new
colour, and a marker that is the last byte of the line is dropped. -/
def decode_loop : List Nat → Nat → List (Nat × Nat)
  | [], _ => []
  | c :: rest, color =>
    if c = HL_CHAR then
      match rest with
      | [] => []
      | g :: rest2 => decode_loop rest2 g
    else (c, color) :: decode_loop rest color

/-- The cells of a whole line: `hl_wprintw2` starts with `color = HLG_TEXT`. -/
def decode (G : hl_group_kind) (line : List Nat) : List (Nat × Nat) :=
  decode_loop line G.HLG_TEXT

/-- The visible text of a line: all (marker, group id) pairs removed. -/
def strip : List Nat → List Nat
  | [] => []
  | c :: rest =>
    if c = HL_CHAR then
      match rest with
      | [] => []
      | _ :: rest2 => strip rest2
    else c :: strip rest

/-! ## highlight_line_segment -/

/-- The `for (j = 0; j < length; j++)` loop of `highlight_line_segment` (lines 470-500).
The list is the unread part `orig[j..]` of the line; the result is the bytes appended
to `new_line` from here on.  `orig[j + 1]` past the end is the terminator `0`. -/
def hls_loop (SEARCH : Nat) : List Nat → Int → Int → Int → Bool → Nat → List Nat
  | [], _, _, _, _, _ => []
  | c :: rest, j, start, end_, syn_search_recieved, cur_color =>
    let start1 := if c = HL_CHAR ∧ j ≤ start then start + 2 else start
    let end1 := if c = HL_CHAR ∧ j ≤ end_ then end_ + 2 else end_
    let cur1 := if c = HL_CHAR then rest.headD 0 else cur_color
    let syn1 := if j = start1 then true else if j = end1 then false else syn_search_recieved
    let mark :=
      if j = start1 then [HL_CHAR, SEARCH]
      else if j = end1 then [HL_CHAR, cur1]
      else []
    if syn1 = true ∧ c = HL_CHAR then
      match rest with
      | [] => mark ++ [c, SEARCH]
      | _ :: rest2 => mark ++ c :: SEARCH :: hls_loop SEARCH rest2 (j + 2) start1 end1 syn1 cur1
    else
      mark ++ c :: hls_loop SEARCH rest (j + 1) start1 end1 syn1 cur1

/-- The function `highlight_line_segment(orig, start, end)`; `none` is the `NULL` it returns
for a range that fails the check of line 444 (which compares against `strlen(orig)`). -/
def highlight_line_segment (G : hl_group_kind) (orig : List Nat) (start end_ : Int) :
    Option (List Nat) :=
  let length : Int := orig.length
  if start > end_ ∨ start > length ∨ start < 0 ∨ end_ > length ∨ end_ < 0 then none
  else some (hls_loop G.HLG_SEARCH orig 0 start end_ false G.HLG_TEXT)

/-! ## hl_regex -/

/-- The type `regmatch_t` of `<regex.h>`: the byte offsets of a match in the searched string. -/
structure regmatch_t where
  rm_so : Int
  rm_eo : Int
deriving DecidableEq, Repr

/-- A compiled pattern `regex_t`, seen through `regexec(&t, s, 1, pmatch, 0)`: `none` when
`s` has no match, otherwise the value stored in `pmatch[0]`. -/
abbrev regex_t := List Nat → Option regmatch_t

/-- What `hl_regex` takes from outside the repository: `regcomp` of the C library, applied to
the pattern and the flag word (`none` when the pattern does not compile), and the value of
the `wrapscan` option read through `cgdbrc_get`. -/
structure hl_env where
  regcomp : List Nat → Int → Option regex_t
  config_wrapscan : Int

/-- `REG_EXTENDED` of `<regex.h>` (glibc). -/
def REG_EXTENDED : Int := 1

/-- `REG_ICASE` of `<regex.h>` (glibc). -/
def REG_ICASE : Int := 2

/-- The flag word of line 720, `REG_EXTENDED & (icase) ? REG_ICASE : 0`, which C reads as
`(REG_EXTENDED & icase) ? REG_ICASE : 0`. -/
def regcomp_cflags (icase : Int) : Int :=
  if Int.land REG_EXTENDED icase ≠ 0 then REG_ICASE else 0

/-- The cells behind the five out-pointers of `hl_regex`; `none` is a `NULL` pointer.
The cell `*cur_line` holds `NULL` or a highlighted line. -/
structure hl_regex_refs where
  cur_line : Option (Option (List Nat))
  sel_line : Option Int
  sel_rline : Option Int
  sel_col_rbeg : Option Int
  sel_col_rend : Option Int
deriving DecidableEq, Repr

/-- The values of `i`, `offset` and `pmatch[0]` when the search loops are left with
`success = 1`. -/
structure hl_found where
  i : Int
  offset : Int
  pmatch : regmatch_t
deriving DecidableEq, Repr

/-- The row `tlines[i]` as a string: undefined outside the array and for a `NULL` row. -/
def tline (tlines : List (Option (List Nat))) (i : Int) : Option (List Nat) :=
  if i < 0 then none
  else
    match tlines[i.toNat]? with
    | some (some line) => some line
    | _ => none

/-- The row `hl_lines[i]`: undefined outside the array. -/
def hl_line (hl_lines : List (List Nat)) (i : Int) : Option (List Nat) :=
  if i < 0 then none else hl_lines[i.toNat]?

/-- The string `line + k`: defined for `0 <= k <= strlen(line)`. -/
def str_add (line : List Nat) (k : Int) : Option (List Nat) :=
  if 0 ≤ k ∧ k ≤ line.length then some (line.drop k.toNat) else none

/-- The body of the forward `for` loop (lines 733-749) for row `i`: `some none` when the row
is skipped or does not match, `some (some pmatch)` when it matches. -/
def forward_try (t : regex_t) (tlines : List (Option (List Nat))) (sel_rline offset : Int)
    (i : Int) : Option (Option regmatch_t) :=
  match tline tlines i with
  | none => none
  | some local_cur_line =>
    if i = sel_rline then
      if offset ≥ local_cur_line.length then some none
      else
        match str_add local_cur_line offset with
        | none => none
        | some s => some (t s)
    else some (t local_cur_line)

/-- The loop `for (i = start; i < end; i++)` of the forward search, entered at `i` with
`end - i` rows left. -/
def forward_loop (t : regex_t) (tlines : List (Option (List Nat))) (sel_rline offset : Int) :
    Nat → Int → Option (Option (Int × regmatch_t))
  | 0, _ => some none
  | n + 1, i =>
    match forward_try t tlines sel_rline offset i with
    | none => none
    | some (some pmatch) => some (some (i, pmatch))
    | some none => forward_loop t tlines sel_rline offset n (i + 1)

/-- The forward search (lines 726-758).  The `while (!success)` loop runs its body at most
twice: the first pass scans `[*sel_rline, length)`; the second, entered only when nothing was
found, `start != 0` and wrapscan is on, scans `[0, *sel_rline)` and ends with `start == 0`. -/
def forward_search (t : regex_t) (tlines : List (Option (List Nat)))
    (length sel_rline sel_col_rend config_wrapscan : Int) : Option (Option hl_found) :=
  match forward_loop t tlines sel_rline sel_col_rend (length - sel_rline).toNat sel_rline with
  | none => none
  | some (some (i, pmatch)) => some (some ⟨i, sel_col_rend, pmatch⟩)
  | some none =>
    if sel_rline = 0 ∨ config_wrapscan = 0 then some none
    else
      match forward_loop t tlines sel_rline sel_col_rend (sel_rline - 0).toNat 0 with
      | none => none
      | some (some (i, pmatch)) => some (some ⟨i, sel_col_rend, pmatch⟩)
      | some none => some none

/-- The loop `for (j = pos; j >= 0; j--)` of the reverse search (lines 779-789), entered with
`j + 1` columns left; `anchor` is `i == *sel_rline`. -/
def reverse_cols (t : regex_t) (local_cur_line : List Nat) (anchor : Bool) (pos : Int) :
    Nat → Option (Option (Int × regmatch_t))
  | 0 => some none
  | j + 1 =>
    match str_add local_cur_line j with
    | none => none
    | some s =>
      match t s with
      | some pmatch =>
        if anchor = true ∧ pmatch.rm_so > pos - j then
          reverse_cols t local_cur_line anchor pos j
        else some (some (j, pmatch))
      | none => reverse_cols t local_cur_line anchor pos j

/-- The body of the reverse row loop (lines 770-789) for row `i`: `some (some (j, pmatch))`
when the row has an accepted match found from column `j`. -/
def reverse_try (t : regex_t) (tlines : List (Option (List Nat))) (sel_rline offset : Int)
    (i : Int) : Option (Option (Int × regmatch_t)) :=
  match tline tlines i with
  | none => none
  | some local_cur_line =>
    let pos : Int := local_cur_line.length - 1
    if pos < 0 then some none
    else
      let pos := if i = sel_rline then offset - 1 else pos
      reverse_cols t local_cur_line (decide (i = sel_rline)) pos (pos + 1).toNat

/-- The loop `for (i = start; i >= end; i--)` of the reverse search, entered at `i` with
`i - end + 1` rows left. -/
def reverse_loop (t : regex_t) (tlines : List (Option (List Nat))) (sel_rline offset : Int) :
    Nat → Int → Option (Option hl_found)
  | 0, _ => some none
  | n + 1, i =>
    match reverse_try t tlines sel_rline offset i with
    | none => none
    | some (some (j, pmatch)) => some (some ⟨i, j, pmatch⟩)
    | some none => reverse_loop t tlines sel_rline offset n (i - 1)

/-- The reverse search (lines 760-803).  As in the forward search the `while` body runs at
most twice: first rows `*sel_rline` down to `0`; then, when nothing was found,
`start != length - 1` and wrapscan is on, rows `length - 1` down to `*sel_rline` inclusive. -/
def reverse_search (t : regex_t) (tlines : List (Option (List Nat)))
    (length sel_rline sel_col_rbeg config_wrapscan : Int) : Option (Option hl_found) :=
  match reverse_loop t tlines sel_rline sel_col_rbeg (sel_rline - 0 + 1).toNat sel_rline with
  | none => none
  | some (some f) => some (some f)
  | some none =>
    if sel_rline = length - 1 ∨ config_wrapscan = 0 then some none
    else
      reverse_loop t tlines sel_rline sel_col_rbeg (length - 1 - sel_rline + 1).toNat (length - 1)

/-- The two search branches of `hl_regex` (lines 725-803): the forward search when
`direction` is non-zero, the reverse search otherwise. -/
def hl_search (t : regex_t) (tlines : List (Option (List Nat)))
    (length sel_rline sel_col_rbeg sel_col_rend config_wrapscan direction : Int) :
    Option (Option hl_found) :=
  if direction ≠ 0 then forward_search t tlines length sel_rline sel_col_rend config_wrapscan
  else reverse_search t tlines length sel_rline sel_col_rbeg config_wrapscan

/-- The `if (success)` branch of `hl_regex` (lines 805-825), with `sel_rline` the value of
`*sel_rline` on entry and `refs` the cells after `*cur_line` has been cleared. -/
def hl_commit (G : hl_group_kind) (hl_lines : List (List Nat)) (refs : hl_regex_refs)
    (sel_rline opt direction : Int) (f : hl_found) : Option (Int × hl_regex_refs) :=
  let offset := if direction ≠ 0 ∧ sel_rline ≠ f.i then 0 else f.offset
  let refs1 :=
    if opt = 2 then
      { refs with
        sel_col_rbeg := some (f.pmatch.rm_so + offset)
        sel_col_rend := some (f.pmatch.rm_eo + offset)
        sel_rline := some f.i }
    else refs
  let refs2 := { refs1 with sel_line := some f.i }
  if opt ≠ 2 ∧ f.pmatch.rm_so ≠ -1 ∧ f.pmatch.rm_eo ≠ -1 then
    match hl_line hl_lines f.i with
    | none => none
    | some orig =>
      some (1, { refs2 with
        cur_line := some (highlight_line_segment G orig
          (f.pmatch.rm_so + offset) (f.pmatch.rm_eo + offset)) })
  else some (1, refs2)

/-- The function `hl_regex` (lines 689-833): the returned code and the cells behind the
out-pointers after the call.  `regex` and `tlines` may be `NULL`; reading `tlines[0]` of an
array without rows is undefined. -/
def hl_regex (E : hl_env) (G : hl_group_kind) (regex : Option (List Nat))
    (hl_lines : List (List Nat)) (tlines : Option (List (Option (List Nat)))) (length : Int)
    (refs : hl_regex_refs) (opt direction icase : Int) : Option (Int × hl_regex_refs) :=
  match tlines with
  | none => some (-1, refs)
  | some [] => none
  | some (none :: _) => some (-1, refs)
  | some (some row0 :: rows) =>
    match refs.cur_line, refs.sel_line, refs.sel_rline, refs.sel_col_rbeg, refs.sel_col_rend with
    | some _, some _, some sel_rline, some sel_col_rbeg, some sel_col_rend =>
      -- Clear last highlighted line
      let refs0 := { refs with cur_line := some none }
      -- If regex is empty, set current line to original line
      if regex = none ∨ regex = some [] then
        some (-2, { refs0 with sel_line := some sel_rline })
      else
        -- Compile the regular expression
        match E.regcomp (regex.getD []) (regcomp_cflags icase) with
        | none => some (-3, refs0)
        | some t =>
          match hl_search t (some row0 :: rows) length sel_rline sel_col_rbeg sel_col_rend
              E.config_wrapscan direction with
          | none => none
          | some (some f) => hl_commit G hl_lines refs0 sel_rline opt direction f
          | some none => some (0, { refs0 with sel_line := some sel_rline })
    | _, _, _, _, _ => some (-1, refs)

/-! ## A small pattern library for concrete evaluations -/

/-- ASCII lower-casing of a byte. -/
def to_lower (c : Nat) : Nat := if 65 ≤ c ∧ c ≤ 90 then c + 32 else c

/-- Leftmost occurrence of the literal `pat` in a string whose bytes before it number `k`. -/
def find_literal (fold : Bool) (pat : List Nat) : List Nat → Nat → Option regmatch_t
  | [], k => if pat = [] then some ⟨k, k⟩ else none
  | c :: r, k =>
    let norm := fun (l : List Nat) => if fold then l.map to_lower else l
    if norm ((c :: r).take pat.length) = norm pat then some ⟨k, k + pat.length⟩
    else find_literal fold pat r (k + 1)

/-- Length of the longest run of the byte `c` at the head of a string. -/
def run_length (c : Nat) : List Nat → Nat
  | [] => 0
  | d :: r => if d = c then run_length c r + 1 else 0

/-- A stand-in for `regcomp`/`regexec` on a fragment of POSIX basic regular expressions:
the pattern `x*` (a possibly empty run of `x`, so it matches at offset 0 of every string)
and the patterns free of the special characters `[ * . \ ^ $` (literal search, case folded
under `REG_ICASE`).  Every other pattern is refused; among them is `[`, an unterminated
bracket expression, which the C library rejects as well. -/
def sample_regcomp (pat : List Nat) (cflags : Int) : Option regex_t :=
  if pat = [120, 42] then some (fun s => some ⟨0, run_length 120 s⟩)
  else if pat.any (fun c => c ∈ [91, 42, 46, 92, 94, 36]) then none
  else some (fun s => find_literal (decide (cflags = REG_ICASE)) pat s 0)

/-- The sample library with wrapscan switched on. -/
def sample_env : hl_env := { regcomp := sample_regcomp, config_wrapscan := 1 }

/-- The sample library with wrapscan switched off. -/
def sample_env_nowrap : hl_env := { regcomp := sample_regcomp, config_wrapscan := 0 }

/-- Out-pointers that are all valid, with `*cur_line = NULL`, `*sel_line = *sel_rline = row`
and the confirmed match columns `rbeg`, `rend`. -/
def refs_at (row rbeg rend : Int) : hl_regex_refs :=
  { cur_line := some none, sel_line := some row, sel_rline := some row,
    sel_col_rbeg := some rbeg, sel_col_rend := some rend }

/-! ## Specification-side notions -/

/-- The cells of a line with the colour of the cells whose index lies in `[a, b)` replaced
by `S`. -/
def overlay (S : Nat) : Nat → Nat → List (Nat × Nat) → List (Nat × Nat)
  | _, _, [] => []
  | a, b, x :: xs => (if a = 0 ∧ 0 < b then (x.1, S) else x) :: overlay S (a - 1) (b - 1) xs

/-- The text of row `k` that a forward search from the confirmed match (row `sel_rline`,
end column `sel_col_rend`) looks at: on the anchor row the suffix from `sel_col_rend`, and
nothing when `sel_col_rend` is not inside the row; on every other row the whole row. -/
def searched_text (tl : List (List Nat)) (sel_rline sel_col_rend : Int) (k : Int) :
    Option (List Nat) :=
  if k < 0 then none
  else
    match tl[k.toNat]? with
    | none => none
    | some line =>
      if k = sel_rline then
        if sel_col_rend ≥ line.length then none else some (line.drop sel_col_rend.toNat)
      else some line

/-- The match of the pattern in the searched text of row `k`, if any. -/
def forward_row_match (t : regex_t) (tl : List (List Nat)) (sel_rline sel_col_rend : Int)
    (k : Int) : Option regmatch_t :=
  (searched_text tl sel_rline sel_col_rend k).bind t

/-- The match a reverse search accepts from suffix start column `j` of row `k`, if any: the
row is not empty (the search passes over an empty row, whatever the pattern), `j` is at most
the last column (on the anchor row: at most `sel_col_rbeg - 1`), the suffix from `j`
matches, and on the anchor row the match starts before column `sel_col_rbeg`. -/
def reverse_row_match (t : regex_t) (tl : List (List Nat)) (sel_rline sel_col_rbeg : Int)
    (k : Int) (j : Nat) : Option regmatch_t :=
  if k < 0 then none
  else
    match tl[k.toNat]? with
    | none => none
    | some line =>
      if line = [] then none
      else if (j : Int) > (if k = sel_rline then sel_col_rbeg - 1 else line.length - 1) then none
      else
        match t (line.drop j) with
        | none => none
        | some m => if k = sel_rline ∧ ¬ (j + m.rm_so < sel_col_rbeg) then none else some m

/-- The state a search may start from: `length` is the number of rows, every row has a
highlighted counterpart, the confirmed row exists, and the confirmed columns are not
negative and not beyond the end of the confirmed row. -/
def hl_regex_pre (tl hl_lines : List (List Nat)) (length sel_rline sel_col_rbeg sel_col_rend : Int) :
    Prop :=
  length = tl.length ∧ tl.length ≤ hl_lines.length ∧ 0 ≤ sel_rline ∧ sel_rline < length ∧
    0 ≤ sel_col_rend ∧ sel_col_rbeg ≤ (tl.getD sel_rline.toNat []).length + 1

instance (tl hl_lines : List (List Nat)) (length sel_rline sel_col_rbeg sel_col_rend : Int) :
    Decidable (hl_regex_pre tl hl_lines length sel_rline sel_col_rbeg sel_col_rend) := by
  unfold hl_regex_pre; infer_instance

/-- The match accepted by one iteration of the column loop of the reverse search: the suffix
from column `j` matches and, on the anchor row, the match does not start beyond `pos`. -/
def reverse_col_match (t : regex_t) (line : List Nat) (anchor : Bool) (pos : Int) (j : Nat) :
    Option regmatch_t :=
  match t (line.drop j) with
  | none => none
  | some m => if anchor = true ∧ m.rm_so > pos - j then none else some m

/-- The bytes `line[a .. b)`. -/
def substring (line : List Nat) (a b : Int) : List Nat :=
  (line.drop a.toNat).take (b - a).toNat

/-- The line of the search scenario, `#1  0x0000555555555555 in main () at demo/main.c:42`. -/
def scenario_line : List Nat :=
  [35, 49, 32, 32, 48, 120, 48, 48, 48, 48, 53, 53, 53, 53, 53, 53, 53, 53, 53, 53, 53, 53, 32,
   105, 110, 32, 109, 97, 105, 110, 32, 40, 41, 32, 97, 116, 32, 100, 101, 109, 111, 47, 109, 97,
   105, 110, 46, 99, 58, 52, 50]

/-- The group ids of the directives of a line, in order. -/
def directives : List Nat → List Nat
  | [] => []
  | c :: rest =>
    if c = HL_CHAR then
      match rest with
      | [] => []
      | g :: rest2 => g :: directives rest2
    else directives rest

/-- The group ids of the directives that precede the first visible byte of a line. -/
def lead_directives : List Nat → List Nat
  | [] => []
  | c :: rest =>
    if c = HL_CHAR then
      match rest with
      | [] => []
      | g :: rest2 => g :: lead_directives rest2
    else []

/-- The first value `f k` that is defined, for `k` running through the `n` row indices from
`k` upwards. -/
def first_row {α : Type} (f : Int → Option α) : Nat → Int → Option α
  | 0, _ => none
  | n + 1, k =>
    match f k with
    | some a => some a
    | none => first_row f n (k + 1)

/-- The leftmost match of row `k`, as (row, begin column, end column). -/
def row_first_match (t : regex_t) (tl : List (List Nat)) (k : Int) : Option (Int × Int × Int) :=
  if k < 0 then none
  else
    match tl[k.toNat]? with
    | none => none
    | some line => (t line).map (fun m => (k, m.rm_so, m.rm_eo))

/-- The leftmost match of row `k` in the text from column `c` on, in columns of the row;
nothing when `c` is not a column of the row. -/
def row_match_from (t : regex_t) (tl : List (List Nat)) (k c : Int) :
    Option (Int × Int × Int) :=
  if k < 0 then none
  else
    match tl[k.toNat]? with
    | none => none
    | some line =>
      if c ≥ line.length then none
      else (t (line.drop c.toNat)).map (fun m => (k, m.rm_so + c, m.rm_eo + c))

/-- The next match position at or after column `c` of row `r` in row-major order: the
leftmost match of row `r` from column `c` on, else the leftmost match of the first later row
that has a match. -/
def next_match (t : regex_t) (tl : List (List Nat)) (r c : Int) : Option (Int × Int × Int) :=
  match row_match_from t tl r c with
  | some p => some p
  | none => first_row (row_first_match t tl) (tl.length - (r + 1)).toNat (r + 1)

/-- The first match position among the rows before row `r`. -/
def first_match_before (t : regex_t) (tl : List (List Nat)) (r : Int) :
    Option (Int × Int × Int) :=
  first_row (row_first_match t tl) r.toNat 0

/-- The first match position of the whole buffer. -/
def first_match (t : regex_t) (tl : List (List Nat)) : Option (Int × Int × Int) :=
  first_row (row_first_match t tl) tl.length 0

/-- The cells of `hl_regex` after a permanent search has committed the position `p`. -/
def committed (p : Int × Int × Int) : hl_regex_refs :=
  ⟨some none, some p.1, some p.1, some p.2.1, some p.2.2⟩

/-- The contract of `regexec` for a successful call with `nmatch = 1`: the offsets stored in
`pmatch[0]` delimit a substring of the searched string. -/
def regexec_ok (t : regex_t) : Prop :=
  ∀ s m, t s = some m → 0 ≤ m.rm_so ∧ m.rm_so ≤ m.rm_eo ∧ m.rm_eo ≤ (s.length : Int)

/-! ## hl_wprintw

The renderer is modelled on natural numbers: `width`, `offset` and the tab stop are not
negative (highlight.h gives `offset` the range `0..length-1`), the counters `i`, `j`, `p`
never are, and `pad = j - offset` is only compared from above, so truncated subtraction
gives the number of blanks of the pad loop.  A cell is the character drawn and the attribute
the routine has switched on at that moment (`none` before `wattron` and after `wattroff`).
`get_attr` is `hl_groups_get_attr`, `none` standing for the error return -1. -/

/-- The loop of lines 622-636, which skips the columns left of `offset`: the unread part of
the line, the column counter `j` and the colour when it stops.  A marker that is the last
byte of the line is counted as one column (it is not a tab). -/
def wprintw_skip (tabstop offset : Nat) : List Nat → Nat → Nat → List Nat × Nat × Nat
  | [], j, color => ([], j, color)
  | c :: rest, j, color =>
    if j < offset then
      if c = HL_CHAR then
        match rest with
        | [] => ([], j + 1, color)
        | g :: rest2 => wprintw_skip tabstop offset rest2 j g
      else if c = 9 then wprintw_skip tabstop offset rest (j + (tabstop - j % tabstop)) color
      else wprintw_skip tabstop offset rest (j + 1) color
    else (c :: rest, j, color)

/-- The `do ... while` loop of a tab (lines 670-673): the value of `p` when it is left, the
number of blanks drawn being the increase of `p`.  The first argument bounds the number of
iterations; `width - p` is enough. -/
def wprintw_tab (tabstop offset width : Nat) : Nat → Nat → Nat
  | 0, p => p
  | n + 1, p =>
    if (p + 1 + offset) % tabstop > 0 ∧ p + 1 < width then
      wprintw_tab tabstop offset width n (p + 1)
    else p + 1

/-- The print loop of lines 653-680 followed by `wattroff` and the pad loop of lines 685-686:
the cells drawn from the unread part of the line on, with `p` cells drawn so far and `attr`
switched on.  A failed style lookup returns at once. -/
def wprintw_main (get_attr : Nat → Option Nat) (tabstop offset width : Nat) :
    List Nat → Nat → Nat → List (Nat × Option Nat)
  | [], p, _ => List.replicate (width - p) (32, none)
  | c :: rest, p, attr =>
    if p < width then
      if c = HL_CHAR then
        match rest with
        | [] => List.replicate (width - p) (32, none)
        | g :: rest2 =>
          match get_attr g with
          | none => []
          | some attr2 => wprintw_main get_attr tabstop offset width rest2 p attr2
      else if c = 9 then
        List.replicate (wprintw_tab tabstop offset width (width - p) p - p) (32, some attr) ++
          wprintw_main get_attr tabstop offset width rest
            (wprintw_tab tabstop offset width (width - p) p) attr
      else (c, some attr) :: wprintw_main get_attr tabstop offset width rest (p + 1) attr
    else List.replicate (width - p) (32, none)

/-- The function `hl_wprintw(win, line, width, offset)` (lines 607-687): the cells it draws,
in order. -/
def hl_wprintw (G : hl_group_kind) (get_attr : Nat → Option Nat) (tabstop : Nat)
    (line : List Nat) (width offset : Nat) : List (Nat × Option Nat) :=
  let skipped := wprintw_skip tabstop offset line 0 G.HLG_TEXT
  let pad := skipped.2.1 - offset
  List.replicate (min pad width) (32, none) ++
    match get_attr skipped.2.2 with
    | none => []
    | some attr =>
      wprintw_main get_attr tabstop offset width skipped.1 (min pad width) attr

/-- The visible text with every tab replaced by the blanks that lead to the next multiple of
`T`, the first byte standing at column `c`. -/
def expand_tabs (T : Nat) : Nat → List Nat → List Nat
  | _, [] => []
  | c, ch :: rest =>
    if ch = 9 then List.replicate (T - c % T) 32 ++ expand_tabs T (c + (T - c % T)) rest
    else ch :: expand_tabs T (c + 1) rest

/-- Columns `[offset, offset + width)` of the tab-expanded visible text of a line, padded with
blanks on the right. -/
def render_window (T : Nat) (line : List Nat) (width offset : Nat) : List Nat :=
  (((expand_tabs T 0 (strip line)).drop offset) ++ List.replicate width 32).take width

/-! ## highlight_gdb

The classifier of debugger output (lines 156-304).  PCRE2 is a library outside the sources:
the compiled pattern is represented by the function that `pcre2_match` computes with it.
Offsets are naturals below `INT_MAX`, so the conversions between `int`, `uint32_t` and
`PCRE2_SIZE` change nothing. -/

/-- The fields of `struct gdb_highlighter` that `highlight_gdb` reads.  `re buffer nChars
offset` is `none` when `pcre2_match(hl->re, buffer, nChars, offset, ...)` returns `rc <= 0`,
and otherwise the output vector it fills, pair `n` being `(ovector[2n], ovector[2n+1])`.
`name_table` holds the group number `n` stored in each entry of the name table, in table
order; `name_count` is its length. -/
structure gdb_highlighter where
  re : List Nat → Nat → Nat → Option (List (Nat × Nat))
  name_table : List Nat

/-- Modelled from the spec: `ibuf_adds(ibuf, s, n)` belongs to the `ibuf` module, which is
not among the sources.  It appends the `n` bytes at `s` (here `buffer + pos`), which is how
§4.4 has the gap, the match and the remainder emitted.  The result is the bytes appended;
`none` is a read outside `buffer`, also for a length that is negative as an integer (as
`uint32_t` it wraps to more than any buffer holds). -/
def ibuf_adds (buffer : List Nat) (pos : Nat) (n : Int) : Option (List Nat) :=
  if 0 ≤ n ∧ (pos : Int) + n ≤ buffer.length then some ((buffer.drop pos).take n.toNat)
  else none

/-- The `for (i = 0; i < hl->name_count; i++)` loop of lines 251-272 over the unread part of
the name table.  `hl_group` is declared without a value: `none` inside the state is the
indeterminate value, and the result `none` is a read outside the output vector. -/
def name_table_loop (G : hl_group_kind) (ovector : List (Nat × Nat)) :
    List Nat → Nat → Option Nat → Option (Option Nat)
  | [], _, hl_group => some hl_group
  | n :: tabptr, i, hl_group =>
    match ovector[n]? with
    | none => none
    | some (so, eo) =>
      let val_len : Int := (eo : Int) - so
      if val_len > 0 then
        name_table_loop G ovector tabptr (i + 1)
          (some (if i = 0 then G.HLG_PATH else if i = 1 then G.HLG_BT_LIST else G.HLG_HEX))
      else name_table_loop G ovector tabptr (i + 1) hl_group

/-- The `while (1)` loop of lines 229-289, at most `fuel` calls of `pcre2_match`: the bytes
appended to `ibuf` and the value of `offset` when the loop is left.  `none` when the loop
is still running after `fuel` calls, when `hl_group` is appended while indeterminate, or
on a read outside an array. -/
def match_loop (G : hl_group_kind) (hl : gdb_highlighter) (buffer : List Nat) (nChars : Nat) :
    Nat → Nat → Option (List Nat × Nat)
  | 0, _ => none
  | fuel + 1, offset =>
    match hl.re buffer nChars offset with
    | none => some ([], offset)
    | some ovector =>
      match (ovector[0]? : Option (Nat × Nat)) with
      | none => none
      | some (matchStart, matchEnd) =>
        match name_table_loop G ovector hl.name_table 0 none with
        | some (some hl_group) =>
          match ibuf_adds buffer offset ((matchStart : Int) - offset) with
          | none => none
          | some gap =>
            match ibuf_adds buffer matchStart ((matchEnd : Int) - matchStart) with
            | none => none
            | some matched =>
              match match_loop G hl buffer nChars fuel matchEnd with
              | none => none
              | some (rest, last) =>
                some ([HL_CHAR, G.HLG_TEXT] ++ gap ++ [HL_CHAR, hl_group] ++ matched ++ rest,
                  last)
        | _ => none

/-- The C string that `strdup` copies out of `ibuf_get(ibuf)`: the bytes before the first
NUL. -/
def strdup (s : List Nat) : List Nat := s.takeWhile (fun c => c ≠ 0)

/-- The function `highlight_gdb(hl, win, buffer, nChars, y, output)`; `win` and `y` are not
used by it.  `compiled` tells whether its own `pcre2_compile` of the merged pattern
succeeds.  The result `some none` is `*output == NULL`, `some (some s)` is the string stored
in `*output`, and `none` is no result: see `match_loop`. -/
def highlight_gdb (G : hl_group_kind) (hl : gdb_highlighter) (compiled : Bool)
    (buffer : List Nat) (nChars : Nat) (fuel : Nat) : Option (Option (List Nat)) :=
  if nChars = 0 then some none
  else if compiled = false then some none
  else
    match match_loop G hl buffer nChars fuel 0 with
    | none => none
    | some (ibuf, offset) =>
      match ibuf_adds buffer offset ((nChars : Int) - offset) with
      | none => none
      | some rest => some (some (strdup (ibuf ++ [HL_CHAR, G.HLG_TEXT] ++ rest)))

/-! ## The pattern of gdb_regexes, for concrete evaluations

`merge_regexes` joins the three entries of `gdb_regexes` into
`(?<filepath>([^ /]*/[^ /]*[.]?w*[:]?[\d]*))|(?<bt_num>#\d+)|(?<hex>0[Xx][A-Fa-f\d]+)`
(the C literal writes `\.` and `\w`, which are not escapes of C; whether `\w` reaches PCRE2
as `w` or as `\w` makes no difference below).  Group 1 is `filepath`, group 2 the
parenthesis inside it, group 3 `bt_num` and group 4 `hex`. -/

/-- `PCRE2_UNSET`, the offset stored for a group that took no part in the match. -/
def PCRE2_UNSET : Nat := 2 ^ 64 - 1

/-- The class `[^ /]`. -/
def not_space_slash (c : Nat) : Bool := c ≠ 32 && c ≠ 47

/-- The class `\d`. -/
def is_digit (c : Nat) : Bool := 48 ≤ c && c ≤ 57

/-- The class `[A-Fa-f\d]`. -/
def is_hex_digit (c : Nat) : Bool := (65 ≤ c && c ≤ 70) || (97 ≤ c && c ≤ 102) || is_digit c

/-- The length of the match of the `filepath` alternative at the head of `s`.  The first
`[^ /]*` is greedy and no byte it takes is a slash, so the alternative matches exactly when
the longest run of `[^ /]` is followed by a slash; the second `[^ /]*` then takes the
longest run again, after which `[.]?`, `w*`, `[:]?` and `[\d]*` face a space, a slash or
the end and match the empty string. -/
def filepath_at (s : List Nat) : Option Nat :=
  match s.dropWhile not_space_slash with
  | [] => none
  | c :: rest =>
    if c = 47 then
      some ((s.takeWhile not_space_slash).length + 1 + (rest.takeWhile not_space_slash).length)
    else none

/-- The length of the match of the `bt_num` alternative at the head of `s`. -/
def bt_num_at (s : List Nat) : Option Nat :=
  match s with
  | [] => none
  | c :: rest =>
    if c = 35 ∧ 0 < (rest.takeWhile is_digit).length then
      some (1 + (rest.takeWhile is_digit).length)
    else none

/-- The length of the match of the `hex` alternative at the head of `s`. -/
def hex_at (s : List Nat) : Option Nat :=
  match s with
  | a :: x :: rest =>
    if a = 48 ∧ (x = 88 ∨ x = 120) ∧ 0 < (rest.takeWhile is_hex_digit).length then
      some (2 + (rest.takeWhile is_hex_digit).length)
    else none
  | _ => none

/-- The output vector of a match that starts at offset `pos`, where the subject from `pos`
on is `s`: the alternatives are tried in the order of the pattern. -/
def gdb_match_at (s : List Nat) (pos : Nat) : Option (List (Nat × Nat)) :=
  match filepath_at s with
  | some n =>
    some [(pos, pos + n), (pos, pos + n), (pos, pos + n),
      (PCRE2_UNSET, PCRE2_UNSET), (PCRE2_UNSET, PCRE2_UNSET)]
  | none =>
    match bt_num_at s with
    | some n =>
      some [(pos, pos + n), (PCRE2_UNSET, PCRE2_UNSET), (PCRE2_UNSET, PCRE2_UNSET),
        (pos, pos + n), (PCRE2_UNSET, PCRE2_UNSET)]
    | none =>
      match hex_at s with
      | some n =>
        some [(pos, pos + n), (PCRE2_UNSET, PCRE2_UNSET), (PCRE2_UNSET, PCRE2_UNSET),
          (PCRE2_UNSET, PCRE2_UNSET), (pos, pos + n)]
      | none => none

/-- The leftmost offset from `pos` on at which an alternative matches. -/
def gdb_scan : List Nat → Nat → Option (List (Nat × Nat))
  | [], _ => none
  | c :: rest, pos =>
    match gdb_match_at (c :: rest) pos with
    | some ovector => some ovector
    | none => gdb_scan rest (pos + 1)

/-- A stand-in for the highlighter that `gdb_highlighter_init` builds.  PCRE2 keeps the name
table in alphabetical order of the names: `bt_num` (group 3), `filepath` (group 1), `hex`
(group 4). -/
def sample_highlighter : gdb_highlighter :=
  { re := fun buffer nChars offset => gdb_scan ((buffer.take nChars).drop offset) offset
    name_table := [3, 1, 4] }

/-- The chunk `#3  0x00007ffff7dd1083 in foo (src/b.c:22)`. -/
def frame_chunk : List Nat :=
  [35, 51, 32, 32, 48, 120, 48, 48, 48, 48, 55, 102, 102, 102, 102, 55, 100, 100, 49, 48, 56,
   51, 32, 105, 110, 32, 102, 111, 111, 32, 40, 115, 114, 99, 47, 98, 46, 99, 58, 50, 50, 41]

/-- The chunk `at src/a.c:10 0x1f`. -/
def path_chunk : List Nat :=
  [97, 116, 32, 115, 114, 99, 47, 97, 46, 99, 58, 49, 48, 32, 48, 120, 49, 102]

/-- Every match that the pattern yields in `[0, nChars]` lies between the offset it was
asked from and `nChars`. -/
def matches_inside (hl : gdb_highlighter) (buffer : List Nat) (nChars : Nat) : Prop :=
  ∀ offset ovector, offset ≤ nChars → hl.re buffer nChars offset = some ovector →
    ∃ matchStart matchEnd, ovector[0]? = some (matchStart, matchEnd) ∧
      offset ≤ matchStart ∧ matchStart ≤ matchEnd ∧ matchEnd ≤ nChars

/-- Every match that the pattern yields in `[0, nChars]` is not empty, every entry of the
name table names a group of the output vector, and one of the named groups is not empty. -/
def matches_advance (hl : gdb_highlighter) (buffer : List Nat) (nChars : Nat) : Prop :=
  ∀ offset ovector, offset ≤ nChars → hl.re buffer nChars offset = some ovector →
    (∃ matchStart matchEnd, ovector[0]? = some (matchStart, matchEnd) ∧
      matchStart < matchEnd) ∧
    (∀ n ∈ hl.name_table, n < ovector.length) ∧
    (∃ n ∈ hl.name_table, ∃ so eo, ovector[n]? = some (so, eo) ∧ so < eo)

/-- A decision procedure for `matches_inside` and `matches_advance` together. -/
def matches_check (hl : gdb_highlighter) (buffer : List Nat) (nChars : Nat) : Bool :=
  (List.range (nChars + 1)).all fun offset =>
    match hl.re buffer nChars offset with
    | none => true
    | some ovector =>
      (match ovector[0]? with
        | none => false
        | some (matchStart, matchEnd) =>
          decide (offset ≤ matchStart ∧ matchStart < matchEnd ∧ matchEnd ≤ nChars)) &&
      hl.name_table.all (fun n => decide (n < ovector.length)) &&
      hl.name_table.any (fun n =>
        match ovector[n]? with
        | none => false
        | some (so, eo) => decide (so < eo))

/-! ## highlight_node and highlight

The classifier of source files (lines 306-422).  The tokenizer and the declarations of
`struct buffer` and `struct list_node` (`tokenizer.h`, `sources.h`) are outside the sources:
the tokenizer is a parameter, and the structures have the fields that `highlight.c` uses. -/

/-- The values of `enum tokenizer_type` that `highlight_node` tells apart;
`TOKENIZER_OTHER` is any value that reaches the `default` label of its `switch`. -/
inductive tokenizer_type where
  | TOKENIZER_KEYWORD
  | TOKENIZER_TYPE
  | TOKENIZER_LITERAL
  | TOKENIZER_NUMBER
  | TOKENIZER_COMMENT
  | TOKENIZER_DIRECTIVE
  | TOKENIZER_TEXT
  | TOKENIZER_NEWLINE
  | TOKENIZER_ERROR
  | TOKENIZER_OTHER
deriving DecidableEq, Repr

/-- The tokenizer as `highlight.c` sees it.  `tokenizer_set_file path language` is `none`
when the call returns -1, and otherwise the packets handed out by the calls of
`tokenizer_get_token` that return a positive value, each with its
`tokenizer_get_packet_type` and its `tokenizer_get_data`, up to the first call that returns
0 or less. -/
structure tokenizer_kind where
  TOKENIZER_LANGUAGE_UNKNOWN : Nat
  tokenizer_set_file : List Nat → Nat → Option (List (tokenizer_type × List Nat))

/-- The fields of `struct buffer` used here; a `tlines` of `NULL` is the empty list. -/
structure buffer where
  tlines : List (List Nat)
  length : Int
  max_width : Int
deriving DecidableEq, Repr

/-- The fields of `struct list_node` used here. -/
structure list_node where
  path : List Nat
  language : Nat
  buf : buffer
  orig_buf : buffer
deriving DecidableEq, Repr

/-- The `while ((ret = tokenizer_get_token(t)) > 0)` loop of `highlight_node` (lines
327-394) over the packets still to come: the return code and `node->buf` at `cleanup`.
`ibuf` is the byte buffer being filled; `ibuf_add` appends a C string, `ibuf_addchar` one
byte, `ibuf_length` is the number of bytes, and `strdup(ibuf_get(ibuf))` copies the bytes
before the first NUL. -/
def highlight_node_loop (G : hl_group_kind) :
    List (tokenizer_type × List Nat) → List Nat → buffer → Int × buffer
  | [], _, buf => (0, buf)
  | (e, data) :: rest, ibuf, buf =>
    match e with
    | .TOKENIZER_KEYWORD =>
      highlight_node_loop G rest
        (ibuf ++ [HL_CHAR, G.HLG_KEYWORD] ++ data ++ [HL_CHAR, G.HLG_TEXT]) buf
    | .TOKENIZER_TYPE =>
      highlight_node_loop G rest
        (ibuf ++ [HL_CHAR, G.HLG_TYPE] ++ data ++ [HL_CHAR, G.HLG_TEXT]) buf
    | .TOKENIZER_LITERAL =>
      highlight_node_loop G rest
        (ibuf ++ [HL_CHAR, G.HLG_LITERAL] ++ data ++ [HL_CHAR, G.HLG_TEXT]) buf
    | .TOKENIZER_NUMBER => highlight_node_loop G rest (ibuf ++ data) buf
    | .TOKENIZER_COMMENT =>
      highlight_node_loop G rest
        (ibuf ++ [HL_CHAR, G.HLG_COMMENT] ++ data ++ [HL_CHAR, G.HLG_TEXT]) buf
    | .TOKENIZER_DIRECTIVE =>
      highlight_node_loop G rest
        (ibuf ++ [HL_CHAR, G.HLG_DIRECTIVE] ++ data ++ [HL_CHAR, G.HLG_TEXT]) buf
    | .TOKENIZER_TEXT => highlight_node_loop G rest (ibuf ++ data) buf
    | .TOKENIZER_NEWLINE =>
      highlight_node_loop G rest [HL_CHAR, G.HLG_TEXT]
        { tlines := buf.tlines ++ [strdup ibuf]
          length := buf.length + 1
          max_width := if (ibuf.length : Int) > buf.max_width then ibuf.length
            else buf.max_width }
    | .TOKENIZER_ERROR => highlight_node_loop G rest (ibuf ++ data) buf
    | .TOKENIZER_OTHER => (-1, buf)

/-- The function `highlight_node(node)`: its return code and the node it leaves. -/
def highlight_node (G : hl_group_kind) (K : tokenizer_kind) (node : list_node) :
    Int × list_node :=
  let empty : buffer := { tlines := [], length := 0, max_width := 0 }
  match K.tokenizer_set_file node.path node.language with
  | none => (-1, { node with buf := empty })
  | some packets =>
    let r := highlight_node_loop G packets [HL_CHAR, G.HLG_TEXT] empty
    (r.1, { node with buf := r.2 })

/-- The copy loop `for (i = 0; i < node->orig_buf.length; i++)` of `highlight` (lines
418-419) from index `i` on, at most `n` rounds: the lines stored.  `none` is a read outside
`orig_buf.tlines`. -/
def highlight_copy (orig : List (List Nat)) : Nat → Nat → Option (List (List Nat))
  | 0, _ => some []
  | n + 1, i =>
    match orig[i]? with
    | none => none
    | some line =>
      match highlight_copy orig n (i + 1) with
      | none => none
      | some rest => some (strdup line :: rest)

/-- The function `highlight(node)`: the node it leaves; `cgdb_strdup` copies the bytes of a
line before the first NUL.  `none` is a read outside `orig_buf.tlines`. -/
def highlight (G : hl_group_kind) (K : tokenizer_kind) (node : list_node) :
    Option list_node :=
  if node.language = K.TOKENIZER_LANGUAGE_UNKNOWN then
    match highlight_copy node.orig_buf.tlines node.orig_buf.length.toNat 0 with
    | none => none
    | some lines =>
      some { node with
        buf := { tlines := lines
                 length := node.orig_buf.length
                 max_width := node.orig_buf.max_width } }
  else some (highlight_node G K node).2

/-- The group in which the bytes of a packet are drawn, according to the claim on the
source classifier. -/
def token_group (G : hl_group_kind) : tokenizer_type → Nat
  | .TOKENIZER_KEYWORD => G.HLG_KEYWORD
  | .TOKENIZER_TYPE => G.HLG_TYPE
  | .TOKENIZER_LITERAL => G.HLG_LITERAL
  | .TOKENIZER_NUMBER => G.HLG_TEXT
  | .TOKENIZER_COMMENT => G.HLG_COMMENT
  | .TOKENIZER_DIRECTIVE => G.HLG_DIRECTIVE
  | .TOKENIZER_TEXT => G.HLG_TEXT
  | .TOKENIZER_NEWLINE => G.HLG_TEXT
  | .TOKENIZER_ERROR => G.HLG_TEXT
  | .TOKENIZER_OTHER => G.HLG_TEXT

/-- The cells of a run of packets: every byte of a packet with the group of the packet. -/
def token_cells (G : hl_group_kind) : List (tokenizer_type × List Nat) → List (Nat × Nat)
  | [] => []
  | (e, data) :: rest => data.map (fun c => (c, token_group G e)) ++ token_cells G rest

/-- The runs of packets closed by a newline packet, in order; `cur` is the run that is open
at the start.  The packets after the last newline packet belong to no run. -/
def token_lines : List (tokenizer_type × List Nat) → List (tokenizer_type × List Nat) →
    List (List (tokenizer_type × List Nat))
  | _, [] => []
  | cur, (e, data) :: rest =>
    if e = .TOKENIZER_NEWLINE then cur :: token_lines [] rest
    else token_lines (cur ++ [(e, data)]) rest

/-- The bytes that `highlight_node` appends to `ibuf` for one packet that is not a newline
packet. -/
def packet_bytes (G : hl_group_kind) : tokenizer_type → List Nat → List Nat
  | .TOKENIZER_KEYWORD, data => [HL_CHAR, G.HLG_KEYWORD] ++ data ++ [HL_CHAR, G.HLG_TEXT]
  | .TOKENIZER_TYPE, data => [HL_CHAR, G.HLG_TYPE] ++ data ++ [HL_CHAR, G.HLG_TEXT]
  | .TOKENIZER_LITERAL, data => [HL_CHAR, G.HLG_LITERAL] ++ data ++ [HL_CHAR, G.HLG_TEXT]
  | .TOKENIZER_NUMBER, data => data
  | .TOKENIZER_COMMENT, data => [HL_CHAR, G.HLG_COMMENT] ++ data ++ [HL_CHAR, G.HLG_TEXT]
  | .TOKENIZER_DIRECTIVE, data => [HL_CHAR, G.HLG_DIRECTIVE] ++ data ++ [HL_CHAR, G.HLG_TEXT]
  | .TOKENIZER_TEXT, data => data
  | .TOKENIZER_NEWLINE, data => data
  | .TOKENIZER_ERROR, data => data
  | .TOKENIZER_OTHER, data => data

/-- The bytes that `highlight_node` appends to `ibuf` for a run of packets without a
newline packet. -/
def token_bytes (G : hl_group_kind) : List (tokenizer_type × List Nat) → List Nat
  | [] => []
  | (e, data) :: rest => packet_bytes G e data ++ token_bytes G rest

/-- A tokenizer for concrete evaluations: language 0 is unknown, files whose path is empty
cannot be opened, and every other file holds the two lines `int x1;` and `// c`. -/
def sample_tokenizer : tokenizer_kind :=
  { TOKENIZER_LANGUAGE_UNKNOWN := 0
    tokenizer_set_file := fun path _ =>
      if path = [] then none
      else some [(.TOKENIZER_TYPE, [105, 110, 116]), (.TOKENIZER_TEXT, [32, 120]),
        (.TOKENIZER_NUMBER, [49]), (.TOKENIZER_TEXT, [59]), (.TOKENIZER_NEWLINE, [10]),
        (.TOKENIZER_COMMENT, [47, 47, 32, 99]), (.TOKENIZER_NEWLINE, [10])] }

/-- A source file of two lines, `int x1;` and `// c`, as loaded and not yet highlighted. -/
def sample_node (path : List Nat) (language : Nat) : list_node :=
  { path := path
    language := language
    buf := { tlines := [], length := 0, max_width := 0 }
    orig_buf := { tlines := [[105, 110, 116, 32, 120, 49, 59], [47, 47, 32, 99]]
                  length := 2
                  max_width := 7 } }

/-- The cells that the claims on the styles expect from the decoded cells `(byte, group)` of
a line, from visible column `c` on: a tab at column `c` becomes `T - c mod T` blanks, and
every cell of a byte carries the style of the group of that byte, except that a byte which
starts before column `offset` carries no style (`none`). -/
def styled_cells (get_attr : Nat → Option Nat) (T offset : Nat) :
    Nat → List (Nat × Nat) → List (Nat × Option Nat)
  | _, [] => []
  | c, (ch, g) :: rest =>
    if ch = 9 then
      List.replicate (T - c % T) (32, if c < offset then none else get_attr g) ++
        styled_cells get_attr T offset (c + (T - c % T)) rest
    else (ch, if c < offset then none else get_attr g) ::
      styled_cells get_attr T offset (c + 1) rest

/-- The cells of the bytes of a line that fall into columns `[offset, ...)`. -/
def line_cells (G : hl_group_kind) (get_attr : Nat → Option Nat) (T : Nat) (line : List Nat)
    (offset : Nat) : List (Nat × Option Nat) :=
  (styled_cells get_attr T offset 0 (decode G line)).drop offset

/-! ## scroller.c: parse and scr_add

The line store of the debugger window (lines 43-295).  `scroller.h` is outside the sources:
`struct scroller` has the fields that `scroller.c` uses, the array `buffer` with its
`length` being one list.  The cursor `current.pos` and the counters are never negative and
are naturals.  `isprint` and `isspace` belong to the C library and are a parameter. -/

/-- The character classes of `<ctype.h>` that `parse` consults. -/
structure ctype_kind where
  isprint : Nat → Bool
  isspace : Nat → Bool

/-- The classes of the "C" locale: `isprint` holds for 0x20..0x7e, `isspace` for the blank
and for 0x09..0x0d. -/
def c_locale : ctype_kind :=
  { isprint := fun c => 32 ≤ c && c ≤ 126
    isspace := fun c => c = 32 || (9 ≤ c && c ≤ 13) }

/-- The offset of the first occurrence of `c` in the string, `none` for the `NULL` that
`strchr(s, c)` returns when there is none. -/
def strchr : List Nat → Nat → Option Nat
  | [], _ => none
  | x :: rest, c =>
    if x = c then some 0
    else
      match strchr rest c with
      | none => none
      | some k => some (k + 1)

/-- The function `count(s, c)` (lines 51-62): the number of occurrences of `c` in `s`. -/
def count : List Nat → Nat → Nat
  | [], _ => 0
  | x :: rest, c => (if x = c then 1 else 0) + count rest c

/-- The `do rv[i++] = ' '; while (i % tab_size != 0);` loop of `parse` (lines 93-95), at
most `fuel` rounds: the array and `i` when it is left.  `none` is a write outside `rv`, or
a loop still running after `fuel` rounds. -/
def parse_tab (tab_size : Nat) : Nat → List Nat → Nat → Option (List Nat × Nat)
  | 0, _, _ => none
  | fuel + 1, rv, i =>
    if i < rv.length then
      if (i + 1) % tab_size ≠ 0 then parse_tab tab_size fuel (rv.set i 32) (i + 1)
      else some (rv.set i 32, i + 1)
    else none

/-- The `for (j = 0; j < strlen(buf); j++)` loop of `parse` (lines 84-110) over the unread
part of `buf`: the array `rv` and the cursor `i` at its end.  `none` is a write outside
`rv`. -/
def parse_loop (L : ctype_kind) : List Nat → List Nat → Nat → Option (List Nat × Nat)
  | [], rv, i => some (rv, i)
  | c :: buf, rv, i =>
    if c = 8 ∨ c = 127 then parse_loop L buf rv (if i > 0 then i - 1 else i)
    else if c = 9 then
      match parse_tab 8 8 rv i with
      | none => none
      | some (rv2, i2) => parse_loop L buf rv2 i2
    else if c = 13 then parse_loop L buf rv 0
    else if L.isprint c = true then
      if i < rv.length then parse_loop L buf (rv.set i c) (i + 1) else none
    else parse_loop L buf rv i

/-- The loop `for (j = strlen(rv) - 1; j > i && isspace(rv[j]); j--);` of `parse` (line
114), counted by `n = j + 1`: the value of `j + 1` when it is left. -/
def parse_trim (L : ctype_kind) (rv : List Nat) (i : Nat) : Nat → Nat
  | 0 => 0
  | n + 1 => if n > i ∧ L.isspace (rv.getD n 0) = true then parse_trim L rv i n else n + 1

/-- The function `parse(scr, orig, buf)` with `scr->current.pos = pos` on entry: the string
returned and the value of `scr->current.pos` on return.  The array `rv` of `length + 1`
bytes is zeroed and receives `orig`; the string returned is what `rv` holds before its first
NUL once `rv[j + 1] = 0` is written.  `none` is a write outside `rv`. -/
def parse (L : ctype_kind) (pos : Nat) (orig buf : List Nat) : Option (List Nat × Nat) :=
  let tab_size := 8
  let length := orig.length + buf.length + (tab_size - 1) * count buf 9
  let rv := orig ++ List.replicate (length + 1 - orig.length) 0
  match parse_loop L buf rv pos with
  | none => none
  | some (rv2, i) =>
    some (strdup (rv2.set (parse_trim L rv2 i (strdup rv2).length) 0), i)

/-- The fields of `struct scroller` used here: the lines `buffer[0 .. length - 1]`, the
scroll position `current.r`, `current.c`, the cursor `current.pos` in the last line, and
the width of the window `win` as `getmaxyx` reports it. -/
structure scroller where
  buffer : List (List Nat)
  current_r : Nat
  current_c : Nat
  current_pos : Nat
  width : Nat
deriving DecidableEq, Repr

/-- The function `scr_new(pos_r, pos_c, height, width)`, allocation succeeding: one blank
line. -/
def scr_new (width : Nat) : scroller :=
  { buffer := [[]], current_r := 0, current_c := 0, current_pos := 0, width := width }

/-- The function `scr_end(scr)` (lines 229-237); `none` is a read of `buffer[-1]` or a
division by a width of 0. -/
def scr_end (scr : scroller) : Option scroller :=
  match scr.buffer.getLast? with
  | none => none
  | some line =>
    if scr.width = 0 then none
    else
      some { scr with
        current_r := scr.buffer.length - 1
        current_c := (line.length / scr.width) * scr.width }

/-- The loop `while (x != NULL)` of `scr_add` (lines 271-292), at most `fuel` rounds; `buf`
is the text from the current position on, and `x` is its first newline. -/
def scr_add_lines (L : ctype_kind) : Nat → scroller → List Nat → Option scroller
  | 0, _, _ => none
  | fuel + 1, scr, buf =>
    match strchr buf 10 with
    | none => some scr
    | some k =>
      let buf2 := buf.drop (k + 1)
      let distance := (strchr buf2 10).getD buf2.length
      match parse L 0 [] (buf2.take distance) with
      | none => none
      | some (line, pos) =>
        scr_add_lines L fuel { scr with buffer := scr.buffer ++ [line], current_pos := pos }
          buf2

/-- The function `scr_add(scr, buf)` (lines 239-295).  `none` is undefined behaviour: a read
of `buffer[-1]`, a write outside an array in `parse`, or a division by zero in `scr_end`. -/
def scr_add (L : ctype_kind) (scr : scroller) (buf : List Nat) : Option scroller :=
  match scr.buffer.getLast? with
  | none => none
  | some temp =>
    let distance := (strchr buf 10).getD buf.length
    let first : Option scroller :=
      if distance > 0 then
        match parse L scr.current_pos temp (buf.take distance) with
        | none => none
        | some (line, pos) =>
          some { scr with buffer := scr.buffer.dropLast ++ [line], current_pos := pos }
      else some scr
    match first with
    | none => none
    | some scr1 =>
      match scr_add_lines L (buf.length + 1) scr1 buf with
      | none => none
      | some scr2 => scr_end scr2

/-- A run of calls of `scr_add`, one for each text in turn. -/
def scr_adds (L : ctype_kind) : scroller → List (List Nat) → Option scroller
  | scr, [] => some scr
  | scr, buf :: rest =>
    match scr_add L scr buf with
    | none => none
    | some scr2 => scr_adds L scr2 rest

/-- A scroller that `scr_add` can be called on: it has a last line, which is a C string and
holds the cursor, and its window is at least one column wide. -/
def scr_valid (scr : scroller) : Prop :=
  scr.width ≠ 0 ∧ ∃ line, scr.buffer.getLast? = some line ∧ 0 ∉ line ∧
    scr.current_pos ≤ line.length

/-- The string `s` with the byte `c` written at index `i`, which is at most its length. -/
def put (s : List Nat) (i c : Nat) : List Nat :=
  if i < s.length then s.set i c else s ++ [c]

/-- The string `s` with blanks written at the `n` indices from `i` on. -/
def fill (s : List Nat) : Nat → Nat → List Nat
  | _, 0 => s
  | i, n + 1 => fill (put s i 32) (i + 1) n

/-! ## hl_wprintw2

The renderer without a width (lines 520-602).  A cell is the character handed to
`mvwprintw` and the attribute switched on at that moment, as for `hl_wprintw`; the cells go
to the columns `p = 0, 1, 2, ...` in turn.  The code that expanded tabs is commented out, so
a tab is handed on as the byte 9. -/

/-- The print loop of `hl_wprintw2` (lines 567-597) over the unread part of the line, with
`attr` switched on: the cells drawn.  A marker that is the last byte of the line is dropped,
and a failed style lookup returns at once. -/
def wprintw2_loop (get_attr : Nat → Option Nat) : List Nat → Nat → List (Nat × Option Nat)
  | [], _ => []
  | c :: rest, attr =>
    if c = HL_CHAR then
      match rest with
      | [] => []
      | g :: rest2 =>
        match get_attr g with
        | none => []
        | some attr2 => wprintw2_loop get_attr rest2 attr2
    else (c, some attr) :: wprintw2_loop get_attr rest attr

/-- The function `hl_wprintw2(win, line, height)`: the cells it draws, in order. -/
def hl_wprintw2 (G : hl_group_kind) (get_attr : Nat → Option Nat) (line : List Nat) :
    List (Nat × Option Nat) :=
  match get_attr G.HLG_TEXT with
  | none => []
  | some attr => wprintw2_loop get_attr line attr

/-- One round of the `while (1)` loop of `highlight_gdb` (lines 229-289) with the cursor at
`offset`: `some none` when the loop is left (`rc <= 0`), `some (some (bytes, next))` when a
match was handled, `bytes` being appended to `ibuf` and `next` the new value of `offset`,
and `none` as for `match_loop`. -/
def match_step (G : hl_group_kind) (hl : gdb_highlighter) (buffer : List Nat) (nChars : Nat)
    (offset : Nat) : Option (Option (List Nat × Nat)) :=
  match hl.re buffer nChars offset with
  | none => some none
  | some ovector =>
    match (ovector[0]? : Option (Nat × Nat)) with
    | none => none
    | some (matchStart, matchEnd) =>
      match name_table_loop G ovector hl.name_table 0 none with
      | some (some hl_group) =>
        match ibuf_adds buffer offset ((matchStart : Int) - offset) with
        | none => none
        | some gap =>
          match ibuf_adds buffer matchStart ((matchEnd : Int) - matchStart) with
          | none => none
          | some matched =>
            some (some ([HL_CHAR, G.HLG_TEXT] ++ gap ++ [HL_CHAR, hl_group] ++ matched,
              matchEnd))
      | _ => none

/-- A highlighter whose pattern is a lookahead around a named group, such as
`(?=(?<filepath>.))`: from every offset before the end of the subject it matches the empty
string at that offset and sets group 1 to the byte that follows. -/
def lookahead_highlighter : gdb_highlighter :=
  { re := fun _ nChars offset =>
      if offset < nChars then some [(offset, offset), (offset, offset + 1)] else none
    name_table := [1] }

/-! ## scroller.c: moving the view -/

/-- The sanity check that opens `scr_up` and `scr_down` (lines 167-172 and 199-204): a
positive column that is no multiple of the window width is rounded down to one.  `none` is
the remainder by a width of zero. -/
def scr_sanity (scr : scroller) : Option scroller :=
  if scr.current_c > 0 then
    if scr.width = 0 then none
    else if scr.current_c % scr.width ≠ 0 then
      some { scr with current_c := (scr.current_c / scr.width) * scr.width }
    else some scr
  else some scr

/-- The loop `for (i = 0; i < nlines; i++)` of `scr_up` (lines 174-190), `n` rounds left.
As in `scr_end`, a line of the buffer is a C string kept without its terminator, and
`strlen` is its length.  After the sanity check a positive column is a multiple of the width, so that the
subtraction `current.c -= width` stays at or above zero.  `none` is a read of a line the
buffer does not have, or a division by a width of zero. -/
def scr_up_loop : Nat → scroller → Option scroller
  | 0, scr => some scr
  | n + 1, scr =>
    if scr.current_c > 0 then
      scr_up_loop n { scr with current_c := scr.current_c - scr.width }
    else if scr.current_r > 0 then
      match scr.buffer[scr.current_r - 1]? with
      | none => none
      | some line =>
        if line.length > scr.width then
          if scr.width = 0 then none
          else
            scr_up_loop n { scr with
              current_r := scr.current_r - 1
              current_c := ((line.length - 1) / scr.width) * scr.width }
        else scr_up_loop n { scr with current_r := scr.current_r - 1 }
    else some scr

/-- The function `scr_up(scr, nlines)` (lines 161-191). -/
def scr_up (scr : scroller) (nlines : Nat) : Option scroller :=
  match scr_sanity scr with
  | none => none
  | some scr1 => scr_up_loop nlines scr1

/-- The loop `for (i = 0; i < nlines; i++)` of `scr_down` (lines 206-222), `n` rounds left.
The comparison `current.c < length - width` is one of signed integers.  `none` is a read of
a line the buffer does not have. -/
def scr_down_loop : Nat → scroller → Option scroller
  | 0, scr => some scr
  | n + 1, scr =>
    match scr.buffer[scr.current_r]? with
    | none => none
    | some line =>
      if (scr.current_c : Int) < (line.length : Int) - (scr.width : Int) then
        scr_down_loop n { scr with current_c := scr.current_c + scr.width }
      else if scr.current_r + 1 < scr.buffer.length then
        scr_down_loop n { scr with current_r := scr.current_r + 1, current_c := 0 }
      else some scr

/-- The function `scr_down(scr, nlines)` (lines 193-223). -/
def scr_down (scr : scroller) (nlines : Nat) : Option scroller :=
  match scr_sanity scr with
  | none => none
  | some scr1 => scr_down_loop nlines scr1

/-- The function `scr_home(scr)` (lines 225-229). -/
def scr_home (scr : scroller) : scroller :=
  { scr with current_r := 0, current_c := 0 }

/-- The bound on the column of the view in a line of `len` characters: below
`max(1, len)` when `strict`, and at most `len` otherwise. -/
def row_bound (strict : Bool) (c len : Nat) : Prop :=
  if strict then c < max 1 len else c ≤ len

/-- The view of the scroller is on a sub-row of a line of the buffer: the row `current_r`
exists, the window is at least one column wide, and the column `current_c` is a multiple
of the width inside the bound `row_bound strict` of that line. -/
def scr_on_row (strict : Bool) (scr : scroller) : Prop :=
  scr.width ≠ 0 ∧ scr.width ∣ scr.current_c ∧
    ∃ line, scr.buffer[scr.current_r]? = some line ∧ row_bound strict scr.current_c line.length

/-! ## Unfolding lemmas -/

theorem strip_text (c : Nat) (hc : c ≠ HL_CHAR) (r : List Nat) : strip (c :: r) = c :: strip r := by
  rw [strip.eq_def]; simp [hc]

theorem strip_marker (g : Nat) (r : List Nat) : strip (HL_CHAR :: g :: r) = strip r := by
  rw [strip.eq_def]; simp

theorem well_formed_text (G : hl_group_kind) (c : Nat) (hc : c ≠ HL_CHAR) (r : List Nat) :
    well_formed G (c :: r) = well_formed G r := by
  rw [well_formed.eq_def]; simp [hc]

theorem well_formed_marker (G : hl_group_kind) (g : Nat) (r : List Nat) :
    well_formed G (HL_CHAR :: g :: r) = (decide (g ∈ G.ids) && well_formed G r) := by
  rw [well_formed.eq_def]; simp

theorem decode_loop_text (c : Nat) (hc : c ≠ HL_CHAR) (r : List Nat) (color : Nat) :
    decode_loop (c :: r) color = (c, color) :: decode_loop r color := by
  rw [decode_loop.eq_def]; simp [hc]

theorem decode_loop_marker (g : Nat) (r : List Nat) (color : Nat) :
    decode_loop (HL_CHAR :: g :: r) color = decode_loop r g := by
  rw [decode_loop.eq_def]; simp

theorem hls_loop_marker_syn (S g : Nat) (r : List Nat) (j s e : Int) (cur : Nat) :
    hls_loop S (HL_CHAR :: g :: r) j s e true cur =
      HL_CHAR :: S :: hls_loop S r (j + 2) (if j ≤ s then s + 2 else s)
        (if j ≤ e then e + 2 else e) true g := by
  rw [hls_loop.eq_3]
  have h1 : j ≠ (if j ≤ s then s + 2 else s) := by split <;> omega
  have h2 : j ≠ (if j ≤ e then e + 2 else e) := by split <;> omega
  simp [h1, h2]

theorem hls_loop_text (S c : Nat) (hc : c ≠ HL_CHAR) (r : List Nat) (j s e : Int) (syn : Bool)
    (cur : Nat) :
    hls_loop S (c :: r) j s e syn cur =
      if j = s then HL_CHAR :: S :: c :: hls_loop S r (j + 1) s e true cur
      else if j = e then HL_CHAR :: cur :: c :: hls_loop S r (j + 1) s e false cur
      else c :: hls_loop S r (j + 1) s e syn cur := by
  rw [hls_loop.eq_def]
  simp [hc]
  split_ifs with h1 h2
  · simp [h1]
  · subst h2; simp [h1]
  · simp [h1, h2]

theorem hls_loop_marker_nosyn (S g : Nat) (hg : g ≠ HL_CHAR) (r : List Nat) (j s e : Int)
    (cur : Nat) :
    hls_loop S (HL_CHAR :: g :: r) j s e false cur =
      HL_CHAR :: g :: hls_loop S r (j + 2) (if j ≤ s then s + 2 else s)
        (if j ≤ e then e + 2 else e) false g := by
  rw [hls_loop.eq_3]
  have h1 : j ≠ (if j ≤ s then s + 2 else s) := by split <;> omega
  have h2 : j ≠ (if j ≤ e then e + 2 else e) := by split <;> omega
  have h3 : j + 1 ≠ (if j ≤ s then s + 2 else s) := by split <;> omega
  have h4 : j + 1 ≠ (if j ≤ e then e + 2 else e) := by split <;> omega
  have h5 : j + 1 + 1 = j + 2 := by ring
  simp [h1, h2]
  rw [hls_loop_text S g hg]
  simp [h3, h4, h5]

theorem mem_ids_ne_marker (G : hl_group_kind) (hG : G.sound) (g : Nat) (hg : g ∈ G.ids) :
    g ≠ HL_CHAR := by
  rintro rfl
  exact hG hg

theorem strip_hls_loop (G : hl_group_kind) (hG : G.sound) (S : Nat) :
    ∀ (n : Nat) (l : List Nat), l.length ≤ n → well_formed G l = true →
      ∀ (j s e : Int) (syn : Bool) (cur : Nat), strip (hls_loop S l j s e syn cur) = strip l := by
  intro n
  induction n with
  | zero =>
    intro l hl _ j s e syn cur
    have : l = [] := List.length_eq_zero.mp (Nat.le_zero.mp hl)
    subst this
    simp [hls_loop]
  | succ n ih =>
    intro l hl hwf j s e syn cur
    match l, hl, hwf with
    | [], _, _ => simp [hls_loop]
    | c :: rest, hl, hwf =>
      by_cases hc : c = HL_CHAR
      · subst hc
        match rest, hl, hwf with
        | [], _, hwf => simp [well_formed] at hwf
        | g :: r, hl, hwf =>
          simp only [well_formed_marker, Bool.and_eq_true, decide_eq_true_eq] at hwf
          have hg := mem_ids_ne_marker G hG g hwf.1
          have hr : r.length ≤ n := by simp at hl; omega
          cases syn
          · rw [hls_loop_marker_nosyn S g hg, strip_marker, strip_marker]
            exact ih r hr hwf.2 _ _ _ _ _
          · rw [hls_loop_marker_syn, strip_marker, strip_marker]
            exact ih r hr hwf.2 _ _ _ _ _
      · have hr : rest.length ≤ n := by simp at hl; omega
        have hwf2 : well_formed G rest = true := by rwa [well_formed_text G c hc] at hwf
        rw [hls_loop_text S c hc]
        split_ifs <;> simp [strip_marker, strip_text c hc, ih rest hr hwf2]


/-! ## The loop of highlight_line_segment, phase by phase -/

theorem length_strip_le : ∀ (n : Nat) (l : List Nat), l.length ≤ n → (strip l).length ≤ l.length := by
  intro n
  induction n with
  | zero =>
    intro l hl
    have : l = [] := List.length_eq_zero.mp (Nat.le_zero.mp hl)
    subst this
    simp [strip]
  | succ n ih =>
    intro l hl
    match l, hl with
    | [], _ => simp [strip]
    | [c], _ =>
      by_cases hc : c = HL_CHAR
      · subst hc; simp [strip]
      · simp [strip, hc]
    | c :: g :: r, hl =>
      by_cases hc : c = HL_CHAR
      · subst hc
        rw [strip_marker]
        have := ih r (by simp at hl; omega)
        simp; omega
      · rw [strip_text c hc]
        have := ih (g :: r) (by simp only [List.length_cons] at hl ⊢; omega)
        simp only [List.length_cons] at this ⊢; omega

theorem overlay_none (S : Nat) : ∀ (xs : List (Nat × Nat)), overlay S 0 0 xs = xs := by
  intro xs
  induction xs with
  | nil => rfl
  | cons x xs ih => simp [overlay, ih]

theorem overlay_getElem? (S : Nat) : ∀ (xs : List (Nat × Nat)) (a b k : Nat),
    (overlay S a b xs)[k]? =
      (xs[k]?).map (fun cell => if a ≤ k ∧ k < b then (cell.1, S) else cell) := by
  intro xs
  induction xs with
  | nil => intro a b k; simp [overlay]
  | cons x xs ih =>
    intro a b k
    cases k with
    | zero => simp [overlay]
    | succ k =>
      simp only [overlay, List.getElem?_cons_succ, ih]
      have h : (a - 1 ≤ k ∧ k < b - 1) ↔ (a ≤ k + 1 ∧ k + 1 < b) := by omega
      simp only [h]

theorem hls_loop_after (G : hl_group_kind) (hG : G.sound) (S : Nat) :
    ∀ (n : Nat) (l : List Nat), l.length ≤ n → well_formed G l = true →
      ∀ (j s e : Int) (cur : Nat), s < j → e < j → hls_loop S l j s e false cur = l := by
  intro n
  induction n with
  | zero =>
    intro l hl _ j s e cur _ _
    have : l = [] := List.length_eq_zero.mp (Nat.le_zero.mp hl)
    subst this
    simp [hls_loop]
  | succ n ih =>
    intro l hl hwf j s e cur hs he
    match l, hl, hwf with
    | [], _, _ => simp [hls_loop]
    | c :: rest, hl, hwf =>
      by_cases hc : c = HL_CHAR
      · subst hc
        match rest, hl, hwf with
        | [], _, hwf => simp [well_formed] at hwf
        | g :: r, hl, hwf =>
          simp only [well_formed_marker, Bool.and_eq_true, decide_eq_true_eq] at hwf
          have hg := mem_ids_ne_marker G hG g hwf.1
          have hr : r.length ≤ n := by simp at hl; omega
          rw [hls_loop_marker_nosyn S g hg, if_neg (by omega), if_neg (by omega),
            ih r hr hwf.2 _ _ _ _ (by omega) (by omega)]
      · have hr : rest.length ≤ n := by simp at hl; omega
        have hwf2 : well_formed G rest = true := by rwa [well_formed_text G c hc] at hwf
        rw [hls_loop_text S c hc, if_neg (by omega), if_neg (by omega),
          ih rest hr hwf2 _ _ _ _ (by omega) (by omega)]

theorem hls_loop_inside (G : hl_group_kind) (hG : G.sound) :
    ∀ (n : Nat) (l : List Nat), l.length ≤ n → well_formed G l = true →
      ∀ (j s : Int) (b cur : Nat), s < j → cur ∈ G.ids →
        well_formed G (hls_loop G.HLG_SEARCH l j s (j + b) true cur) = true ∧
        decode_loop (hls_loop G.HLG_SEARCH l j s (j + b) true cur) G.HLG_SEARCH =
          overlay G.HLG_SEARCH 0 b (decode_loop l cur) := by
  have hS : G.HLG_SEARCH ∈ G.ids := by simp [hl_group_kind.ids]
  intro n
  induction n with
  | zero =>
    intro l hl _ j s b cur _ _
    have : l = [] := List.length_eq_zero.mp (Nat.le_zero.mp hl)
    subst this
    simp [hls_loop, well_formed, decode_loop, overlay]
  | succ n ih =>
    intro l hl hwf j s b cur hs hcur
    match l, hl, hwf with
    | [], _, _ => simp [hls_loop, well_formed, decode_loop, overlay]
    | c :: rest, hl, hwf =>
      by_cases hc : c = HL_CHAR
      · subst hc
        match rest, hl, hwf with
        | [], _, hwf => simp [well_formed] at hwf
        | g :: r, hl, hwf =>
          simp only [well_formed_marker, Bool.and_eq_true, decide_eq_true_eq] at hwf
          have hr : r.length ≤ n := by simp at hl; omega
          have he : j + (b : Int) + 2 = (j + 2) + (b : Int) := by ring
          rw [hls_loop_marker_syn, if_neg (by omega), if_pos (by omega), he,
            well_formed_marker, decode_loop_marker, decode_loop_marker]
          have := ih r hr hwf.2 (j + 2) s b g (by omega) hwf.1
          simp [hS, this.1, this.2]
      · have hr : rest.length ≤ n := by simp at hl; omega
        have hwf2 : well_formed G rest = true := by rwa [well_formed_text G c hc] at hwf
        have hS' := mem_ids_ne_marker G hG _ hS
        rw [hls_loop_text G.HLG_SEARCH c hc, if_neg (by omega)]
        cases b with
        | zero =>
          rw [if_pos (by simp), hls_loop_after G hG _ n rest hr hwf2 _ _ _ _ (by omega) (by simp),
            well_formed_marker, decode_loop_marker, overlay_none]
          simp [hcur, hwf]
        | succ b =>
          have he : j + ((b + 1 : Nat) : Int) = (j + 1) + (b : Int) := by push_cast; ring
          rw [if_neg (by push_cast; omega), he, well_formed_text G c hc,
            decode_loop_text c hc, decode_loop_text c hc]
          have := ih rest hr hwf2 (j + 1) s b cur (by omega) hcur
          simp [this.1, this.2, overlay]

theorem hls_loop_before (G : hl_group_kind) (hG : G.sound) :
    ∀ (n : Nat) (l : List Nat), l.length ≤ n → well_formed G l = true →
      ∀ (j : Int) (a b cur : Nat), a < b → cur ∈ G.ids →
        well_formed G (hls_loop G.HLG_SEARCH l j (j + a) (j + b) false cur) = true ∧
        decode_loop (hls_loop G.HLG_SEARCH l j (j + a) (j + b) false cur) cur =
          overlay G.HLG_SEARCH a b (decode_loop l cur) := by
  have hS : G.HLG_SEARCH ∈ G.ids := by simp [hl_group_kind.ids]
  intro n
  induction n with
  | zero =>
    intro l hl _ j a b cur _ _
    have : l = [] := List.length_eq_zero.mp (Nat.le_zero.mp hl)
    subst this
    simp [hls_loop, well_formed, decode_loop, overlay]
  | succ n ih =>
    intro l hl hwf j a b cur hab hcur
    match l, hl, hwf with
    | [], _, _ => simp [hls_loop, well_formed, decode_loop, overlay]
    | c :: rest, hl, hwf =>
      by_cases hc : c = HL_CHAR
      · subst hc
        match rest, hl, hwf with
        | [], _, hwf => simp [well_formed] at hwf
        | g :: r, hl, hwf =>
          simp only [well_formed_marker, Bool.and_eq_true, decide_eq_true_eq] at hwf
          have hg := mem_ids_ne_marker G hG g hwf.1
          have hr : r.length ≤ n := by simp at hl; omega
          have hs : j + (a : Int) + 2 = (j + 2) + (a : Int) := by ring
          have he : j + (b : Int) + 2 = (j + 2) + (b : Int) := by ring
          rw [hls_loop_marker_nosyn _ g hg, if_pos (by omega), if_pos (by omega), hs, he,
            well_formed_marker, decode_loop_marker, decode_loop_marker]
          have := ih r hr hwf.2 (j + 2) a b g hab hwf.1
          simp [hwf.1, this.1, this.2]
      · have hr : rest.length ≤ n := by simp at hl; omega
        have hwf2 : well_formed G rest = true := by rwa [well_formed_text G c hc] at hwf
        have hS' := mem_ids_ne_marker G hG _ hS
        rw [hls_loop_text G.HLG_SEARCH c hc]
        cases a with
        | zero =>
          obtain ⟨b, rfl⟩ : ∃ b', b = b' + 1 := ⟨b - 1, by omega⟩
          have he : j + ((b + 1 : Nat) : Int) = (j + 1) + (b : Int) := by push_cast; ring
          have hs : j + ((0 : Nat) : Int) = j := by simp
          rw [if_pos (by simp), he, hs, well_formed_marker, decode_loop_marker,
            well_formed_text G c hc, decode_loop_text c hc, decode_loop_text c hc]
          have := hls_loop_inside G hG n rest hr hwf2 (j + 1) j b cur (by omega) hcur
          simp [hS, this.1, this.2, overlay]
        | succ a =>
          obtain ⟨b, rfl⟩ : ∃ b', b = b' + 1 := ⟨b - 1, by omega⟩
          have hs : j + ((a + 1 : Nat) : Int) = (j + 1) + (a : Int) := by push_cast; ring
          have he : j + ((b + 1 : Nat) : Int) = (j + 1) + (b : Int) := by push_cast; ring
          rw [if_neg (by push_cast; omega), if_neg (by push_cast; omega), hs, he,
            well_formed_text G c hc, decode_loop_text c hc, decode_loop_text c hc]
          have := ih rest hr hwf2 (j + 1) a b cur (by omega) hcur
          simp [this.1, this.2, overlay]


/-! ## Segment highlight: claims -/

/-- C1: for a well-formed attributed line and a range `0 <= start <= end <= visible length`,
`highlight_line_segment` returns a line, and removing the (marker, group id) pairs from it
gives the same visible text as removing them from the input line. -/
theorem highlight_line_segment_round_trip (G : hl_group_kind) (hG : G.sound) (orig : List Nat)
    (start end_ : Int) (hwf : well_formed G orig = true) (h0 : 0 ≤ start) (hse : start ≤ end_)
    (hlen : end_ ≤ (strip orig).length) :
    ∃ out, highlight_line_segment G orig start end_ = some out ∧ strip out = strip orig := by
  have hle : ((strip orig).length : Int) ≤ orig.length := by
    exact_mod_cast length_strip_le orig.length orig le_rfl
  refine ⟨hls_loop G.HLG_SEARCH orig 0 start end_ false G.HLG_TEXT, ?_, ?_⟩
  · unfold highlight_line_segment
    rw [if_neg (by omega)]
  · exact strip_hls_loop G hG _ orig.length orig le_rfl hwf _ _ _ _ _

/-- Witness of C1: a line with three directives, range `[1, 3)`. -/
theorem highlight_line_segment_round_trip_witness :
    ∃ out, highlight_line_segment sample_groups [127, 6, 97, 127, 1, 98, 99, 127, 6, 100] 1 3
        = some out ∧
      strip out = strip [127, 6, 97, 127, 1, 98, 99, 127, 6, 100] :=
  highlight_line_segment_round_trip sample_groups (by decide) _ 1 3 (by decide) (by decide)
    (by decide) (by decide)

/-- C2: for a well-formed attributed line and a range `0 <= start < end <= visible length`,
`highlight_line_segment` returns a well-formed line with the same visible bytes, in which the
visible byte of index `k` has group Search when `start <= k < end` and otherwise the group it
has in the input line. -/
theorem highlight_line_segment_groups (G : hl_group_kind) (hG : G.sound) (orig : List Nat)
    (start end_ : Int) (hwf : well_formed G orig = true) (h0 : 0 ≤ start) (hse : start < end_)
    (hlen : end_ ≤ (strip orig).length) :
    ∃ out, highlight_line_segment G orig start end_ = some out ∧ well_formed G out = true ∧
      ∀ k : Nat, (decode G out)[k]? =
        ((decode G orig)[k]?).map
          (fun cell => if start ≤ k ∧ k < end_ then (cell.1, G.HLG_SEARCH) else cell) := by
  have hle : ((strip orig).length : Int) ≤ orig.length := by
    exact_mod_cast length_strip_le orig.length orig le_rfl
  have hT : G.HLG_TEXT ∈ G.ids := by simp [hl_group_kind.ids]
  obtain ⟨a, rfl⟩ : ∃ a : Nat, start = a := ⟨start.toNat, by omega⟩
  obtain ⟨b, rfl⟩ : ∃ b : Nat, end_ = b := ⟨end_.toNat, by omega⟩
  have hab : a < b := by exact_mod_cast hse
  have h := hls_loop_before G hG orig.length orig le_rfl hwf 0 a b G.HLG_TEXT hab hT
  simp only [zero_add] at h
  refine ⟨hls_loop G.HLG_SEARCH orig 0 a b false G.HLG_TEXT, ?_, h.1, ?_⟩
  · unfold highlight_line_segment
    rw [if_neg (by omega)]
  · intro k
    unfold decode
    rw [h.2, overlay_getElem?]
    simp only [Nat.cast_le, Nat.cast_lt]

/-- Witness of C2: a directive lies inside the highlighted span `[1, 3)`. -/
theorem highlight_line_segment_groups_witness :
    ∃ out, highlight_line_segment sample_groups [127, 6, 97, 127, 1, 98, 99, 127, 6, 100] 1 3
        = some out ∧ well_formed sample_groups out = true ∧
      ∀ k : Nat, (decode sample_groups out)[k]? =
        ((decode sample_groups [127, 6, 97, 127, 1, 98, 99, 127, 6, 100])[k]?).map
          (fun cell => if (1 : Int) ≤ k ∧ (k : Int) < 3 then (cell.1, sample_groups.HLG_SEARCH)
            else cell) :=
  highlight_line_segment_groups sample_groups (by decide) _ 1 3 (by decide) (by decide)
    (by decide) (by decide)


/-! ## The outcomes of hl_regex -/

theorem hl_commit_outcome (G : hl_group_kind) (hl_lines : List (List Nat)) (refs : hl_regex_refs)
    (sel_rline opt direction : Int) (f : hl_found) (ret : Int) (refs' : hl_regex_refs)
    (h : hl_commit G hl_lines refs sel_rline opt direction f = some (ret, refs')) :
    ret = 1 ∧ refs'.sel_line = some f.i ∧
    (opt = 2 →
      refs' = { refs with
        sel_line := some f.i
        sel_rline := some f.i
        sel_col_rbeg :=
          some (f.pmatch.rm_so + if direction ≠ 0 ∧ sel_rline ≠ f.i then 0 else f.offset)
        sel_col_rend :=
          some (f.pmatch.rm_eo + if direction ≠ 0 ∧ sel_rline ≠ f.i then 0 else f.offset) }) ∧
    (opt ≠ 2 →
      refs'.sel_rline = refs.sel_rline ∧ refs'.sel_col_rbeg = refs.sel_col_rbeg ∧
      refs'.sel_col_rend = refs.sel_col_rend ∧
      (f.pmatch.rm_so ≠ -1 → f.pmatch.rm_eo ≠ -1 →
        ∃ orig, hl_line hl_lines f.i = some orig ∧
          refs'.cur_line = some (highlight_line_segment G orig
            (f.pmatch.rm_so + if direction ≠ 0 ∧ sel_rline ≠ f.i then 0 else f.offset)
            (f.pmatch.rm_eo + if direction ≠ 0 ∧ sel_rline ≠ f.i then 0 else f.offset)))) := by
  unfold hl_commit at h
  by_cases hopt : opt = 2
  · subst hopt
    simp only [ne_eq, not_true_eq_false, false_and, if_false, if_true, Option.some.injEq,
      Prod.mk.injEq] at h
    obtain ⟨rfl, rfl⟩ := h
    simp
  · simp only [hopt, if_false, ne_eq, not_false_eq_true, true_and] at h
    split at h
    · rename_i hm
      split at h
      · simp at h
      · rename_i orig horig
        simp only [Option.some.injEq, Prod.mk.injEq] at h
        obtain ⟨rfl, rfl⟩ := h
        simp [hopt, horig]
    · rename_i hm
      simp only [Option.some.injEq, Prod.mk.injEq] at h
      obtain ⟨rfl, rfl⟩ := h
      simp [hopt]
      intro h1 h2
      exact absurd ⟨h1, h2⟩ hm

theorem hl_regex_outcome (E : hl_env) (G : hl_group_kind) (regex : Option (List Nat))
    (hl_lines : List (List Nat)) (tlines : Option (List (Option (List Nat)))) (length : Int)
    (refs : hl_regex_refs) (opt direction icase : Int) (ret : Int) (refs' : hl_regex_refs)
    (h : hl_regex E G regex hl_lines tlines length refs opt direction icase = some (ret, refs')) :
    (ret = -1 ∧ refs' = refs) ∨
    ∃ rl rb re, refs.sel_rline = some rl ∧ refs.sel_col_rbeg = some rb ∧
      refs.sel_col_rend = some re ∧
      ((ret = -2 ∧ (regex = none ∨ regex = some []) ∧
          refs' = { refs with cur_line := some none, sel_line := some rl }) ∨
       (ret = -3 ∧ ¬ (regex = none ∨ regex = some []) ∧
          E.regcomp (regex.getD []) (regcomp_cflags icase) = none ∧
          refs' = { refs with cur_line := some none }) ∨
       ∃ t rows, tlines = some rows ∧ ¬ (regex = none ∨ regex = some []) ∧
          E.regcomp (regex.getD []) (regcomp_cflags icase) = some t ∧
          ((ret = 0 ∧
              hl_search t rows length rl rb re E.config_wrapscan direction = some none ∧
              refs' = { refs with cur_line := some none, sel_line := some rl }) ∨
           ∃ f, hl_search t rows length rl rb re E.config_wrapscan direction = some (some f) ∧
              hl_commit G hl_lines { refs with cur_line := some none } rl opt direction f
                = some (ret, refs'))) := by
  unfold hl_regex at h
  split at h
  · simp only [Option.some.injEq, Prod.mk.injEq] at h
    exact Or.inl ⟨h.1.symm, h.2.symm⟩
  · simp at h
  · simp only [Option.some.injEq, Prod.mk.injEq] at h
    exact Or.inl ⟨h.1.symm, h.2.symm⟩
  · rename_i row0 rows
    split at h
    · rename_i cl sl rl rb re h1 h2 h3 h4 h5
      refine Or.inr ⟨rl, rb, re, h3, h4, h5, ?_⟩
      split at h
      · rename_i hre
        simp only [Option.some.injEq, Prod.mk.injEq] at h
        exact Or.inl ⟨h.1.symm, hre, h.2.symm⟩
      · rename_i hre
        split at h
        · rename_i hcomp
          simp only [Option.some.injEq, Prod.mk.injEq] at h
          exact Or.inr (Or.inl ⟨h.1.symm, hre, hcomp, h.2.symm⟩)
        · rename_i t hcomp
          refine Or.inr (Or.inr ⟨t, some row0 :: rows, rfl, hre, hcomp, ?_⟩)
          split at h
          · simp at h
          · rename_i f hf
            exact Or.inr ⟨f, hf, h⟩
          · rename_i hf
            simp only [Option.some.injEq, Prod.mk.injEq] at h
            exact Or.inl ⟨h.1.symm, hf, h.2.symm⟩
    · simp only [Option.some.injEq, Prod.mk.injEq] at h
      exact Or.inl ⟨h.1.symm, h.2.symm⟩


/-! ## The forward search -/

theorem tline_map_some (tl : List (List Nat)) (k : Int) :
    tline (tl.map some) k = if k < 0 then none else tl[k.toNat]? := by
  unfold tline
  split
  · rfl
  · rw [List.getElem?_map]
    cases tl[k.toNat]? <;> rfl

theorem forward_try_sound (t : regex_t) (tl : List (List Nat)) (rl off k : Int)
    (r : Option regmatch_t) (h : forward_try t (tl.map some) rl off k = some r) :
    r = forward_row_match t tl rl off k ∧ 0 ≤ k ∧ k < tl.length := by
  unfold forward_try at h
  rw [tline_map_some] at h
  unfold forward_row_match searched_text
  by_cases hk : k < 0
  · simp [hk] at h
  · simp only [hk, if_false] at h ⊢
    cases hrow : tl[k.toNat]? with
    | none => simp [hrow] at h
    | some line =>
      have hlt : k.toNat < tl.length := by
        by_contra hcon
        rw [List.getElem?_eq_none (by omega)] at hrow
        cases hrow
      refine ⟨?_, by omega, by omega⟩
      simp only [hrow] at h ⊢
      by_cases ha : k = rl
      · simp only [ha, if_true] at h ⊢
        by_cases hoff : off ≥ line.length
        · simp only [hoff, if_true, Option.some.injEq] at h ⊢
          simp [← h]
        · simp only [hoff, if_false] at h ⊢
          unfold str_add at h
          by_cases hin : 0 ≤ off ∧ off ≤ line.length
          · simp only [hin, and_self, if_true, Option.some.injEq] at h
            simp [← h]
          · simp [hin] at h
      · simp only [ha, if_false, Option.some.injEq] at h ⊢
        simp [← h]

theorem forward_try_defined (t : regex_t) (tl : List (List Nat)) (rl off k : Int)
    (hoff : 0 ≤ off) (h0 : 0 ≤ k) (hk : k < tl.length) :
    ∃ r, forward_try t (tl.map some) rl off k = some r := by
  unfold forward_try
  rw [tline_map_some, if_neg (by omega)]
  have hlt : k.toNat < tl.length := by omega
  rw [List.getElem?_eq_getElem hlt]
  simp only
  split
  · split
    · exact ⟨_, rfl⟩
    · unfold str_add
      rw [if_pos (by omega)]
      exact ⟨_, rfl⟩
  · exact ⟨_, rfl⟩

theorem forward_loop_sound (t : regex_t) (tlines : List (Option (List Nat))) (rl off : Int) :
    ∀ (n : Nat) (i : Int) (res : Option (Int × regmatch_t)),
      forward_loop t tlines rl off n i = some res →
      (∀ km, res = some km → i ≤ km.1 ∧ km.1 < i + n ∧
        forward_try t tlines rl off km.1 = some (some km.2) ∧
        ∀ k, i ≤ k → k < km.1 → forward_try t tlines rl off k = some none) ∧
      (res = none → ∀ k, i ≤ k → k < i + n → forward_try t tlines rl off k = some none) := by
  intro n
  induction n with
  | zero =>
    intro i res h
    simp only [forward_loop, Option.some.injEq] at h
    subst h
    refine ⟨by simp, ?_⟩
    intro _ k h1 h2
    simp at h2
    omega
  | succ n ih =>
    intro i res h
    rw [forward_loop] at h
    split at h
    · simp at h
    · rename_i m hm
      simp only [Option.some.injEq] at h
      subst h
      refine ⟨?_, by simp⟩
      intro km hkm
      simp only [Option.some.injEq] at hkm
      subst hkm
      refine ⟨le_refl _, by push_cast; omega, hm, ?_⟩
      intro k h1 h2
      omega
    · rename_i hm
      obtain ⟨ih1, ih2⟩ := ih (i + 1) res h
      constructor
      · intro km hkm
        obtain ⟨a, b, c, d⟩ := ih1 km hkm
        refine ⟨by omega, by push_cast; omega, c, ?_⟩
        intro k h1 h2
        by_cases hki : k = i
        · subst hki; exact hm
        · exact d k (by omega) h2
      · intro hres k h1 h2
        by_cases hki : k = i
        · subst hki; exact hm
        · exact ih2 hres k (by omega) (by push_cast at h2; omega)

theorem forward_loop_defined (t : regex_t) (tlines : List (Option (List Nat))) (rl off : Int) :
    ∀ (n : Nat) (i : Int),
      (∀ k, i ≤ k → k < i + n → ∃ r, forward_try t tlines rl off k = some r) →
      ∃ res, forward_loop t tlines rl off n i = some res := by
  intro n
  induction n with
  | zero => intro i _; exact ⟨none, rfl⟩
  | succ n ih =>
    intro i h
    rw [forward_loop]
    obtain ⟨r, hr⟩ := h i (le_refl _) (by push_cast; omega)
    rw [hr]
    cases r with
    | some m => exact ⟨_, rfl⟩
    | none =>
      simp only
      exact ih (i + 1) (fun k h1 h2 => h k (by omega) (by push_cast; omega))


/-! ## The reverse search -/

theorem str_add_nat_le (line : List Nat) (n : Nat) (h : n ≤ line.length) :
    str_add line n = some (line.drop n) := by
  unfold str_add
  rw [if_pos (by constructor <;> omega)]
  simp

theorem str_add_nat_gt (line : List Nat) (n : Nat) (h : line.length < n) :
    str_add line n = none := by
  unfold str_add
  rw [if_neg (by omega)]

theorem reverse_cols_sound (t : regex_t) (line : List Nat) (anchor : Bool) (pos : Int) :
    ∀ (n : Nat) (res : Option (Int × regmatch_t)),
      reverse_cols t line anchor pos n = some res →
      (∀ jm, res = some jm → ∃ j : Nat, jm.1 = j ∧ j < n ∧ j ≤ line.length ∧
        reverse_col_match t line anchor pos j = some jm.2 ∧
        ∀ j', j < j' → j' < n → reverse_col_match t line anchor pos j' = none) ∧
      (res = none → ∀ j', j' < n → reverse_col_match t line anchor pos j' = none) := by
  intro n
  induction n with
  | zero =>
    intro res h
    simp only [reverse_cols, Option.some.injEq] at h
    subst h
    simp
  | succ n ih =>
    intro res h
    rw [reverse_cols] at h
    by_cases hin : n ≤ line.length
    · rw [str_add_nat_le line n hin] at h
      simp only at h
      have hstep : ∀ j', j' < n + 1 → ¬ j' < n → j' = n := by intro j' h1 h2; omega
      cases hm : t (line.drop n) with
      | none =>
        simp only [hm] at h
        have hn : reverse_col_match t line anchor pos n = none := by
          simp [reverse_col_match, hm]
        obtain ⟨ih1, ih2⟩ := ih res h
        constructor
        · intro jm hjm
          obtain ⟨j, a, b, c, d, e⟩ := ih1 jm hjm
          refine ⟨j, a, by omega, c, d, ?_⟩
          intro j' h1 h2
          by_cases hj : j' < n
          · exact e j' h1 hj
          · rw [hstep j' h2 hj]; exact hn
        · intro hres j' h2
          by_cases hj : j' < n
          · exact ih2 hres j' hj
          · rw [hstep j' h2 hj]; exact hn
      | some m =>
        simp only [hm] at h
        by_cases hrej : anchor = true ∧ m.rm_so > pos - n
        · rw [if_pos hrej] at h
          have hn : reverse_col_match t line anchor pos n = none := by
            simp [reverse_col_match, hm, hrej]
          obtain ⟨ih1, ih2⟩ := ih res h
          constructor
          · intro jm hjm
            obtain ⟨j, a, b, c, d, e⟩ := ih1 jm hjm
            refine ⟨j, a, by omega, c, d, ?_⟩
            intro j' h1 h2
            by_cases hj : j' < n
            · exact e j' h1 hj
            · rw [hstep j' h2 hj]; exact hn
          · intro hres j' h2
            by_cases hj : j' < n
            · exact ih2 hres j' hj
            · rw [hstep j' h2 hj]; exact hn
        · rw [if_neg hrej] at h
          simp only [Option.some.injEq] at h
          subst h
          refine ⟨?_, by simp⟩
          intro jm hjm
          simp only [Option.some.injEq] at hjm
          subst hjm
          refine ⟨n, rfl, by omega, by omega, ?_, ?_⟩
          · simp [reverse_col_match, hm, hrej]
          · intro j' h1 h2; omega
    · rw [str_add_nat_gt line n (by omega)] at h
      simp at h

theorem reverse_cols_defined (t : regex_t) (line : List Nat) (anchor : Bool) (pos : Int) :
    ∀ (n : Nat), n ≤ line.length + 1 → ∃ res, reverse_cols t line anchor pos n = some res := by
  intro n
  induction n with
  | zero => intro _; exact ⟨none, rfl⟩
  | succ n ih =>
    intro hn
    rw [reverse_cols, str_add_nat_le line n (by omega)]
    simp only
    obtain ⟨res, hres⟩ := ih (by omega)
    cases t (line.drop n) with
    | none => exact ⟨res, hres⟩
    | some m =>
      simp only
      split
      · exact ⟨res, hres⟩
      · exact ⟨_, rfl⟩


theorem reverse_row_match_eq (t : regex_t) (tl : List (List Nat)) (rl off k : Int) (j : Nat)
    (line : List Nat) (hk : 0 ≤ k) (hrow : tl[k.toNat]? = some line) (hne : line ≠ []) :
    reverse_row_match t tl rl off k j =
      if (j : Int) > (if k = rl then off - 1 else line.length - 1) then none
      else reverse_col_match t line (decide (k = rl))
        (if k = rl then off - 1 else line.length - 1) j := by
  unfold reverse_row_match reverse_col_match
  rw [if_neg (by omega), hrow]
  simp only [hne, if_false]
  by_cases ha : k = rl
  · simp only [ha, if_true, true_and, decide_True]
    by_cases hj : (j : Int) > off - 1
    · simp only [hj, if_true]
    · simp only [hj, if_false]
      cases t (line.drop j) with
      | none => rfl
      | some m =>
        have : (¬ ((j : Int) + m.rm_so < off)) ↔ (m.rm_so > off - 1 - j) := by omega
        simp only [this]
  · simp only [ha, if_false, false_and, decide_False]
    by_cases hj : (j : Int) > (line.length : Int) - 1
    · simp only [hj, if_true]
    · simp only [hj, if_false]
      cases t (line.drop j) with
      | none => rfl
      | some m => simp

theorem reverse_col_match_some (t : regex_t) (line : List Nat) (anchor : Bool) (pos : Int)
    (j : Nat) (m : regmatch_t) (h : reverse_col_match t line anchor pos j = some m) :
    t (line.drop j) = some m := by
  unfold reverse_col_match at h
  cases hm : t (line.drop j) with
  | none => simp [hm] at h
  | some m' =>
    simp only [hm] at h
    by_cases hr : anchor = true ∧ m'.rm_so > pos - j
    · rw [if_pos hr] at h; cases h
    · rw [if_neg hr] at h; exact h

theorem reverse_try_sound (t : regex_t) (tl : List (List Nat)) (rl off k : Int)
    (res : Option (Int × regmatch_t)) (h : reverse_try t (tl.map some) rl off k = some res) :
    0 ≤ k ∧ k < tl.length ∧
    (∀ jm, res = some jm → ∃ (j : Nat) (line : List Nat), jm.1 = j ∧
      tl[k.toNat]? = some line ∧ j ≤ line.length ∧ t (line.drop j) = some jm.2 ∧
      reverse_row_match t tl rl off k j = some jm.2 ∧
      ∀ j', j < j' → reverse_row_match t tl rl off k j' = none) ∧
    (res = none → ∀ j', reverse_row_match t tl rl off k j' = none) := by
  unfold reverse_try at h
  rw [tline_map_some] at h
  by_cases hk : k < 0
  · simp [hk] at h
  · rw [if_neg hk] at h
    cases hrow : tl[k.toNat]? with
    | none => simp [hrow] at h
    | some line =>
      have hlt : k.toNat < tl.length := by
        by_contra hcon
        rw [List.getElem?_eq_none (by omega)] at hrow
        cases hrow
      refine ⟨by omega, by omega, ?_⟩
      simp only [hrow] at h
      by_cases hempty : (line.length : Int) - 1 < 0
      · rw [if_pos hempty] at h
        simp only [Option.some.injEq] at h
        subst h
        refine ⟨by simp, ?_⟩
        intro _ j'
        have hl : line = [] := List.length_eq_zero.mp (by omega)
        unfold reverse_row_match
        rw [if_neg hk, hrow]
        simp [hl]
      · rw [if_neg hempty] at h
        have hne : line ≠ [] := by
          intro hl; subst hl; simp at hempty
        generalize hpos : (if k = rl then off - 1 else (line.length : Int) - 1) = pos at h
        have key : ∀ j' : Nat, reverse_row_match t tl rl off k j' =
            if (j' : Int) > pos then none
            else reverse_col_match t line (decide (k = rl)) pos j' := by
          intro j'
          rw [reverse_row_match_eq t tl rl off k j' line (by omega) hrow hne, hpos]
        obtain ⟨s1, s2⟩ := reverse_cols_sound t line _ _ _ res h
        constructor
        · intro jm hjm
          obtain ⟨j, a, b, c, d, e⟩ := s1 jm hjm
          refine ⟨j, line, a, rfl, c, ?_, ?_, ?_⟩
          · exact reverse_col_match_some t line _ _ j jm.2 d
          · rw [key, if_neg (by omega)]
            exact d
          · intro j' hj'
            rw [key]
            by_cases hgt : (j' : Int) > pos
            · rw [if_pos hgt]
            · rw [if_neg hgt]
              exact e j' hj' (by omega)
        · intro hres j'
          rw [key]
          by_cases hgt : (j' : Int) > pos
          · rw [if_pos hgt]
          · rw [if_neg hgt]
            exact s2 hres j' (by omega)

theorem reverse_try_defined (t : regex_t) (tl : List (List Nat)) (rl off k : Int)
    (h0 : 0 ≤ k) (hk : k < tl.length)
    (hoff : k = rl → off ≤ (tl.getD k.toNat []).length + 1) :
    ∃ res, reverse_try t (tl.map some) rl off k = some res := by
  unfold reverse_try
  rw [tline_map_some, if_neg (by omega)]
  have hlt : k.toNat < tl.length := by omega
  rw [List.getElem?_eq_getElem hlt]
  simp only
  split
  · exact ⟨_, rfl⟩
  · apply reverse_cols_defined
    have hget : tl.getD k.toNat [] = tl[k.toNat] := by
      simp [List.getD, List.getElem?_eq_getElem hlt]
    split
    · rename_i ha
      have := hoff ha
      rw [hget] at this
      omega
    · omega

theorem reverse_loop_sound (t : regex_t) (tlines : List (Option (List Nat))) (rl off : Int) :
    ∀ (n : Nat) (i : Int) (res : Option hl_found),
      reverse_loop t tlines rl off n i = some res →
      (∀ f, res = some f → f.i ≤ i ∧ i - n < f.i ∧
        reverse_try t tlines rl off f.i = some (some (f.offset, f.pmatch)) ∧
        ∀ k, f.i < k → k ≤ i → reverse_try t tlines rl off k = some none) ∧
      (res = none → ∀ k, i - n < k → k ≤ i → reverse_try t tlines rl off k = some none) := by
  intro n
  induction n with
  | zero =>
    intro i res h
    simp only [reverse_loop, Option.some.injEq] at h
    subst h
    refine ⟨by simp, ?_⟩
    intro _ k h1 h2
    simp at h1
    omega
  | succ n ih =>
    intro i res h
    rw [reverse_loop] at h
    split at h
    · simp at h
    · rename_i j m hm
      simp only [Option.some.injEq] at h
      subst h
      refine ⟨?_, by simp⟩
      intro f hf
      simp only [Option.some.injEq] at hf
      subst hf
      refine ⟨le_refl _, by push_cast; omega, hm, ?_⟩
      intro k h1 h2
      dsimp only at h1
      omega
    · rename_i hm
      obtain ⟨ih1, ih2⟩ := ih (i - 1) res h
      constructor
      · intro f hf
        obtain ⟨a, b, c, d⟩ := ih1 f hf
        refine ⟨by omega, by push_cast; omega, c, ?_⟩
        intro k h1 h2
        by_cases hki : k = i
        · subst hki; exact hm
        · exact d k h1 (by omega)
      · intro hres k h1 h2
        by_cases hki : k = i
        · subst hki; exact hm
        · exact ih2 hres k (by push_cast at h1; omega) (by omega)

theorem reverse_loop_defined (t : regex_t) (tlines : List (Option (List Nat))) (rl off : Int) :
    ∀ (n : Nat) (i : Int),
      (∀ k, i - n < k → k ≤ i → ∃ r, reverse_try t tlines rl off k = some r) →
      ∃ res, reverse_loop t tlines rl off n i = some res := by
  intro n
  induction n with
  | zero => intro i _; exact ⟨none, rfl⟩
  | succ n ih =>
    intro i h
    rw [reverse_loop]
    obtain ⟨r, hr⟩ := h i (by push_cast; omega) (le_refl _)
    rw [hr]
    cases r with
    | some jm => exact ⟨_, rfl⟩
    | none =>
      simp only
      exact ih (i - 1) (fun k h1 h2 => h k (by push_cast; omega) (by omega))


/-! ## The two searches as a whole -/

theorem forward_try_hit (t : regex_t) (tl : List (List Nat)) (rl off k : Int) (m : regmatch_t)
    (h : forward_try t (tl.map some) rl off k = some (some m)) :
    forward_row_match t tl rl off k = some m :=
  (forward_try_sound t tl rl off k _ h).1.symm

theorem forward_try_miss (t : regex_t) (tl : List (List Nat)) (rl off k : Int)
    (h : forward_try t (tl.map some) rl off k = some none) :
    forward_row_match t tl rl off k = none :=
  (forward_try_sound t tl rl off k _ h).1.symm

theorem forward_search_sound (t : regex_t) (tlines : List (Option (List Nat)))
    (length rl re wrap : Int) (f : hl_found)
    (h : forward_search t tlines length rl re wrap = some (some f)) :
    f.offset = re ∧ forward_try t tlines rl re f.i = some (some f.pmatch) := by
  unfold forward_search at h
  split at h
  · simp at h
  · rename_i i m h1
    simp only [Option.some.injEq] at h
    subst h
    exact ⟨rfl, ((forward_loop_sound t tlines rl re _ _ _ h1).1 (i, m) rfl).2.2.1⟩
  · split at h
    · simp at h
    · split at h
      · simp at h
      · rename_i i m h1
        simp only [Option.some.injEq] at h
        subst h
        exact ⟨rfl, ((forward_loop_sound t tlines rl re _ _ _ h1).1 (i, m) rfl).2.2.1⟩
      · simp at h

theorem forward_search_spec (t : regex_t) (tl : List (List Nat)) (length rl re wrap : Int)
    (hlen : length = tl.length) (h0 : 0 ≤ rl) (hrl : rl < length) (hre : 0 ≤ re) :
    ∃ res, forward_search t (tl.map some) length rl re wrap = some res ∧
      ((∃ i m, res = some ⟨i, re, m⟩ ∧ rl ≤ i ∧ i < length ∧
          forward_row_match t tl rl re i = some m ∧
          ∀ k, rl ≤ k → k < i → forward_row_match t tl rl re k = none) ∨
       (∃ i m, res = some ⟨i, re, m⟩ ∧ wrap ≠ 0 ∧
          (∀ k, rl ≤ k → k < length → forward_row_match t tl rl re k = none) ∧
          0 ≤ i ∧ i < rl ∧ forward_row_match t tl rl re i = some m ∧
          ∀ k, 0 ≤ k → k < i → forward_row_match t tl rl re k = none) ∨
       (res = none ∧ (∀ k, rl ≤ k → k < length → forward_row_match t tl rl re k = none) ∧
          (wrap = 0 ∨ ∀ k, 0 ≤ k → k < rl → forward_row_match t tl rl re k = none))) := by
  unfold forward_search
  obtain ⟨r1, hr1⟩ := forward_loop_defined t (tl.map some) rl re (length - rl).toNat rl
    (fun k h1 h2 => forward_try_defined t tl rl re k hre (by omega) (by omega))
  obtain ⟨s1, s2⟩ := forward_loop_sound t (tl.map some) rl re _ _ _ hr1
  rw [hr1]
  cases r1 with
  | some im =>
    obtain ⟨i, m⟩ := im
    obtain ⟨a, b, c, d⟩ := s1 (i, m) rfl
    refine ⟨_, rfl, Or.inl ⟨i, m, rfl, a, by omega, forward_try_hit t tl rl re i m c, ?_⟩⟩
    intro k h1 h2
    exact forward_try_miss t tl rl re k (d k h1 h2)
  | none =>
    have hfirst : ∀ k, rl ≤ k → k < length → forward_row_match t tl rl re k = none :=
      fun k h1 h2 => forward_try_miss t tl rl re k (s2 rfl k h1 (by omega))
    simp only
    by_cases hw : rl = 0 ∨ wrap = 0
    · rw [if_pos hw]
      refine ⟨_, rfl, Or.inr (Or.inr ⟨rfl, hfirst, ?_⟩)⟩
      rcases hw with hw | hw
      · exact Or.inr (fun k h1 h2 => by omega)
      · exact Or.inl hw
    · rw [if_neg hw]
      obtain ⟨r2, hr2⟩ := forward_loop_defined t (tl.map some) rl re (rl - 0).toNat 0
        (fun k h1 h2 => forward_try_defined t tl rl re k hre (by omega) (by omega))
      obtain ⟨u1, u2⟩ := forward_loop_sound t (tl.map some) rl re _ _ _ hr2
      rw [hr2]
      cases r2 with
      | some im =>
        obtain ⟨i, m⟩ := im
        obtain ⟨a, b, c, d⟩ := u1 (i, m) rfl
        refine ⟨_, rfl, Or.inr (Or.inl ⟨i, m, rfl, fun hc => hw (Or.inr hc), hfirst, a,
          by omega, forward_try_hit t tl rl re i m c, ?_⟩)⟩
        intro k h1 h2
        exact forward_try_miss t tl rl re k (d k h1 h2)
      | none =>
        refine ⟨_, rfl, Or.inr (Or.inr ⟨rfl, hfirst, Or.inr ?_⟩)⟩
        intro k h1 h2
        exact forward_try_miss t tl rl re k (u2 rfl k h1 (by omega))

theorem reverse_search_sound (t : regex_t) (tlines : List (Option (List Nat)))
    (length rl rb wrap : Int) (f : hl_found)
    (h : reverse_search t tlines length rl rb wrap = some (some f)) :
    reverse_try t tlines rl rb f.i = some (some (f.offset, f.pmatch)) := by
  unfold reverse_search at h
  split at h
  · simp at h
  · rename_i f' h1
    simp only [Option.some.injEq] at h
    subst h
    exact ((reverse_loop_sound t tlines rl rb _ _ _ h1).1 f' rfl).2.2.1
  · split at h
    · simp at h
    · exact ((reverse_loop_sound t tlines rl rb _ _ _ h).1 f rfl).2.2.1

theorem reverse_search_spec (t : regex_t) (tl : List (List Nat)) (length rl rb wrap : Int)
    (hlen : length = tl.length) (h0 : 0 ≤ rl) (hrl : rl < length)
    (hrb : rb ≤ (tl.getD rl.toNat []).length + 1) :
    ∃ res, reverse_search t (tl.map some) length rl rb wrap = some res ∧
      ((∃ f, res = some f ∧
          reverse_try t (tl.map some) rl rb f.i = some (some (f.offset, f.pmatch)) ∧
          ((0 ≤ f.i ∧ f.i ≤ rl ∧
              ∀ k, f.i < k → k ≤ rl → ∀ j, reverse_row_match t tl rl rb k j = none) ∨
           (wrap ≠ 0 ∧ rl < f.i ∧ f.i < length ∧
              (∀ k, 0 ≤ k → k ≤ rl → ∀ j, reverse_row_match t tl rl rb k j = none) ∧
              ∀ k, f.i < k → k < length → ∀ j, reverse_row_match t tl rl rb k j = none))) ∨
       (res = none ∧ (∀ k, 0 ≤ k → k ≤ rl → ∀ j, reverse_row_match t tl rl rb k j = none) ∧
          (wrap = 0 ∨ ∀ k, rl < k → k < length → ∀ j, reverse_row_match t tl rl rb k j = none))) := by
  have hdef : ∀ k, 0 ≤ k → k < length → ∃ r, reverse_try t (tl.map some) rl rb k = some r :=
    fun k h1 h2 => reverse_try_defined t tl rl rb k h1 (by omega) (fun hk => by rw [hk]; exact hrb)
  have hmiss : ∀ k, reverse_try t (tl.map some) rl rb k = some none →
      ∀ j, reverse_row_match t tl rl rb k j = none :=
    fun k hk => (reverse_try_sound t tl rl rb k none hk).2.2.2 rfl
  unfold reverse_search
  obtain ⟨r1, hr1⟩ := reverse_loop_defined t (tl.map some) rl rb (rl - 0 + 1).toNat rl
    (fun k h1 h2 => hdef k (by omega) (by omega))
  obtain ⟨s1, s2⟩ := reverse_loop_sound t (tl.map some) rl rb _ _ _ hr1
  rw [hr1]
  cases r1 with
  | some f =>
    obtain ⟨a, b, c, d⟩ := s1 f rfl
    refine ⟨_, rfl, Or.inl ⟨f, rfl, c, Or.inl ⟨by omega, a, ?_⟩⟩⟩
    intro k h1 h2
    exact hmiss k (d k h1 h2)
  | none =>
    have hfirst : ∀ k, 0 ≤ k → k ≤ rl → ∀ j, reverse_row_match t tl rl rb k j = none :=
      fun k h1 h2 => hmiss k (s2 rfl k (by omega) h2)
    simp only
    by_cases hw : rl = length - 1 ∨ wrap = 0
    · rw [if_pos hw]
      refine ⟨_, rfl, Or.inr ⟨rfl, hfirst, ?_⟩⟩
      rcases hw with hw | hw
      · exact Or.inr (fun k h1 h2 => by omega)
      · exact Or.inl hw
    · rw [if_neg hw]
      obtain ⟨r2, hr2⟩ := reverse_loop_defined t (tl.map some) rl rb
        (length - 1 - rl + 1).toNat (length - 1) (fun k h1 h2 => hdef k (by omega) (by omega))
      obtain ⟨u1, u2⟩ := reverse_loop_sound t (tl.map some) rl rb _ _ _ hr2
      refine ⟨r2, hr2, ?_⟩
      cases r2 with
      | some f =>
        obtain ⟨a, b, c, d⟩ := u1 f rfl
        have hne : f.i ≠ rl := by
          intro hfi
          have h1 := s2 rfl rl (by omega) (le_refl _)
          rw [hfi, h1] at c
          cases c
        refine Or.inl ⟨f, rfl, c, Or.inr ⟨fun hc => hw (Or.inr hc), by omega, by omega, hfirst, ?_⟩⟩
        intro k h1 h2
        exact hmiss k (d k h1 (by omega))
      | none =>
        refine Or.inr ⟨rfl, hfirst, Or.inr ?_⟩
        intro k h1 h2
        exact hmiss k (u2 rfl k (by omega) (by omega))


/-! ## hl_regex with valid pointers -/

theorem hl_regex_eq (E : hl_env) (G : hl_group_kind) (regex : Option (List Nat))
    (hl_lines : List (List Nat)) (row0 : List Nat) (rows : List (Option (List Nat)))
    (length : Int) (refs : hl_regex_refs) (opt direction icase : Int)
    (cl : Option (List Nat)) (sl rl rb re : Int)
    (h1 : refs.cur_line = some cl) (h2 : refs.sel_line = some sl)
    (h3 : refs.sel_rline = some rl) (h4 : refs.sel_col_rbeg = some rb)
    (h5 : refs.sel_col_rend = some re) :
    hl_regex E G regex hl_lines (some (some row0 :: rows)) length refs opt direction icase =
      if regex = none ∨ regex = some [] then
        some (-2, { refs with cur_line := some none, sel_line := some rl })
      else
        match E.regcomp (regex.getD []) (regcomp_cflags icase) with
        | none => some (-3, { refs with cur_line := some none })
        | some t =>
          match hl_search t (some row0 :: rows) length rl rb re E.config_wrapscan direction with
          | none => none
          | some (some f) =>
            hl_commit G hl_lines { refs with cur_line := some none } rl opt direction f
          | some none => some (0, { refs with cur_line := some none, sel_line := some rl }) := by
  unfold hl_regex
  simp only [h1, h2, h3, h4, h5]

theorem map_some_cons (tl : List (List Nat)) (h : tl ≠ []) :
    ∃ row0 rest, tl.map some = some row0 :: rest := by
  cases tl with
  | nil => exact absurd rfl h
  | cons a r => exact ⟨a, r.map some, rfl⟩

theorem hl_commit_defined (G : hl_group_kind) (hl_lines : List (List Nat)) (refs : hl_regex_refs)
    (sel_rline opt direction : Int) (f : hl_found) (h0 : 0 ≤ f.i) (h1 : f.i < hl_lines.length) :
    ∃ refs', hl_commit G hl_lines refs sel_rline opt direction f = some (1, refs') := by
  unfold hl_commit
  simp only
  split
  · unfold hl_line
    rw [if_neg (by omega), List.getElem?_eq_getElem (by omega)]
    exact ⟨_, rfl⟩
  · exact ⟨_, rfl⟩

theorem hl_search_range (t : regex_t) (tl hl_lines : List (List Nat))
    (length rl rb re wrap direction : Int) (hpre : hl_regex_pre tl hl_lines length rl rb re) :
    ∃ res, hl_search t (tl.map some) length rl rb re wrap direction = some res ∧
      ∀ f, res = some f → 0 ≤ f.i ∧ f.i < length := by
  obtain ⟨hlen, hhl, h0, hrl, hre, hrb⟩ := hpre
  unfold hl_search
  by_cases hd : direction ≠ 0
  · rw [if_pos hd]
    obtain ⟨res, hres, hcase⟩ := forward_search_spec t tl length rl re wrap hlen h0 hrl hre
    refine ⟨res, hres, ?_⟩
    intro f hf
    rcases hcase with ⟨i, m, e, a, b, _⟩ | ⟨i, m, e, _, _, a, b, _⟩ | ⟨e, _⟩
    · rw [e] at hf; cases hf; exact ⟨by dsimp only; omega, b⟩
    · rw [e] at hf; cases hf; exact ⟨a, by dsimp only; omega⟩
    · rw [e] at hf; cases hf
  · rw [if_neg hd]
    obtain ⟨res, hres, hcase⟩ := reverse_search_spec t tl length rl rb wrap hlen h0 hrl hrb
    refine ⟨res, hres, ?_⟩
    intro f hf
    rcases hcase with ⟨f', e, _, hc⟩ | ⟨e, _⟩
    · rw [e] at hf; cases hf
      rcases hc with ⟨a, b, _⟩ | ⟨_, a, b, _⟩
      · exact ⟨a, by omega⟩
      · exact ⟨by omega, b⟩
    · rw [e] at hf; cases hf

theorem hl_regex_defined (E : hl_env) (G : hl_group_kind) (regex : Option (List Nat))
    (tl hl_lines : List (List Nat)) (length : Int) (refs : hl_regex_refs)
    (opt direction icase : Int) (cl : Option (List Nat)) (sl rl rb re : Int)
    (h1 : refs.cur_line = some cl) (h2 : refs.sel_line = some sl)
    (h3 : refs.sel_rline = some rl) (h4 : refs.sel_col_rbeg = some rb)
    (h5 : refs.sel_col_rend = some re) (hpre : hl_regex_pre tl hl_lines length rl rb re) :
    ∃ ret refs', hl_regex E G regex hl_lines (some (tl.map some)) length refs opt direction icase
      = some (ret, refs') := by
  have hne : tl ≠ [] := by
    intro h
    obtain ⟨hlen, _, h0, hrl, _⟩ := hpre
    rw [h] at hlen
    simp at hlen
    omega
  obtain ⟨row0, rest, hrows⟩ := map_some_cons tl hne
  rw [hrows, hl_regex_eq E G regex hl_lines row0 rest length refs opt direction icase cl sl rl rb re
    h1 h2 h3 h4 h5]
  split
  · exact ⟨_, _, rfl⟩
  · cases E.regcomp (regex.getD []) (regcomp_cflags icase) with
    | none => exact ⟨_, _, rfl⟩
    | some t =>
      simp only
      obtain ⟨res, hres, hrange⟩ :=
        hl_search_range t tl hl_lines length rl rb re E.config_wrapscan direction hpre
      rw [← hrows, hres]
      cases res with
      | none => exact ⟨_, _, rfl⟩
      | some f =>
        obtain ⟨a, b⟩ := hrange f rfl
        obtain ⟨refs', hc⟩ := hl_commit_defined G hl_lines { refs with cur_line := some none }
          rl opt direction f a (by obtain ⟨hlen, hhl, _⟩ := hpre; omega)
        exact ⟨1, refs', hc⟩


/-! ## hl_regex: claims on the search state -/

/-- C3: an incremental search (`opt != 2`) never changes `*sel_rline`, `*sel_col_rbeg` and
`*sel_col_rend`, whatever the pattern, the lines, the direction and the outcome; and from
every state a search may start from, the call does return. -/
theorem hl_regex_incremental_frame (E : hl_env) (G : hl_group_kind)
    (regex : Option (List Nat)) (hl_lines : List (List Nat))
    (tlines : Option (List (Option (List Nat)))) (length : Int) (refs : hl_regex_refs)
    (opt direction icase : Int) (hopt : opt ≠ 2) :
    (∀ ret refs',
      hl_regex E G regex hl_lines tlines length refs opt direction icase = some (ret, refs') →
      refs'.sel_rline = refs.sel_rline ∧ refs'.sel_col_rbeg = refs.sel_col_rbeg ∧
      refs'.sel_col_rend = refs.sel_col_rend) ∧
    (∀ tl cl sl rl rb re, tlines = some (tl.map some) →
      refs = ⟨some cl, some sl, some rl, some rb, some re⟩ →
      hl_regex_pre tl hl_lines length rl rb re →
      ∃ ret refs',
        hl_regex E G regex hl_lines tlines length refs opt direction icase = some (ret, refs')) := by
  constructor
  · intro ret refs' h
    rcases hl_regex_outcome E G regex hl_lines tlines length refs opt direction icase ret refs' h
      with ⟨_, e⟩ | ⟨rl, rb, re, h3, h4, h5, hc⟩
    · subst e; exact ⟨rfl, rfl, rfl⟩
    · rcases hc with ⟨_, _, e⟩ | ⟨_, _, _, e⟩ | ⟨t, rows, _, _, _, hc⟩
      · subst e; exact ⟨rfl, rfl, rfl⟩
      · subst e; exact ⟨rfl, rfl, rfl⟩
      · rcases hc with ⟨_, _, e⟩ | ⟨f, _, hf⟩
        · subst e; exact ⟨rfl, rfl, rfl⟩
        · obtain ⟨a, b, c, d⟩ := (hl_commit_outcome G hl_lines _ rl opt direction f ret refs' hf).2.2.2 hopt
          exact ⟨a, b, c⟩
  · intro tl cl sl rl rb re htl hrefs hpre
    subst htl hrefs
    exact hl_regex_defined E G regex tl hl_lines length _ opt direction icase cl sl rl rb re
      rfl rfl rfl rfl rfl hpre

/-- Witness of C3: an incremental forward search for `bar` in the one-row buffer `abar`
succeeds and leaves the confirmed match `(0, 0, 0)` as it was. -/
theorem hl_regex_incremental_frame_witness :
    (1 : Int) ≠ 2 ∧
    hl_regex sample_env sample_groups (some [98, 97, 114]) [[97, 98, 97, 114]]
      (some [some [97, 98, 97, 114]]) 1 (refs_at 0 0 0) 1 1 0
      = some (1, { refs_at 0 0 0 with cur_line := some (some [97, 127, 7, 98, 97, 114]) }) ∧
    ({ refs_at 0 0 0 with cur_line := some (some [97, 127, 7, 98, 97, 114]) } :
      hl_regex_refs).sel_rline = (refs_at 0 0 0).sel_rline :=
  ⟨by decide, by decide,
    ((hl_regex_incremental_frame sample_env sample_groups (some [98, 97, 114])
      [[97, 98, 97, 114]] (some [some [97, 98, 97, 114]]) 1 (refs_at 0 0 0) 1 1 0
      (by decide)).1 1 _ (by decide)).1⟩

/-- C7: for a `NULL` or empty pattern, `hl_regex` returns -2, sets `*sel_line` to
`*sel_rline` and leaves `*sel_rline`, `*sel_col_rbeg` and `*sel_col_rend` as they were; the
result is the same whatever `regcomp` would do and whatever the rows hold, so nothing is
compiled or scanned. -/
theorem hl_regex_empty_pattern (E : hl_env) (G : hl_group_kind) (regex : Option (List Nat))
    (hl_lines : List (List Nat)) (row0 : List Nat) (rows : List (Option (List Nat)))
    (length : Int) (refs : hl_regex_refs) (opt direction icase : Int)
    (cl : Option (List Nat)) (sl rl rb re : Int)
    (hrefs : refs = ⟨some cl, some sl, some rl, some rb, some re⟩)
    (hre : regex = none ∨ regex = some []) :
    hl_regex E G regex hl_lines (some (some row0 :: rows)) length refs opt direction icase
      = some (-2, ⟨some none, some rl, some rl, some rb, some re⟩) ∧
    ∀ (E' : hl_env) (hl_lines' : List (List Nat)) (row0' : List Nat)
      (rows' : List (Option (List Nat))) (length' opt' direction' icase' : Int),
      hl_regex E' G regex hl_lines' (some (some row0' :: rows')) length' refs opt' direction'
        icase'
      = hl_regex E G regex hl_lines (some (some row0 :: rows)) length refs opt direction icase := by
  subst hrefs
  have key : ∀ (E' : hl_env) (hl_lines' : List (List Nat)) (row0' : List Nat)
      (rows' : List (Option (List Nat))) (length' opt' direction' icase' : Int),
      hl_regex E' G regex hl_lines' (some (some row0' :: rows')) length'
        ⟨some cl, some sl, some rl, some rb, some re⟩ opt' direction' icase'
      = some (-2, ⟨some none, some rl, some rl, some rb, some re⟩) := by
    intro E' hl_lines' row0' rows' length' opt' direction' icase'
    rw [hl_regex_eq E' G regex hl_lines' row0' rows' length' _ opt' direction' icase' cl sl rl rb
      re rfl rfl rfl rfl rfl, if_pos hre]
  refine ⟨key _ _ _ _ _ _ _ _, ?_⟩
  intro E' hl_lines' row0' rows' length' opt' direction' icase'
  rw [key, key]

/-- Witness of C7: the empty pattern on a two-row buffer, selected row 1, confirmed row 0. -/
theorem hl_regex_empty_pattern_witness :
    hl_regex sample_env sample_groups (some []) [[97], [98]] (some [some [97], some [98]]) 2
      ⟨some (some [127, 7, 98]), some 1, some 0, some 0, some 1⟩ 1 1 0
      = some (-2, ⟨some none, some 0, some 0, some 0, some 1⟩) :=
  (hl_regex_empty_pattern sample_env sample_groups (some []) [[97], [98]] [97] [some [98]] 2
    ⟨some (some [127, 7, 98]), some 1, some 0, some 0, some 1⟩ 1 1 0
    (some [127, 7, 98]) 1 0 0 1 rfl (Or.inr rfl)).1

/-- C6: when the pattern does not compile, `hl_regex` returns -3 and `*sel_line`,
`*sel_rline`, `*sel_col_rbeg` and `*sel_col_rend` keep their values; and -3 is returned by no
other outcome: every call returns one of -1, -2, -3, 0, 1, and -3 only when `regcomp` failed. -/
theorem hl_regex_invalid_pattern (E : hl_env) (G : hl_group_kind) (pat : List Nat)
    (hl_lines : List (List Nat)) (row0 : List Nat) (rows : List (Option (List Nat)))
    (length : Int) (refs : hl_regex_refs) (opt direction icase : Int)
    (cl : Option (List Nat)) (sl rl rb re : Int)
    (hrefs : refs = ⟨some cl, some sl, some rl, some rb, some re⟩)
    (hpat : pat ≠ []) (hcomp : E.regcomp pat (regcomp_cflags icase) = none) :
    hl_regex E G (some pat) hl_lines (some (some row0 :: rows)) length refs opt direction icase
      = some (-3, ⟨some none, some sl, some rl, some rb, some re⟩) ∧
    ∀ (E' : hl_env) (regex' : Option (List Nat)) (hl_lines' : List (List Nat))
      (tlines' : Option (List (Option (List Nat)))) (length' : Int) (refs0 : hl_regex_refs)
      (opt' direction' icase' ret : Int) (refs' : hl_regex_refs),
      hl_regex E' G regex' hl_lines' tlines' length' refs0 opt' direction' icase'
        = some (ret, refs') →
      (ret = -1 ∨ ret = -2 ∨ ret = -3 ∨ ret = 0 ∨ ret = 1) ∧
      (ret = -3 → E'.regcomp (regex'.getD []) (regcomp_cflags icase') = none) := by
  subst hrefs
  constructor
  · rw [hl_regex_eq E G (some pat) hl_lines row0 rows length _ opt direction icase cl sl rl rb
      re rfl rfl rfl rfl rfl, if_neg (by simp [hpat])]
    simp only [Option.getD_some, hcomp]
  · intro E' regex' hl_lines' tlines' length' refs0 opt' direction' icase' ret refs' h
    rcases hl_regex_outcome E' G regex' hl_lines' tlines' length' refs0 opt' direction' icase'
        ret refs' h with ⟨e, _⟩ | ⟨rl', rb', re', _, _, _, hc⟩
    · subst e; exact ⟨Or.inl rfl, fun h => by omega⟩
    · rcases hc with ⟨e, _, _⟩ | ⟨e, _, hn, _⟩ | ⟨t, rows', _, _, _, hc⟩
      · subst e; exact ⟨Or.inr (Or.inl rfl), fun h => by omega⟩
      · subst e; exact ⟨Or.inr (Or.inr (Or.inl rfl)), fun _ => hn⟩
      · rcases hc with ⟨e, _, _⟩ | ⟨f, _, hf⟩
        · subst e; exact ⟨Or.inr (Or.inr (Or.inr (Or.inl rfl))), fun h => by omega⟩
        · have e := (hl_commit_outcome G hl_lines' _ rl' opt' direction' f ret refs' hf).1
          subst e
          exact ⟨Or.inr (Or.inr (Or.inr (Or.inr rfl))), fun h => by omega⟩

/-- Witness of C6: the pattern `[` (an unterminated bracket expression) is rejected. -/
theorem hl_regex_invalid_pattern_witness :
    hl_regex sample_env sample_groups (some [91]) [[97], [98]] (some [some [97], some [98]]) 2
      ⟨some (some [127, 7, 98]), some 1, some 0, some 0, some 1⟩ 2 1 0
      = some (-3, ⟨some none, some 1, some 0, some 0, some 1⟩) :=
  (hl_regex_invalid_pattern sample_env sample_groups [91] [[97], [98]] [97] [some [98]] 2
    ⟨some (some [127, 7, 98]), some 1, some 0, some 0, some 1⟩ 2 1 0
    (some [127, 7, 98]) 1 0 0 1 rfl (by decide) rfl).1


theorem hl_regex_found (E : hl_env) (G : hl_group_kind) (pat : List Nat)
    (tl hl_lines : List (List Nat)) (length : Int) (opt direction icase : Int)
    (cl : Option (List Nat)) (sl rl rb re : Int) (t : regex_t) (f : hl_found)
    (hpat : pat ≠ []) (hcomp : E.regcomp pat (regcomp_cflags icase) = some t)
    (hne : tl ≠ [])
    (hs : hl_search t (tl.map some) length rl rb re E.config_wrapscan direction = some (some f)) :
    hl_regex E G (some pat) hl_lines (some (tl.map some)) length
        ⟨some cl, some sl, some rl, some rb, some re⟩ opt direction icase
      = hl_commit G hl_lines ⟨some none, some sl, some rl, some rb, some re⟩ rl opt direction f := by
  obtain ⟨row0, rest, hrows⟩ := map_some_cons tl hne
  rw [hrows] at hs ⊢
  rw [hl_regex_eq E G (some pat) hl_lines row0 rest length _ opt direction icase cl sl rl rb
    re rfl rfl rfl rfl rfl, if_neg (by simp [hpat])]
  simp only [Option.getD_some, hcomp, hs]

theorem hl_regex_not_found (E : hl_env) (G : hl_group_kind) (pat : List Nat)
    (tl hl_lines : List (List Nat)) (length : Int) (opt direction icase : Int)
    (cl : Option (List Nat)) (sl rl rb re : Int) (t : regex_t)
    (hpat : pat ≠ []) (hcomp : E.regcomp pat (regcomp_cflags icase) = some t)
    (hne : tl ≠ [])
    (hs : hl_search t (tl.map some) length rl rb re E.config_wrapscan direction = some none) :
    hl_regex E G (some pat) hl_lines (some (tl.map some)) length
        ⟨some cl, some sl, some rl, some rb, some re⟩ opt direction icase
      = some (0, ⟨some none, some rl, some rl, some rb, some re⟩) := by
  obtain ⟨row0, rest, hrows⟩ := map_some_cons tl hne
  rw [hrows] at hs ⊢
  rw [hl_regex_eq E G (some pat) hl_lines row0 rest length _ opt direction icase cl sl rl rb
    re rfl rfl rfl rfl rfl, if_neg (by simp [hpat])]
  simp only [Option.getD_some, hcomp, hs]

theorem hl_regex_pre_ne_nil (tl hl_lines : List (List Nat)) (length rl rb re : Int)
    (hpre : hl_regex_pre tl hl_lines length rl rb re) : tl ≠ [] := by
  intro h
  obtain ⟨hlen, _, h0, hrl, _⟩ := hpre
  rw [h] at hlen
  simp at hlen
  omega

theorem forward_row_match_some (t : regex_t) (tl : List (List Nat)) (rl re k : Int)
    (m : regmatch_t) (h : forward_row_match t tl rl re k = some m) : ∃ s, t s = some m := by
  unfold forward_row_match at h
  cases hs : searched_text tl rl re k with
  | none => simp [hs] at h
  | some s => rw [hs] at h; exact ⟨s, h⟩

theorem hl_search_none_of_no_match (t : regex_t) (tl hl_lines : List (List Nat))
    (length rl rb re wrap direction : Int) (hpre : hl_regex_pre tl hl_lines length rl rb re)
    (hno : ∀ s, t s = none) :
    hl_search t (tl.map some) length rl rb re wrap direction = some none := by
  obtain ⟨hlen, hhl, h0, hrl, hre, hrb⟩ := hpre
  unfold hl_search
  by_cases hd : direction ≠ 0
  · rw [if_pos hd]
    obtain ⟨res, hres, hcase⟩ := forward_search_spec t tl length rl re wrap hlen h0 hrl hre
    rcases hcase with ⟨i, m, _, _, _, hm, _⟩ | ⟨i, m, _, _, _, _, _, hm, _⟩ | ⟨e, _⟩
    · obtain ⟨s, hs⟩ := forward_row_match_some t tl rl re i m hm
      rw [hno s] at hs; cases hs
    · obtain ⟨s, hs⟩ := forward_row_match_some t tl rl re i m hm
      rw [hno s] at hs; cases hs
    · rw [hres, e]
  · rw [if_neg hd]
    obtain ⟨res, hres, hcase⟩ := reverse_search_spec t tl length rl rb wrap hlen h0 hrl hrb
    rcases hcase with ⟨f, _, hf, _⟩ | ⟨e, _⟩
    · obtain ⟨j, line, _, _, _, hm, _⟩ :=
        (reverse_try_sound t tl rl rb f.i _ hf).2.2.1 (f.offset, f.pmatch) rfl
      rw [hno _] at hm; cases hm
    · rw [hres, e]

/-- C5: a search that finds no match returns 0, sets `*sel_line` to `*sel_rline`, leaves
`*cur_line` cleared and leaves `*sel_rline`, `*sel_col_rbeg` and `*sel_col_rend` as they were.
Stated three ways: whenever the call returns 0 the cells are as described; when the search
loops end without a match the call returns 0; and from a valid state, in either direction
and mode, a pattern that matches no string makes the call return 0. -/
theorem hl_regex_no_match (E : hl_env) (G : hl_group_kind) (regex : Option (List Nat))
    (hl_lines : List (List Nat)) (tlines : Option (List (Option (List Nat)))) (length : Int)
    (refs : hl_regex_refs) (opt direction icase : Int) :
    (∀ refs', hl_regex E G regex hl_lines tlines length refs opt direction icase = some (0, refs') →
      refs' = { refs with cur_line := some none, sel_line := refs.sel_rline }) ∧
    (∀ tl cl sl rl rb re pat t, tlines = some (tl.map some) → tl ≠ [] →
      refs = ⟨some cl, some sl, some rl, some rb, some re⟩ → regex = some pat → pat ≠ [] →
      E.regcomp pat (regcomp_cflags icase) = some t →
      hl_search t (tl.map some) length rl rb re E.config_wrapscan direction = some none →
      hl_regex E G regex hl_lines tlines length refs opt direction icase
        = some (0, ⟨some none, some rl, some rl, some rb, some re⟩)) ∧
    (∀ tl cl sl rl rb re pat t, tlines = some (tl.map some) →
      refs = ⟨some cl, some sl, some rl, some rb, some re⟩ → regex = some pat → pat ≠ [] →
      E.regcomp pat (regcomp_cflags icase) = some t →
      hl_regex_pre tl hl_lines length rl rb re → (∀ s, t s = none) →
      hl_regex E G regex hl_lines tlines length refs opt direction icase
        = some (0, ⟨some none, some rl, some rl, some rb, some re⟩)) := by
  refine ⟨?_, ?_, ?_⟩
  · intro refs' h
    rcases hl_regex_outcome E G regex hl_lines tlines length refs opt direction icase 0 refs' h
      with ⟨e, _⟩ | ⟨rl, rb, re, h3, h4, h5, hc⟩
    · omega
    · rcases hc with ⟨e, _, _⟩ | ⟨e, _, _, _⟩ | ⟨t, rows, _, _, _, hc⟩
      · omega
      · omega
      · rcases hc with ⟨_, _, e⟩ | ⟨f, _, hf⟩
        · rw [e, h3]
        · have e := (hl_commit_outcome G hl_lines _ rl opt direction f 0 refs' hf).1
          omega
  · intro tl cl sl rl rb re pat t htl hne hrefs hregex hpat hcomp hs
    subst htl hrefs hregex
    exact hl_regex_not_found E G pat tl hl_lines length opt direction icase cl sl rl rb re t
      hpat hcomp hne hs
  · intro tl cl sl rl rb re pat t htl hrefs hregex hpat hcomp hpre hno
    subst htl hrefs hregex
    exact hl_regex_not_found E G pat tl hl_lines length opt direction icase cl sl rl rb re t
      hpat hcomp (hl_regex_pre_ne_nil tl hl_lines length rl rb re hpre)
      (hl_search_none_of_no_match t tl hl_lines length rl rb re E.config_wrapscan direction
        hpre hno)

/-- Witness of C5: a permanent reverse search for `zz` in a two-row buffer without any `z`,
with row 1 selected and a stale highlighted line, returns 0 and resets the selection to the
confirmed row 0. -/
theorem hl_regex_no_match_witness :
    hl_regex sample_env sample_groups (some [122, 122]) [[97], [98]]
        (some ([[97], [98]].map some)) 2
        ⟨some (some [127, 7, 98]), some 1, some 0, some 0, some 1⟩ 2 0 0
      = some (0, ⟨some none, some 0, some 0, some 0, some 1⟩) :=
  (hl_regex_no_match sample_env sample_groups (some [122, 122]) [[97], [98]]
    (some ([[97], [98]].map some)) 2
    ⟨some (some [127, 7, 98]), some 1, some 0, some 0, some 1⟩ 2 0 0).2.1
    [[97], [98]] (some [127, 7, 98]) 1 0 0 1 [122, 122]
    (fun s => find_literal false [122, 122] s 0) rfl (by decide) rfl rfl (by decide) rfl
    (by decide)


/-! ## hl_regex: the order of the search -/

/-- C8: forward search order.  From a valid state and for a pattern that compiles, a forward
search returns, and either (1) it succeeds on the least row `i` of `[*sel_rline, length)`
whose searched text matches (see `searched_text`); or (2) no such row matches, wrapscan is on
and it succeeds on the least matching row of `[0, *sel_rline)`; or (3) it fails with
`*sel_line = *sel_rline`, no row of `[*sel_rline, length)` matches, and wrapscan is off or no
row of `[0, *sel_rline)` matches either. -/
theorem hl_regex_forward_order (E : hl_env) (G : hl_group_kind) (pat : List Nat)
    (tl hl_lines : List (List Nat)) (length : Int) (opt direction icase : Int)
    (cl : Option (List Nat)) (sl rl rb re : Int) (t : regex_t)
    (hpat : pat ≠ []) (hcomp : E.regcomp pat (regcomp_cflags icase) = some t)
    (hdir : direction ≠ 0) (hpre : hl_regex_pre tl hl_lines length rl rb re) :
    ∃ ret refs',
      hl_regex E G (some pat) hl_lines (some (tl.map some)) length
        ⟨some cl, some sl, some rl, some rb, some re⟩ opt direction icase = some (ret, refs') ∧
      ((ret = 1 ∧ ∃ i, refs'.sel_line = some i ∧ rl ≤ i ∧ i < length ∧
          forward_row_match t tl rl re i ≠ none ∧
          ∀ k, rl ≤ k → k < i → forward_row_match t tl rl re k = none) ∨
       (ret = 1 ∧ E.config_wrapscan ≠ 0 ∧
          (∀ k, rl ≤ k → k < length → forward_row_match t tl rl re k = none) ∧
          ∃ i, refs'.sel_line = some i ∧ 0 ≤ i ∧ i < rl ∧
            forward_row_match t tl rl re i ≠ none ∧
            ∀ k, 0 ≤ k → k < i → forward_row_match t tl rl re k = none) ∨
       (ret = 0 ∧ refs'.sel_line = some rl ∧
          (∀ k, rl ≤ k → k < length → forward_row_match t tl rl re k = none) ∧
          (E.config_wrapscan = 0 ∨
            ∀ k, 0 ≤ k → k < rl → forward_row_match t tl rl re k = none))) := by
  have hne := hl_regex_pre_ne_nil tl hl_lines length rl rb re hpre
  obtain ⟨hlen, hhl, h0, hrl, hre, hrb⟩ := hpre
  obtain ⟨res, hres, hcase⟩ :=
    forward_search_spec t tl length rl re E.config_wrapscan hlen h0 hrl hre
  have hsearch : hl_search t (tl.map some) length rl rb re E.config_wrapscan direction
      = some res := by
    unfold hl_search; rw [if_pos hdir]; exact hres
  have hfound : ∀ f : hl_found, res = some f → 0 ≤ f.i → f.i < length →
      ∃ refs', hl_regex E G (some pat) hl_lines (some (tl.map some)) length
        ⟨some cl, some sl, some rl, some rb, some re⟩ opt direction icase = some (1, refs') ∧
        refs'.sel_line = some f.i := by
    intro f hf a b
    rw [hf] at hsearch
    rw [hl_regex_found E G pat tl hl_lines length opt direction icase cl sl rl rb re t f
      hpat hcomp hne hsearch]
    obtain ⟨refs', hc⟩ := hl_commit_defined G hl_lines ⟨some none, some sl, some rl, some rb,
      some re⟩ rl opt direction f a (by omega)
    exact ⟨refs', hc, (hl_commit_outcome G hl_lines _ rl opt direction f 1 refs' hc).2.1⟩
  rcases hcase with ⟨i, m, e, a, b, hm, hleast⟩ | ⟨i, m, e, hw, hfirst, a, b, hm, hleast⟩ |
    ⟨e, hfirst, hsecond⟩
  · obtain ⟨refs', h1, h2⟩ := hfound _ e (by dsimp only; omega) b
    exact ⟨1, refs', h1, Or.inl ⟨rfl, i, h2, a, b, by rw [hm]; simp, hleast⟩⟩
  · obtain ⟨refs', h1, h2⟩ := hfound _ e a (by dsimp only; omega)
    exact ⟨1, refs', h1, Or.inr (Or.inl ⟨rfl, hw, hfirst, i, h2, a, b, by rw [hm]; simp, hleast⟩)⟩
  · rw [e] at hsearch
    exact ⟨0, _, hl_regex_not_found E G pat tl hl_lines length opt direction icase cl sl rl rb
      re t hpat hcomp hne hsearch, Or.inr (Or.inr ⟨rfl, rfl, hfirst, hsecond⟩)⟩

/-- Witness of C8: rows `ab`, `bar`, `abar`, confirmed match `(1, 0, 3)`, pattern `bar`. -/
theorem hl_regex_forward_order_witness :
    ∃ ret refs',
      hl_regex sample_env sample_groups (some [98, 97, 114])
        [[97, 98], [98, 97, 114], [97, 98, 97, 114]]
        (some ([[97, 98], [98, 97, 114], [97, 98, 97, 114]].map some)) 3
        ⟨some none, some 1, some 1, some 0, some 3⟩ 2 1 0 = some (ret, refs') ∧
      ((ret = 1 ∧ ∃ i, refs'.sel_line = some i ∧ 1 ≤ i ∧ i < 3 ∧
          forward_row_match (fun s => find_literal false [98, 97, 114] s 0)
            [[97, 98], [98, 97, 114], [97, 98, 97, 114]] 1 3 i ≠ none ∧
          ∀ k, 1 ≤ k → k < i →
            forward_row_match (fun s => find_literal false [98, 97, 114] s 0)
              [[97, 98], [98, 97, 114], [97, 98, 97, 114]] 1 3 k = none) ∨
       (ret = 1 ∧ sample_env.config_wrapscan ≠ 0 ∧
          (∀ k, 1 ≤ k → k < 3 →
            forward_row_match (fun s => find_literal false [98, 97, 114] s 0)
              [[97, 98], [98, 97, 114], [97, 98, 97, 114]] 1 3 k = none) ∧
          ∃ i, refs'.sel_line = some i ∧ 0 ≤ i ∧ i < 1 ∧
            forward_row_match (fun s => find_literal false [98, 97, 114] s 0)
              [[97, 98], [98, 97, 114], [97, 98, 97, 114]] 1 3 i ≠ none ∧
            ∀ k, 0 ≤ k → k < i →
              forward_row_match (fun s => find_literal false [98, 97, 114] s 0)
                [[97, 98], [98, 97, 114], [97, 98, 97, 114]] 1 3 k = none) ∨
       (ret = 0 ∧ refs'.sel_line = some 1 ∧
          (∀ k, 1 ≤ k → k < 3 →
            forward_row_match (fun s => find_literal false [98, 97, 114] s 0)
              [[97, 98], [98, 97, 114], [97, 98, 97, 114]] 1 3 k = none) ∧
          (sample_env.config_wrapscan = 0 ∨
            ∀ k, 0 ≤ k → k < 1 →
              forward_row_match (fun s => find_literal false [98, 97, 114] s 0)
                [[97, 98], [98, 97, 114], [97, 98, 97, 114]] 1 3 k = none))) :=
  hl_regex_forward_order sample_env sample_groups [98, 97, 114]
    [[97, 98], [98, 97, 114], [97, 98, 97, 114]] [[97, 98], [98, 97, 114], [97, 98, 97, 114]] 3
    2 1 0 none 1 1 0 3 (fun s => find_literal false [98, 97, 114] s 0) (by decide) rfl
    (by decide) (by decide)


theorem reverse_row_match_row (t : regex_t) (tl : List (List Nat)) (rl rb k : Int) (j : Nat)
    (m : regmatch_t) (h : reverse_row_match t tl rl rb k j = some m) :
    ∃ row, tl[k.toNat]? = some row ∧ row ≠ [] := by
  unfold reverse_row_match at h
  by_cases hk : k < 0
  · rw [if_pos hk] at h; cases h
  · rw [if_neg hk] at h
    cases hrow : tl[k.toNat]? with
    | none => rw [hrow] at h; cases h
    | some row =>
      rw [hrow] at h
      simp only at h
      by_cases hl : row = []
      · rw [if_pos hl] at h; cases h
      · exact ⟨row, rfl, hl⟩

/-- C9 as stated fails: rows `""` and `b`, the pattern `x*` (which matches the empty string,
so that the matcher matches row 0 at column 0), wrapscan on, and the valid state
`(1, 0, 0)`.  The anchor row has no column before 0; going down, row 0 is the first row
with a match, yet the reverse search passes over it (it is empty), returns 0 and selects
no row. -/
theorem hl_regex_reverse_skips_empty_row :
    hl_regex_pre [[], [98]] [[], [98]] 2 1 0 0 ∧
    sample_env.config_wrapscan = 1 ∧
    (sample_regcomp [120, 42] (regcomp_cflags 0)).bind (fun t => t ([] : List Nat))
      = some ⟨0, 0⟩ ∧
    hl_regex sample_env sample_groups (some [120, 42]) [[], [98]]
        (some [some [], some [98]]) 2 (refs_at 1 0 0) 2 0 0
      = some (0, refs_at 1 0 0) := by
  decide

/-- C9, amended: reverse search order.  From a valid state and for a pattern that compiles,
a reverse search returns, and either it succeeds on a row `i`, which is not empty, from
suffix start column `j` with match `m`, where `j` is the greatest column of row `i` with an
accepted match (see `reverse_row_match`: an empty row has none, and on the anchor row the
match must start before `*sel_col_rbeg`), a permanent search commits
`(i, j + rm_so, j + rm_eo)`, and `i` is the first such row in the order
`*sel_rline, ..., 0` or, when none of these rows has an accepted match and wrapscan is on,
in the order `length - 1, ..., *sel_rline + 1`; or it fails with `*sel_line = *sel_rline`
and no row visited has an accepted match. -/
theorem hl_regex_reverse_order (E : hl_env) (G : hl_group_kind) (pat : List Nat)
    (tl hl_lines : List (List Nat)) (length : Int) (opt direction icase : Int)
    (cl : Option (List Nat)) (sl rl rb re : Int) (t : regex_t)
    (hpat : pat ≠ []) (hcomp : E.regcomp pat (regcomp_cflags icase) = some t)
    (hdir : direction = 0) (hpre : hl_regex_pre tl hl_lines length rl rb re) :
    ∃ ret refs',
      hl_regex E G (some pat) hl_lines (some (tl.map some)) length
        ⟨some cl, some sl, some rl, some rb, some re⟩ opt direction icase = some (ret, refs') ∧
      ((ret = 1 ∧ ∃ (i : Int) (j : Nat) (m : regmatch_t),
          refs'.sel_line = some i ∧ (∃ row, tl[i.toNat]? = some row ∧ row ≠ []) ∧
          reverse_row_match t tl rl rb i j = some m ∧
          (∀ j', j < j' → reverse_row_match t tl rl rb i j' = none) ∧
          (opt = 2 → refs'.sel_rline = some i ∧ refs'.sel_col_rbeg = some (m.rm_so + j) ∧
            refs'.sel_col_rend = some (m.rm_eo + j)) ∧
          ((0 ≤ i ∧ i ≤ rl ∧
              ∀ k, i < k → k ≤ rl → ∀ j', reverse_row_match t tl rl rb k j' = none) ∨
           (E.config_wrapscan ≠ 0 ∧ rl < i ∧ i < length ∧
              (∀ k, 0 ≤ k → k ≤ rl → ∀ j', reverse_row_match t tl rl rb k j' = none) ∧
              ∀ k, i < k → k < length → ∀ j', reverse_row_match t tl rl rb k j' = none))) ∨
       (ret = 0 ∧ refs'.sel_line = some rl ∧
          (∀ k, 0 ≤ k → k ≤ rl → ∀ j', reverse_row_match t tl rl rb k j' = none) ∧
          (E.config_wrapscan = 0 ∨
            ∀ k, rl < k → k < length → ∀ j', reverse_row_match t tl rl rb k j' = none))) := by
  have hne := hl_regex_pre_ne_nil tl hl_lines length rl rb re hpre
  obtain ⟨hlen, hhl, h0, hrl, hre, hrb⟩ := hpre
  obtain ⟨res, hres, hcase⟩ :=
    reverse_search_spec t tl length rl rb E.config_wrapscan hlen h0 hrl hrb
  have hsearch : hl_search t (tl.map some) length rl rb re E.config_wrapscan direction
      = some res := by
    unfold hl_search; rw [if_neg (by simp [hdir])]; exact hres
  rcases hcase with ⟨f, e, htry, hrows⟩ | ⟨e, hfirst, hsecond⟩
  · rw [e] at hsearch
    have hrange : 0 ≤ f.i ∧ f.i < length := by
      rcases hrows with ⟨a, b, _⟩ | ⟨_, a, b, _⟩
      · exact ⟨a, by omega⟩
      · exact ⟨by omega, b⟩
    obtain ⟨refs', hc⟩ := hl_commit_defined G hl_lines ⟨some none, some sl, some rl, some rb,
      some re⟩ rl opt direction f hrange.1 (by omega)
    obtain ⟨_, hsel, hperm, _⟩ := hl_commit_outcome G hl_lines _ rl opt direction f 1 refs' hc
    obtain ⟨j, line, hj, _, _, _, hm, hgreatest⟩ :=
      (reverse_try_sound t tl rl rb f.i _ htry).2.2.1 (f.offset, f.pmatch) rfl
    dsimp only at hj hm
    refine ⟨1, refs', ?_, Or.inl ⟨rfl, f.i, j, f.pmatch, hsel,
      reverse_row_match_row t tl rl rb f.i j f.pmatch hm, hm, hgreatest, ?_, hrows⟩⟩
    · rw [hl_regex_found E G pat tl hl_lines length opt direction icase cl sl rl rb re t f
        hpat hcomp hne hsearch]
      exact hc
    · intro hopt
      have := hperm hopt
      rw [this]
      simp [hdir, hj]
  · rw [e] at hsearch
    exact ⟨0, _, hl_regex_not_found E G pat tl hl_lines length opt direction icase cl sl rl rb
      re t hpat hcomp hne hsearch, Or.inr ⟨rfl, rfl, hfirst, hsecond⟩⟩

/-- Witness of C9 (amended): rows `abar` and `bar bar`, confirmed match `(1, 4, 7)` (the second `bar` of
row 1), pattern `bar`, permanent reverse search. -/
theorem hl_regex_reverse_order_witness :
    ∃ ret refs',
      hl_regex sample_env sample_groups (some [98, 97, 114])
        [[97, 98, 97, 114], [98, 97, 114, 32, 98, 97, 114]]
        (some ([[97, 98, 97, 114], [98, 97, 114, 32, 98, 97, 114]].map some)) 2
        ⟨some none, some 1, some 1, some 4, some 7⟩ 2 0 0 = some (ret, refs') ∧
      ((ret = 1 ∧ ∃ (i : Int) (j : Nat) (m : regmatch_t),
          refs'.sel_line = some i ∧
          (∃ row, ([[97, 98, 97, 114], [98, 97, 114, 32, 98, 97, 114]] : List (List Nat))[
            i.toNat]? = some row ∧ row ≠ []) ∧
          reverse_row_match (fun s => find_literal false [98, 97, 114] s 0)
            [[97, 98, 97, 114], [98, 97, 114, 32, 98, 97, 114]] 1 4 i j = some m ∧
          (∀ j', j < j' →
            reverse_row_match (fun s => find_literal false [98, 97, 114] s 0)
              [[97, 98, 97, 114], [98, 97, 114, 32, 98, 97, 114]] 1 4 i j' = none) ∧
          ((2 : Int) = 2 → refs'.sel_rline = some i ∧ refs'.sel_col_rbeg = some (m.rm_so + j) ∧
            refs'.sel_col_rend = some (m.rm_eo + j)) ∧
          ((0 ≤ i ∧ i ≤ 1 ∧
              ∀ k, i < k → k ≤ 1 → ∀ j',
                reverse_row_match (fun s => find_literal false [98, 97, 114] s 0)
                  [[97, 98, 97, 114], [98, 97, 114, 32, 98, 97, 114]] 1 4 k j' = none) ∨
           (sample_env.config_wrapscan ≠ 0 ∧ 1 < i ∧ i < 2 ∧
              (∀ k, 0 ≤ k → k ≤ 1 → ∀ j',
                reverse_row_match (fun s => find_literal false [98, 97, 114] s 0)
                  [[97, 98, 97, 114], [98, 97, 114, 32, 98, 97, 114]] 1 4 k j' = none) ∧
              ∀ k, i < k → k < 2 → ∀ j',
                reverse_row_match (fun s => find_literal false [98, 97, 114] s 0)
                  [[97, 98, 97, 114], [98, 97, 114, 32, 98, 97, 114]] 1 4 k j' = none))) ∨
       (ret = 0 ∧ refs'.sel_line = some 1 ∧
          (∀ k, 0 ≤ k → k ≤ 1 → ∀ j',
            reverse_row_match (fun s => find_literal false [98, 97, 114] s 0)
              [[97, 98, 97, 114], [98, 97, 114, 32, 98, 97, 114]] 1 4 k j' = none) ∧
          (sample_env.config_wrapscan = 0 ∨
            ∀ k, 1 < k → k < 2 → ∀ j',
              reverse_row_match (fun s => find_literal false [98, 97, 114] s 0)
                [[97, 98, 97, 114], [98, 97, 114, 32, 98, 97, 114]] 1 4 k j' = none))) :=
  hl_regex_reverse_order sample_env sample_groups [98, 97, 114]
    [[97, 98, 97, 114], [98, 97, 114, 32, 98, 97, 114]]
    [[97, 98, 97, 114], [98, 97, 114, 32, 98, 97, 114]] 2 2 0 0 none 1 1 4 7
    (fun s => find_literal false [98, 97, 114] s 0) (by decide) rfl (by decide) (by decide)


/-! ## hl_regex: what a successful search stores -/

theorem forward_try_row (t : regex_t) (tl : List (List Nat)) (rl off k : Int) (m : regmatch_t)
    (h : forward_try t (tl.map some) rl off k = some (some m)) :
    ∃ line, 0 ≤ k ∧ tl[k.toNat]? = some line ∧ 0 ≤ (if k = rl then off else 0) ∧
      (if k = rl then off else 0) ≤ line.length ∧
      t (line.drop (if k = rl then off else 0).toNat) = some m := by
  unfold forward_try at h
  rw [tline_map_some] at h
  by_cases hk : k < 0
  · simp [hk] at h
  · rw [if_neg hk] at h
    cases hrow : tl[k.toNat]? with
    | none => simp [hrow] at h
    | some line =>
      refine ⟨line, by omega, rfl, ?_⟩
      simp only [hrow] at h
      by_cases ha : k = rl
      · simp only [ha, if_true] at h ⊢
        by_cases hoff : off ≥ line.length
        · simp [hoff] at h
        · simp only [hoff, if_false] at h
          unfold str_add at h
          by_cases hin : 0 ≤ off ∧ off ≤ line.length
          · simp only [hin, and_self, if_true, Option.some.injEq] at h
            exact ⟨hin.1, hin.2, h⟩
          · simp [hin] at h
      · simp only [ha, if_false, Option.some.injEq] at h ⊢
        exact ⟨le_refl _, by omega, by simpa using h⟩

theorem hl_search_row (t : regex_t) (tl : List (List Nat))
    (length rl rb re wrap direction : Int) (f : hl_found)
    (h : hl_search t (tl.map some) length rl rb re wrap direction = some (some f)) :
    ∃ (i off : Nat) (line : List Nat), f.i = i ∧ tl[i]? = some line ∧ off ≤ line.length ∧
      t (line.drop off) = some f.pmatch ∧
      (if direction ≠ 0 ∧ rl ≠ f.i then 0 else f.offset) = off ∧
      (direction ≠ 0 → (off : Int) = if (i : Int) = rl then re else 0) ∧
      (direction = 0 → reverse_row_match t tl rl rb i off = some f.pmatch) := by
  unfold hl_search at h
  by_cases hd : direction ≠ 0
  · rw [if_pos hd] at h
    obtain ⟨hoff, htry⟩ := forward_search_sound t _ length rl re wrap f h
    obtain ⟨line, a, b, c, d, e⟩ := forward_try_row t tl rl re f.i f.pmatch htry
    have hi : f.i = (f.i.toNat : Int) := by omega
    refine ⟨f.i.toNat, (if f.i = rl then re else 0).toNat, line, hi, b, by omega, e, ?_, ?_, ?_⟩
    · rw [hoff]
      by_cases ha : f.i = rl
      · rw [if_neg (by simp [ha]), if_pos ha]
        rw [if_pos ha] at c
        omega
      · rw [if_pos ⟨hd, fun h => ha h.symm⟩, if_neg ha]
        rfl
    · intro _
      rw [← hi]
      omega
    · intro h0
      exact absurd h0 hd
  · rw [if_neg hd] at h
    have hd0 : direction = 0 := by simpa using hd
    have htry := reverse_search_sound t _ length rl rb wrap f h
    obtain ⟨a, _, s1, _⟩ := reverse_try_sound t tl rl rb f.i _ htry
    obtain ⟨j, line, hj, hrow, hle, hm, hrm, _⟩ := s1 (f.offset, f.pmatch) rfl
    dsimp only at hj hm hrm
    have hi : f.i = (f.i.toNat : Int) := by omega
    refine ⟨f.i.toNat, j, line, hi, hrow, hle, hm, ?_, ?_, ?_⟩
    · rw [if_neg (by simp [hd0])]
      exact hj
    · intro h0
      exact absurd h0 hd
    · intro _
      rw [← hi]
      exact hrm

theorem substring_drop (line : List Nat) (off : Nat) (so eo : Int) (h : 0 ≤ so) :
    substring line (so + off) (eo + off) = substring (line.drop off) so eo := by
  unfold substring
  have h1 : (so + (off : Int)).toNat = off + so.toNat := by omega
  have h2 : (eo + (off : Int) - (so + (off : Int))).toNat = (eo - so).toNat := by
    congr 1; ring
  rw [h1, h2, List.drop_drop]

/-- C4: when a permanent search (`opt = 2`, either direction) returns 1, there are a row `i`,
a column `off` of that row and a match `m` of the pattern in the text of row `i` from column
`off` on, such that `*sel_rline = *sel_line = i`, `*sel_col_rbeg = m.rm_so + off` and
`*sel_col_rend = m.rm_eo + off`; in a forward search `off` is `*sel_col_rend` on the anchor
row and 0 on every other row, in a reverse search it is the suffix start column of the
accepted match; and the bytes of row `i` between the stored columns are the matched text. -/
theorem hl_regex_permanent_commit (E : hl_env) (G : hl_group_kind)
    (regex : Option (List Nat)) (hl_lines tl : List (List Nat)) (length : Int)
    (refs : hl_regex_refs) (direction icase : Int) (rl rb re : Int)
    (h3 : refs.sel_rline = some rl) (h4 : refs.sel_col_rbeg = some rb)
    (h5 : refs.sel_col_rend = some re) (refs' : hl_regex_refs)
    (h : hl_regex E G regex hl_lines (some (tl.map some)) length refs 2 direction icase
      = some (1, refs')) :
    ∃ (t : regex_t) (i off : Nat) (line : List Nat) (m : regmatch_t),
      E.regcomp (regex.getD []) (regcomp_cflags icase) = some t ∧
      tl[i]? = some line ∧ off ≤ line.length ∧ t (line.drop off) = some m ∧
      refs'.sel_rline = some (i : Int) ∧ refs'.sel_line = some (i : Int) ∧
      refs'.sel_col_rbeg = some (m.rm_so + off) ∧ refs'.sel_col_rend = some (m.rm_eo + off) ∧
      (direction ≠ 0 → (off : Int) = if (i : Int) = rl then re else 0) ∧
      (direction = 0 → reverse_row_match t tl rl rb i off = some m) ∧
      (0 ≤ m.rm_so →
        substring line (m.rm_so + off) (m.rm_eo + off) = substring (line.drop off) m.rm_so m.rm_eo) := by
  rcases hl_regex_outcome E G regex hl_lines _ length refs 2 direction icase 1 refs' h
    with ⟨e, _⟩ | ⟨rl', rb', re', h3', h4', h5', hc⟩
  · omega
  · rw [h3] at h3'; rw [h4] at h4'; rw [h5] at h5'
    cases h3'; cases h4'; cases h5'
    rcases hc with ⟨e, _, _⟩ | ⟨e, _, _, _⟩ | ⟨t, rows, hrows, _, hcomp, hc⟩
    · omega
    · omega
    · cases hrows
      rcases hc with ⟨e, _, _⟩ | ⟨f, hf, hcommit⟩
      · omega
      · obtain ⟨i, off, line, hi, hrow, hle, hm, hoff, hfwd, hrev⟩ :=
          hl_search_row t tl length rl rb re E.config_wrapscan direction f hf
        have hperm := (hl_commit_outcome G hl_lines _ rl 2 direction f 1 refs' hcommit).2.2.1 rfl
        refine ⟨t, i, off, line, f.pmatch, hcomp, hrow, hle, hm, ?_, ?_, ?_, ?_, hfwd, hrev,
          substring_drop line off _ _⟩
        · rw [hperm, ← hi]
        · rw [hperm, ← hi]
        · rw [hperm]; simp only [hoff]
        · rw [hperm]; simp only [hoff]

/-- Witness of C4: the permanent forward search of the witness of C8 returns 1 and stores
row 2, columns `[1, 4)`. -/
theorem hl_regex_permanent_commit_witness :
    hl_regex sample_env sample_groups (some [98, 97, 114])
        [[97, 98], [98, 97, 114], [97, 98, 97, 114]]
        (some ([[97, 98], [98, 97, 114], [97, 98, 97, 114]].map some)) 3
        ⟨some none, some 1, some 1, some 0, some 3⟩ 2 1 0
      = some (1, ⟨some none, some 2, some 2, some 1, some 4⟩) ∧
    ∃ (t : regex_t) (i off : Nat) (line : List Nat) (m : regmatch_t),
      sample_env.regcomp ((some [98, 97, 114] : Option (List Nat)).getD []) (regcomp_cflags 0)
        = some t ∧
      [[97, 98], [98, 97, 114], [97, 98, 97, 114]][i]? = some line ∧ off ≤ line.length ∧
      t (line.drop off) = some m ∧
      (⟨some none, some 2, some 2, some 1, some 4⟩ : hl_regex_refs).sel_rline = some (i : Int) ∧
      (⟨some none, some 2, some 2, some 1, some 4⟩ : hl_regex_refs).sel_line = some (i : Int) ∧
      (⟨some none, some 2, some 2, some 1, some 4⟩ : hl_regex_refs).sel_col_rbeg
        = some (m.rm_so + off) ∧
      (⟨some none, some 2, some 2, some 1, some 4⟩ : hl_regex_refs).sel_col_rend
        = some (m.rm_eo + off) ∧
      ((1 : Int) ≠ 0 → (off : Int) = if (i : Int) = 1 then 3 else 0) ∧
      ((1 : Int) = 0 →
        reverse_row_match t [[97, 98], [98, 97, 114], [97, 98, 97, 114]] 1 0 i off = some m) ∧
      (0 ≤ m.rm_so →
        substring line (m.rm_so + off) (m.rm_eo + off) = substring (line.drop off) m.rm_so m.rm_eo) :=
  ⟨by decide,
    hl_regex_permanent_commit sample_env sample_groups (some [98, 97, 114])
      [[97, 98], [98, 97, 114], [97, 98, 97, 114]] [[97, 98], [98, 97, 114], [97, 98, 97, 114]] 3
      ⟨some none, some 1, some 1, some 0, some 3⟩ 1 0 1 0 3 rfl rfl rfl
      ⟨some none, some 2, some 2, some 1, some 4⟩ (by decide)⟩


/-! ## hl_regex: the transient highlight of an incremental search -/

theorem hl_regex_incremental_cur_line (E : hl_env) (G : hl_group_kind)
    (regex : Option (List Nat)) (hl_lines tl : List (List Nat)) (length : Int)
    (refs : hl_regex_refs) (opt direction icase : Int) (rl rb re : Int)
    (h3 : refs.sel_rline = some rl) (h4 : refs.sel_col_rbeg = some rb)
    (h5 : refs.sel_col_rend = some re) (hopt : opt ≠ 2) (refs' : hl_regex_refs)
    (h : hl_regex E G regex hl_lines (some (tl.map some)) length refs opt direction icase
      = some (1, refs')) :
    ∃ (t : regex_t) (i off : Nat) (line : List Nat) (m : regmatch_t),
      E.regcomp (regex.getD []) (regcomp_cflags icase) = some t ∧
      tl[i]? = some line ∧ off ≤ line.length ∧ t (line.drop off) = some m ∧
      refs'.sel_line = some (i : Int) ∧
      (m.rm_so ≠ -1 → m.rm_eo ≠ -1 →
        ∃ orig, hl_lines[i]? = some orig ∧
          refs'.cur_line = some (highlight_line_segment G orig (m.rm_so + off) (m.rm_eo + off))) := by
  rcases hl_regex_outcome E G regex hl_lines _ length refs opt direction icase 1 refs' h
    with ⟨e, _⟩ | ⟨rl', rb', re', h3', h4', h5', hc⟩
  · omega
  · rw [h3] at h3'; rw [h4] at h4'; rw [h5] at h5'
    cases h3'; cases h4'; cases h5'
    rcases hc with ⟨e, _, _⟩ | ⟨e, _, _, _⟩ | ⟨t, rows, hrows, _, hcomp, hc⟩
    · omega
    · omega
    · cases hrows
      rcases hc with ⟨e, _, _⟩ | ⟨f, hf, hcommit⟩
      · omega
      · obtain ⟨i, off, line, hi, hrow, hle, hm, hoff, _, _⟩ :=
          hl_search_row t tl length rl rb re E.config_wrapscan direction f hf
        obtain ⟨_, hsel, _, hinc⟩ := hl_commit_outcome G hl_lines _ rl opt direction f 1 refs' hcommit
        obtain ⟨_, _, _, hcur⟩ := hinc hopt
        refine ⟨t, i, off, line, f.pmatch, hcomp, hrow, hle, hm, by rw [hsel, hi], ?_⟩
        intro hso heo
        obtain ⟨orig, horig, hcl⟩ := hcur hso heo
        refine ⟨orig, ?_, ?_⟩
        · unfold hl_line at horig
          rw [hi] at horig
          rw [if_neg (by omega)] at horig
          simpa using horig
        · rw [hcl, hoff]

/-- C10, at the failing input: an incremental forward search for `x*` in the one-row buffer
`abc`.  The pattern matches the empty string at column 0, the call returns 1 with
`*sel_line = 0`, and `*cur_line` is `highlight_line_segment(hl_lines[0], 0, 0)`, in which all
three visible bytes carry group Search although the match `[0, 0)` holds no byte. -/
theorem hl_regex_incremental_empty_match :
    sample_regcomp [120, 42] (regcomp_cflags 0) = some (fun s => some ⟨0, run_length 120 s⟩) ∧
    (⟨0, run_length 120 [97, 98, 99]⟩ : regmatch_t) = ⟨0, 0⟩ ∧
    hl_regex sample_env sample_groups (some [120, 42]) [[97, 98, 99]] (some [some [97, 98, 99]])
        1 (refs_at 0 0 0) 1 1 0
      = some (1, { refs_at 0 0 0 with cur_line := some (some [127, 7, 97, 98, 99]) }) ∧
    highlight_line_segment sample_groups [97, 98, 99] 0 0 = some [127, 7, 97, 98, 99] ∧
    strip [127, 7, 97, 98, 99] = [97, 98, 99] ∧
    decode sample_groups [127, 7, 97, 98, 99] = [(97, 7), (98, 7), (99, 7)] ∧
    sample_groups.HLG_SEARCH = 7 :=
  ⟨rfl, by decide, by decide, by decide, by decide, by decide, rfl⟩


/-! ## Segment highlight: the range check and the empty range -/

/-- C14 as stated fails: on the line `HL_CHAR HLG_TEXT a` (one visible byte) the range
`[0, 2)` ends beyond the directive-stripped line, yet a line is returned. -/
theorem highlight_line_segment_accepts_beyond_visible :
    (strip [127, 6, 97]).length = 1 ∧
    highlight_line_segment sample_groups [127, 6, 97] 0 2 = some [127, 6, 127, 7, 97] := by
  decide

/-- C14, amended: `highlight_line_segment` returns `NULL` exactly when `start < 0`,
`start > end`, or `end` is greater than `strlen(orig)`, the length of the line with its
directive bytes. -/
theorem highlight_line_segment_null_iff (G : hl_group_kind) (orig : List Nat)
    (start end_ : Int) :
    highlight_line_segment G orig start end_ = none ↔
      (start < 0 ∨ start > end_ ∨ end_ > (orig.length : Int)) := by
  unfold highlight_line_segment
  constructor
  · intro h
    by_contra hc
    rw [if_neg (by omega)] at h
    cases h
  · intro h
    rw [if_pos (by omega)]

/-- C15 at the failing inputs: with the empty range `[1, 1)` the bytes `b` and `c` of the lines
`abc` and `HL_CHAR HLG_TEXT abc`, which carry group Text (6) in the input, carry group
Search (7) in the output. -/
theorem highlight_line_segment_empty_range :
    highlight_line_segment sample_groups [97, 98, 99] 1 1 = some [97, 127, 7, 98, 99] ∧
    decode sample_groups [97, 98, 99] = [(97, 6), (98, 6), (99, 6)] ∧
    decode sample_groups [97, 127, 7, 98, 99] = [(97, 6), (98, 7), (99, 7)] ∧
    highlight_line_segment sample_groups [127, 6, 97, 98, 99] 1 1
      = some [127, 6, 97, 127, 7, 98, 99] ∧
    decode sample_groups [127, 6, 97, 98, 99] = [(97, 6), (98, 6), (99, 6)] ∧
    decode sample_groups [127, 6, 97, 127, 7, 98, 99] = [(97, 6), (98, 7), (99, 7)] ∧
    well_formed sample_groups [127, 6, 97, 98, 99] = true := by
  decide

/-! ## The search scenario -/

theorem decode_loop_fst (G : hl_group_kind) :
    ∀ (n : Nat) (l : List Nat), l.length ≤ n → well_formed G l = true →
      ∀ color, (decode_loop l color).map Prod.fst = strip l := by
  intro n
  induction n with
  | zero =>
    intro l hl _ color
    have : l = [] := List.length_eq_zero.mp (Nat.le_zero.mp hl)
    subst this
    simp [decode_loop, strip]
  | succ n ih =>
    intro l hl hwf color
    match l, hl, hwf with
    | [], _, _ => simp [decode_loop, strip]
    | c :: rest, hl, hwf =>
      by_cases hc : c = HL_CHAR
      · subst hc
        match rest, hl, hwf with
        | [], _, hwf => simp [well_formed] at hwf
        | g :: r, hl, hwf =>
          simp only [well_formed_marker, Bool.and_eq_true, decide_eq_true_eq] at hwf
          rw [decode_loop_marker, strip_marker]
          exact ih r (by simp at hl; omega) hwf.2 g
      · have hwf2 : well_formed G rest = true := by rwa [well_formed_text G c hc] at hwf
        rw [decode_loop_text c hc, strip_text c hc, List.map_cons,
          ih rest (by simp at hl; omega) hwf2 color]

theorem highlight_line_segment_overlay (G : hl_group_kind) (hG : G.sound) (orig : List Nat)
    (a b : Nat) (hwf : well_formed G orig = true) (hab : a < b)
    (hb : b ≤ (strip orig).length) :
    ∃ out, highlight_line_segment G orig a b = some out ∧ well_formed G out = true ∧
      strip out = strip orig ∧
      decode G out = overlay G.HLG_SEARCH a b (decode G orig) := by
  have hle := length_strip_le orig.length orig le_rfl
  have hT : G.HLG_TEXT ∈ G.ids := by simp [hl_group_kind.ids]
  have h := hls_loop_before G hG orig.length orig le_rfl hwf 0 a b G.HLG_TEXT hab hT
  simp only [zero_add] at h
  refine ⟨hls_loop G.HLG_SEARCH orig 0 a b false G.HLG_TEXT, ?_, h.1,
    strip_hls_loop G hG _ orig.length orig le_rfl hwf _ _ _ _ _, h.2⟩
  unfold highlight_line_segment
  rw [if_neg (by omega)]

/-- C13: the concrete scenario.  With the single line
`#1  0x0000555555555555 in main () at demo/main.c:42`, the confirmed match `(0, 0, 0)`, the
pattern `main` compiled with the flags of `icase = 1`, and a matcher that reports the
leftmost occurrence (columns `[26, 30)`), an incremental forward search returns 1 on row 0 and
`*cur_line` is the highlighted line in which exactly the bytes of columns 26..29, the `main`
that follows `in `, carry group Search; the `main` of `main.c` (columns 42..45) does not. -/
theorem hl_regex_scenario (E : hl_env) (G : hl_group_kind) (hG : G.sound) (hl : List Nat)
    (t : regex_t) (hcomp : E.regcomp [109, 97, 105, 110] (regcomp_cflags 1) = some t)
    (hmatch : t scenario_line = some ⟨26, 30⟩)
    (hwf : well_formed G hl = true) (hstrip : strip hl = scenario_line) :
    ∃ out,
      hl_regex E G (some [109, 97, 105, 110]) [hl] (some [some scenario_line]) 1
          (refs_at 0 0 0) 1 1 1
        = some (1, ⟨some (some out), some 0, some 0, some 0, some 0⟩) ∧
      highlight_line_segment G hl 26 30 = some out ∧ strip out = scenario_line ∧
      (∀ k : Nat, (decode G out)[k]? =
        ((decode G hl)[k]?).map
          (fun cell => if 26 ≤ k ∧ k < 30 then (cell.1, G.HLG_SEARCH) else cell)) ∧
      substring scenario_line 23 26 = [105, 110, 32] ∧
      substring scenario_line 26 30 = [109, 97, 105, 110] ∧
      substring scenario_line 42 46 = [109, 97, 105, 110] := by
  obtain ⟨out, hout, _, hs, hd⟩ := highlight_line_segment_overlay G hG hl 26 30 hwf
    (by decide) (by rw [hstrip]; decide)
  have hsearch : hl_search t ([scenario_line].map some) 1 0 0 0 E.config_wrapscan 1
      = some (some ⟨0, 0, ⟨26, 30⟩⟩) := by
    have hrow : tline [some scenario_line] 0 = some scenario_line := by decide
    have hlen : ¬ ((0 : Int) ≥ (scenario_line.length : Int)) := by decide
    have hadd : str_add scenario_line 0 = some scenario_line := by decide
    simp [hl_search, forward_search, forward_loop, forward_try, hrow, hlen, hadd, hmatch]
  have hcall := hl_regex_found E G [109, 97, 105, 110] [scenario_line] [hl] 1 1 1 1 none 0 0 0 0
    t ⟨0, 0, ⟨26, 30⟩⟩ (by decide) hcomp (by decide) hsearch
  refine ⟨out, ?_, hout, by rw [hs, hstrip], ?_, by decide, by decide, by decide⟩
  · have : refs_at 0 0 0 = ⟨some none, some 0, some 0, some 0, some 0⟩ := rfl
    rw [this]
    simp only [List.map_cons, List.map_nil] at hcall
    rw [hcall]
    simp [hl_commit, hl_line]
    exact hout
  · intro k
    rw [hd, overlay_getElem?]

/-- Witness of C13: the sample library (literal search, case folded under `REG_ICASE`) and
the line without directives. -/
theorem hl_regex_scenario_witness :
    ∃ out,
      hl_regex sample_env sample_groups (some [109, 97, 105, 110]) [scenario_line]
          (some [some scenario_line]) 1 (refs_at 0 0 0) 1 1 1
        = some (1, ⟨some (some out), some 0, some 0, some 0, some 0⟩) ∧
      highlight_line_segment sample_groups scenario_line 26 30 = some out ∧
      strip out = scenario_line ∧
      (∀ k : Nat, (decode sample_groups out)[k]? =
        ((decode sample_groups scenario_line)[k]?).map
          (fun cell => if 26 ≤ k ∧ k < 30 then (cell.1, sample_groups.HLG_SEARCH) else cell)) ∧
      substring scenario_line 23 26 = [105, 110, 32] ∧
      substring scenario_line 26 30 = [109, 97, 105, 110] ∧
      substring scenario_line 42 46 = [109, 97, 105, 110] :=
  hl_regex_scenario sample_env sample_groups (by decide) scenario_line
    (fun s => find_literal true [109, 97, 105, 110] s 0) rfl (by decide) (by decide) (by decide)

/-! ## Segment highlight over the whole line -/

theorem directives_text (c : Nat) (hc : c ≠ HL_CHAR) (r : List Nat) :
    directives (c :: r) = directives r := by
  rw [directives.eq_def]; simp [hc]

theorem directives_marker (g : Nat) (r : List Nat) :
    directives (HL_CHAR :: g :: r) = g :: directives r := by
  rw [directives.eq_def]; simp

theorem lead_directives_text (c : Nat) (hc : c ≠ HL_CHAR) (r : List Nat) :
    lead_directives (c :: r) = [] := by
  rw [lead_directives.eq_def]; simp [hc]

theorem lead_directives_marker (g : Nat) (r : List Nat) :
    lead_directives (HL_CHAR :: g :: r) = g :: lead_directives r := by
  rw [lead_directives.eq_def]; simp

theorem lead_directives_length_le : ∀ (n : Nat) (l : List Nat), l.length ≤ n →
    (lead_directives l).length ≤ (directives l).length := by
  intro n
  induction n with
  | zero =>
    intro l hl
    have : l = [] := List.length_eq_zero.mp (Nat.le_zero.mp hl)
    subst this
    simp [lead_directives, directives]
  | succ n ih =>
    intro l hl
    match l, hl with
    | [], _ => simp [lead_directives, directives]
    | [c], _ =>
      by_cases hc : c = HL_CHAR
      · subst hc; simp [lead_directives, directives]
      · simp [lead_directives, hc]
    | c :: g :: r, hl =>
      by_cases hc : c = HL_CHAR
      · subst hc
        rw [lead_directives_marker, directives_marker]
        have := ih r (by simp at hl; omega)
        simp; omega
      · rw [lead_directives_text c hc]; simp

theorem overlay_all (S : Nat) : ∀ (xs : List (Nat × Nat)) (b : Nat), xs.length ≤ b →
    overlay S 0 b xs = xs.map (fun cell => (cell.1, S)) := by
  intro xs
  induction xs with
  | nil => intro b _; rfl
  | cons x xs ih =>
    intro b hb
    simp only [List.length_cons] at hb
    have hpos : 0 < b := by omega
    simp only [overlay, List.map_cons, hpos, and_self, if_true, Nat.zero_sub]
    rw [ih (b - 1) (by omega)]

theorem hls_loop_to_end (G : hl_group_kind) (S : Nat) :
    ∀ (n : Nat) (l : List Nat), l.length ≤ n → well_formed G l = true →
      ∀ (j s : Int) (cur : Nat), s < j →
        directives (hls_loop S l j s (j + (strip l).length) true cur)
          = List.replicate (directives l).length S := by
  intro n
  induction n with
  | zero =>
    intro l hl _ j s cur _
    have : l = [] := List.length_eq_zero.mp (Nat.le_zero.mp hl)
    subst this
    simp [hls_loop, directives]
  | succ n ih =>
    intro l hl hwf j s cur hs
    match l, hl, hwf with
    | [], _, _ => simp [hls_loop, directives]
    | c :: rest, hl, hwf =>
      by_cases hc : c = HL_CHAR
      · subst hc
        match rest, hl, hwf with
        | [], _, hwf => simp [well_formed] at hwf
        | g :: r, hl, hwf =>
          simp only [well_formed_marker, Bool.and_eq_true, decide_eq_true_eq] at hwf
          have hr : r.length ≤ n := by simp at hl; omega
          have he : j + ((strip r).length : Int) + 2 = (j + 2) + ((strip r).length : Int) := by
            ring
          rw [strip_marker, hls_loop_marker_syn, if_neg (by omega), if_pos (by omega), he,
            directives_marker, directives_marker, ih r hr hwf.2 (j + 2) s g (by omega)]
          simp [List.replicate_succ]
      · have hr : rest.length ≤ n := by simp at hl; omega
        have hwf2 : well_formed G rest = true := by rwa [well_formed_text G c hc] at hwf
        have he : j + (((c :: strip rest).length : Nat) : Int)
            = (j + 1) + ((strip rest).length : Int) := by
          simp only [List.length_cons]; push_cast; ring
        rw [strip_text c hc, hls_loop_text S c hc, if_neg (by omega),
          if_neg (by simp only [List.length_cons]; push_cast; omega), he,
          directives_text c hc, directives_text c hc, ih rest hr hwf2 (j + 1) s cur (by omega)]

theorem hls_loop_whole (G : hl_group_kind) (hG : G.sound) (S : Nat) :
    ∀ (n : Nat) (l : List Nat), l.length ≤ n → well_formed G l = true →
      0 < (strip l).length →
      ∀ (j : Int) (cur : Nat),
        directives (hls_loop S l j j (j + (strip l).length) false cur)
          = lead_directives l ++
            List.replicate ((directives l).length - (lead_directives l).length + 1) S := by
  intro n
  induction n with
  | zero =>
    intro l hl _ hpos j cur
    have : l = [] := List.length_eq_zero.mp (Nat.le_zero.mp hl)
    subst this
    simp [strip] at hpos
  | succ n ih =>
    intro l hl hwf hpos j cur
    match l, hl, hwf, hpos with
    | [], _, _, hpos => simp [strip] at hpos
    | c :: rest, hl, hwf, hpos =>
      by_cases hc : c = HL_CHAR
      · subst hc
        match rest, hl, hwf, hpos with
        | [], _, hwf, _ => simp [well_formed] at hwf
        | g :: r, hl, hwf, hpos =>
          simp only [well_formed_marker, Bool.and_eq_true, decide_eq_true_eq] at hwf
          have hg := mem_ids_ne_marker G hG g hwf.1
          have hr : r.length ≤ n := by simp at hl; omega
          rw [strip_marker] at hpos
          have he : j + ((strip r).length : Int) + 2 = (j + 2) + ((strip r).length : Int) := by
            ring
          rw [strip_marker, hls_loop_marker_nosyn S g hg, if_pos (le_refl _),
            if_pos (by omega), he, directives_marker, directives_marker,
            lead_directives_marker, ih r hr hwf.2 hpos (j + 2) g]
          simp
      · have hr : rest.length ≤ n := by simp at hl; omega
        have hwf2 : well_formed G rest = true := by rwa [well_formed_text G c hc] at hwf
        have he : j + (((c :: strip rest).length : Nat) : Int)
            = (j + 1) + ((strip rest).length : Int) := by
          simp only [List.length_cons]; push_cast; ring
        rw [strip_text c hc, hls_loop_text S c hc, if_pos rfl, he, directives_marker,
          directives_text c hc, directives_text c hc, lead_directives_text c hc,
          hls_loop_to_end G S n rest hr hwf2 (j + 1) j cur (by omega)]
        simp [List.replicate_succ]

/-- C16 as stated fails: for the lines `abc` and `HL_CHAR HLG_TEXT a` (group ids: Text 6,
Search 7) the output of `highlight_line_segment(line, 0, visibleLength(line))` holds no
directive that restores the original group, its last directive is Search; and for the second
line its first directive is the line's own Text directive, not Search. -/
theorem highlight_line_segment_whole_line_directives :
    (strip [97, 98, 99]).length = 3 ∧
    highlight_line_segment sample_groups [97, 98, 99] 0 3 = some [127, 7, 97, 98, 99] ∧
    directives [127, 7, 97, 98, 99] = [7] ∧
    (strip [127, 6, 97]).length = 1 ∧
    highlight_line_segment sample_groups [127, 6, 97] 0 1 = some [127, 6, 127, 7, 97] ∧
    directives [127, 6, 127, 7, 97] = [6, 7] ∧
    well_formed sample_groups [127, 6, 97] = true := by
  decide

/-- C16, amended: for a well-formed line with at least one visible byte,
`highlight_line_segment(line, 0, visibleLength(line))` returns a line whose stripped text is
unchanged and in which every visible byte carries group Search; its directives are the
directives that precede the first visible byte of the input, followed by Search directives
only (one inserted before the first visible byte and one for each later directive of the
input), so the last directive is Search. -/
theorem highlight_line_segment_whole_line (G : hl_group_kind) (hG : G.sound)
    (line : List Nat) (hwf : well_formed G line = true) (hpos : 0 < (strip line).length) :
    ∃ out, highlight_line_segment G line 0 (strip line).length = some out ∧
      strip out = strip line ∧
      decode G out = (decode G line).map (fun cell => (cell.1, G.HLG_SEARCH)) ∧
      directives out = lead_directives line ++
        List.replicate ((directives line).length - (lead_directives line).length + 1)
          G.HLG_SEARCH ∧
      (directives out).getLast? = some G.HLG_SEARCH := by
  have hle := length_strip_le line.length line le_rfl
  have hT : G.HLG_TEXT ∈ G.ids := by simp [hl_group_kind.ids]
  have h := hls_loop_before G hG line.length line le_rfl hwf 0 0 (strip line).length
    G.HLG_TEXT hpos hT
  have hd := hls_loop_whole G hG G.HLG_SEARCH line.length line le_rfl hwf hpos 0 G.HLG_TEXT
  simp only [zero_add, Nat.cast_zero] at h hd
  have hlen : (decode_loop line G.HLG_TEXT).length ≤ (strip line).length := by
    rw [← decode_loop_fst G line.length line le_rfl hwf G.HLG_TEXT, List.length_map]
  refine ⟨hls_loop G.HLG_SEARCH line 0 0 (strip line).length false G.HLG_TEXT, ?_,
    strip_hls_loop G hG _ line.length line le_rfl hwf _ _ _ _ _, ?_, hd, ?_⟩
  · unfold highlight_line_segment
    rw [if_neg (by omega)]
  · unfold decode
    rw [h.2, overlay_all _ _ _ hlen]
  · rw [hd, List.replicate_succ', ← List.append_assoc, List.getLast?_append]
    simp

/-- Witness of C16 (amended): a line that starts with a directive and changes group inside. -/
theorem highlight_line_segment_whole_line_witness :
    ∃ out, highlight_line_segment sample_groups [127, 6, 97, 127, 1, 98, 127, 6] 0
        (strip [127, 6, 97, 127, 1, 98, 127, 6]).length = some out ∧
      strip out = strip [127, 6, 97, 127, 1, 98, 127, 6] ∧
      decode sample_groups out = (decode sample_groups [127, 6, 97, 127, 1, 98, 127, 6]).map
        (fun cell => (cell.1, sample_groups.HLG_SEARCH)) ∧
      directives out = lead_directives [127, 6, 97, 127, 1, 98, 127, 6] ++
        List.replicate ((directives [127, 6, 97, 127, 1, 98, 127, 6]).length
          - (lead_directives [127, 6, 97, 127, 1, 98, 127, 6]).length + 1)
          sample_groups.HLG_SEARCH ∧
      (directives out).getLast? = some sample_groups.HLG_SEARCH :=
  highlight_line_segment_whole_line sample_groups (by decide)
    [127, 6, 97, 127, 1, 98, 127, 6] (by decide) (by decide)

/-! ## Repeated forward searches -/

theorem first_row_map_congr {α β : Type} (f : Int → Option α) (g : Int → Option β)
    (h : Int → α → β) :
    ∀ (n : Nat) (k : Int), (∀ i, k ≤ i → i < k + n → (f i).map (h i) = g i) →
      first_row (fun i => (f i).map (h i)) n k = first_row g n k := by
  intro n
  induction n with
  | zero => intro k _; rfl
  | succ n ih =>
    intro k hfg
    simp only [first_row]
    rw [hfg k (le_refl _) (by push_cast; omega)]
    cases g k with
    | some b => rfl
    | none =>
      simp only
      exact ih (k + 1) (fun i h1 h2 => hfg i (by omega) (by push_cast; omega))

theorem first_row_append {α : Type} (f : Int → Option α) :
    ∀ (n m : Nat) (k : Int), first_row f n k = none →
      first_row f (n + m) k = first_row f m (k + n) := by
  intro n
  induction n with
  | zero => intro m k _; simp
  | succ n ih =>
    intro m k h
    simp only [first_row] at h
    have e : n + 1 + m = (n + m) + 1 := by omega
    rw [e]
    simp only [first_row]
    cases hf : f k with
    | some a => rw [hf] at h; cases h
    | none =>
      rw [hf] at h
      simp only at h ⊢
      rw [ih m (k + 1) h]
      congr 1
      push_cast; ring

theorem first_row_some_append {α : Type} (f : Int → Option α) (a : α) :
    ∀ (n m : Nat) (k : Int), first_row f n k = some a → first_row f (n + m) k = some a := by
  intro n
  induction n with
  | zero => intro m k h; simp [first_row] at h
  | succ n ih =>
    intro m k h
    have e : n + 1 + m = (n + m) + 1 := by omega
    rw [e]
    simp only [first_row] at h ⊢
    cases hf : f k with
    | some b => rw [hf] at h; exact h
    | none =>
      rw [hf] at h
      simp only at h ⊢
      exact ih m (k + 1) h

theorem forward_loop_eq_first_row (t : regex_t) (tl : List (List Nat)) (rl re : Int)
    (hre : 0 ≤ re) :
    ∀ (n : Nat) (k : Int), 0 ≤ k → k + n ≤ tl.length →
      forward_loop t (tl.map some) rl re n k
        = some (first_row (fun i => (forward_row_match t tl rl re i).map (fun m => (i, m))) n k) := by
  intro n
  induction n with
  | zero => intro k _ _; rfl
  | succ n ih =>
    intro k h0 hk
    obtain ⟨r, hr⟩ := forward_try_defined t tl rl re k hre h0 (by push_cast at hk; omega)
    have hr' := (forward_try_sound t tl rl re k r hr).1
    rw [forward_loop, hr]
    simp only [first_row]
    rw [← hr']
    cases r with
    | some m => rfl
    | none =>
      simp only [Option.map_none']
      exact ih (k + 1) (by omega) (by push_cast at hk ⊢; omega)

theorem first_row_map {α β : Type} (f : Int → Option α) (P : α → β) :
    ∀ (n : Nat) (k : Int),
      (first_row f n k).map P = first_row (fun i => (f i).map P) n k := by
  intro n
  induction n with
  | zero => intro k; rfl
  | succ n ih =>
    intro k
    simp only [first_row]
    cases f k with
    | some a => rfl
    | none => simp only [Option.map_none']; exact ih (k + 1)

theorem forward_row_match_anchor (t : regex_t) (tl : List (List Nat)) (rl re : Int) :
    (forward_row_match t tl rl re rl).map
        (fun m => ((rl, m.rm_so + re, m.rm_eo + re) : Int × Int × Int))
      = row_match_from t tl rl re := by
  unfold forward_row_match searched_text row_match_from
  by_cases hk : rl < 0
  · simp [hk]
  · simp only [hk, if_false]
    cases tl[rl.toNat]? with
    | none => rfl
    | some line =>
      simp only [if_true]
      by_cases hc : re ≥ line.length
      · simp [hc]
      · simp only [hc, if_false, Option.some_bind]

theorem forward_row_match_other (t : regex_t) (tl : List (List Nat)) (rl re i : Int)
    (hi : i ≠ rl) :
    (forward_row_match t tl rl re i).map
        (fun m => ((i, m.rm_so + 0, m.rm_eo + 0) : Int × Int × Int))
      = row_first_match t tl i := by
  unfold forward_row_match searched_text row_first_match
  by_cases hk : i < 0
  · simp [hk]
  · simp only [hk, if_false]
    cases tl[i.toNat]? with
    | none => rfl
    | some line =>
      simp only [hi, if_false, Option.some_bind, add_zero]

theorem forward_search_eq (t : regex_t) (tl hl_lines : List (List Nat))
    (length rl rb re wrap : Int) (hpre : hl_regex_pre tl hl_lines length rl rb re) :
    forward_search t (tl.map some) length rl re wrap
      = some (match first_row (fun i => (forward_row_match t tl rl re i).map (fun m => (i, m)))
            (length - rl).toNat rl with
          | some im => some ⟨im.1, re, im.2⟩
          | none =>
            if rl = 0 ∨ wrap = 0 then none
            else
              match first_row (fun i => (forward_row_match t tl rl re i).map (fun m => (i, m)))
                  (rl - 0).toNat 0 with
              | some im => some ⟨im.1, re, im.2⟩
              | none => none) := by
  obtain ⟨hlen, hhl, h0, hrl, hre, hrb⟩ := hpre
  unfold forward_search
  rw [forward_loop_eq_first_row t tl rl re hre _ rl h0 (by omega)]
  cases first_row (fun i => (forward_row_match t tl rl re i).map (fun m => (i, m)))
      (length - rl).toNat rl with
  | some im => rfl
  | none =>
    simp only
    by_cases hw : rl = 0 ∨ wrap = 0
    · rw [if_pos hw, if_pos hw]
    · rw [if_neg hw, if_neg hw, forward_loop_eq_first_row t tl rl re hre _ 0 (le_refl _)
        (by omega)]
      cases first_row (fun i => (forward_row_match t tl rl re i).map (fun m => (i, m)))
          (rl - 0).toNat 0 with
      | some im => rfl
      | none => rfl

theorem next_match_eq (t : regex_t) (tl : List (List Nat)) (length rl re : Int)
    (hlen : length = tl.length) (hrl : rl < length) :
    (first_row (fun i => (forward_row_match t tl rl re i).map (fun m => (i, m)))
        (length - rl).toNat rl).map
      (fun im => ((im.1, im.2.rm_so + (if rl ≠ im.1 then 0 else re),
        im.2.rm_eo + (if rl ≠ im.1 then 0 else re)) : Int × Int × Int))
      = next_match t tl rl re := by
  rw [first_row_map]
  obtain ⟨n, hn⟩ : ∃ n : Nat, (length - rl).toNat = n + 1 := ⟨(length - rl).toNat - 1, by omega⟩
  have hn' : (tl.length - (rl + 1)).toNat = n := by omega
  rw [hn]
  unfold next_match
  simp only [first_row, Option.map_map]
  have ha := forward_row_match_anchor t tl rl re
  have ha' : (forward_row_match t tl rl re rl).map
      ((fun im : Int × regmatch_t => ((im.1, im.2.rm_so + (if rl ≠ im.1 then 0 else re),
        im.2.rm_eo + (if rl ≠ im.1 then 0 else re)) : Int × Int × Int)) ∘ fun m => (rl, m))
      = row_match_from t tl rl re := by
    rw [← ha]
    congr 1
    funext m
    simp
  rw [ha']
  cases row_match_from t tl rl re with
  | some p => rfl
  | none =>
    simp only [hn']
    apply first_row_map_congr (fun i => forward_row_match t tl rl re i) (row_first_match t tl)
      (fun i m => ((i, m.rm_so + (if rl ≠ i then 0 else re),
        m.rm_eo + (if rl ≠ i then 0 else re)) : Int × Int × Int))
    intro i h1 h2
    have hi : i ≠ rl := by omega
    rw [← forward_row_match_other t tl rl re i hi]
    congr 1
    funext m
    simp [Ne.symm hi]

theorem first_match_before_eq (t : regex_t) (tl : List (List Nat)) (rl re : Int) :
    (first_row (fun i => (forward_row_match t tl rl re i).map (fun m => (i, m)))
        (rl - 0).toNat 0).map
      (fun im => ((im.1, im.2.rm_so + (if rl ≠ im.1 then 0 else re),
        im.2.rm_eo + (if rl ≠ im.1 then 0 else re)) : Int × Int × Int))
      = first_match_before t tl rl := by
  rw [first_row_map]
  unfold first_match_before
  simp only [Option.map_map, sub_zero]
  apply first_row_map_congr (fun i => forward_row_match t tl rl re i) (row_first_match t tl)
    (fun i m => ((i, m.rm_so + (if rl ≠ i then 0 else re),
      m.rm_eo + (if rl ≠ i then 0 else re)) : Int × Int × Int))
  intro i h1 h2
  have hi : i ≠ rl := by omega
  rw [← forward_row_match_other t tl rl re i hi]
  congr 1
  funext m
  simp [Ne.symm hi]

theorem first_match_of_before (t : regex_t) (tl : List (List Nat)) (rl : Int)
    (hrl : rl ≤ tl.length) (p : Int × Int × Int) (h : first_match_before t tl rl = some p) :
    first_match t tl = some p := by
  unfold first_match_before at h
  unfold first_match
  have e : tl.length = rl.toNat + (tl.length - rl.toNat) := by omega
  rw [e]
  exact first_row_some_append _ p _ _ 0 h

/-- C11 as stated fails: in the buffer `zz`, `ab ab` with the pattern `ab` and wrapscan on,
permanent forward searches from `(0, 0, 0)` commit `(1, 0, 2)` and then `(1, 3, 5)`, the two
matches of the buffer; the next search returns 0 and leaves `(1, 3, 5)` committed instead of
wrapping to the first match `(1, 0, 2)`, and so does every search after it. -/
theorem hl_regex_forward_no_wrap_on_anchor_row :
    sample_env.config_wrapscan = 1 ∧
    hl_regex sample_env sample_groups (some [97, 98]) [[122, 122], [97, 98, 32, 97, 98]]
        (some [some [122, 122], some [97, 98, 32, 97, 98]]) 2 (refs_at 0 0 0) 2 1 0
      = some (1, committed (1, 0, 2)) ∧
    hl_regex sample_env sample_groups (some [97, 98]) [[122, 122], [97, 98, 32, 97, 98]]
        (some [some [122, 122], some [97, 98, 32, 97, 98]]) 2 (committed (1, 0, 2)) 2 1 0
      = some (1, committed (1, 3, 5)) ∧
    hl_regex sample_env sample_groups (some [97, 98]) [[122, 122], [97, 98, 32, 97, 98]]
        (some [some [122, 122], some [97, 98, 32, 97, 98]]) 2 (committed (1, 3, 5)) 2 1 0
      = some (0, committed (1, 3, 5)) ∧
    first_match (fun s => find_literal false [97, 98] s 0) [[122, 122], [97, 98, 32, 97, 98]]
      = some (1, 0, 2) := by
  decide

/-- C11, amended: with wrapscan on, a permanent forward search from a valid committed state
`(rl, rb, re)` commits the next match position in row-major then column order, that is the
leftmost match of row `rl` from column `re` on, else the leftmost match of the first later
row that has one (`next_match`); when there is none it wraps and commits the first match among
the rows before `rl`, which is then the first match of the buffer; and when no row before `rl`
has a match it returns 0 and the committed state stays: the anchor row is not searched again
from column 0. -/
theorem hl_regex_forward_cycle_step (E : hl_env) (G : hl_group_kind) (pat : List Nat)
    (tl hl_lines : List (List Nat)) (length : Int) (direction icase : Int)
    (cl : Option (List Nat)) (sl rl rb re : Int) (t : regex_t)
    (hpat : pat ≠ []) (hcomp : E.regcomp pat (regcomp_cflags icase) = some t)
    (hdir : direction ≠ 0) (hwrap : E.config_wrapscan ≠ 0)
    (hpre : hl_regex_pre tl hl_lines length rl rb re) :
    hl_regex E G (some pat) hl_lines (some (tl.map some)) length
        ⟨some cl, some sl, some rl, some rb, some re⟩ 2 direction icase
      = (match next_match t tl rl re with
        | some p => some (1, committed p)
        | none =>
          match first_match_before t tl rl with
          | some p => some (1, committed p)
          | none => some (0, ⟨some none, some rl, some rl, some rb, some re⟩)) ∧
    (∀ p, first_match_before t tl rl = some p → first_match t tl = some p) := by
  have hne := hl_regex_pre_ne_nil tl hl_lines length rl rb re hpre
  have hfs := forward_search_eq t tl hl_lines length rl rb re E.config_wrapscan hpre
  obtain ⟨hlen, hhl, h0, hrl, hre, hrb⟩ := hpre
  have hnm := next_match_eq t tl length rl re hlen hrl
  have hfb := first_match_before_eq t tl rl re
  refine ⟨?_, fun p hp => first_match_of_before t tl rl (by omega) p hp⟩
  have hsearch : ∀ res, forward_search t (tl.map some) length rl re E.config_wrapscan = some res →
      hl_search t (tl.map some) length rl rb re E.config_wrapscan direction = some res := by
    intro res h
    unfold hl_search
    rw [if_pos hdir]
    exact h
  have hcommit : ∀ im : Int × regmatch_t,
      hl_commit G hl_lines ⟨some none, some sl, some rl, some rb, some re⟩ rl 2 direction
        ⟨im.1, re, im.2⟩
      = some (1, committed (im.1, im.2.rm_so + (if rl ≠ im.1 then 0 else re),
          im.2.rm_eo + (if rl ≠ im.1 then 0 else re))) := by
    intro im
    simp [hl_commit, committed, hdir]
  cases h1 : first_row (fun i => (forward_row_match t tl rl re i).map (fun m => (i, m)))
      (length - rl).toNat rl with
  | some im =>
    rw [h1] at hfs hnm
    simp only [Option.map_some'] at hnm
    rw [← hnm]
    simp only
    rw [hl_regex_found E G pat tl hl_lines length 2 direction icase cl sl rl rb re t _
      hpat hcomp hne (hsearch _ hfs)]
    exact hcommit im
  | none =>
    rw [h1] at hfs hnm
    simp only [Option.map_none'] at hnm
    rw [← hnm]
    simp only
    by_cases hz : rl = 0
    · have hnone : first_match_before t tl rl = none := by
        rw [hz]; rfl
      rw [hnone]
      simp only
      rw [if_pos (Or.inl hz)] at hfs
      exact hl_regex_not_found E G pat tl hl_lines length 2 direction icase cl sl rl rb re t
        hpat hcomp hne (hsearch _ hfs)
    · rw [if_neg (by simp [hz, hwrap])] at hfs
      cases h2 : first_row (fun i => (forward_row_match t tl rl re i).map (fun m => (i, m)))
          (rl - 0).toNat 0 with
      | some im =>
        rw [h2] at hfs hfb
        simp only [Option.map_some'] at hfb
        rw [← hfb]
        simp only
        rw [hl_regex_found E G pat tl hl_lines length 2 direction icase cl sl rl rb re t _
          hpat hcomp hne (hsearch _ hfs)]
        exact hcommit im
      | none =>
        rw [h2] at hfs hfb
        simp only [Option.map_none'] at hfb
        rw [← hfb]
        simp only
        exact hl_regex_not_found E G pat tl hl_lines length 2 direction icase cl sl rl rb re t
          hpat hcomp hne (hsearch _ hfs)

/-- Witness of C11 (amended): the third search of the counterexample, which has no next match
and no match on a row before the anchor row. -/
theorem hl_regex_forward_cycle_step_witness :
    hl_regex sample_env sample_groups (some [97, 98]) [[122, 122], [97, 98, 32, 97, 98]]
        (some ([[122, 122], [97, 98, 32, 97, 98]].map some)) 2
        ⟨some none, some 1, some 1, some 3, some 5⟩ 2 1 0
      = (match next_match (fun s => find_literal false [97, 98] s 0)
            [[122, 122], [97, 98, 32, 97, 98]] 1 5 with
        | some p => some (1, committed p)
        | none =>
          match first_match_before (fun s => find_literal false [97, 98] s 0)
              [[122, 122], [97, 98, 32, 97, 98]] 1 with
          | some p => some (1, committed p)
          | none => some (0, ⟨some none, some 1, some 1, some 3, some 5⟩)) ∧
    (∀ p, first_match_before (fun s => find_literal false [97, 98] s 0)
        [[122, 122], [97, 98, 32, 97, 98]] 1 = some p →
      first_match (fun s => find_literal false [97, 98] s 0)
        [[122, 122], [97, 98, 32, 97, 98]] = some p) :=
  hl_regex_forward_cycle_step sample_env sample_groups [97, 98]
    [[122, 122], [97, 98, 32, 97, 98]] [[122, 122], [97, 98, 32, 97, 98]] 2 1 0 none 1 1 3 5
    (fun s => find_literal false [97, 98] s 0) (by decide) rfl (by decide) (by decide)
    (by decide)

/-! ## A reverse search after a committed forward search -/

theorem find_literal_bounds (fold : Bool) (pat : List Nat) :
    ∀ (s : List Nat) (k : Nat) (m : regmatch_t), find_literal fold pat s k = some m →
      (k : Int) ≤ m.rm_so ∧ m.rm_so ≤ m.rm_eo ∧ m.rm_eo ≤ (k : Int) + s.length := by
  intro s
  induction s with
  | nil =>
    intro k m h
    simp only [find_literal] at h
    by_cases hp : pat = []
    · rw [if_pos hp] at h
      simp only [Option.some.injEq] at h
      subst h
      simp
    · rw [if_neg hp] at h
      cases h
  | cons c r ih =>
    intro k m h
    rw [find_literal] at h
    simp only at h
    by_cases heq : (if fold = true then List.map to_lower (List.take pat.length (c :: r))
        else List.take pat.length (c :: r)) = (if fold = true then List.map to_lower pat else pat)
    · rw [if_pos heq] at h
      simp only [Option.some.injEq] at h
      subst h
      have hlen : ((c :: r).take pat.length).length = pat.length := by
        have := congrArg List.length heq
        cases fold <;> simpa using this
      rw [List.length_take] at hlen
      simp only [List.length_cons] at hlen ⊢
      refine ⟨le_refl _, by omega, by push_cast; omega⟩
    · rw [if_neg heq] at h
      obtain ⟨a, b, c'⟩ := ih (k + 1) m h
      simp only [List.length_cons]
      push_cast at a c' ⊢
      refine ⟨by omega, b, by omega⟩

theorem find_literal_ok (fold : Bool) (pat : List Nat) :
    regexec_ok (fun s => find_literal fold pat s 0) := by
  intro s m h
  have := find_literal_bounds fold pat s 0 m h
  simpa using this

theorem reverse_row_match_anchor_lt (t : regex_t) (tl : List (List Nat)) (rl rb : Int)
    (j : Nat) (m : regmatch_t) (h : reverse_row_match t tl rl rb rl j = some m) :
    (j : Int) + m.rm_so < rb := by
  unfold reverse_row_match at h
  by_cases hk : rl < 0
  · rw [if_pos hk] at h; cases h
  · rw [if_neg hk] at h
    cases hrow : tl[rl.toNat]? with
    | none => rw [hrow] at h; cases h
    | some line =>
      rw [hrow] at h
      simp only [if_true, true_and] at h
      by_cases hl : line = []
      · rw [if_pos hl] at h; cases h
      · rw [if_neg hl] at h
        by_cases hj : (j : Int) > rb - 1
        · rw [if_pos hj] at h; cases h
        · rw [if_neg hj] at h
          cases hm : t (line.drop j) with
          | none => rw [hm] at h; cases h
          | some m' =>
            rw [hm] at h
            simp only at h
            by_cases hacc : ¬ ((j : Int) + m'.rm_so < rb)
            · rw [if_pos hacc] at h; cases h
            · rw [if_neg hacc] at h
              simp only [Option.some.injEq] at h
              subst h
              exact not_not.mp hacc

theorem hl_regex_reverse_result (E : hl_env) (G : hl_group_kind) (pat : List Nat)
    (tl hl_lines : List (List Nat)) (length : Int) (opt icase : Int)
    (cl : Option (List Nat)) (sl rl rb re : Int) (t : regex_t)
    (hpat : pat ≠ []) (hcomp : E.regcomp pat (regcomp_cflags icase) = some t)
    (hpre : hl_regex_pre tl hl_lines length rl rb re) :
    ∃ ret refs',
      hl_regex E G (some pat) hl_lines (some (tl.map some)) length
        ⟨some cl, some sl, some rl, some rb, some re⟩ opt 0 icase = some (ret, refs') ∧
      ((ret = 1 ∧ ∃ (i : Int) (j : Nat) (m : regmatch_t),
          refs'.sel_line = some i ∧ reverse_row_match t tl rl rb i j = some m ∧
          (∀ j', j < j' → reverse_row_match t tl rl rb i j' = none) ∧
          (opt = 2 → refs' = committed (i, m.rm_so + j, m.rm_eo + j)) ∧
          ((0 ≤ i ∧ i ≤ rl ∧
              ∀ k, i < k → k ≤ rl → ∀ j', reverse_row_match t tl rl rb k j' = none) ∨
           (E.config_wrapscan ≠ 0 ∧ rl < i ∧ i < length ∧
              (∀ k, 0 ≤ k → k ≤ rl → ∀ j', reverse_row_match t tl rl rb k j' = none) ∧
              ∀ k, i < k → k < length → ∀ j', reverse_row_match t tl rl rb k j' = none))) ∨
       (ret = 0 ∧ refs' = ⟨some none, some rl, some rl, some rb, some re⟩ ∧
          (∀ k, 0 ≤ k → k ≤ rl → ∀ j', reverse_row_match t tl rl rb k j' = none) ∧
          (E.config_wrapscan = 0 ∨
            ∀ k, rl < k → k < length → ∀ j', reverse_row_match t tl rl rb k j' = none))) := by
  have hne := hl_regex_pre_ne_nil tl hl_lines length rl rb re hpre
  obtain ⟨hlen, hhl, h0, hrl, hre, hrb⟩ := hpre
  obtain ⟨res, hres, hcase⟩ :=
    reverse_search_spec t tl length rl rb E.config_wrapscan hlen h0 hrl hrb
  have hsearch : hl_search t (tl.map some) length rl rb re E.config_wrapscan 0 = some res := by
    unfold hl_search; rw [if_neg (by simp)]; exact hres
  rcases hcase with ⟨f, e, htry, hrows⟩ | ⟨e, hfirst, hsecond⟩
  · rw [e] at hsearch
    have hrange : 0 ≤ f.i ∧ f.i < length := by
      rcases hrows with ⟨a, b, _⟩ | ⟨_, a, b, _⟩
      · exact ⟨a, by omega⟩
      · exact ⟨by omega, b⟩
    obtain ⟨refs', hc⟩ := hl_commit_defined G hl_lines ⟨some none, some sl, some rl, some rb,
      some re⟩ rl opt 0 f hrange.1 (by omega)
    obtain ⟨_, hsel, hperm, _⟩ := hl_commit_outcome G hl_lines _ rl opt 0 f 1 refs' hc
    obtain ⟨j, line, hj, _, _, _, hm, hgreatest⟩ :=
      (reverse_try_sound t tl rl rb f.i _ htry).2.2.1 (f.offset, f.pmatch) rfl
    dsimp only at hj hm
    refine ⟨1, refs', ?_, Or.inl ⟨rfl, f.i, j, f.pmatch, hsel, hm, hgreatest, ?_, hrows⟩⟩
    · rw [hl_regex_found E G pat tl hl_lines length opt 0 icase cl sl rl rb re t f
        hpat hcomp hne hsearch]
      exact hc
    · intro hopt
      have := hperm hopt
      rw [this]
      simp [hj, committed]
  · rw [e] at hsearch
    exact ⟨0, _, hl_regex_not_found E G pat tl hl_lines length opt 0 icase cl sl rl rb
      re t hpat hcomp hne hsearch, Or.inr ⟨rfl, rfl, hfirst, hsecond⟩⟩

theorem hl_regex_forward_commit_valid (E : hl_env) (G : hl_group_kind) (pat : List Nat)
    (tl hl_lines : List (List Nat)) (length : Int) (direction icase : Int)
    (cl : Option (List Nat)) (sl rl rb re : Int) (t : regex_t)
    (hcomp : E.regcomp pat (regcomp_cflags icase) = some t) (hok : regexec_ok t)
    (hpre : hl_regex_pre tl hl_lines length rl rb re) (refs1 : hl_regex_refs)
    (h1 : hl_regex E G (some pat) hl_lines (some (tl.map some)) length
      ⟨some cl, some sl, some rl, some rb, some re⟩ 2 direction icase = some (1, refs1)) :
    ∃ i b e : Int, refs1 = committed (i, b, e) ∧ hl_regex_pre tl hl_lines length i b e := by
  rcases hl_regex_outcome E G (some pat) hl_lines _ length _ 2 direction icase 1 refs1 h1
    with ⟨e, _⟩ | ⟨rl', rb', re', h3', h4', h5', hc⟩
  · omega
  · cases h3'; cases h4'; cases h5'
    rcases hc with ⟨e, _, _⟩ | ⟨e, _, _, _⟩ | ⟨t', rows, hrows, _, hcomp', hc⟩
    · omega
    · omega
    · cases hrows
      simp only [Option.getD_some] at hcomp'
      rw [hcomp] at hcomp'
      cases hcomp'
      rcases hc with ⟨e, _, _⟩ | ⟨f, hf, hcommit⟩
      · omega
      · obtain ⟨i, off, line, hi, hrow, hle, hm, hoff, _, _⟩ :=
          hl_search_row t tl length rl rb re E.config_wrapscan direction f hf
        have hperm := (hl_commit_outcome G hl_lines _ rl 2 direction f 1 refs1 hcommit).2.2.1 rfl
        obtain ⟨c1, c2, c3⟩ := hok _ _ hm
        obtain ⟨hlen, hhl, _, _, _, _⟩ := hpre
        have hlt : i < tl.length := by
          by_contra hcon
          rw [List.getElem?_eq_none (by omega)] at hrow
          cases hrow
        have hget : tl.getD (i : Int).toNat [] = line := by
          simp [List.getD, hrow]
        refine ⟨i, f.pmatch.rm_so + off, f.pmatch.rm_eo + off, ?_, ?_⟩
        · rw [hperm]
          simp only [hoff, committed]
          rw [hi]
        · refine ⟨hlen, hhl, by omega, by omega, by omega, ?_⟩
          rw [hget]
          simp only [List.length_drop] at c3
          omega

/-- C12 as stated fails, in two ways.  In the one-row buffer `ab ab` with the pattern `ab`
and wrapscan on, a permanent forward search from `(0, 0, 0)` commits the first match
`(0, 0, 2)`; no match precedes it, yet the reverse search from that state returns 0 and
leaves `(0, 0, 2)` instead of wrapping to the last match `(0, 3, 5)` of the buffer, which a
forward search does find.  And with the rows `""` and `b` and the pattern `x*`, which
matches the empty string (so the matcher matches row 0), the forward search from `(0, 0, 0)`
commits `(1, 0, 0)`, and the reverse search from that state returns 0: it passes over the
empty row 0, where the previous match lies. -/
theorem hl_regex_reverse_after_forward_fails :
    sample_env.config_wrapscan = 1 ∧
    hl_regex sample_env sample_groups (some [97, 98]) [[97, 98, 32, 97, 98]]
        (some [some [97, 98, 32, 97, 98]]) 1 (refs_at 0 0 0) 2 1 0
      = some (1, committed (0, 0, 2)) ∧
    hl_regex sample_env sample_groups (some [97, 98]) [[97, 98, 32, 97, 98]]
        (some [some [97, 98, 32, 97, 98]]) 1 (committed (0, 0, 2)) 2 0 0
      = some (0, committed (0, 0, 2)) ∧
    hl_regex sample_env sample_groups (some [97, 98]) [[97, 98, 32, 97, 98]]
        (some [some [97, 98, 32, 97, 98]]) 1 (committed (0, 0, 2)) 2 1 0
      = some (1, committed (0, 3, 5)) ∧
    hl_regex_pre [[], [98]] [[], [98]] 2 0 0 0 ∧
    (sample_regcomp [120, 42] (regcomp_cflags 0)).bind (fun t => t ([] : List Nat))
      = some ⟨0, 0⟩ ∧
    hl_regex sample_env sample_groups (some [120, 42]) [[], [98]]
        (some [some [], some [98]]) 2 (refs_at 0 0 0) 2 1 0
      = some (1, committed (1, 0, 0)) ∧
    hl_regex sample_env sample_groups (some [120, 42]) [[], [98]]
        (some [some [], some [98]]) 2 (committed (1, 0, 0)) 2 0 0
      = some (0, committed (1, 0, 0)) := by
  decide

/-- C12, amended: after a permanent forward search from a valid state has returned 1 and
committed a match `(i, b, e)`, a reverse search from that state returns, and either it
succeeds on a match that precedes the committed one (on a row `i' <= i` that is not empty,
starting before column `b` when `i' = i`, accepted from the greatest suffix start column of
the first such row going down from `i`); or no row from `i` down to 0 has such a match,
wrapscan is on, and it succeeds on the last non-empty row after row `i` that has a match,
with the match accepted from the greatest suffix start column; or it returns 0 and leaves
the committed state, which happens when wrapscan is off or every other match lies on row
`i` at or after column `b` or on an empty row.  An empty row is passed over, whatever the
pattern: it has no accepted match (see `reverse_row_match`). -/
theorem hl_regex_reverse_after_forward (E : hl_env) (G : hl_group_kind) (pat : List Nat)
    (tl hl_lines : List (List Nat)) (length : Int) (opt direction icase : Int)
    (cl : Option (List Nat)) (sl rl rb re : Int) (t : regex_t)
    (hpat : pat ≠ []) (hcomp : E.regcomp pat (regcomp_cflags icase) = some t)
    (hok : regexec_ok t) (hpre : hl_regex_pre tl hl_lines length rl rb re)
    (refs1 : hl_regex_refs)
    (h1 : hl_regex E G (some pat) hl_lines (some (tl.map some)) length
      ⟨some cl, some sl, some rl, some rb, some re⟩ 2 direction icase = some (1, refs1)) :
    ∃ i b e : Int, refs1 = committed (i, b, e) ∧
      ∃ ret refs2,
        hl_regex E G (some pat) hl_lines (some (tl.map some)) length refs1 opt 0 icase
          = some (ret, refs2) ∧
        ((ret = 1 ∧ ∃ (i' : Int) (j : Nat) (m : regmatch_t),
            refs2.sel_line = some i' ∧ (∃ row, tl[i'.toNat]? = some row ∧ row ≠ []) ∧
            reverse_row_match t tl i b i' j = some m ∧
            (∀ j', j < j' → reverse_row_match t tl i b i' j' = none) ∧
            (opt = 2 → refs2 = committed (i', m.rm_so + j, m.rm_eo + j)) ∧
            ((0 ≤ i' ∧ i' ≤ i ∧ (i' = i → (j : Int) + m.rm_so < b) ∧
                ∀ k, i' < k → k ≤ i → ∀ j', reverse_row_match t tl i b k j' = none) ∨
             (E.config_wrapscan ≠ 0 ∧ i < i' ∧ i' < length ∧
                (∀ k, 0 ≤ k → k ≤ i → ∀ j', reverse_row_match t tl i b k j' = none) ∧
                ∀ k, i' < k → k < length → ∀ j', reverse_row_match t tl i b k j' = none))) ∨
         (ret = 0 ∧ refs2 = refs1 ∧
            (∀ k, 0 ≤ k → k ≤ i → ∀ j', reverse_row_match t tl i b k j' = none) ∧
            (E.config_wrapscan = 0 ∨
              ∀ k, i < k → k < length → ∀ j', reverse_row_match t tl i b k j' = none))) := by
  obtain ⟨i, b, e, hrefs, hpre1⟩ := hl_regex_forward_commit_valid E G pat tl hl_lines length
    direction icase cl sl rl rb re t hcomp hok hpre refs1 h1
  refine ⟨i, b, e, hrefs, ?_⟩
  obtain ⟨ret, refs2, hcall, hcase⟩ := hl_regex_reverse_result E G pat tl hl_lines length opt
    icase none i i b e t hpat hcomp hpre1
  have hc : committed (i, b, e) = ⟨some none, some i, some i, some b, some e⟩ := rfl
  refine ⟨ret, refs2, by rw [hrefs, hc]; exact hcall, ?_⟩
  rcases hcase with ⟨hr, i', j, m, a1, a2, a3, a4, a5⟩ | ⟨hr, a1, a2, a3⟩
  · refine Or.inl ⟨hr, i', j, m, a1, reverse_row_match_row t tl i b i' j m a2, a2, a3, a4, ?_⟩
    rcases a5 with ⟨b1, b2, b3⟩ | b1
    · refine Or.inl ⟨b1, b2, ?_, b3⟩
      intro hii
      rw [hii] at a2
      exact reverse_row_match_anchor_lt t tl i b j m a2
    · exact Or.inr b1
  · exact Or.inr ⟨hr, by rw [a1, hrefs, hc], a2, a3⟩

/-- Witness of C12 (amended): rows `ab ab`, `ab`; the forward search from `(0, 0, 2)` commits
`(0, 3, 5)`, and the theorem describes the reverse search from there. -/
theorem hl_regex_reverse_after_forward_witness :
    ∃ i b e : Int, committed (0, 3, 5) = committed (i, b, e) ∧
      ∃ ret refs2,
        hl_regex sample_env sample_groups (some [97, 98]) [[97, 98, 32, 97, 98], [97, 98]]
            (some ([[97, 98, 32, 97, 98], [97, 98]].map some)) 2 (committed (0, 3, 5)) 2 0 0
          = some (ret, refs2) ∧
        ((ret = 1 ∧ ∃ (i' : Int) (j : Nat) (m : regmatch_t),
            refs2.sel_line = some i' ∧
            (∃ row, ([[97, 98, 32, 97, 98], [97, 98]] : List (List Nat))[i'.toNat]? = some row ∧
              row ≠ []) ∧
            reverse_row_match (fun s => find_literal false [97, 98] s 0)
              [[97, 98, 32, 97, 98], [97, 98]] i b i' j = some m ∧
            (∀ j', j < j' → reverse_row_match (fun s => find_literal false [97, 98] s 0)
              [[97, 98, 32, 97, 98], [97, 98]] i b i' j' = none) ∧
            ((2 : Int) = 2 → refs2 = committed (i', m.rm_so + j, m.rm_eo + j)) ∧
            ((0 ≤ i' ∧ i' ≤ i ∧ (i' = i → (j : Int) + m.rm_so < b) ∧
                ∀ k, i' < k → k ≤ i → ∀ j',
                  reverse_row_match (fun s => find_literal false [97, 98] s 0)
                    [[97, 98, 32, 97, 98], [97, 98]] i b k j' = none) ∨
             (sample_env.config_wrapscan ≠ 0 ∧ i < i' ∧ i' < 2 ∧
                (∀ k, 0 ≤ k → k ≤ i → ∀ j',
                  reverse_row_match (fun s => find_literal false [97, 98] s 0)
                    [[97, 98, 32, 97, 98], [97, 98]] i b k j' = none) ∧
                ∀ k, i' < k → k < 2 → ∀ j',
                  reverse_row_match (fun s => find_literal false [97, 98] s 0)
                    [[97, 98, 32, 97, 98], [97, 98]] i b k j' = none))) ∨
         (ret = 0 ∧ refs2 = committed (0, 3, 5) ∧
            (∀ k, 0 ≤ k → k ≤ i → ∀ j',
              reverse_row_match (fun s => find_literal false [97, 98] s 0)
                [[97, 98, 32, 97, 98], [97, 98]] i b k j' = none) ∧
            (sample_env.config_wrapscan = 0 ∨
              ∀ k, i < k → k < 2 → ∀ j',
                reverse_row_match (fun s => find_literal false [97, 98] s 0)
                  [[97, 98, 32, 97, 98], [97, 98]] i b k j' = none))) :=
  hl_regex_reverse_after_forward sample_env sample_groups [97, 98]
    [[97, 98, 32, 97, 98], [97, 98]] [[97, 98, 32, 97, 98], [97, 98]] 2 2 1 0 none 0 0 0 2
    (fun s => find_literal false [97, 98] s 0) (by decide) rfl (find_literal_ok false [97, 98])
    (by decide) (committed (0, 3, 5)) (by decide)

/-! ## hl_wprintw: the number of cells -/

theorem wprintw_tab_bounds (tabstop offset width : Nat) :
    ∀ (n p : Nat), p + n = width → 0 < n →
      p < wprintw_tab tabstop offset width n p ∧ wprintw_tab tabstop offset width n p ≤ width := by
  intro n
  induction n with
  | zero => intro p _ h; omega
  | succ n ih =>
    intro p hp _
    simp only [wprintw_tab]
    split
    · rename_i hc
      have := ih (p + 1) (by omega) (by omega)
      omega
    · omega

theorem wprintw_main_length (get_attr : Nat → Option Nat) (tabstop offset width : Nat)
    (hattr : ∀ c, get_attr c ≠ none) :
    ∀ (n : Nat) (l : List Nat), l.length ≤ n → ∀ (p attr : Nat), p ≤ width →
      (wprintw_main get_attr tabstop offset width l p attr).length = width - p := by
  intro n
  induction n with
  | zero =>
    intro l hl p attr _
    have : l = [] := List.length_eq_zero.mp (Nat.le_zero.mp hl)
    subst this
    simp [wprintw_main]
  | succ n ih =>
    intro l hl p attr hp
    match l, hl with
    | [], _ => simp [wprintw_main]
    | c :: rest, hl =>
      have hr : rest.length ≤ n := by simp at hl; omega
      rw [wprintw_main.eq_def]
      simp only
      by_cases hpw : p < width
      · rw [if_pos hpw]
        by_cases hc : c = HL_CHAR
        · rw [if_pos hc]
          match rest, hr with
          | [], _ => simp
          | g :: r, hr =>
            simp only
            cases hg : get_attr g with
            | none => exact absurd hg (hattr g)
            | some a =>
              simp only
              exact ih r (by simp at hr; omega) p a hp
        · rw [if_neg hc]
          by_cases ht : c = 9
          · rw [if_pos ht]
            have hb := wprintw_tab_bounds tabstop offset width (width - p) p (by omega) (by omega)
            rw [List.length_append, List.length_replicate, ih rest hr _ attr hb.2]
            omega
          · rw [if_neg ht, List.length_cons, ih rest hr (p + 1) attr (by omega)]
            omega
      · rw [if_neg hpw]
        simp

/-- C17: with a style lookup that succeeds and a positive tab stop, `hl_wprintw` draws
exactly `width` cells, for every line (well formed or not), every width and every offset:
a short line is padded, a long line clipped, and a tab stops at `width`. -/
theorem hl_wprintw_width (G : hl_group_kind) (get_attr : Nat → Option Nat) (tabstop : Nat)
    (line : List Nat) (width offset : Nat) (_hT : 0 < tabstop)
    (hattr : ∀ c, get_attr c ≠ none) :
    (hl_wprintw G get_attr tabstop line width offset).length = width := by
  unfold hl_wprintw
  simp only
  cases hg : get_attr (wprintw_skip tabstop offset line 0 G.HLG_TEXT).2.2 with
  | none => exact absurd hg (hattr _)
  | some a =>
    simp only
    rw [List.length_append, List.length_replicate,
      wprintw_main_length get_attr tabstop offset width hattr _ _ le_rfl _ a
        (Nat.min_le_right _ _)]
    have := Nat.min_le_right ((wprintw_skip tabstop offset line 0 G.HLG_TEXT).2.1 - offset) width
    omega

/-- Witness of C17: a line with a directive and two tabs, the first of which straddles the
offset, drawn 12 cells wide from column 3 with tab stop 8. -/
theorem hl_wprintw_width_witness :
    (hl_wprintw sample_groups (fun c => some (c + 100)) 8
      [127, 6, 97, 98, 9, 127, 1, 99, 9, 100] 12 3).length = 12 :=
  hl_wprintw_width sample_groups (fun c => some (c + 100)) 8
    [127, 6, 97, 98, 9, 127, 1, 99, 9, 100] 12 3 (by decide) (by intro c; simp)
/-! ## hl_wprintw: the characters drawn -/

theorem succ_mod_pos (x T : Nat) (h : x % T + 1 < T) : (x + 1) % T = x % T + 1 := by
  have hx := Nat.div_add_mod x T
  have e : x + 1 = T * (x / T) + (x % T + 1) := by omega
  rw [e, Nat.mul_add_mod, Nat.mod_eq_of_lt h]

theorem succ_mod_zero (x T : Nat) (h : x % T + 1 = T) : (x + 1) % T = 0 := by
  have hx := Nat.div_add_mod x T
  have e : x + 1 = T * (x / T) + T := by omega
  rw [e, Nat.add_mod_right, Nat.mul_mod_right]

theorem wprintw_tab_exact (tabstop offset width : Nat) (hT : 0 < tabstop) :
    ∀ (n p : Nat), p + n = width → 0 < n →
      wprintw_tab tabstop offset width n p
        = p + min (tabstop - (p + offset) % tabstop) (width - p) := by
  intro n
  induction n with
  | zero => intro p _ h; omega
  | succ n ih =>
    intro p hp _
    have hlt := Nat.mod_lt (p + offset) hT
    have e : p + 1 + offset = (p + offset) + 1 := by omega
    simp only [wprintw_tab]
    by_cases hk : (p + offset) % tabstop + 1 = tabstop
    · have hz := succ_mod_zero (p + offset) tabstop hk
      rw [e, hz, if_neg (by simp)]
      have hm : min (tabstop - (p + offset) % tabstop) (width - p) = 1 := by
        have : tabstop - (p + offset) % tabstop = 1 := by omega
        rw [this]
        exact Nat.min_eq_left (by omega)
      rw [hm]
    · have hs := succ_mod_pos (p + offset) tabstop (by omega)
      by_cases hw : p + 1 < width
      · rw [e, hs, if_pos ⟨by omega, hw⟩, ih (p + 1) (by omega) (by omega), e, hs]
        generalize (p + offset) % tabstop = r at hlt hk ⊢
        omega
      · rw [if_neg (by omega)]
        have hm : min (tabstop - (p + offset) % tabstop) (width - p) = 1 := by
          have : width - p = 1 := by omega
          rw [this]
          exact Nat.min_eq_right (by omega)
        rw [hm]

theorem expand_tabs_tab (T c : Nat) (r : List Nat) :
    expand_tabs T c (9 :: r)
      = List.replicate (T - c % T) 32 ++ expand_tabs T (c + (T - c % T)) r := by
  simp [expand_tabs]

theorem expand_tabs_char (T c ch : Nat) (hch : ch ≠ 9) (r : List Nat) :
    expand_tabs T c (ch :: r) = ch :: expand_tabs T (c + 1) r := by
  simp [expand_tabs, hch]

theorem take_pad (xs : List Nat) (n N : Nat) (h : n ≤ N) :
    (xs ++ List.replicate N 32).take n = (xs ++ List.replicate n 32).take n := by
  rw [List.take_append_eq_append_take, List.take_append_eq_append_take, List.take_replicate,
    List.take_replicate]
  congr 2
  omega

theorem take_replicate_append (k m : Nat) (ys : List Nat) :
    (List.replicate k 32 ++ ys).take (k + m) = List.replicate k 32 ++ ys.take m := by
  rw [List.take_append_eq_append_take, List.take_replicate, List.length_replicate]
  congr 2
  · omega
  · omega

theorem take_replicate_short (k m : Nat) (ys : List Nat) (h : m ≤ k) :
    (List.replicate k 32 ++ ys).take m = List.replicate m 32 := by
  rw [List.take_append_eq_append_take, List.take_replicate, List.length_replicate]
  have : m - k = 0 := by omega
  rw [this, List.take_zero, List.append_nil]
  congr 1
  omega

theorem wprintw_main_chars (G : hl_group_kind) (get_attr : Nat → Option Nat)
    (tabstop offset width : Nat) (hT : 0 < tabstop) (hattr : ∀ c, get_attr c ≠ none) :
    ∀ (n : Nat) (l : List Nat), l.length ≤ n → well_formed G l = true →
      ∀ (p attr : Nat), p ≤ width →
        (wprintw_main get_attr tabstop offset width l p attr).map Prod.fst
          = (expand_tabs tabstop (p + offset) (strip l)
              ++ List.replicate (width - p) 32).take (width - p) := by
  intro n
  induction n with
  | zero =>
    intro l hl _ p attr _
    have : l = [] := List.length_eq_zero.mp (Nat.le_zero.mp hl)
    subst this
    simp [wprintw_main, strip, expand_tabs]
  | succ n ih =>
    intro l hl hwf p attr hp
    match l, hl, hwf with
    | [], _, _ => simp [wprintw_main, strip, expand_tabs]
    | c :: rest, hl, hwf =>
      have hr : rest.length ≤ n := by simp at hl; omega
      rw [wprintw_main.eq_def]
      simp only
      by_cases hpw : p < width
      · rw [if_pos hpw]
        by_cases hc : c = HL_CHAR
        · subst hc
          rw [if_pos rfl]
          match rest, hr, hwf with
          | [], _, hwf => simp [well_formed] at hwf
          | g :: r, hr, hwf =>
            simp only [well_formed_marker, Bool.and_eq_true, decide_eq_true_eq] at hwf
            simp only
            cases hg : get_attr g with
            | none => exact absurd hg (hattr g)
            | some a =>
              simp only
              rw [strip_marker]
              exact ih r (by simp at hr; omega) hwf.2 p a hp
        · rw [if_neg hc]
          have hwf2 : well_formed G rest = true := by rwa [well_formed_text G c hc] at hwf
          rw [strip_text c hc]
          by_cases ht : c = 9
          · subst ht
            rw [if_pos rfl, wprintw_tab_exact tabstop offset width hT (width - p) p (by omega)
              (by omega), expand_tabs_tab, List.map_append, List.map_replicate,
              Nat.add_sub_cancel_left]
            by_cases hk : tabstop - (p + offset) % tabstop ≤ width - p
            · rw [Nat.min_eq_left hk, ih rest hr hwf2 _ attr (by omega)]
              have e1 : p + (tabstop - (p + offset) % tabstop) + offset
                  = p + offset + (tabstop - (p + offset) % tabstop) := by omega
              have e2 : width - p = (tabstop - (p + offset) % tabstop)
                  + (width - (p + (tabstop - (p + offset) % tabstop))) := by omega
              rw [e1, List.append_assoc]
              conv_rhs => rw [e2, take_replicate_append]
              rw [← e2, take_pad _ _ (width - p) (by omega)]
            · rw [Nat.min_eq_right (by omega)]
              have e3 : p + (width - p) = width := by omega
              rw [e3, ih rest hr hwf2 width attr le_rfl, List.append_assoc,
                take_replicate_short _ _ _ (by omega)]
              simp
          · rw [if_neg ht, expand_tabs_char _ _ _ ht, List.map_cons,
              ih rest hr hwf2 (p + 1) attr (by omega)]
            have e1 : p + 1 + offset = p + offset + 1 := by omega
            have e2 : width - p = (width - (p + 1)) + 1 := by omega
            rw [e1]
            conv_rhs => rw [List.cons_append, e2, List.take_succ_cons]
            rw [← e2, take_pad _ _ (width - p) (by omega)]
      · rw [if_neg hpw]
        have : width - p = 0 := by omega
        simp [this]

theorem wprintw_skip_stop (tabstop offset : Nat) (l : List Nat) (j color : Nat)
    (h : offset ≤ j) : wprintw_skip tabstop offset l j color = (l, j, color) := by
  cases l with
  | nil => rfl
  | cons c r =>
    rw [wprintw_skip.eq_def]
    simp only
    rw [if_neg (by omega)]

theorem drop_replicate_append_le (k d : Nat) (ys : List Nat) (h : d ≤ k) :
    (List.replicate k 32 ++ ys).drop d = List.replicate (k - d) 32 ++ ys := by
  rw [List.drop_append_eq_append_drop, List.drop_replicate, List.length_replicate]
  have : d - k = 0 := by omega
  rw [this, List.drop_zero]

theorem drop_replicate_append_ge (k d : Nat) (ys : List Nat) (h : k ≤ d) :
    (List.replicate k 32 ++ ys).drop d = ys.drop (d - k) := by
  rw [List.drop_append_eq_append_drop, List.drop_replicate, List.length_replicate]
  have : k - d = 0 := by omega
  rw [this]
  simp

theorem wprintw_skip_spec (G : hl_group_kind) (tabstop offset : Nat) :
    ∀ (n : Nat) (l : List Nat), l.length ≤ n → well_formed G l = true →
      ∀ (j color : Nat), j ≤ offset →
        well_formed G (wprintw_skip tabstop offset l j color).1 = true ∧
        ((wprintw_skip tabstop offset l j color).2.1 < offset →
          (wprintw_skip tabstop offset l j color).1 = []) ∧
        (expand_tabs tabstop j (strip l)).drop (offset - j)
          = List.replicate ((wprintw_skip tabstop offset l j color).2.1 - offset) 32
            ++ expand_tabs tabstop (wprintw_skip tabstop offset l j color).2.1
              (strip (wprintw_skip tabstop offset l j color).1) := by
  intro n
  induction n with
  | zero =>
    intro l hl _ j color hj
    have : l = [] := List.length_eq_zero.mp (Nat.le_zero.mp hl)
    subst this
    have : j - offset = 0 := by omega
    simp [wprintw_skip, strip, expand_tabs, well_formed, this]
  | succ n ih =>
    intro l hl hwf j color hj
    match l, hl, hwf with
    | [], _, _ =>
      have : j - offset = 0 := by omega
      simp [wprintw_skip, strip, expand_tabs, well_formed, this]
    | c :: rest, hl, hwf =>
      have hr : rest.length ≤ n := by simp at hl; omega
      by_cases hlt : j < offset
      · by_cases hc : c = HL_CHAR
        · subst hc
          match rest, hr, hwf with
          | [], _, hwf => simp [well_formed] at hwf
          | g :: r, hr, hwf =>
            simp only [well_formed_marker, Bool.and_eq_true, decide_eq_true_eq] at hwf
            have e : wprintw_skip tabstop offset (HL_CHAR :: g :: r) j color
                = wprintw_skip tabstop offset r j g := by
              rw [wprintw_skip.eq_def]
              simp only [hlt, if_true]
            rw [e, strip_marker]
            exact ih r (by simp at hr; omega) hwf.2 j g hj
        · have hwf2 : well_formed G rest = true := by rwa [well_formed_text G c hc] at hwf
          rw [strip_text c hc]
          by_cases ht : c = 9
          · subst ht
            have e : wprintw_skip tabstop offset (9 :: rest) j color
                = wprintw_skip tabstop offset rest (j + (tabstop - j % tabstop)) color := by
              rw [wprintw_skip.eq_def]
              simp only [hlt, if_true, hc, if_false]
            rw [e, expand_tabs_tab]
            by_cases hj2 : j + (tabstop - j % tabstop) ≤ offset
            · obtain ⟨a, b, c'⟩ := ih rest hr hwf2 (j + (tabstop - j % tabstop)) color hj2
              refine ⟨a, b, ?_⟩
              rw [drop_replicate_append_ge _ _ _ (by omega), ← c']
              congr 1
              omega
            · rw [wprintw_skip_stop tabstop offset rest _ color (by omega)]
              refine ⟨hwf2, fun h => by simp only at h; omega, ?_⟩
              simp only
              rw [drop_replicate_append_le _ _ _ (by omega)]
              congr 2
              omega
          · have e : wprintw_skip tabstop offset (c :: rest) j color
                = wprintw_skip tabstop offset rest (j + 1) color := by
              rw [wprintw_skip.eq_def]
              simp only [hlt, if_true, hc, ht, if_false]
            obtain ⟨a, b, c'⟩ := ih rest hr hwf2 (j + 1) color (by omega)
            rw [e, expand_tabs_char _ _ _ ht]
            refine ⟨a, b, ?_⟩
            have e2 : offset - j = (offset - (j + 1)) + 1 := by omega
            rw [e2, List.drop_succ_cons, ← c']
      · have hjo : j = offset := by omega
        rw [wprintw_skip_stop tabstop offset _ j color (by omega)]
        refine ⟨hwf, fun h => by simp only at h; omega, ?_⟩
        simp [hjo]

/-- C18: for a well-formed line, a positive tab stop and a style lookup that succeeds, the
characters drawn by `hl_wprintw` are columns `[offset, offset + width)` of the stripped line
with every tab at column `c` expanded to `T - c mod T` blanks, padded with blanks on the
right.  In particular, with tab stop 8 and offset 0, a line holding a single tab drawn 8
cells wide gives 8 blanks, and in `abcde<tab>f` the tab reached at column 5 gives 3 blanks. -/
theorem hl_wprintw_chars (G : hl_group_kind) (get_attr : Nat → Option Nat) (tabstop : Nat)
    (line : List Nat) (width offset : Nat) (hwf : well_formed G line = true)
    (hT : 0 < tabstop) (hattr : ∀ c, get_attr c ≠ none) :
    (hl_wprintw G get_attr tabstop line width offset).map Prod.fst
      = render_window tabstop line width offset ∧
    render_window 8 [9] 8 0 = List.replicate 8 32 ∧
    render_window 8 [97, 98, 99, 100, 101, 9, 102] 9 0
      = [97, 98, 99, 100, 101, 32, 32, 32, 102] := by
  refine ⟨?_, by decide, by decide⟩
  obtain ⟨swf, sempty, sdrop⟩ := wprintw_skip_spec G tabstop offset line.length line le_rfl hwf
    0 G.HLG_TEXT (Nat.zero_le _)
  unfold hl_wprintw render_window
  simp only [Nat.sub_zero] at sdrop ⊢
  generalize wprintw_skip tabstop offset line 0 G.HLG_TEXT = sk at swf sempty sdrop ⊢
  obtain ⟨l', j', color'⟩ := sk
  simp only at swf sempty sdrop ⊢
  cases hg : get_attr color' with
  | none => exact absurd hg (hattr _)
  | some a =>
    simp only
    rw [List.map_append, List.map_replicate,
      wprintw_main_chars G get_attr tabstop offset width hT hattr l'.length l' le_rfl swf _ a
        (Nat.min_le_right _ _), sdrop, List.append_assoc]
    by_cases hp : j' - offset ≤ width
    · rw [Nat.min_eq_left hp]
      have hE : expand_tabs tabstop (j' - offset + offset) (strip l')
          = expand_tabs tabstop j' (strip l') := by
        by_cases hjo : j' < offset
        · rw [sempty hjo]; simp [strip, expand_tabs]
        · congr 1; omega
      have e2 : width = (j' - offset) + (width - (j' - offset)) := by omega
      rw [hE]
      conv_rhs => rw [e2, take_replicate_append]
      rw [← e2, take_pad _ _ width (by omega)]
    · rw [Nat.min_eq_right (by omega), take_replicate_short _ _ _ (by omega)]
      simp

/-- Witness of C18: the line of the witness of the width claim, whose first tab straddles
the offset 3. -/
theorem hl_wprintw_chars_witness :
    (hl_wprintw sample_groups (fun c => some (c + 100)) 8
        [127, 6, 97, 98, 9, 127, 1, 99, 9, 100] 12 3).map Prod.fst
      = render_window 8 [127, 6, 97, 98, 9, 127, 1, 99, 9, 100] 12 3 ∧
    render_window 8 [127, 6, 97, 98, 9, 127, 1, 99, 9, 100] 12 3
      = [32, 32, 32, 32, 32, 99, 32, 32, 32, 32, 32, 32] :=
  ⟨(hl_wprintw_chars sample_groups (fun c => some (c + 100)) 8
      [127, 6, 97, 98, 9, 127, 1, 99, 9, 100] 12 3 (by decide) (by decide)
      (by intro c; simp)).1, by decide⟩


/-! ## highlight_gdb: the round trip -/

theorem strip_span (g : Nat) (xs rest : List Nat) (h : HL_CHAR ∉ xs) :
    strip (HL_CHAR :: g :: (xs ++ rest)) = xs ++ strip rest := by
  rw [strip_marker]
  induction xs with
  | nil => rfl
  | cons x xs ih =>
    have hx : x ≠ HL_CHAR := fun e => h (by simp [e])
    rw [List.cons_append, strip_text x hx, ih (fun m => h (List.mem_cons_of_mem _ m))]
    rfl

theorem slice_append (l : List Nat) (a b c : Nat) (hab : a ≤ b) (hbc : b ≤ c) :
    (l.drop a).take (b - a) ++ (l.drop b).take (c - b) = (l.drop a).take (c - a) := by
  have e : c - a = (b - a) + (c - b) := by omega
  rw [e, List.take_add, List.drop_drop]
  have e2 : a + (b - a) = b := by omega
  rw [e2]

theorem mem_slice (l : List Nat) (a b n : Nat) (hab : a ≤ b) (hbn : b ≤ n) (x : Nat)
    (hx : x ∈ (l.drop a).take (b - a)) : x ∈ l.take n := by
  have h1 : x ∈ (l.drop 0).take (b - 0) := by
    rw [← slice_append l 0 a b (Nat.zero_le _) hab]
    exact List.mem_append_right _ hx
  simp only [List.drop_zero, Nat.sub_zero] at h1
  have h2 : l.take b = (l.take n).take b := by
    rw [List.take_take, Nat.min_eq_left hbn]
  rw [h2] at h1
  exact List.mem_of_mem_take h1

theorem ibuf_adds_eq (buffer : List Nat) (pos b : Nat) (h1 : pos ≤ b)
    (h2 : b ≤ buffer.length) :
    ibuf_adds buffer pos ((b : Int) - pos) = some ((buffer.drop pos).take (b - pos)) := by
  unfold ibuf_adds
  rw [if_pos (by constructor <;> omega)]
  congr 2
  omega

theorem name_table_loop_group (G : hl_group_kind) (ovector : List (Nat × Nat)) :
    ∀ (tabptr : List Nat) (i : Nat) (init : Option Nat) (g : Nat),
      name_table_loop G ovector tabptr i init = some (some g) →
        g ∈ [G.HLG_PATH, G.HLG_BT_LIST, G.HLG_HEX] ∨ init = some g := by
  intro tabptr
  induction tabptr with
  | nil =>
    intro i init g h
    simp only [name_table_loop, Option.some.injEq] at h
    exact Or.inr h
  | cons n tabptr ih =>
    intro i init g h
    rw [name_table_loop] at h
    cases ho : ovector[n]? with
    | none => simp [ho] at h
    | some p =>
      obtain ⟨so, eo⟩ := p
      simp only [ho] at h
      by_cases hv : (eo : Int) - so > 0
      · rw [if_pos hv] at h
        rcases ih _ _ g h with h1 | h1
        · exact Or.inl h1
        · left
          simp only [Option.some.injEq] at h1
          rw [← h1]
          by_cases h0 : i = 0
          · simp [h0]
          · by_cases h1' : i = 1
            · simp [h1']
            · simp [h0, h1']
      · rw [if_neg hv] at h
        exact ih _ _ g h

theorem name_table_loop_defined (G : hl_group_kind) (ovector : List (Nat × Nat)) :
    ∀ (tabptr : List Nat) (i : Nat) (init : Option Nat),
      (∀ n ∈ tabptr, n < ovector.length) →
      (init ≠ none ∨ ∃ n ∈ tabptr, ∃ so eo, ovector[n]? = some (so, eo) ∧ so < eo) →
        ∃ g, name_table_loop G ovector tabptr i init = some (some g) := by
  intro tabptr
  induction tabptr with
  | nil =>
    intro i init _ h
    rcases h with h | ⟨n, hn, _⟩
    · cases init with
      | none => exact absurd rfl h
      | some g => exact ⟨g, rfl⟩
    · simp at hn
  | cons n tabptr ih =>
    intro i init hb h
    have hn : n < ovector.length := hb n (List.mem_cons_self _ _)
    have hb2 : ∀ m ∈ tabptr, m < ovector.length := fun m hm => hb m (List.mem_cons_of_mem _ hm)
    rw [name_table_loop]
    have ho : ovector[n]? = some ovector[n] := List.getElem?_eq_getElem hn
    generalize ovector[n] = p at ho
    obtain ⟨so, eo⟩ := p
    simp only [ho]
    by_cases hv : (eo : Int) - so > 0
    · rw [if_pos hv]
      exact ih _ _ hb2 (Or.inl (by simp))
    · rw [if_neg hv]
      apply ih _ _ hb2
      rcases h with h | ⟨m, hm, so2, eo2, hm2, hlt⟩
      · exact Or.inl h
      · rcases List.mem_cons.mp hm with e | hm3
        · subst e
          rw [ho] at hm2
          simp only [Option.some.injEq, Prod.mk.injEq] at hm2
          omega
        · exact Or.inr ⟨m, hm3, so2, eo2, hm2, hlt⟩

theorem match_loop_spec (G : hl_group_kind) (hl : gdb_highlighter) (buffer : List Nat)
    (nChars : Nat) (hlen : nChars ≤ buffer.length) (hG : 0 ∉ G.ids)
    (hchunk : ∀ x ∈ buffer.take nChars, x ≠ HL_CHAR ∧ x ≠ 0)
    (hin : matches_inside hl buffer nChars) :
    ∀ (fuel offset : Nat) (bytes : List Nat) (last : Nat), offset ≤ nChars →
      match_loop G hl buffer nChars fuel offset = some (bytes, last) →
        offset ≤ last ∧ last ≤ nChars ∧ (∀ x ∈ bytes, x ≠ 0) ∧
        ∀ tail, strip (bytes ++ tail)
          = (buffer.drop offset).take (last - offset) ++ strip tail := by
  have hT : G.HLG_TEXT ≠ 0 := fun e => hG (by simp [hl_group_kind.ids, e])
  have hP : G.HLG_PATH ≠ 0 := fun e => hG (by simp [hl_group_kind.ids, e])
  have hB : G.HLG_BT_LIST ≠ 0 := fun e => hG (by simp [hl_group_kind.ids, e])
  have hH : G.HLG_HEX ≠ 0 := fun e => hG (by simp [hl_group_kind.ids, e])
  have hM : HL_CHAR ≠ 0 := by decide
  intro fuel
  induction fuel with
  | zero =>
    intro offset bytes last _ h
    simp [match_loop] at h
  | succ fuel ih =>
    intro offset bytes last hoff h
    rw [match_loop] at h
    cases hre : hl.re buffer nChars offset with
    | none =>
      simp only [hre, Option.some.injEq, Prod.mk.injEq] at h
      obtain ⟨hb, hl2⟩ := h
      subst hb hl2
      refine ⟨le_rfl, hoff, by simp, ?_⟩
      intro tail
      simp
    | some ovector =>
      obtain ⟨matchStart, matchEnd, h0, h1, h2, h3⟩ := hin offset ovector hoff hre
      simp only [hre, h0] at h
      cases hg : name_table_loop G ovector hl.name_table 0 none with
      | none => simp [hg] at h
      | some og =>
        cases og with
        | none => simp [hg] at h
        | some hl_group =>
          simp only [hg] at h
          rw [ibuf_adds_eq buffer offset matchStart h1 (by omega),
            ibuf_adds_eq buffer matchStart matchEnd h2 (by omega)] at h
          simp only at h
          cases hrec : match_loop G hl buffer nChars fuel matchEnd with
          | none => simp [hrec] at h
          | some r =>
            obtain ⟨rest, last2⟩ := r
            simp only [hrec, Option.some.injEq, Prod.mk.injEq] at h
            obtain ⟨hb, hl2⟩ := h
            subst hl2
            obtain ⟨r1, r2, r3, r4⟩ := ih matchEnd rest last2 h3 hrec
            have hgne : hl_group ≠ 0 := by
              rcases name_table_loop_group G ovector _ _ _ _ hg with hm | hm
              · simp only [List.mem_cons, List.mem_singleton, List.not_mem_nil, or_false] at hm
                rcases hm with e | e | e <;> rw [e] <;> assumption
              · simp at hm
            have hgap : ∀ x ∈ (buffer.drop offset).take (matchStart - offset),
                x ≠ HL_CHAR ∧ x ≠ 0 :=
              fun x hx => hchunk x (mem_slice buffer offset matchStart nChars h1 (by omega) x hx)
            have hmat : ∀ x ∈ (buffer.drop matchStart).take (matchEnd - matchStart),
                x ≠ HL_CHAR ∧ x ≠ 0 :=
              fun x hx => hchunk x (mem_slice buffer matchStart matchEnd nChars h2 h3 x hx)
            refine ⟨by omega, r2, ?_, ?_⟩
            · intro x hx
              rw [← hb] at hx
              simp only [List.mem_append, List.mem_cons, List.mem_singleton,
                List.not_mem_nil, or_false] at hx
              rcases hx with (((((e | e) | hx) | (e | e)) | hx) | hx)
              · rw [e]; exact hM
              · rw [e]; exact hT
              · exact (hgap x hx).2
              · rw [e]; exact hM
              · rw [e]; exact hgne
              · exact (hmat x hx).2
              · exact r3 x hx
            · intro tail
              rw [← hb]
              have e1 : [HL_CHAR, G.HLG_TEXT] ++ (buffer.drop offset).take (matchStart - offset)
                  ++ [HL_CHAR, hl_group] ++ (buffer.drop matchStart).take (matchEnd - matchStart)
                  ++ rest ++ tail
                  = HL_CHAR :: G.HLG_TEXT :: ((buffer.drop offset).take (matchStart - offset)
                    ++ (HL_CHAR :: hl_group ::
                      ((buffer.drop matchStart).take (matchEnd - matchStart)
                        ++ (rest ++ tail)))) := by
                simp
              rw [e1, strip_span _ _ _ (fun m => (hgap _ m).1 rfl),
                strip_span _ _ _ (fun m => (hmat _ m).1 rfl), r4 tail,
                ← slice_append buffer offset matchStart last2 h1 (by omega),
                ← slice_append buffer matchStart matchEnd last2 h2 r1]
              simp

theorem match_loop_defined (G : hl_group_kind) (hl : gdb_highlighter) (buffer : List Nat)
    (nChars : Nat) (hlen : nChars ≤ buffer.length)
    (hin : matches_inside hl buffer nChars) (hadv : matches_advance hl buffer nChars) :
    ∀ (fuel offset : Nat), offset ≤ nChars → nChars - offset < fuel →
      ∃ r, match_loop G hl buffer nChars fuel offset = some r := by
  intro fuel
  induction fuel with
  | zero => intro offset _ h; omega
  | succ fuel ih =>
    intro offset hoff hfuel
    rw [match_loop]
    cases hre : hl.re buffer nChars offset with
    | none => exact ⟨_, rfl⟩
    | some ovector =>
      obtain ⟨matchStart, matchEnd, h0, h1, h2, h3⟩ := hin offset ovector hoff hre
      obtain ⟨⟨s2, e2, h02, hlt⟩, hb, hne⟩ := hadv offset ovector hoff hre
      rw [h0] at h02
      simp only [Option.some.injEq, Prod.mk.injEq] at h02
      obtain ⟨hs, he⟩ := h02
      subst hs he
      obtain ⟨g, hg⟩ := name_table_loop_defined G ovector hl.name_table 0 none hb (Or.inr hne)
      obtain ⟨r, hr⟩ := ih matchEnd h3 (by omega)
      simp only [h0, hg]
      rw [ibuf_adds_eq buffer offset matchStart h1 (by omega),
        ibuf_adds_eq buffer matchStart matchEnd h2 (by omega)]
      simp only [hr]
      exact ⟨_, rfl⟩

theorem strdup_id (s : List Nat) (h : ∀ x ∈ s, x ≠ 0) : strdup s = s := by
  unfold strdup
  rw [List.takeWhile_eq_self_iff]
  intro x hx
  simpa using h x hx

theorem highlight_gdb_strip (G : hl_group_kind) (hl : gdb_highlighter) (buffer : List Nat)
    (nChars : Nat) (hlen : nChars ≤ buffer.length) (hG : 0 ∉ G.ids)
    (hchunk : ∀ x ∈ buffer.take nChars, x ≠ HL_CHAR ∧ x ≠ 0)
    (hin : matches_inside hl buffer nChars) (fuel : Nat) (out : List Nat)
    (h : highlight_gdb G hl true buffer nChars fuel = some (some out)) :
    strip out = buffer.take nChars := by
  have hT : G.HLG_TEXT ≠ 0 := fun e => hG (by simp [hl_group_kind.ids, e])
  unfold highlight_gdb at h
  by_cases hn : nChars = 0
  · simp [hn] at h
  · rw [if_neg hn, if_neg (by simp)] at h
    cases hloop : match_loop G hl buffer nChars fuel 0 with
    | none => simp [hloop] at h
    | some r =>
      obtain ⟨ibuf, offset⟩ := r
      obtain ⟨_, r2, r3, r4⟩ :=
        match_loop_spec G hl buffer nChars hlen hG hchunk hin fuel 0 ibuf offset
          (Nat.zero_le _) hloop
      simp only [hloop] at h
      rw [ibuf_adds_eq buffer offset nChars r2 hlen] at h
      simp only [Option.some.injEq] at h
      have hrest : ∀ x ∈ (buffer.drop offset).take (nChars - offset), x ≠ HL_CHAR ∧ x ≠ 0 :=
        fun x hx => hchunk x (mem_slice buffer offset nChars nChars r2 le_rfl x hx)
      rw [strdup_id] at h
      · rw [← h, List.append_assoc, r4]
        have e1 : [HL_CHAR, G.HLG_TEXT] ++ (buffer.drop offset).take (nChars - offset)
            = HL_CHAR :: G.HLG_TEXT :: ((buffer.drop offset).take (nChars - offset) ++ []) := by
          simp
        rw [e1, strip_span _ _ _ (fun m => (hrest _ m).1 rfl)]
        have e2 := slice_append buffer 0 offset nChars (Nat.zero_le _) r2
        simp only [Nat.sub_zero, List.drop_zero] at e2
        simp [strip, e2]
      · intro x hx
        simp only [List.mem_append, List.mem_cons, List.mem_singleton, List.not_mem_nil,
          or_false] at hx
        rcases hx with ((hx | (e | e)) | hx)
        · exact r3 x hx
        · rw [e]; decide
        · rw [e]; exact hT
        · exact (hrest x hx).2

theorem matches_of_check (hl : gdb_highlighter) (buffer : List Nat) (nChars : Nat)
    (h : matches_check hl buffer nChars = true) :
    matches_inside hl buffer nChars ∧ matches_advance hl buffer nChars := by
  unfold matches_check at h
  rw [List.all_eq_true] at h
  have key : ∀ offset ovector, offset ≤ nChars → hl.re buffer nChars offset = some ovector →
      (∃ matchStart matchEnd, ovector[0]? = some (matchStart, matchEnd) ∧
        offset ≤ matchStart ∧ matchStart < matchEnd ∧ matchEnd ≤ nChars) ∧
      (∀ n ∈ hl.name_table, n < ovector.length) ∧
      (∃ n ∈ hl.name_table, ∃ so eo, ovector[n]? = some (so, eo) ∧ so < eo) := by
    intro offset ovector hoff hre
    have h1 := h offset (List.mem_range.mpr (by omega))
    simp only [hre, Bool.and_eq_true, List.all_eq_true, List.any_eq_true,
      decide_eq_true_eq] at h1
    obtain ⟨⟨ha, hb⟩, n, hn, hc⟩ := h1
    refine ⟨?_, hb, n, hn, ?_⟩
    · cases h0 : ovector[0]? with
      | none => simp [h0] at ha
      | some p =>
        obtain ⟨s, e⟩ := p
        simp only [h0, decide_eq_true_eq] at ha
        exact ⟨s, e, rfl, ha⟩
    · cases h0 : ovector[n]? with
      | none => simp [h0] at hc
      | some p =>
        obtain ⟨s, e⟩ := p
        simp only [h0, decide_eq_true_eq] at hc
        exact ⟨s, e, rfl, hc⟩
  constructor
  · intro offset ovector hoff hre
    obtain ⟨⟨s, e, h0, h1, h2, h3⟩, _⟩ := key offset ovector hoff hre
    exact ⟨s, e, h0, h1, by omega, h3⟩
  · intro offset ovector hoff hre
    obtain ⟨⟨s, e, h0, h1, h2, h3⟩, hb, hc⟩ := key offset ovector hoff hre
    exact ⟨⟨s, e, h0, h2⟩, hb, hc⟩

theorem match_loop_step (G : hl_group_kind) (hl : gdb_highlighter) (buffer : List Nat)
    (nChars fuel offset : Nat) :
    match_loop G hl buffer nChars (fuel + 1) offset =
      match match_step G hl buffer nChars offset with
      | none => none
      | some none => some ([], offset)
      | some (some (bytes, next)) =>
        match match_loop G hl buffer nChars fuel next with
        | none => none
        | some (rest, last) => some (bytes ++ rest, last) := by
  rw [match_loop, match_step]
  cases hl.re buffer nChars offset with
  | none => rfl
  | some ovector =>
    simp only
    cases (ovector[0]? : Option (Nat × Nat)) with
    | none => rfl
    | some p =>
      obtain ⟨matchStart, matchEnd⟩ := p
      simp only
      cases name_table_loop G ovector hl.name_table 0 none with
      | none => rfl
      | some og =>
        cases og with
        | none => rfl
        | some hl_group =>
          simp only
          cases ibuf_adds buffer offset ((matchStart : Int) - offset) with
          | none => rfl
          | some gap =>
            simp only
            cases ibuf_adds buffer matchStart ((matchEnd : Int) - matchStart) with
            | none => rfl
            | some matched => simp only

theorem match_loop_stuck (G : hl_group_kind) (hl : gdb_highlighter) (buffer : List Nat)
    (nChars offset : Nat) (bytes : List Nat)
    (h : match_step G hl buffer nChars offset = some (some (bytes, offset))) :
    ∀ fuel, match_loop G hl buffer nChars fuel offset = none := by
  intro fuel
  induction fuel with
  | zero => rfl
  | succ fuel ih => rw [match_loop_step, h]; simp only; rw [ih]

/-- C19 as stated fails: the chunk `ab` holds neither the marker byte nor NUL, and every
match of the lookahead pattern (the empty string at the cursor, with a named group set)
lies between the cursor and `nChars`; yet a round of the loop leaves the cursor at 0, the
loop is never left and `highlight_gdb` produces no line, whatever the number of rounds. -/
theorem highlight_gdb_empty_match_no_line :
    matches_inside lookahead_highlighter [97, 98] 2 ∧
    (∀ x ∈ ([97, 98] : List Nat).take 2, x ≠ HL_CHAR ∧ x ≠ 0) ∧
    match_step sample_groups lookahead_highlighter [97, 98] 2 0
      = some (some ([127, 6, 127, 8], 0)) ∧
    ∀ fuel, highlight_gdb sample_groups lookahead_highlighter true [97, 98] 2 fuel = none := by
  have h : match_step sample_groups lookahead_highlighter [97, 98] 2 0
      = some (some ([127, 6, 127, 8], 0)) := by decide
  refine ⟨?_, by decide, h, ?_⟩
  · intro offset ovector hoff hre
    unfold lookahead_highlighter at hre
    simp only at hre
    by_cases hlt : offset < 2
    · rw [if_pos hlt] at hre
      cases hre
      exact ⟨offset, offset, rfl, le_rfl, le_rfl, hoff⟩
    · rw [if_neg hlt] at hre
      cases hre
  · intro fuel
    unfold highlight_gdb
    rw [if_neg (by decide), if_neg (by decide),
      match_loop_stuck sample_groups lookahead_highlighter [97, 98] 2 0 _ h fuel]

/-- C19, amended: for a non-empty chunk (the first `nChars` bytes of `buffer`) that holds
neither the marker byte nor NUL, group ids that are not NUL, and a pattern whose matches lie
between the offset asked from and `nChars`, are not empty and have a non-empty named group:
`highlight_gdb` leaves its loop within `nChars + 1` calls of the matcher and stores a line,
and that line (as every line it stores, whatever the bound on the rounds) strips to exactly
the chunk. -/
theorem highlight_gdb_round_trip (G : hl_group_kind) (hl : gdb_highlighter)
    (buffer : List Nat) (nChars : Nat) (hpos : 0 < nChars) (hlen : nChars ≤ buffer.length)
    (hG : 0 ∉ G.ids) (hchunk : ∀ x ∈ buffer.take nChars, x ≠ HL_CHAR ∧ x ≠ 0)
    (hin : matches_inside hl buffer nChars) (hadv : matches_advance hl buffer nChars) :
    (∃ out, highlight_gdb G hl true buffer nChars (nChars + 1) = some (some out) ∧
      strip out = buffer.take nChars) ∧
    (∀ fuel out, highlight_gdb G hl true buffer nChars fuel = some (some out) →
      strip out = buffer.take nChars) := by
  refine ⟨?_, fun fuel out h =>
    highlight_gdb_strip G hl buffer nChars hlen hG hchunk hin fuel out h⟩
  obtain ⟨r, hr⟩ := match_loop_defined G hl buffer nChars hlen hin hadv (nChars + 1) 0
    (Nat.zero_le _) (by omega)
  obtain ⟨ibuf, offset⟩ := r
  obtain ⟨_, r2, _, _⟩ :=
    match_loop_spec G hl buffer nChars hlen hG hchunk hin (nChars + 1) 0 ibuf offset
      (Nat.zero_le _) hr
  have hdef : ∃ out, highlight_gdb G hl true buffer nChars (nChars + 1) = some (some out) := by
    unfold highlight_gdb
    rw [if_neg (by omega), if_neg (by simp)]
    simp only [hr]
    rw [ibuf_adds_eq buffer offset nChars r2 hlen]
    exact ⟨_, rfl⟩
  obtain ⟨out, hout⟩ := hdef
  exact ⟨out, hout,
    highlight_gdb_strip G hl buffer nChars hlen hG hchunk hin (nChars + 1) out hout⟩

/-- Witness of C19 (amended): the chunk `at src/a.c:10 0x1f` with the pattern of
`gdb_regexes`; the line stored marks the path and the hex literal, and strips to the
chunk. -/
theorem highlight_gdb_round_trip_witness :
    highlight_gdb sample_groups sample_highlighter true path_chunk 18 19
      = some (some ([127, 6, 97, 116, 32, 127, 9, 115, 114, 99, 47, 97, 46, 99, 58, 49, 48,
          127, 6, 32, 127, 10, 48, 120, 49, 102, 127, 6])) ∧
    ((∃ out, highlight_gdb sample_groups sample_highlighter true path_chunk 18 (18 + 1)
        = some (some out) ∧ strip out = path_chunk.take 18) ∧
      (∀ fuel out, highlight_gdb sample_groups sample_highlighter true path_chunk 18 fuel
        = some (some out) → strip out = path_chunk.take 18)) :=
  ⟨by decide,
    highlight_gdb_round_trip sample_groups sample_highlighter path_chunk 18 (by decide)
      (by decide) (by decide) (by decide)
      (matches_of_check sample_highlighter path_chunk 18 (by decide)).1
      (matches_of_check sample_highlighter path_chunk 18 (by decide)).2⟩

/-! ## highlight_gdb: the backtrace frame example -/

/-- C20, counterexample: on `#3  0x00007ffff7dd1083 in foo (src/b.c:22)` the third match of
the pattern of `gdb_regexes` is `(src/b.c:22)`, both parentheses included, since the class
`[^ /]` of the path pattern admits them: the cells of `(` and `)` (visible columns 30 and
41) are not drawn as Text. -/
theorem highlight_gdb_frame_parentheses :
    highlight_gdb sample_groups sample_highlighter true frame_chunk 42 43
      = some (some [127, 6, 127, 8, 35, 51, 127, 6, 32, 32,
          127, 10, 48, 120, 48, 48, 48, 48, 55, 102, 102, 102, 102, 55, 100, 100, 49, 48, 56, 51,
          127, 6, 32, 105, 110, 32, 102, 111, 111, 32,
          127, 9, 40, 115, 114, 99, 47, 98, 46, 99, 58, 50, 50, 41, 127, 6]) ∧
    (∀ out, highlight_gdb sample_groups sample_highlighter true frame_chunk 42 43
        = some (some out) →
      (decode sample_groups out)[30]? = some (40, sample_groups.HLG_BT_LIST) ∧
      (decode sample_groups out)[41]? = some (41, sample_groups.HLG_BT_LIST) ∧
      sample_groups.HLG_BT_LIST ≠ sample_groups.HLG_TEXT) := by
  have h : highlight_gdb sample_groups sample_highlighter true frame_chunk 42 43
      = some (some [127, 6, 127, 8, 35, 51, 127, 6, 32, 32,
          127, 10, 48, 120, 48, 48, 48, 48, 55, 102, 102, 102, 102, 55, 100, 100, 49, 48, 56, 51,
          127, 6, 32, 105, 110, 32, 102, 111, 111, 32,
          127, 9, 40, 115, 114, 99, 47, 98, 46, 99, 58, 50, 50, 41, 127, 6]) := by decide
  refine ⟨h, ?_⟩
  intro out hout
  rw [h] at hout
  simp only [Option.some.injEq] at hout
  subst hout
  decide

/-- C20, amended: classifying `#3  0x00007ffff7dd1083 in foo (src/b.c:22)` with the three
declared patterns yields, in order, a span covering exactly `#3`, a Hex span covering
exactly `0x00007ffff7dd1083` and a span covering exactly `(src/b.c:22)`, parentheses
included, with all remaining text in group Text. -/
theorem highlight_gdb_frame_spans :
    ∃ g1 g3, g1 ≠ sample_groups.HLG_TEXT ∧ g3 ≠ sample_groups.HLG_TEXT ∧
      highlight_gdb sample_groups sample_highlighter true frame_chunk 42 43
        = some (some ([HL_CHAR, sample_groups.HLG_TEXT] ++
            [HL_CHAR, g1] ++ [35, 51] ++
            [HL_CHAR, sample_groups.HLG_TEXT] ++ [32, 32] ++
            [HL_CHAR, sample_groups.HLG_HEX] ++
              [48, 120, 48, 48, 48, 48, 55, 102, 102, 102, 102, 55, 100, 100, 49, 48, 56, 51] ++
            [HL_CHAR, sample_groups.HLG_TEXT] ++ [32, 105, 110, 32, 102, 111, 111, 32] ++
            [HL_CHAR, g3] ++ [40, 115, 114, 99, 47, 98, 46, 99, 58, 50, 50, 41] ++
            [HL_CHAR, sample_groups.HLG_TEXT])) ∧
      frame_chunk = [35, 51] ++ [32, 32] ++
        [48, 120, 48, 48, 48, 48, 55, 102, 102, 102, 102, 55, 100, 100, 49, 48, 56, 51] ++
        [32, 105, 110, 32, 102, 111, 111, 32] ++
        [40, 115, 114, 99, 47, 98, 46, 99, 58, 50, 50, 41] :=
  ⟨8, 9, by decide, by decide, by decide, by decide⟩


/-! ## highlight_gdb: the group of a match -/

/-- C21 at the failing input: in `#3  0x00007ffff7dd1083 in foo (src/b.c:22)` the match at
offset 0 is the one of `bt_num` (group 3, the only named group that is not empty) and the
loop over the name table gives it `HLG_PATH`; the match found from offset 22 is the one of
`filepath` (group 1) and the loop gives it `HLG_BT_LIST`.  The loop goes by the index of the
entry in the name table, which PCRE2 keeps in alphabetical order of the names. -/
theorem highlight_gdb_group_by_table_index :
    sample_highlighter.re frame_chunk 42 0
      = some [(0, 2), (PCRE2_UNSET, PCRE2_UNSET), (PCRE2_UNSET, PCRE2_UNSET), (0, 2),
          (PCRE2_UNSET, PCRE2_UNSET)] ∧
    name_table_loop sample_groups
        [(0, 2), (PCRE2_UNSET, PCRE2_UNSET), (PCRE2_UNSET, PCRE2_UNSET), (0, 2),
          (PCRE2_UNSET, PCRE2_UNSET)] sample_highlighter.name_table 0 none
      = some (some sample_groups.HLG_PATH) ∧
    sample_highlighter.re frame_chunk 42 22
      = some [(30, 42), (30, 42), (30, 42), (PCRE2_UNSET, PCRE2_UNSET),
          (PCRE2_UNSET, PCRE2_UNSET)] ∧
    name_table_loop sample_groups
        [(30, 42), (30, 42), (30, 42), (PCRE2_UNSET, PCRE2_UNSET),
          (PCRE2_UNSET, PCRE2_UNSET)] sample_highlighter.name_table 0 none
      = some (some sample_groups.HLG_BT_LIST) ∧
    sample_groups.HLG_PATH ≠ sample_groups.HLG_BT_LIST := by
  decide

/-! ## highlight: files that are not classified -/

theorem highlight_copy_spec (orig : List (List Nat)) :
    ∀ (n i : Nat), i + n ≤ orig.length →
      highlight_copy orig n i = some (((orig.drop i).take n).map strdup) := by
  intro n
  induction n with
  | zero => intro i _; simp [highlight_copy]
  | succ n ih =>
    intro i h
    have hi : i < orig.length := by omega
    rw [highlight_copy, List.getElem?_eq_getElem hi, ih (i + 1) (by omega)]
    simp only
    rw [List.drop_eq_getElem_cons hi, List.take_succ_cons, List.map_cons]

theorem map_strdup_id (lines : List (List Nat)) (h : ∀ l ∈ lines, 0 ∉ l) :
    lines.map strdup = lines := by
  induction lines with
  | nil => rfl
  | cons l ls ih =>
    rw [List.map_cons, ih (fun x hx => h x (List.mem_cons_of_mem _ hx)),
      strdup_id l (fun x hx e => h l (List.mem_cons_self _ _) (e ▸ hx))]

/-- C22: for a node whose language is `TOKENIZER_LANGUAGE_UNKNOWN` (with `orig_buf.length`
the number of lines of `orig_buf`, each a C string), `highlight` sets `buf.length` and
`buf.max_width` to those of `orig_buf` and makes the lines of `buf` equal to those of
`orig_buf`, leaves `orig_buf` as it is, and highlighting the node it leaves gives that same
node again. -/
theorem highlight_unknown_language (G : hl_group_kind) (K : tokenizer_kind)
    (node : list_node) (hlang : node.language = K.TOKENIZER_LANGUAGE_UNKNOWN)
    (hlen : node.orig_buf.length = node.orig_buf.tlines.length)
    (hnul : ∀ l ∈ node.orig_buf.tlines, 0 ∉ l) :
    ∃ node2, highlight G K node = some node2 ∧
      node2.buf.length = node.orig_buf.length ∧
      node2.buf.max_width = node.orig_buf.max_width ∧
      node2.buf.tlines = node.orig_buf.tlines ∧
      node2.orig_buf = node.orig_buf ∧ node2.language = node.language ∧
      highlight G K node2 = some node2 := by
  have hcopy : highlight_copy node.orig_buf.tlines node.orig_buf.length.toNat 0
      = some node.orig_buf.tlines := by
    rw [highlight_copy_spec _ _ _ (by rw [hlen]; simp), hlen]
    simp only [Int.toNat_ofNat, List.drop_zero, List.take_length]
    rw [map_strdup_id _ hnul]
  have h1 : highlight G K node = some { node with
      buf := { tlines := node.orig_buf.tlines
               length := node.orig_buf.length
               max_width := node.orig_buf.max_width } } := by
    unfold highlight
    rw [if_pos hlang, hcopy]
  refine ⟨_, h1, rfl, rfl, rfl, rfl, rfl, ?_⟩
  unfold highlight
  simp only
  rw [if_pos hlang, hcopy]

/-- Witness of C22: the sample file of two lines with language 0, the unknown one. -/
theorem highlight_unknown_language_witness :
    ∃ node2, highlight sample_groups sample_tokenizer (sample_node [97] 0) = some node2 ∧
      node2.buf.length = (sample_node [97] 0).orig_buf.length ∧
      node2.buf.max_width = (sample_node [97] 0).orig_buf.max_width ∧
      node2.buf.tlines = (sample_node [97] 0).orig_buf.tlines ∧
      node2.orig_buf = (sample_node [97] 0).orig_buf ∧
      node2.language = (sample_node [97] 0).language ∧
      highlight sample_groups sample_tokenizer node2 = some node2 :=
  highlight_unknown_language sample_groups sample_tokenizer (sample_node [97] 0) (by decide)
    (by decide) (by decide)

/-- C24 at the failing input: the sample file of two lines with a known language (1) and a
path for which `tokenizer_set_file` fails.  `highlight` leaves `node->buf` empty (length 0,
no lines), not a copy of the two lines of `orig_buf`; for the unknown language (0) the same
file gets the copy. -/
theorem highlight_tokenizer_failure :
    sample_tokenizer.tokenizer_set_file (sample_node [] 1).path (sample_node [] 1).language
      = none ∧
    (sample_node [] 1).language ≠ sample_tokenizer.TOKENIZER_LANGUAGE_UNKNOWN ∧
    highlight_node sample_groups sample_tokenizer (sample_node [] 1)
      = (-1, { sample_node [] 1 with buf := { tlines := [], length := 0, max_width := 0 } }) ∧
    highlight sample_groups sample_tokenizer (sample_node [] 1)
      = some { sample_node [] 1 with buf := { tlines := [], length := 0, max_width := 0 } } ∧
    (sample_node [] 1).orig_buf.tlines = [[105, 110, 116, 32, 120, 49, 59], [47, 47, 32, 99]] ∧
    highlight sample_groups sample_tokenizer (sample_node [] 0)
      = some { sample_node [] 0 with
          buf := { tlines := [[105, 110, 116, 32, 120, 49, 59], [47, 47, 32, 99]]
                   length := 2
                   max_width := 7 } } := by
  decide

/-! ## highlight_node: the lines it stores -/

theorem decode_loop_data (data rest : List Nat) (color : Nat) (h : HL_CHAR ∉ data) :
    decode_loop (data ++ rest) color = data.map (fun c => (c, color)) ++ decode_loop rest color := by
  induction data with
  | nil => rfl
  | cons x xs ih =>
    have hx : x ≠ HL_CHAR := fun e => h (by simp [e])
    rw [List.cons_append, decode_loop_text x hx, ih (fun m => h (List.mem_cons_of_mem _ m))]
    rfl

theorem decode_loop_span (g : Nat) (data rest : List Nat) (color : Nat) (h : HL_CHAR ∉ data) :
    decode_loop (HL_CHAR :: g :: (data ++ rest)) color
      = data.map (fun c => (c, g)) ++ decode_loop rest g := by
  rw [decode_loop_marker, decode_loop_data data rest g h]

theorem decode_loop_token_bytes (G : hl_group_kind) :
    ∀ (seg : List (tokenizer_type × List Nat)) (rest : List Nat),
      (∀ p ∈ seg, HL_CHAR ∉ p.2) →
      decode_loop (token_bytes G seg ++ rest) G.HLG_TEXT
        = token_cells G seg ++ decode_loop rest G.HLG_TEXT := by
  intro seg
  induction seg with
  | nil => intro rest _; rfl
  | cons p seg ih =>
    intro rest h
    obtain ⟨e, data⟩ := p
    have hd : HL_CHAR ∉ data := h (e, data) (List.mem_cons_self _ _)
    have ih2 := ih rest (fun q hq => h q (List.mem_cons_of_mem _ hq))
    have hmark : ∀ g, decode_loop
        (([HL_CHAR, g] ++ data ++ [HL_CHAR, G.HLG_TEXT]) ++ token_bytes G seg ++ rest)
          G.HLG_TEXT
        = data.map (fun c => (c, g)) ++ (token_cells G seg ++ decode_loop rest G.HLG_TEXT) := by
      intro g
      have e1 : ([HL_CHAR, g] ++ data ++ [HL_CHAR, G.HLG_TEXT]) ++ token_bytes G seg ++ rest
          = HL_CHAR :: g :: (data ++ (HL_CHAR :: G.HLG_TEXT :: (token_bytes G seg ++ rest))) := by
        simp
      rw [e1, decode_loop_span g data _ _ hd, decode_loop_marker, ih2]
    have hplain : decode_loop (data ++ token_bytes G seg ++ rest) G.HLG_TEXT
        = data.map (fun c => (c, G.HLG_TEXT))
          ++ (token_cells G seg ++ decode_loop rest G.HLG_TEXT) := by
      rw [List.append_assoc, decode_loop_data data _ _ hd, ih2]
    rw [token_bytes, token_cells]
    cases e <;> simp only [packet_bytes, token_group, List.append_assoc] <;>
      first
        | (simpa only [List.append_assoc] using hmark _)
        | (simpa only [List.append_assoc] using hplain)

theorem token_bytes_append (G : hl_group_kind) (a b : List (tokenizer_type × List Nat)) :
    token_bytes G (a ++ b) = token_bytes G a ++ token_bytes G b := by
  induction a with
  | nil => rfl
  | cons p a ih =>
    obtain ⟨e, data⟩ := p
    rw [List.cons_append, token_bytes, token_bytes, ih, List.append_assoc]

theorem token_bytes_ne_zero (G : hl_group_kind) (hG : 0 ∉ G.ids) :
    ∀ (seg : List (tokenizer_type × List Nat)), (∀ p ∈ seg, 0 ∉ p.2) →
      ∀ x ∈ token_bytes G seg, x ≠ 0 := by
  have hK : G.HLG_KEYWORD ≠ 0 := fun e => hG (by simp [hl_group_kind.ids, e])
  have hTy : G.HLG_TYPE ≠ 0 := fun e => hG (by simp [hl_group_kind.ids, e])
  have hL : G.HLG_LITERAL ≠ 0 := fun e => hG (by simp [hl_group_kind.ids, e])
  have hC : G.HLG_COMMENT ≠ 0 := fun e => hG (by simp [hl_group_kind.ids, e])
  have hD : G.HLG_DIRECTIVE ≠ 0 := fun e => hG (by simp [hl_group_kind.ids, e])
  have hT : G.HLG_TEXT ≠ 0 := fun e => hG (by simp [hl_group_kind.ids, e])
  have hM : HL_CHAR ≠ 0 := by decide
  intro seg
  induction seg with
  | nil => intro _ x hx; simp [token_bytes] at hx
  | cons p seg ih =>
    intro h x hx
    obtain ⟨e, data⟩ := p
    have hd : ∀ y ∈ data, y ≠ 0 := fun y hy e0 =>
      h (e, data) (List.mem_cons_self _ _) (e0 ▸ hy)
    have ih2 := ih (fun q hq => h q (List.mem_cons_of_mem _ hq))
    rw [token_bytes, List.mem_append] at hx
    rcases hx with hx | hx
    · cases e <;>
        simp only [packet_bytes, List.mem_append, List.mem_cons, List.mem_singleton,
          List.not_mem_nil, or_false] at hx <;>
        first
          | exact hd x hx
          | (rcases hx with ((e1 | e1) | hx) | (e1 | e1)
             · rw [e1]; exact hM
             · rw [e1]; assumption
             · exact hd x hx
             · rw [e1]; exact hM
             · rw [e1]; exact hT)
    · exact ih2 x hx

theorem token_lines_mem :
    ∀ (packets cur : List (tokenizer_type × List Nat)),
      ∀ seg ∈ token_lines cur packets, ∀ p ∈ seg, p ∈ cur ∨ p ∈ packets := by
  intro packets
  induction packets with
  | nil => intro cur seg h; simp [token_lines] at h
  | cons q packets ih =>
    intro cur seg h p hp
    obtain ⟨e, data⟩ := q
    rw [token_lines] at h
    by_cases he : e = .TOKENIZER_NEWLINE
    · rw [if_pos he] at h
      rcases List.mem_cons.mp h with h1 | h1
      · left; rw [h1] at hp; exact hp
      · rcases ih [] seg h1 p hp with h2 | h2
        · simp at h2
        · right; exact List.mem_cons_of_mem _ h2
    · rw [if_neg he] at h
      rcases ih _ seg h p hp with h2 | h2
      · rcases List.mem_append.mp h2 with h3 | h3
        · left; exact h3
        · right; simp only [List.mem_singleton] at h3; rw [h3]; exact List.mem_cons_self _ _
      · right; exact List.mem_cons_of_mem _ h2

theorem highlight_node_loop_spec (G : hl_group_kind) (hG : 0 ∉ G.ids) :
    ∀ (packets cur : List (tokenizer_type × List Nat)) (buf : buffer),
      (∀ p ∈ packets, p.1 ≠ .TOKENIZER_OTHER) → (∀ p ∈ packets, 0 ∉ p.2) →
      (∀ p ∈ cur, 0 ∉ p.2) →
      (highlight_node_loop G packets (HL_CHAR :: G.HLG_TEXT :: token_bytes G cur) buf).1 = 0 ∧
      (highlight_node_loop G packets (HL_CHAR :: G.HLG_TEXT :: token_bytes G cur) buf).2.tlines
        = buf.tlines ++ (token_lines cur packets).map
            (fun seg => HL_CHAR :: G.HLG_TEXT :: token_bytes G seg) ∧
      (highlight_node_loop G packets (HL_CHAR :: G.HLG_TEXT :: token_bytes G cur) buf).2.length
        = buf.length + (token_lines cur packets).length := by
  have hT : G.HLG_TEXT ≠ 0 := fun e => hG (by simp [hl_group_kind.ids, e])
  intro packets
  induction packets with
  | nil =>
    intro cur buf _ _ _
    simp [highlight_node_loop, token_lines]
  | cons q packets ih =>
    intro cur buf hk h0 hc
    obtain ⟨e, data⟩ := q
    have hk2 : ∀ p ∈ packets, p.1 ≠ .TOKENIZER_OTHER :=
      fun p hp => hk p (List.mem_cons_of_mem _ hp)
    have h02 : ∀ p ∈ packets, 0 ∉ p.2 := fun p hp => h0 p (List.mem_cons_of_mem _ hp)
    have hd : 0 ∉ data := h0 (e, data) (List.mem_cons_self _ _)
    have hc2 : ∀ p ∈ cur ++ [(e, data)], 0 ∉ p.2 := by
      intro p hp
      rcases List.mem_append.mp hp with h1 | h1
      · exact hc p h1
      · simp only [List.mem_singleton] at h1; rw [h1]; exact hd
    have hstep : ∀ (bytes : List Nat), token_bytes G [(e, data)] = bytes →
        e ≠ .TOKENIZER_NEWLINE →
        highlight_node_loop G packets
            (HL_CHAR :: G.HLG_TEXT :: token_bytes G cur ++ bytes) buf
          = highlight_node_loop G packets
            (HL_CHAR :: G.HLG_TEXT :: token_bytes G (cur ++ [(e, data)])) buf := by
      intro bytes hb _
      rw [token_bytes_append, hb]
      simp
    have hrec := ih (cur ++ [(e, data)]) buf hk2 h02 hc2
    cases e with
    | TOKENIZER_OTHER => exact absurd rfl (hk (_, data) (List.mem_cons_self _ _))
    | TOKENIZER_NEWLINE =>
      rw [highlight_node_loop]
      have hline : strdup (HL_CHAR :: G.HLG_TEXT :: token_bytes G cur)
          = HL_CHAR :: G.HLG_TEXT :: token_bytes G cur := by
        apply strdup_id
        intro x hx
        rcases List.mem_cons.mp hx with e1 | hx
        · rw [e1]; decide
        · rcases List.mem_cons.mp hx with e1 | hx
          · rw [e1]; exact hT
          · exact token_bytes_ne_zero G hG cur hc x hx
      have hrec2 := ih [] { tlines := buf.tlines ++ [strdup (HL_CHAR :: G.HLG_TEXT :: token_bytes G cur)]
                            length := buf.length + 1
                            max_width := if ((HL_CHAR :: G.HLG_TEXT :: token_bytes G cur).length : Int)
                                > buf.max_width
                              then (HL_CHAR :: G.HLG_TEXT :: token_bytes G cur).length
                              else buf.max_width } hk2 h02 (by simp)
      simp only [token_bytes] at hrec2
      obtain ⟨r1, r2, r3⟩ := hrec2
      refine ⟨r1, ?_, ?_⟩
      · rw [r2, hline, token_lines, if_pos rfl]
        simp
      · rw [r3, token_lines, if_pos rfl]
        simp only [List.length_cons]
        push_cast
        omega
    | TOKENIZER_KEYWORD =>
      rw [highlight_node_loop, token_lines, if_neg (by decide)]
      have := hstep _ rfl (by decide)
      simp only [token_bytes, packet_bytes, List.append_nil, List.append_assoc, List.cons_append] at this ⊢
      rw [this]; exact hrec
    | TOKENIZER_TYPE =>
      rw [highlight_node_loop, token_lines, if_neg (by decide)]
      have := hstep _ rfl (by decide)
      simp only [token_bytes, packet_bytes, List.append_nil, List.append_assoc, List.cons_append] at this ⊢
      rw [this]; exact hrec
    | TOKENIZER_LITERAL =>
      rw [highlight_node_loop, token_lines, if_neg (by decide)]
      have := hstep _ rfl (by decide)
      simp only [token_bytes, packet_bytes, List.append_nil, List.append_assoc, List.cons_append] at this ⊢
      rw [this]; exact hrec
    | TOKENIZER_NUMBER =>
      rw [highlight_node_loop, token_lines, if_neg (by decide)]
      have := hstep _ rfl (by decide)
      simp only [token_bytes, packet_bytes, List.append_nil, List.append_assoc, List.cons_append] at this ⊢
      rw [this]; exact hrec
    | TOKENIZER_COMMENT =>
      rw [highlight_node_loop, token_lines, if_neg (by decide)]
      have := hstep _ rfl (by decide)
      simp only [token_bytes, packet_bytes, List.append_nil, List.append_assoc, List.cons_append] at this ⊢
      rw [this]; exact hrec
    | TOKENIZER_DIRECTIVE =>
      rw [highlight_node_loop, token_lines, if_neg (by decide)]
      have := hstep _ rfl (by decide)
      simp only [token_bytes, packet_bytes, List.append_nil, List.append_assoc, List.cons_append] at this ⊢
      rw [this]; exact hrec
    | TOKENIZER_TEXT =>
      rw [highlight_node_loop, token_lines, if_neg (by decide)]
      have := hstep _ rfl (by decide)
      simp only [token_bytes, packet_bytes, List.append_nil, List.append_assoc, List.cons_append] at this ⊢
      rw [this]; exact hrec
    | TOKENIZER_ERROR =>
      rw [highlight_node_loop, token_lines, if_neg (by decide)]
      have := hstep _ rfl (by decide)
      simp only [token_bytes, packet_bytes, List.append_nil, List.append_assoc, List.cons_append] at this ⊢
      rw [this]; exact hrec

/-- C23: when the tokenizer opens the file and hands out packets of known kinds whose texts
hold neither the marker byte nor NUL (and no group id is NUL), `highlight_node` returns 0
and stores one line for each newline packet; every line starts with the directive
`HL_CHAR HLG_TEXT`, and it decodes to the texts of the packets between the surrounding
newline packets, the bytes of a keyword, type, literal, comment or directive packet in the
group of that name and the bytes of number, text and error packets in group Text; its
stripped text is the concatenation of those texts. -/
theorem highlight_node_lines (G : hl_group_kind) (K : tokenizer_kind) (node : list_node)
    (packets : List (tokenizer_type × List Nat))
    (hset : K.tokenizer_set_file node.path node.language = some packets)
    (hknown : ∀ p ∈ packets, p.1 ≠ .TOKENIZER_OTHER)
    (htext : ∀ p ∈ packets, HL_CHAR ∉ p.2 ∧ 0 ∉ p.2) (hG : 0 ∉ G.ids) :
    (highlight_node G K node).1 = 0 ∧
    (highlight_node G K node).2.buf.length = (token_lines [] packets).length ∧
    (highlight_node G K node).2.buf.tlines.length = (token_lines [] packets).length ∧
    (highlight_node G K node).2.buf.tlines.map (decode G)
      = (token_lines [] packets).map (token_cells G) ∧
    (highlight_node G K node).2.buf.tlines.map strip
      = (token_lines [] packets).map (fun seg => (token_cells G seg).map Prod.fst) ∧
    ∀ line ∈ (highlight_node G K node).2.buf.tlines, line.take 2 = [HL_CHAR, G.HLG_TEXT] := by
  obtain ⟨r1, r2, r3⟩ := highlight_node_loop_spec G hG packets []
    { tlines := [], length := 0, max_width := 0 } hknown (fun p hp => (htext p hp).2)
    (by simp)
  simp only [token_bytes, List.nil_append, Int.zero_add] at r1 r2 r3
  have hdec : ∀ seg ∈ token_lines [] packets,
      decode G (HL_CHAR :: G.HLG_TEXT :: token_bytes G seg) = token_cells G seg := by
    intro seg hseg
    have hs : ∀ p ∈ seg, HL_CHAR ∉ p.2 := by
      intro p hp
      rcases token_lines_mem packets [] seg hseg p hp with h | h
      · simp at h
      · exact (htext p h).1
    unfold decode
    rw [decode_loop_marker]
    have := decode_loop_token_bytes G seg [] hs
    simpa [decode_loop] using this
  have hmap : (highlight_node G K node).2.buf.tlines.map (decode G)
      = (token_lines [] packets).map (token_cells G) := by
    unfold highlight_node
    simp only [hset]
    rw [r2, List.map_map]
    exact List.map_congr_left (fun seg hseg => hdec seg hseg)
  have hwf : ∀ seg : List (tokenizer_type × List Nat),
      (HL_CHAR :: G.HLG_TEXT :: token_bytes G seg).take 2 = [HL_CHAR, G.HLG_TEXT] := by
    intro seg; rfl
  refine ⟨?_, ?_, ?_, hmap, ?_, ?_⟩
  · unfold highlight_node
    simp only [hset]
    exact r1
  · unfold highlight_node
    simp only [hset]
    exact r3
  · unfold highlight_node
    simp only [hset]
    rw [r2, List.length_map]
  · unfold highlight_node
    simp only [hset]
    rw [r2, List.map_map]
    apply List.map_congr_left
    intro seg hseg
    have hs : ∀ p ∈ seg, HL_CHAR ∉ p.2 := by
      intro p hp
      rcases token_lines_mem packets [] seg hseg p hp with h | h
      · simp at h
      · exact (htext p h).1
    simp only [Function.comp]
    rw [strip_marker]
    clear hseg
    induction seg with
    | nil => rfl
    | cons p seg ih =>
      obtain ⟨e, data⟩ := p
      have hd : HL_CHAR ∉ data := hs (e, data) (List.mem_cons_self _ _)
      have ih2 := ih (fun q hq => hs q (List.mem_cons_of_mem _ hq))
      have hplain : strip (data ++ token_bytes G seg)
          = data ++ strip (token_bytes G seg) := by
        have := strip_span 0 data (token_bytes G seg) hd
        rwa [strip_marker] at this
      have hfst : ∀ (g : Nat) (d : List Nat),
          List.map Prod.fst (List.map (fun c => (c, g)) d) = d := by
        intro g d
        induction d with
        | nil => rfl
        | cons x xs ihd => rw [List.map_cons, List.map_cons, ihd]
      rw [token_bytes, token_cells, List.map_append, hfst, ← ih2]
      cases e <;> simp only [packet_bytes, List.append_assoc, List.cons_append,
        List.nil_append] <;>
        first
          | exact hplain
          | (rw [strip_span _ _ _ hd, strip_marker])
  · intro line hline
    unfold highlight_node at hline
    simp only [hset] at hline
    rw [r2, List.mem_map] at hline
    obtain ⟨seg, _, hs⟩ := hline
    rw [← hs]
    exact hwf seg

/-- Witness of C23: the sample file, whose packets are a type, text, a number, text, a
newline, a comment and a newline; the two lines stored are shown with their cells. -/
theorem highlight_node_lines_witness :
    ((highlight_node sample_groups sample_tokenizer (sample_node [97] 1)).1 = 0 ∧
      (highlight_node sample_groups sample_tokenizer (sample_node [97] 1)).2.buf.length = 2 ∧
      (highlight_node sample_groups sample_tokenizer (sample_node [97] 1)).2.buf.tlines
        = [[127, 6, 127, 2, 105, 110, 116, 127, 6, 32, 120, 49, 59],
           [127, 6, 127, 4, 47, 47, 32, 99, 127, 6]] ∧
      (highlight_node sample_groups sample_tokenizer (sample_node [97] 1)).2.buf.tlines.map
          (decode sample_groups)
        = [[(105, 2), (110, 2), (116, 2), (32, 6), (120, 6), (49, 6), (59, 6)],
           [(47, 4), (47, 4), (32, 4), (99, 4)]]) ∧
    ((highlight_node sample_groups sample_tokenizer (sample_node [97] 1)).1 = 0 ∧
      (highlight_node sample_groups sample_tokenizer (sample_node [97] 1)).2.buf.length
        = (token_lines [] [(.TOKENIZER_TYPE, [105, 110, 116]), (.TOKENIZER_TEXT, [32, 120]),
            (.TOKENIZER_NUMBER, [49]), (.TOKENIZER_TEXT, [59]), (.TOKENIZER_NEWLINE, [10]),
            (.TOKENIZER_COMMENT, [47, 47, 32, 99]), (.TOKENIZER_NEWLINE, [10])]).length) :=
  ⟨by decide,
    let h := highlight_node_lines sample_groups sample_tokenizer (sample_node [97] 1)
      [(.TOKENIZER_TYPE, [105, 110, 116]), (.TOKENIZER_TEXT, [32, 120]),
        (.TOKENIZER_NUMBER, [49]), (.TOKENIZER_TEXT, [59]), (.TOKENIZER_NEWLINE, [10]),
        (.TOKENIZER_COMMENT, [47, 47, 32, 99]), (.TOKENIZER_NEWLINE, [10])]
      (by decide) (by decide) (by decide) (by decide)
    ⟨h.1, h.2.1⟩⟩


/-! ## hl_wprintw: the styles of the cells -/

theorem take_fill {α : Type} (a : α) (xs : List α) (n N : Nat) (h : n ≤ N) :
    (xs ++ List.replicate N a).take n = (xs ++ List.replicate n a).take n := by
  rw [List.take_append_eq_append_take, List.take_append_eq_append_take, List.take_replicate,
    List.take_replicate]
  congr 2
  omega

theorem take_rep_append {α : Type} (b : α) (k m : Nat) (ys : List α) :
    (List.replicate k b ++ ys).take (k + m) = List.replicate k b ++ ys.take m := by
  rw [List.take_append_eq_append_take, List.take_replicate, List.length_replicate]
  congr 2
  · omega
  · omega

theorem take_rep_short {α : Type} (b : α) (k m : Nat) (ys : List α) (h : m ≤ k) :
    (List.replicate k b ++ ys).take m = List.replicate m b := by
  rw [List.take_append_eq_append_take, List.take_replicate, List.length_replicate]
  have : m - k = 0 := by omega
  rw [this, List.take_zero, List.append_nil]
  congr 1
  omega

theorem drop_rep_append_le {α : Type} (b : α) (k d : Nat) (ys : List α) (h : d ≤ k) :
    (List.replicate k b ++ ys).drop d = List.replicate (k - d) b ++ ys := by
  rw [List.drop_append_eq_append_drop, List.drop_replicate, List.length_replicate]
  have : d - k = 0 := by omega
  rw [this, List.drop_zero]

theorem drop_rep_append_ge {α : Type} (b : α) (k d : Nat) (ys : List α) (h : k ≤ d) :
    (List.replicate k b ++ ys).drop d = ys.drop (d - k) := by
  rw [List.drop_append_eq_append_drop, List.drop_replicate, List.length_replicate]
  have : k - d = 0 := by omega
  rw [this]
  simp

theorem styled_cells_tab (get_attr : Nat → Option Nat) (T offset c g : Nat)
    (r : List (Nat × Nat)) :
    styled_cells get_attr T offset c ((9, g) :: r)
      = List.replicate (T - c % T) (32, if c < offset then none else get_attr g) ++
        styled_cells get_attr T offset (c + (T - c % T)) r := by
  simp [styled_cells]

theorem styled_cells_char (get_attr : Nat → Option Nat) (T offset c ch g : Nat) (hch : ch ≠ 9)
    (r : List (Nat × Nat)) :
    styled_cells get_attr T offset c ((ch, g) :: r)
      = (ch, if c < offset then none else get_attr g) ::
        styled_cells get_attr T offset (c + 1) r := by
  simp [styled_cells, hch]

theorem wprintw_main_cells (G : hl_group_kind) (get_attr : Nat → Option Nat)
    (tabstop offset width : Nat) (hT : 0 < tabstop) (hattr : ∀ c, get_attr c ≠ none) :
    ∀ (n : Nat) (l : List Nat), l.length ≤ n → well_formed G l = true →
      ∀ (p color attr : Nat), p ≤ width → get_attr color = some attr →
        wprintw_main get_attr tabstop offset width l p attr
          = (styled_cells get_attr tabstop offset (p + offset) (decode_loop l color)
              ++ List.replicate (width - p) (32, none)).take (width - p) := by
  intro n
  induction n with
  | zero =>
    intro l hl _ p color attr _ _
    have : l = [] := List.length_eq_zero.mp (Nat.le_zero.mp hl)
    subst this
    simp [wprintw_main, decode_loop, styled_cells]
  | succ n ih =>
    intro l hl hwf p color attr hp hca
    match l, hl, hwf with
    | [], _, _ => simp [wprintw_main, decode_loop, styled_cells]
    | c :: rest, hl, hwf =>
      have hr : rest.length ≤ n := by simp at hl; omega
      have hno : ¬ p + offset < offset := by omega
      rw [wprintw_main.eq_def]
      simp only
      by_cases hpw : p < width
      · rw [if_pos hpw]
        by_cases hc : c = HL_CHAR
        · subst hc
          rw [if_pos rfl]
          match rest, hr, hwf with
          | [], _, hwf => simp [well_formed] at hwf
          | g :: r, hr, hwf =>
            simp only [well_formed_marker, Bool.and_eq_true, decide_eq_true_eq] at hwf
            simp only
            cases hg : get_attr g with
            | none => exact absurd hg (hattr g)
            | some a =>
              simp only
              rw [decode_loop_marker]
              exact ih r (by simp at hr; omega) hwf.2 p g a hp hg
        · rw [if_neg hc]
          have hwf2 : well_formed G rest = true := by rwa [well_formed_text G c hc] at hwf
          rw [decode_loop_text c hc]
          by_cases ht : c = 9
          · subst ht
            rw [if_pos rfl, wprintw_tab_exact tabstop offset width hT (width - p) p (by omega)
              (by omega), styled_cells_tab, if_neg hno, hca, Nat.add_sub_cancel_left]
            by_cases hk : tabstop - (p + offset) % tabstop ≤ width - p
            · rw [Nat.min_eq_left hk, ih rest hr hwf2 _ color attr (by omega) hca]
              have e1 : p + (tabstop - (p + offset) % tabstop) + offset
                  = p + offset + (tabstop - (p + offset) % tabstop) := by omega
              have e2 : width - p = (tabstop - (p + offset) % tabstop)
                  + (width - (p + (tabstop - (p + offset) % tabstop))) := by omega
              rw [e1, List.append_assoc]
              conv_rhs => rw [e2, take_rep_append]
              rw [← e2, take_fill _ _ _ (width - p) (by omega)]
            · rw [Nat.min_eq_right (by omega)]
              have e3 : p + (width - p) = width := by omega
              rw [e3, ih rest hr hwf2 width color attr le_rfl hca, List.append_assoc,
                take_rep_short _ _ _ _ (by omega)]
              simp
          · rw [if_neg ht, styled_cells_char _ _ _ _ _ _ ht, if_neg hno, hca,
              ih rest hr hwf2 (p + 1) color attr (by omega) hca]
            have e1 : p + 1 + offset = p + offset + 1 := by omega
            have e2 : width - p = (width - (p + 1)) + 1 := by omega
            rw [e1]
            conv_rhs => rw [List.cons_append, e2, List.take_succ_cons]
            rw [← e2, take_fill _ _ _ (width - p) (by omega)]
      · rw [if_neg hpw]
        have : width - p = 0 := by omega
        simp [this]

theorem wprintw_skip_cells (G : hl_group_kind) (get_attr : Nat → Option Nat)
    (tabstop offset : Nat) :
    ∀ (n : Nat) (l : List Nat), l.length ≤ n → well_formed G l = true →
      ∀ (j color : Nat), j ≤ offset →
        (styled_cells get_attr tabstop offset j (decode_loop l color)).drop (offset - j)
          = List.replicate ((wprintw_skip tabstop offset l j color).2.1 - offset) (32, none)
            ++ styled_cells get_attr tabstop offset (wprintw_skip tabstop offset l j color).2.1
              (decode_loop (wprintw_skip tabstop offset l j color).1
                (wprintw_skip tabstop offset l j color).2.2) := by
  intro n
  induction n with
  | zero =>
    intro l hl _ j color hj
    have : l = [] := List.length_eq_zero.mp (Nat.le_zero.mp hl)
    subst this
    have : j - offset = 0 := by omega
    simp [wprintw_skip, decode_loop, styled_cells, this]
  | succ n ih =>
    intro l hl hwf j color hj
    match l, hl, hwf with
    | [], _, _ =>
      have : j - offset = 0 := by omega
      simp [wprintw_skip, decode_loop, styled_cells, this]
    | c :: rest, hl, hwf =>
      have hr : rest.length ≤ n := by simp at hl; omega
      by_cases hlt : j < offset
      · by_cases hc : c = HL_CHAR
        · subst hc
          match rest, hr, hwf with
          | [], _, hwf => simp [well_formed] at hwf
          | g :: r, hr, hwf =>
            simp only [well_formed_marker, Bool.and_eq_true, decide_eq_true_eq] at hwf
            have e : wprintw_skip tabstop offset (HL_CHAR :: g :: r) j color
                = wprintw_skip tabstop offset r j g := by
              rw [wprintw_skip.eq_def]
              simp only [hlt, if_true]
            rw [e, decode_loop_marker]
            exact ih r (by simp at hr; omega) hwf.2 j g hj
        · have hwf2 : well_formed G rest = true := by rwa [well_formed_text G c hc] at hwf
          rw [decode_loop_text c hc]
          by_cases ht : c = 9
          · subst ht
            have e : wprintw_skip tabstop offset (9 :: rest) j color
                = wprintw_skip tabstop offset rest (j + (tabstop - j % tabstop)) color := by
              rw [wprintw_skip.eq_def]
              simp only [hlt, if_true, hc, if_false]
            rw [e, styled_cells_tab, if_pos hlt]
            by_cases hj2 : j + (tabstop - j % tabstop) ≤ offset
            · have c' := ih rest hr hwf2 (j + (tabstop - j % tabstop)) color hj2
              rw [drop_rep_append_ge _ _ _ _ (by omega), ← c']
              congr 1
              omega
            · rw [wprintw_skip_stop tabstop offset rest _ color (by omega)]
              simp only
              rw [drop_rep_append_le _ _ _ _ (by omega)]
              congr 2
              omega
          · have e : wprintw_skip tabstop offset (c :: rest) j color
                = wprintw_skip tabstop offset rest (j + 1) color := by
              rw [wprintw_skip.eq_def]
              simp only [hlt, if_true, hc, ht, if_false]
            have c' := ih rest hr hwf2 (j + 1) color (by omega)
            rw [e, styled_cells_char _ _ _ _ _ _ ht]
            have e2 : offset - j = (offset - (j + 1)) + 1 := by omega
            rw [e2, List.drop_succ_cons, ← c']
      · have hjo : j = offset := by omega
        rw [wprintw_skip_stop tabstop offset _ j color (by omega)]
        simp [hjo]

theorem hl_wprintw_cells (G : hl_group_kind) (get_attr : Nat → Option Nat) (tabstop : Nat)
    (line : List Nat) (width offset : Nat) (hwf : well_formed G line = true)
    (hT : 0 < tabstop) (hattr : ∀ c, get_attr c ≠ none) :
    hl_wprintw G get_attr tabstop line width offset
      = (line_cells G get_attr tabstop line offset
          ++ List.replicate width (32, none)).take width := by
  obtain ⟨swf, sempty, _⟩ := wprintw_skip_spec G tabstop offset line.length line le_rfl hwf
    0 G.HLG_TEXT (Nat.zero_le _)
  have sdrop := wprintw_skip_cells G get_attr tabstop offset line.length line le_rfl hwf
    0 G.HLG_TEXT (Nat.zero_le _)
  unfold hl_wprintw line_cells decode
  simp only [Nat.sub_zero] at sdrop ⊢
  generalize wprintw_skip tabstop offset line 0 G.HLG_TEXT = sk at swf sempty sdrop ⊢
  obtain ⟨l', j', color'⟩ := sk
  simp only at swf sempty sdrop ⊢
  cases hg : get_attr color' with
  | none => exact absurd hg (hattr _)
  | some a =>
    simp only
    rw [wprintw_main_cells G get_attr tabstop offset width hT hattr l'.length l' le_rfl swf _
        color' a (Nat.min_le_right _ _) hg, sdrop, List.append_assoc]
    by_cases hp : j' - offset ≤ width
    · rw [Nat.min_eq_left hp]
      have hE : styled_cells get_attr tabstop offset (j' - offset + offset)
            (decode_loop l' color')
          = styled_cells get_attr tabstop offset j' (decode_loop l' color') := by
        by_cases hjo : j' < offset
        · rw [sempty hjo]; simp [decode_loop, styled_cells]
        · congr 1; omega
      have e2 : width = (j' - offset) + (width - (j' - offset)) := by omega
      rw [hE]
      conv_rhs => rw [e2, take_rep_append]
      rw [← e2, take_fill _ _ _ width (by omega)]
    · rw [Nat.min_eq_right (by omega), take_rep_short _ _ _ _ (by omega)]
      simp

/-- C29 as stated fails: with tab stop 8 and offset 3, the tab that opens the line `<tab>a`
straddles the offset; its five remaining blanks are drawn before any style is switched on,
although the tab lies in group Text (6), whose style the sample lookup gives as 106 and in
which the `a` after it is drawn. -/
theorem hl_wprintw_straddling_tab_unstyled :
    hl_wprintw sample_groups (fun c => some (c + 100)) 8 [9, 97] 8 3
      = [(32, none), (32, none), (32, none), (32, none), (32, none), (97, some 106),
          (32, none), (32, none)] ∧
    decode sample_groups [9, 97] = [(9, 6), (97, 6)] := by
  decide

/-- C29, amended: for a well-formed line, a positive tab stop and a style lookup that
succeeds, each cell that `hl_wprintw` draws for a byte of the line (a character, or a blank
of an expanded tab) that starts at or after column `offset` is drawn while the style of the
group active at that byte in the full line is switched on, directives in the skipped region
included; the blanks of a tab that starts before `offset` and straddles it are drawn with no
style switched on. -/
theorem hl_wprintw_styles (G : hl_group_kind) (get_attr : Nat → Option Nat) (tabstop : Nat)
    (line : List Nat) (width offset : Nat) (hwf : well_formed G line = true)
    (hT : 0 < tabstop) (hattr : ∀ c, get_attr c ≠ none) :
    (hl_wprintw G get_attr tabstop line width offset).take
        (line_cells G get_attr tabstop line offset).length
      = (line_cells G get_attr tabstop line offset).take width := by
  rw [hl_wprintw_cells G get_attr tabstop line width offset hwf hT hattr, List.take_take]
  by_cases h : (line_cells G get_attr tabstop line offset).length ≤ width
  · rw [Nat.min_eq_left h, List.take_left, List.take_of_length_le h]
  · rw [Nat.min_eq_right (by omega), List.take_append_of_le_length (by omega)]

/-- Witness of C29 (amended): a line with a directive in the skipped region and a tab that
straddles offset 3; the cells of `c`, of the second tab and of `d` carry the style of group
Keyword (101), the blanks of the first tab none. -/
theorem hl_wprintw_styles_witness :
    (hl_wprintw sample_groups (fun c => some (c + 100)) 8
        [127, 6, 97, 98, 9, 127, 1, 99, 9, 100] 20 3).take
        (line_cells sample_groups (fun c => some (c + 100)) 8
          [127, 6, 97, 98, 9, 127, 1, 99, 9, 100] 3).length
      = (line_cells sample_groups (fun c => some (c + 100)) 8
          [127, 6, 97, 98, 9, 127, 1, 99, 9, 100] 3).take 20 ∧
    line_cells sample_groups (fun c => some (c + 100)) 8
        [127, 6, 97, 98, 9, 127, 1, 99, 9, 100] 3
      = [(32, none), (32, none), (32, none), (32, none), (32, none), (99, some 101),
          (32, some 101), (32, some 101), (32, some 101), (32, some 101), (32, some 101),
          (32, some 101), (32, some 101), (100, some 101)] :=
  ⟨hl_wprintw_styles sample_groups (fun c => some (c + 100)) 8
      [127, 6, 97, 98, 9, 127, 1, 99, 9, 100] 20 3 (by decide) (by decide)
      (by intro c; simp), by decide⟩

/-! ## hl_wprintw: the trailing pad -/

/-- C30 as stated fails: the line `HL_CHAR HLG_KEYWORD a` drawn 3 cells wide ends in group
Keyword, whose style (101 in the sample lookup) is on for the `a`; the two blanks that fill
the width are drawn after `wattroff`, with no style switched on. -/
theorem hl_wprintw_trailing_pad_unstyled :
    hl_wprintw sample_groups (fun c => some (c + 100)) 8 [127, 1, 97] 3 0
      = [(97, some 101), (32, none), (32, none)] ∧
    decode sample_groups [127, 1, 97] = [(97, 1)] := by
  decide

/-- C30, amended: for a well-formed line, a positive tab stop and a style lookup that
succeeds, whenever the line ends before `width` cells have been produced, the cells that
`hl_wprintw` adds to reach `width` are blanks drawn after the line's final style has been
switched off, with no style switched on. -/
theorem hl_wprintw_trailing_pad (G : hl_group_kind) (get_attr : Nat → Option Nat)
    (tabstop : Nat) (line : List Nat) (width offset : Nat)
    (hwf : well_formed G line = true) (hT : 0 < tabstop) (hattr : ∀ c, get_attr c ≠ none) :
    (hl_wprintw G get_attr tabstop line width offset).drop
        (line_cells G get_attr tabstop line offset).length
      = List.replicate (width - (line_cells G get_attr tabstop line offset).length)
          (32, none) := by
  rw [hl_wprintw_cells G get_attr tabstop line width offset hwf hT hattr, List.drop_take,
    List.drop_left, List.take_replicate]
  congr 1
  omega

/-- Witness of C30 (amended): the line `ab` in group Keyword drawn 6 cells wide from
column 1. -/
theorem hl_wprintw_trailing_pad_witness :
    (hl_wprintw sample_groups (fun c => some (c + 100)) 8 [127, 1, 97, 98] 6 1).drop
        (line_cells sample_groups (fun c => some (c + 100)) 8 [127, 1, 97, 98] 1).length
      = List.replicate
          (6 - (line_cells sample_groups (fun c => some (c + 100)) 8 [127, 1, 97, 98] 1).length)
          (32, none) ∧
    hl_wprintw sample_groups (fun c => some (c + 100)) 8 [127, 1, 97, 98] 6 1
      = [(98, some 101), (32, none), (32, none), (32, none), (32, none), (32, none)] :=
  ⟨hl_wprintw_trailing_pad sample_groups (fun c => some (c + 100)) 8 [127, 1, 97, 98] 6 1
      (by decide) (by decide) (by intro c; simp), by decide⟩


/-! ## parse: the array and the string it holds -/

theorem put_length (s : List Nat) (i c : Nat) (hi : i ≤ s.length) :
    (put s i c).length = max s.length (i + 1) := by
  unfold put
  by_cases h : i < s.length
  · rw [if_pos h, List.length_set]; omega
  · rw [if_neg h, List.length_append, List.length_singleton]; omega

theorem put_mem (s : List Nat) (i c x : Nat) (hx : x ∈ put s i c) : x ∈ s ∨ x = c := by
  unfold put at hx
  by_cases h : i < s.length
  · rw [if_pos h] at hx
    rcases List.mem_or_eq_of_mem_set hx with h1 | h1
    · exact Or.inl h1
    · exact Or.inr h1
  · rw [if_neg h] at hx
    rcases List.mem_append.mp hx with h1 | h1
    · exact Or.inl h1
    · exact Or.inr (List.mem_singleton.mp h1)

theorem put_getElem?_lt (s : List Nat) (i c k : Nat) (hi : i ≤ s.length) (hk : k < i) :
    (put s i c)[k]? = s[k]? := by
  unfold put
  by_cases h : i < s.length
  · rw [if_pos h, List.getElem?_set_ne (by omega)]
  · rw [if_neg h, List.getElem?_append_left (by omega)]

theorem put_getElem?_eq (s : List Nat) (i c : Nat) (hi : i ≤ s.length) :
    (put s i c)[i]? = some c := by
  unfold put
  by_cases h : i < s.length
  · rw [if_pos h, List.getElem?_set_self h]
  · rw [if_neg h]
    have : i = s.length := by omega
    subst this
    simp

theorem set_pad (s : List Nat) (m i c : Nat) (hi : i ≤ s.length) (hm : 1 ≤ m) :
    (s ++ List.replicate m 0).set i c
      = put s i c ++ List.replicate (m - ((put s i c).length - s.length)) 0 := by
  unfold put
  by_cases h : i < s.length
  · rw [if_pos h, List.set_append_left _ _ h, List.length_set]
    simp
  · rw [if_neg h]
    have : i = s.length := by omega
    subst this
    obtain ⟨m2, rfl⟩ : ∃ m2, m = m2 + 1 := ⟨m - 1, by omega⟩
    rw [List.set_append_right _ _ (le_refl _), Nat.sub_self, List.replicate_succ,
      List.set_cons_zero]
    simp

theorem fill_length (s : List Nat) : ∀ (n i : Nat), i ≤ s.length →
    (fill s i n).length = max s.length (i + n) := by
  intro n
  induction n generalizing s with
  | zero => intro i hi; simp [fill]; omega
  | succ n ih =>
    intro i hi
    have hp := put_length s i 32 hi
    rw [fill, ih (put s i 32) (i + 1) (by omega), hp]
    omega

theorem fill_mem (s : List Nat) : ∀ (n i x : Nat), x ∈ fill s i n → x ∈ s ∨ x = 32 := by
  intro n
  induction n generalizing s with
  | zero => intro i x hx; exact Or.inl hx
  | succ n ih =>
    intro i x hx
    rw [fill] at hx
    rcases ih (put s i 32) (i + 1) x hx with h | h
    · exact put_mem s i 32 x h
    · exact Or.inr h

theorem fill_getElem?_lt (s : List Nat) : ∀ (n i k : Nat), i ≤ s.length → k < i →
    (fill s i n)[k]? = s[k]? := by
  intro n
  induction n generalizing s with
  | zero => intro i k _ _; rfl
  | succ n ih =>
    intro i k hi hk
    have hp := put_length s i 32 hi
    rw [fill, ih (put s i 32) (i + 1) k (by omega) (by omega),
      put_getElem?_lt s i 32 k hi hk]

theorem fill_getElem?_blank (s : List Nat) : ∀ (n i k : Nat), i ≤ s.length → i ≤ k →
    k < i + n → (fill s i n)[k]? = some 32 := by
  intro n
  induction n generalizing s with
  | zero => intro i k _ h1 h2; omega
  | succ n ih =>
    intro i k hi h1 h2
    rw [fill]
    have hp := put_length s i 32 hi
    by_cases hk : k = i
    · subst hk
      rw [fill_getElem?_lt _ n (k + 1) k (by omega) (by omega), put_getElem?_eq s k 32 hi]
    · exact ih (put s i 32) (i + 1) k (by omega) (by omega) (by omega)

theorem strdup_prefix (a b : List Nat) (h : ∀ x ∈ a, x ≠ 0) : strdup (a ++ 0 :: b) = a := by
  unfold strdup
  induction a with
  | nil => simp
  | cons x xs ih =>
    have hx : x ≠ 0 := h x (List.mem_cons_self _ _)
    rw [List.cons_append, List.takeWhile_cons, if_pos (by simpa using hx),
      ih (fun y hy => h y (List.mem_cons_of_mem _ hy))]

theorem strdup_pad (s : List Nat) (m : Nat) (hs : ∀ x ∈ s, x ≠ 0) (hm : 1 ≤ m) :
    strdup (s ++ List.replicate m 0) = s := by
  obtain ⟨m2, rfl⟩ : ∃ m2, m = m2 + 1 := ⟨m - 1, by omega⟩
  rw [List.replicate_succ]
  exact strdup_prefix s _ hs

theorem strdup_cut (s : List Nat) (m n : Nat) (hs : ∀ x ∈ s, x ≠ 0) (hm : 1 ≤ m)
    (hn : n ≤ s.length) :
    strdup ((s ++ List.replicate m 0).set n 0) = s.take n := by
  by_cases h : n < s.length
  · rw [List.set_append_left _ _ h, List.set_eq_take_append_cons_drop, if_pos h,
      List.append_assoc, List.cons_append]
    exact strdup_prefix _ _ (fun x hx => hs x (List.mem_of_mem_take hx))
  · have : n = s.length := by omega
    subst this
    obtain ⟨m2, rfl⟩ : ∃ m2, m = m2 + 1 := ⟨m - 1, by omega⟩
    rw [List.set_append_right _ _ (le_refl _), Nat.sub_self, List.replicate_succ,
      List.set_cons_zero, List.take_length]
    exact strdup_prefix s _ hs

theorem parse_trim_bounds (L : ctype_kind) (rv : List Nat) (i : Nat) :
    ∀ n, i ≤ n → i ≤ parse_trim L rv i n ∧ parse_trim L rv i n ≤ n := by
  intro n
  induction n with
  | zero => intro h; simp [parse_trim]; omega
  | succ n ih =>
    intro h
    rw [parse_trim]
    by_cases hc : n > i ∧ L.isspace (rv.getD n 0) = true
    · rw [if_pos hc]
      have := ih (by omega)
      omega
    · rw [if_neg hc]
      omega

theorem parse_trim_short (L : ctype_kind) (rv : List Nat) (i n : Nat) (h : n ≤ i + 1) :
    parse_trim L rv i n = n := by
  cases n with
  | zero => rfl
  | succ n =>
    rw [parse_trim, if_neg (by omega)]

theorem parse_tab_spec : ∀ (fuel : Nat) (s : List Nat) (m i : Nat), i ≤ s.length →
    8 - i % 8 ≤ fuel → 8 - i % 8 ≤ m →
    ∃ m2, parse_tab 8 fuel (s ++ List.replicate m 0) i
        = some (fill s i (8 - i % 8) ++ List.replicate m2 0, i + (8 - i % 8)) ∧
      m ≤ m2 + (8 - i % 8) := by
  intro fuel
  induction fuel with
  | zero => intro s m i _ h _; omega
  | succ fuel ih =>
    intro s m i hi hf hm
    have hp := put_length s i 32 hi
    rw [parse_tab, if_pos (by rw [List.length_append, List.length_replicate]; omega),
      set_pad s m i 32 hi (by omega)]
    by_cases hc : (i + 1) % 8 ≠ 0
    · rw [if_pos hc]
      obtain ⟨m2, h1, h2⟩ := ih (put s i 32) (m - ((put s i 32).length - s.length)) (i + 1)
        (by omega) (by omega) (by omega)
      have e : 8 - i % 8 = (8 - (i + 1) % 8) + 1 := by omega
      refine ⟨m2, ?_, by omega⟩
      rw [h1, e, fill]
      congr 2
      omega
    · rw [if_neg hc]
      have e : 8 - i % 8 = 1 := by omega
      refine ⟨m - ((put s i 32).length - s.length), ?_, by omega⟩
      rw [e]
      rfl

theorem count_cons (x c : Nat) (rest : List Nat) :
    count (x :: rest) c = (if x = c then 1 else 0) + count rest c := rfl

theorem parse_loop_inv (L : ctype_kind) (P : Nat → Prop) (h32 : P 32) :
    ∀ (buf : List Nat), (∀ c ∈ buf, L.isprint c = true → P c) →
      ∀ (s : List Nat) (m i : Nat), (∀ x ∈ s, P x) → i ≤ s.length →
        buf.length + 7 * count buf 9 < m →
        ∃ s2 m2 i2, parse_loop L buf (s ++ List.replicate m 0) i
            = some (s2 ++ List.replicate m2 0, i2) ∧
          (∀ x ∈ s2, P x) ∧ i2 ≤ s2.length ∧ 1 ≤ m2 ∧ s.length ≤ s2.length := by
  intro buf
  induction buf with
  | nil =>
    intro _ s m i hs hi hm
    exact ⟨s, m, i, rfl, hs, hi, by simpa using hm, le_rfl⟩
  | cons c buf ih =>
    intro hbuf s m i hs hi hm
    have hbuf2 : ∀ d ∈ buf, L.isprint d = true → P d :=
      fun d hd => hbuf d (List.mem_cons_of_mem _ hd)
    rw [count_cons, List.length_cons] at hm
    rw [parse_loop]
    by_cases h8 : c = 8 ∨ c = 127
    · rw [if_pos h8]
      have h9 : c ≠ 9 := by rcases h8 with h | h <;> omega
      rw [if_neg h9] at hm
      exact ih hbuf2 s m _ hs (by split <;> omega) (by omega)
    · rw [if_neg h8]
      by_cases h9 : c = 9
      · rw [if_pos h9]
        rw [if_pos h9] at hm
        obtain ⟨m2, h1, h2⟩ := parse_tab_spec 8 s m i hi (by omega) (by omega)
        rw [h1]
        simp only
        have hl := fill_length s (8 - i % 8) i hi
        obtain ⟨s3, m3, i3, r1, r2, r3, r4, r5⟩ := ih hbuf2 (fill s i (8 - i % 8)) m2
          (i + (8 - i % 8))
          (fun x hx => by
            rcases fill_mem s _ _ x hx with h | h
            · exact hs x h
            · rw [h]; exact h32)
          (by omega) (by omega)
        exact ⟨s3, m3, i3, r1, r2, r3, r4, by omega⟩
      · rw [if_neg h9]
        rw [if_neg h9] at hm
        by_cases h13 : c = 13
        · rw [if_pos h13]
          exact ih hbuf2 s m 0 hs (Nat.zero_le _) (by omega)
        · rw [if_neg h13]
          by_cases hp : L.isprint c = true
          · rw [if_pos hp,
              if_pos (by rw [List.length_append, List.length_replicate]; omega),
              set_pad s m i c hi (by omega)]
            have hl := put_length s i c hi
            obtain ⟨s3, m3, i3, r1, r2, r3, r4, r5⟩ := ih hbuf2 (put s i c)
              (m - ((put s i c).length - s.length)) (i + 1)
              (fun x hx => by
                rcases put_mem s i c x hx with h | h
                · exact hs x h
                · rw [h]; exact hbuf c (List.mem_cons_self _ _) hp)
              (by omega) (by omega)
            exact ⟨s3, m3, i3, r1, r2, r3, r4, by omega⟩
          · rw [if_neg hp]
            exact ih hbuf2 s m i hs hi (by omega)

theorem parse_spec (L : ctype_kind) (P : Nat → Prop) (h32 : P 32) (h0 : ∀ x, P x → x ≠ 0)
    (pos : Nat) (orig buf : List Nat) (horig : ∀ x ∈ orig, P x) (hpos : pos ≤ orig.length)
    (hbuf : ∀ c ∈ buf, L.isprint c = true → P c) :
    ∃ line pos2, parse L pos orig buf = some (line, pos2) ∧ (∀ x ∈ line, P x) ∧
      pos2 ≤ line.length := by
  unfold parse
  simp only
  obtain ⟨s2, m2, i2, r1, r2, r3, r4, _⟩ := parse_loop_inv L P h32 buf hbuf orig
    (orig.length + buf.length + (8 - 1) * count buf 9 + 1 - orig.length) pos horig hpos
    (by omega)
  rw [r1]
  simp only
  have hz : ∀ x ∈ s2, x ≠ 0 := fun x hx => h0 x (r2 x hx)
  rw [strdup_pad s2 m2 hz r4]
  have hb := parse_trim_bounds L (s2 ++ List.replicate m2 0) i2 s2.length r3
  rw [strdup_cut s2 m2 _ hz r4 hb.2]
  refine ⟨_, _, rfl, fun x hx => r2 x (List.mem_of_mem_take hx), ?_⟩
  rw [List.length_take]
  omega

/-! ## scr_add: the lines it stores -/

theorem strchr_none (c : Nat) : ∀ (s : List Nat), strchr s c = none → count s c = 0 := by
  intro s
  induction s with
  | nil => intro _; rfl
  | cons x rest ih =>
    intro h
    rw [strchr] at h
    by_cases hx : x = c
    · rw [if_pos hx] at h; cases h
    · rw [if_neg hx] at h
      cases hr : strchr rest c with
      | none => rw [count_cons, if_neg hx, ih hr]
      | some k => rw [hr] at h; cases h

theorem strchr_some (c : Nat) : ∀ (s : List Nat) (k : Nat), strchr s c = some k →
    k < s.length ∧ count s c = count (s.drop (k + 1)) c + 1 := by
  intro s
  induction s with
  | nil => intro k h; cases h
  | cons x rest ih =>
    intro k h
    rw [strchr] at h
    by_cases hx : x = c
    · rw [if_pos hx] at h
      simp only [Option.some.injEq] at h
      subst h
      refine ⟨by simp, ?_⟩
      rw [count_cons, if_pos hx]
      simp only [List.drop_succ_cons, List.drop_zero]
      omega
    · rw [if_neg hx] at h
      cases hr : strchr rest c with
      | none => rw [hr] at h; cases h
      | some k2 =>
        rw [hr] at h
        simp only [Option.some.injEq] at h
        subst h
        obtain ⟨h1, h2⟩ := ih k2 hr
        refine ⟨by simp; omega, ?_⟩
        rw [count_cons, if_neg hx, List.drop_succ_cons, h2]
        omega

theorem scr_add_lines_spec (L : ctype_kind) (P : Nat → Prop) (h32 : P 32)
    (h0 : ∀ x, P x → x ≠ 0) :
    ∀ (fuel : Nat) (scr : scroller) (buf : List Nat), buf.length < fuel →
      (∀ c ∈ buf, L.isprint c = true → P c) →
      ∃ added pos2,
        scr_add_lines L fuel scr buf
          = some { scr with buffer := scr.buffer ++ added, current_pos := pos2 } ∧
        added.length = count buf 10 ∧ (∀ line ∈ added, ∀ x ∈ line, P x) ∧
        (added = [] → pos2 = scr.current_pos) ∧
        (∀ l, added.getLast? = some l → pos2 ≤ l.length) := by
  intro fuel
  induction fuel with
  | zero => intro scr buf h _; omega
  | succ fuel ih =>
    intro scr buf hfuel hbuf
    rw [scr_add_lines]
    cases hx : strchr buf 10 with
    | none =>
      refine ⟨[], scr.current_pos, ?_, ?_, ?_, fun _ => rfl, ?_⟩
      · simp
      · rw [strchr_none 10 buf hx]; rfl
      · intro line hline; simp at hline
      · intro l hl; simp at hl
    | some k =>
      obtain ⟨hk, hcount⟩ := strchr_some 10 buf k hx
      simp only
      have hbuf2 : ∀ c ∈ buf.drop (k + 1), L.isprint c = true → P c :=
        fun c hc => hbuf c (List.mem_of_mem_drop hc)
      obtain ⟨line, pos, hparse, hline, hpos⟩ := parse_spec L P h32 h0 0 []
        ((buf.drop (k + 1)).take
          ((strchr (buf.drop (k + 1)) 10).getD (buf.drop (k + 1)).length))
        (by simp) (by simp) (fun c hc => hbuf2 c (List.mem_of_mem_take hc))
      rw [hparse]
      simp only
      obtain ⟨added2, pos2, r1, r2, r3, r4, r5⟩ := ih
        { scr with buffer := scr.buffer ++ [line], current_pos := pos } (buf.drop (k + 1))
        (by rw [List.length_drop]; omega) hbuf2
      refine ⟨line :: added2, pos2, ?_, ?_, ?_, ?_, ?_⟩
      · rw [r1]
        simp
      · rw [List.length_cons, r2, hcount]
      · intro l hl
        rcases List.mem_cons.mp hl with h | h
        · rw [h]; exact hline
        · exact r3 l h
      · intro h; cases h
      · intro l hl
        rw [List.getLast?_cons] at hl
        cases ha : added2.getLast? with
        | none =>
          rw [ha] at hl
          simp only [Option.getD_none, Option.some.injEq] at hl
          have : added2 = [] := List.getLast?_eq_none_iff.mp ha
          have hp := r4 this
          simp only at hp
          rw [← hl, hp]
          exact hpos
        | some l2 =>
          rw [ha] at hl
          simp only [Option.getD_some, Option.some.injEq] at hl
          rw [← hl]
          exact r5 l2 ha

theorem scr_add_spec (L : ctype_kind) (P : Nat → Prop) (h32 : P 32) (h0 : ∀ x, P x → x ≠ 0)
    (scr : scroller) (buf temp : List Nat) (hw : scr.width ≠ 0)
    (hlast : scr.buffer.getLast? = some temp) (htemp : ∀ x ∈ temp, P x)
    (hpos : scr.current_pos ≤ temp.length) (hbuf : ∀ c ∈ buf, L.isprint c = true → P c) :
    ∃ scr2 last added, scr_add L scr buf = some scr2 ∧
      scr2.buffer = scr.buffer.dropLast ++ last :: added ∧
      added.length = count buf 10 ∧ (∀ x ∈ last, P x) ∧
      (∀ line ∈ added, ∀ x ∈ line, P x) ∧ scr2.width = scr.width ∧
      ∃ l2, scr2.buffer.getLast? = some l2 ∧ scr2.current_pos ≤ l2.length ∧
        ∀ x ∈ l2, P x := by
  have hsplit : scr.buffer.dropLast ++ [temp] = scr.buffer :=
    List.dropLast_append_getLast? temp hlast
  -- the state after the first segment
  have hfirst : ∃ scr1 last,
      (if (strchr buf 10).getD buf.length > 0 then
        match parse L scr.current_pos temp (buf.take ((strchr buf 10).getD buf.length)) with
        | none => none
        | some (line, pos) =>
          some { scr with buffer := scr.buffer.dropLast ++ [line], current_pos := pos }
      else some scr) = some scr1 ∧
      scr1.buffer = scr.buffer.dropLast ++ [last] ∧ (∀ x ∈ last, P x) ∧
      scr1.current_pos ≤ last.length ∧ scr1.width = scr.width := by
    by_cases hd : (strchr buf 10).getD buf.length > 0
    · rw [if_pos hd]
      obtain ⟨line, pos, hparse, hline, hp⟩ := parse_spec L P h32 h0 scr.current_pos temp
        (buf.take ((strchr buf 10).getD buf.length)) htemp hpos
        (fun c hc => hbuf c (List.mem_of_mem_take hc))
      rw [hparse]
      exact ⟨_, line, rfl, rfl, hline, hp, rfl⟩
    · rw [if_neg hd]
      exact ⟨scr, temp, rfl, hsplit.symm, htemp, hpos, rfl⟩
  obtain ⟨scr1, last, hf, hb1, hl1, hp1, hw1⟩ := hfirst
  obtain ⟨added, pos2, r1, r2, r3, r4, r5⟩ := scr_add_lines_spec L P h32 h0 (buf.length + 1)
    scr1 buf (by omega) hbuf
  have hlast2 : (scr1.buffer ++ added).getLast? = some (added.getLast?.getD last) := by
    rw [hb1, List.append_assoc, List.singleton_append, List.getLast?_append_cons,
      List.getLast?_cons]
  unfold scr_add
  rw [hlast]
  simp only
  rw [hf]
  simp only
  rw [r1]
  simp only
  unfold scr_end
  simp only
  rw [hlast2]
  simp only
  rw [if_neg (by rw [hw1]; exact hw)]
  refine ⟨_, last, added, rfl, ?_, r2, hl1, r3, hw1, added.getLast?.getD last, hlast2, ?_, ?_⟩
  · simp only
    rw [hb1, List.append_assoc, List.singleton_append]
  · simp only
    cases ha : added.getLast? with
    | none =>
      have : added = [] := List.getLast?_eq_none_iff.mp ha
      rw [r4 this]
      exact hp1
    | some l2 => exact r5 l2 ha
  · cases ha : added.getLast? with
    | none => exact hl1
    | some l2 => exact r3 l2 (List.mem_of_getLast?_eq_some ha)

/-- C25: for a scroller that has a last line holding the cursor and a window at least one
column wide, and every text (a C string), `scr_add` returns; the number of stored lines
grows by exactly the number of newline characters of the text and so never shrinks, and
every line other than the previously open last line is unchanged; the scroller it leaves
can be added to again. -/
theorem scr_add_growth (L : ctype_kind) (scr : scroller) (text : List Nat)
    (hv : scr_valid scr) (htext : 0 ∉ text) :
    ∃ scr2, scr_add L scr text = some scr2 ∧
      scr2.buffer.length = scr.buffer.length + count text 10 ∧
      scr.buffer.length ≤ scr2.buffer.length ∧
      (∀ k, k + 1 < scr.buffer.length → scr2.buffer[k]? = scr.buffer[k]?) ∧
      scr_valid scr2 := by
  obtain ⟨hw, temp, hlast, hnul, hpos⟩ := hv
  obtain ⟨scr2, last, added, h1, h2, h3, _, _, h6, l2, h7, h8, h9⟩ :=
    scr_add_spec L (fun x => x ≠ 0) (by decide) (fun x hx => hx) scr text temp hw hlast
      (fun x hx e => hnul (e ▸ hx)) hpos (fun c hc _ e => htext (e ▸ hc))
  have hne : scr.buffer ≠ [] := by
    intro e
    rw [e] at hlast
    cases hlast
  have hn : 0 < scr.buffer.length := List.length_pos.mpr hne
  have hlen : scr2.buffer.length = scr.buffer.length + count text 10 := by
    rw [h2, List.length_append, List.length_cons, List.length_dropLast, h3]
    omega
  refine ⟨scr2, h1, hlen, by omega, ?_, ?_⟩
  · intro k hk
    rw [h2, List.getElem?_append_left (by rw [List.length_dropLast]; omega),
      List.getElem?_dropLast, if_pos (by omega)]
  · exact ⟨by rw [h6]; exact hw, l2, h7, fun hmem => h9 0 hmem rfl, h8⟩

/-- Witness of C25: the scroller left by adding `ab<newline>c`, and the text
`d<newline><newline>e` added to it; the first line `ab` stays, `c` becomes `cd`. -/
theorem scr_add_growth_witness :
    ∃ scr2, scr_add c_locale
        { buffer := [[97, 98], [99]], current_r := 1, current_c := 0, current_pos := 1,
          width := 80 } [100, 10, 10, 101] = some scr2 ∧
      scr2.buffer.length = 2 + count [100, 10, 10, 101] 10 ∧
      2 ≤ scr2.buffer.length ∧
      (∀ k, k + 1 < 2 → scr2.buffer[k]? = ([[97, 98], [99]] : List (List Nat))[k]?) ∧
      scr_valid scr2 :=
  scr_add_growth c_locale
    { buffer := [[97, 98], [99]], current_r := 1, current_c := 0, current_pos := 1,
      width := 80 } [100, 10, 10, 101]
    ⟨by decide, [99], rfl, by decide, by decide⟩ (by decide)

/-! ## parse: backspace and tab -/

theorem set_last (x : Nat) : ∀ (s : List Nat), s ≠ [] →
    s.set (s.length - 1) x = s.dropLast ++ [x] := by
  intro s
  induction s with
  | nil => intro h; exact absurd rfl h
  | cons a t ih =>
    intro _
    cases t with
    | nil => rfl
    | cons b t2 =>
      have := ih (by simp)
      simp only [List.length_cons, Nat.add_sub_cancel] at this ⊢
      rw [List.set_cons_succ, this]
      rfl

/-- C26: for a non-empty open line `s` (a C string) with the cursor at its end and a
printable non-blank byte `x`, `parse` of the two bytes backspace (8) or DEL (127) and `x`
returns `s` with its last character replaced by `x` and the cursor at `|s|` again; and with
the cursor at column 0, `parse` of a single backspace or DEL leaves the cursor at 0. -/
theorem parse_backspace (L : ctype_kind) (s : List Nat) (b x : Nat) (hs : s ≠ [])
    (hnul : 0 ∉ s) (hb : b = 8 ∨ b = 127) (hx : L.isprint x = true)
    (hxr : 33 ≤ x ∧ x ≤ 126) :
    parse L s.length s [b, x] = some (s.dropLast ++ [x], s.length) ∧
    ∃ line, parse L 0 s [b] = some (line, 0) := by
  have hn : 0 < s.length := List.length_pos.mpr hs
  constructor
  · have hloop : ∀ m, 1 ≤ m → parse_loop L [b, x] (s ++ List.replicate m 0) s.length
        = some (s.set (s.length - 1) x ++ List.replicate m 0, s.length) := by
      intro m _
      rw [parse_loop, if_pos hb, if_pos hn, parse_loop, if_neg (by omega), if_neg (by omega),
        if_neg (by omega), if_pos hx,
        if_pos (by rw [List.length_append, List.length_replicate]; omega),
        List.set_append_left _ _ (by omega), parse_loop]
      congr 2
      omega
    have hz : ∀ y ∈ s.set (s.length - 1) x, y ≠ 0 := by
      intro y hy
      rcases List.mem_or_eq_of_mem_set hy with h | h
      · exact fun e => hnul (e ▸ h)
      · omega
    have hb9 : b ≠ 9 := by omega
    have hx9 : x ≠ 9 := by omega
    unfold parse
    simp only [count, if_neg hb9, if_neg hx9]
    rw [hloop _ (by omega)]
    simp only
    rw [strdup_pad _ _ hz (by omega), List.length_set,
      parse_trim_short L _ _ _ (by omega),
      strdup_cut _ _ _ hz (by omega) (by rw [List.length_set]),
      List.take_of_length_le (by rw [List.length_set]), set_last x s hs]
  · unfold parse
    simp only
    rw [parse_loop, if_pos hb, if_neg (by omega), parse_loop]
    exact ⟨_, rfl⟩

/-- Witness of C26: the line `abc` with the cursor at 3, and DEL followed by `x`. -/
theorem parse_backspace_witness :
    parse c_locale [97, 98, 99].length [97, 98, 99] [127, 120]
      = some ([97, 98, 99].dropLast ++ [120], [97, 98, 99].length) ∧
    ∃ line, parse c_locale 0 [97, 98, 99] [127] = some (line, 0) :=
  parse_backspace c_locale [97, 98, 99] 127 120 (by decide) (by decide) (by decide)
    (by decide) (by decide)

/-- C27: for every open line (a C string) and cursor `pos` inside it or at its end, `parse`
of a single tab returns a line that holds a blank at every index from `pos` up to, not
including, the next multiple of 8 strictly greater than `pos`, and is unchanged below `pos`;
the cursor is left on that multiple, so between 1 and 8 blanks are written and the cursor
is a multiple of 8 afterwards. -/
theorem parse_tab_stop (L : ctype_kind) (orig : List Nat) (pos : Nat)
    (hpos : pos ≤ orig.length) (hnul : 0 ∉ orig) :
    ∃ out, parse L pos orig [9] = some (out, (pos / 8 + 1) * 8) ∧
      (∀ k, pos ≤ k → k < (pos / 8 + 1) * 8 → out[k]? = some 32) ∧
      (∀ k, k < pos → out[k]? = orig[k]?) ∧
      pos < (pos / 8 + 1) * 8 ∧ (pos / 8 + 1) * 8 ≤ pos + 8 ∧
      ((pos / 8 + 1) * 8) % 8 = 0 := by
  have he : pos + (8 - pos % 8) = (pos / 8 + 1) * 8 := by omega
  have hc : count [9] 9 = 1 := rfl
  have hl9 : List.length [9] = 1 := rfl
  obtain ⟨m2, h1, h2⟩ := parse_tab_spec 8 orig
    (orig.length + List.length [9] + (8 - 1) * count [9] 9 + 1 - orig.length) pos hpos
    (by omega) (by rw [hc, hl9]; omega)
  have hm2 : 1 ≤ m2 := by
    rw [hc, hl9] at h2
    omega
  have hz : ∀ y ∈ fill orig pos (8 - pos % 8), y ≠ 0 := by
    intro y hy
    rcases fill_mem orig _ _ y hy with h | h
    · exact fun e => hnul (e ▸ h)
    · omega
  have hl := fill_length orig (8 - pos % 8) pos hpos
  have hb := parse_trim_bounds L (fill orig pos (8 - pos % 8) ++ List.replicate m2 0)
    (pos + (8 - pos % 8)) (fill orig pos (8 - pos % 8)).length (by omega)
  refine ⟨(fill orig pos (8 - pos % 8)).take
    (parse_trim L (fill orig pos (8 - pos % 8) ++ List.replicate m2 0)
      (pos + (8 - pos % 8)) (fill orig pos (8 - pos % 8)).length), ?_, ?_, ?_,
    by omega, by omega, by omega⟩
  · unfold parse
    simp only
    rw [parse_loop, if_neg (by omega), if_pos rfl, h1]
    simp only
    rw [parse_loop]
    simp only
    rw [strdup_pad _ _ hz hm2, strdup_cut _ _ _ hz hm2 hb.2, he]
  · intro k hk1 hk2
    rw [List.getElem?_take_of_lt (by omega),
      fill_getElem?_blank orig _ pos k hpos hk1 (by omega)]
  · intro k hk
    rw [List.getElem?_take_of_lt (by omega), fill_getElem?_lt orig _ pos k hpos hk]

/-- Witness of C27: the line `abcd` with the cursor at 2; the tab overwrites `c` and `d`
and writes blanks up to column 8. -/
theorem parse_tab_stop_witness :
    (∃ out, parse c_locale 2 [97, 98, 99, 100] [9] = some (out, (2 / 8 + 1) * 8) ∧
      (∀ k, 2 ≤ k → k < (2 / 8 + 1) * 8 → out[k]? = some 32) ∧
      (∀ k, k < 2 → out[k]? = ([97, 98, 99, 100] : List Nat)[k]?) ∧
      2 < (2 / 8 + 1) * 8 ∧ (2 / 8 + 1) * 8 ≤ 2 + 8 ∧ ((2 / 8 + 1) * 8) % 8 = 0) ∧
    parse c_locale 2 [97, 98, 99, 100] [9] = some ([97, 98, 32, 32, 32, 32, 32, 32], 8) :=
  ⟨parse_tab_stop c_locale [97, 98, 99, 100] 2 (by decide) (by decide), by decide⟩

/-! ## scr_add: stored lines are printable -/

theorem scr_adds_inv (L : ctype_kind) (P : Nat → Prop) (h32 : P 32)
    (h0 : ∀ x, P x → x ≠ 0) (hL : ∀ c, L.isprint c = true → P c) :
    ∀ (texts : List (List Nat)) (scr : scroller), scr.width ≠ 0 →
      (∀ line ∈ scr.buffer, ∀ x ∈ line, P x) →
      (∃ l, scr.buffer.getLast? = some l ∧ scr.current_pos ≤ l.length) →
      ∃ scr2, scr_adds L scr texts = some scr2 ∧ ∀ line ∈ scr2.buffer, ∀ x ∈ line, P x := by
  intro texts
  induction texts with
  | nil => intro scr _ h _; exact ⟨scr, rfl, h⟩
  | cons buf rest ih =>
    intro scr hw hP hl
    obtain ⟨l, hlast, hpos⟩ := hl
    obtain ⟨scr2, last, added, h1, h2, _, h4, h5, h6, l2, h7, h8, _⟩ :=
      scr_add_spec L P h32 h0 scr buf l hw hlast (hP l (List.mem_of_getLast?_eq_some hlast))
        hpos (fun c _ hc => hL c hc)
    rw [scr_adds, h1]
    simp only
    apply ih scr2 (by rw [h6]; exact hw) _ ⟨l2, h7, h8⟩
    intro line hline
    rw [h2] at hline
    rcases List.mem_append.mp hline with h | h
    · exact hP line (List.mem_of_mem_dropLast h)
    · rcases List.mem_cons.mp h with h | h
      · rw [h]; exact h4
      · exact h5 line h

/-- C28: in a locale whose printable characters are 0x20..0x7e, after `scr_new` (with a
window at least one column wide) and any sequence of `scr_add` calls with arbitrary bytes,
every call returns and every byte of every stored line lies in 0x20..0x7e; in particular it
is not the marker byte `HL_CHAR`, a tab, a carriage return, a backspace or a newline. -/
theorem scr_adds_printable (L : ctype_kind)
    (hL : ∀ c, L.isprint c = true → 32 ≤ c ∧ c ≤ 126) (width : Nat) (hw : width ≠ 0)
    (texts : List (List Nat)) :
    ∃ scr, scr_adds L (scr_new width) texts = some scr ∧
      ∀ line ∈ scr.buffer, ∀ x ∈ line,
        (32 ≤ x ∧ x ≤ 126) ∧ x ≠ HL_CHAR ∧ x ≠ 9 ∧ x ≠ 13 ∧ x ≠ 8 ∧ x ≠ 10 := by
  obtain ⟨scr, h1, h2⟩ := scr_adds_inv L (fun x => 32 ≤ x ∧ x ≤ 126) (by decide)
    (fun x hx => by omega) hL texts (scr_new width) hw
    (by intro line hline; simp [scr_new] at hline; subst hline; simp)
    ⟨[], rfl, le_rfl⟩
  refine ⟨scr, h1, ?_⟩
  intro line hline x hx
  have := h2 line hline x hx
  have hM : HL_CHAR = 127 := rfl
  refine ⟨this, ?_, ?_, ?_, ?_, ?_⟩ <;> omega

/-- Witness of C28: the "C" locale, a window 80 columns wide, and two texts with a tab, a
backspace, a DEL, a carriage return, a bell and newlines. -/
theorem scr_adds_printable_witness :
    (∃ scr, scr_adds c_locale (scr_new 80) [[97, 9, 98, 8, 127, 10, 7, 99], [13, 100, 10]]
        = some scr ∧
      ∀ line ∈ scr.buffer, ∀ x ∈ line,
        (32 ≤ x ∧ x ≤ 126) ∧ x ≠ HL_CHAR ∧ x ≠ 9 ∧ x ≠ 13 ∧ x ≠ 8 ∧ x ≠ 10) ∧
    (scr_adds c_locale (scr_new 80) [[97, 9, 98, 8, 127, 10, 7, 99], [13, 100, 10]]).map
        (fun scr => scr.buffer)
      = some [[97, 32, 32, 32, 32, 32, 32, 32, 98], [100], []] :=
  ⟨scr_adds_printable c_locale (by intro c hc; simpa [c_locale] using hc) 80 (by decide)
      [[97, 9, 98, 8, 127, 10, 7, 99], [13, 100, 10]], by decide⟩


/-! ## hl_regex: the flag word passed to regcomp -/

theorem ldiff_one (m : Nat) : Nat.ldiff 1 m = (m + 1) % 2 := by
  unfold Nat.ldiff
  rw [Nat.bitwise]
  by_cases hm : m = 0
  · subst hm; simp
  · rw [if_neg (by decide), if_neg hm]
    have h0 : Nat.bitwise (fun a b => a && !b) (1 / 2) (m / 2) = 0 := by
      rw [Nat.bitwise]
      simp
    simp only [h0]
    by_cases hb : m % 2 = 1
    · simp [hb]; omega
    · simp [hb]; omega

theorem land_one_int (n : Int) : Int.land 1 n = n % 2 := by
  cases n with
  | ofNat m =>
    show ((1 &&& m : Nat) : Int) = _
    rw [Nat.one_and_eq_mod_two]
    simp
  | negSucc m =>
    show ((Nat.ldiff 1 m : Nat) : Int) = _
    rw [ldiff_one, Int.negSucc_eq]
    push_cast
    omega

/-- C38: with `REG_EXTENDED = 1` and `REG_ICASE = 2`, the flag word that `hl_regex` passes to
`regcomp`, `REG_EXTENDED & (icase) ? REG_ICASE : 0`, is `REG_ICASE` when `icase` is odd (in
particular for `icase = 1`) and 0 otherwise; for no value of `icase` does it contain
`REG_EXTENDED`. -/
theorem regcomp_cflags_value (icase : Int) :
    REG_EXTENDED = 1 ∧ REG_ICASE = 2 ∧
    regcomp_cflags icase = (if icase % 2 = 1 then REG_ICASE else 0) ∧
    regcomp_cflags 1 = REG_ICASE ∧ regcomp_cflags 0 = 0 ∧
    Int.land (regcomp_cflags icase) REG_EXTENDED = 0 := by
  have h : regcomp_cflags icase = (if icase % 2 = 1 then REG_ICASE else 0) := by
    unfold regcomp_cflags REG_EXTENDED
    rw [land_one_int]
    by_cases ho : icase % 2 = 1
    · rw [if_pos ho, if_pos (by omega)]
    · rw [if_neg ho, if_neg (by omega)]
  refine ⟨rfl, rfl, h, by decide, by decide, ?_⟩
  rw [h]
  by_cases ho : icase % 2 = 1
  · rw [if_pos ho]; decide
  · rw [if_neg ho]; decide

/-! ## highlight_node: what is flushed -/

theorem highlight_node_loop_count (G : hl_group_kind) :
    ∀ (packets : List (tokenizer_type × List Nat)) (ibuf : List Nat) (buf : buffer),
      (∀ p ∈ packets, p.1 ≠ .TOKENIZER_OTHER) →
      (highlight_node_loop G packets ibuf buf).2.tlines.length
        = buf.tlines.length
          + packets.countP (fun p => decide (p.1 = .TOKENIZER_NEWLINE)) ∧
      (highlight_node_loop G packets ibuf buf).2.length
        = buf.length + packets.countP (fun p => decide (p.1 = .TOKENIZER_NEWLINE)) := by
  intro packets
  induction packets with
  | nil => intro ibuf buf _; simp [highlight_node_loop]
  | cons q packets ih =>
    intro ibuf buf hk
    obtain ⟨e, data⟩ := q
    have hk2 : ∀ p ∈ packets, p.1 ≠ .TOKENIZER_OTHER :=
      fun p hp => hk p (List.mem_cons_of_mem _ hp)
    cases e with
    | TOKENIZER_OTHER => exact absurd rfl (hk (_, data) (List.mem_cons_self _ _))
    | TOKENIZER_NEWLINE =>
      rw [highlight_node_loop, List.countP_cons_of_pos _ _ (by simp)]
      obtain ⟨r1, r2⟩ := ih [HL_CHAR, G.HLG_TEXT]
        { tlines := buf.tlines ++ [strdup ibuf]
          length := buf.length + 1
          max_width := if (ibuf.length : Int) > buf.max_width then ibuf.length
            else buf.max_width } hk2
      refine ⟨?_, ?_⟩
      · rw [r1]; simp; omega
      · rw [r2]; push_cast; omega
    | TOKENIZER_KEYWORD =>
      rw [highlight_node_loop, List.countP_cons_of_neg _ _ (by simp)]
      exact ih _ buf hk2
    | TOKENIZER_TYPE =>
      rw [highlight_node_loop, List.countP_cons_of_neg _ _ (by simp)]
      exact ih _ buf hk2
    | TOKENIZER_LITERAL =>
      rw [highlight_node_loop, List.countP_cons_of_neg _ _ (by simp)]
      exact ih _ buf hk2
    | TOKENIZER_NUMBER =>
      rw [highlight_node_loop, List.countP_cons_of_neg _ _ (by simp)]
      exact ih _ buf hk2
    | TOKENIZER_COMMENT =>
      rw [highlight_node_loop, List.countP_cons_of_neg _ _ (by simp)]
      exact ih _ buf hk2
    | TOKENIZER_DIRECTIVE =>
      rw [highlight_node_loop, List.countP_cons_of_neg _ _ (by simp)]
      exact ih _ buf hk2
    | TOKENIZER_TEXT =>
      rw [highlight_node_loop, List.countP_cons_of_neg _ _ (by simp)]
      exact ih _ buf hk2
    | TOKENIZER_ERROR =>
      rw [highlight_node_loop, List.countP_cons_of_neg _ _ (by simp)]
      exact ih _ buf hk2

theorem highlight_node_loop_tail (G : hl_group_kind) :
    ∀ (tail : List (tokenizer_type × List Nat)) (ibuf : List Nat) (buf : buffer),
      (∀ p ∈ tail, p.1 ≠ .TOKENIZER_NEWLINE) →
      (highlight_node_loop G tail ibuf buf).2 = buf := by
  intro tail
  induction tail with
  | nil => intro ibuf buf _; rfl
  | cons q tail ih =>
    intro ibuf buf hn
    obtain ⟨e, data⟩ := q
    have hn2 : ∀ p ∈ tail, p.1 ≠ .TOKENIZER_NEWLINE :=
      fun p hp => hn p (List.mem_cons_of_mem _ hp)
    cases e with
    | TOKENIZER_NEWLINE => exact absurd rfl (hn (_, data) (List.mem_cons_self _ _))
    | TOKENIZER_OTHER => rfl
    | TOKENIZER_KEYWORD => rw [highlight_node_loop]; exact ih _ buf hn2
    | TOKENIZER_TYPE => rw [highlight_node_loop]; exact ih _ buf hn2
    | TOKENIZER_LITERAL => rw [highlight_node_loop]; exact ih _ buf hn2
    | TOKENIZER_NUMBER => rw [highlight_node_loop]; exact ih _ buf hn2
    | TOKENIZER_COMMENT => rw [highlight_node_loop]; exact ih _ buf hn2
    | TOKENIZER_DIRECTIVE => rw [highlight_node_loop]; exact ih _ buf hn2
    | TOKENIZER_TEXT => rw [highlight_node_loop]; exact ih _ buf hn2
    | TOKENIZER_ERROR => rw [highlight_node_loop]; exact ih _ buf hn2

theorem highlight_node_loop_append (G : hl_group_kind)
    (tail : List (tokenizer_type × List Nat))
    (htail : ∀ p ∈ tail, p.1 ≠ .TOKENIZER_NEWLINE) :
    ∀ (pre : List (tokenizer_type × List Nat)) (ibuf : List Nat) (buf : buffer),
      (highlight_node_loop G (pre ++ tail) ibuf buf).2
        = (highlight_node_loop G pre ibuf buf).2 := by
  intro pre
  induction pre with
  | nil =>
    intro ibuf buf
    rw [List.nil_append, highlight_node_loop_tail G tail ibuf buf htail]
    rfl
  | cons q pre ih =>
    intro ibuf buf
    obtain ⟨e, data⟩ := q
    cases e <;> simp only [List.cons_append, highlight_node_loop] <;> exact ih _ _

/-- C39: for packets of known kinds, the number of lines that `highlight_node` stores in
`node->buf` (and `buf.length`) is the number of newline packets; and the packets after the
last newline packet leave no trace: the buffer stored for `pre ++ tail`, where `tail` holds
no newline packet, is the buffer stored for `pre` alone. -/
theorem highlight_node_newlines (G : hl_group_kind) (K K2 : tokenizer_kind)
    (node : list_node) (pre tail : List (tokenizer_type × List Nat))
    (hset : K.tokenizer_set_file node.path node.language = some (pre ++ tail))
    (hset2 : K2.tokenizer_set_file node.path node.language = some pre)
    (hknown : ∀ p ∈ pre ++ tail, p.1 ≠ .TOKENIZER_OTHER)
    (htail : ∀ p ∈ tail, p.1 ≠ .TOKENIZER_NEWLINE) :
    (highlight_node G K node).2.buf.tlines.length
      = (pre ++ tail).countP (fun p => decide (p.1 = .TOKENIZER_NEWLINE)) ∧
    (highlight_node G K node).2.buf.length
      = (pre ++ tail).countP (fun p => decide (p.1 = .TOKENIZER_NEWLINE)) ∧
    (highlight_node G K node).2.buf = (highlight_node G K2 node).2.buf := by
  obtain ⟨r1, r2⟩ := highlight_node_loop_count G (pre ++ tail) [HL_CHAR, G.HLG_TEXT]
    { tlines := [], length := 0, max_width := 0 } hknown
  unfold highlight_node
  simp only [hset, hset2]
  refine ⟨?_, ?_, ?_⟩
  · rw [r1]; simp
  · rw [r2]; simp
  · exact highlight_node_loop_append G tail htail pre _ _

/-- Witness of C39: the packets of `int x` and a newline, followed by a comment that no
newline closes. -/
theorem highlight_node_newlines_witness :
    (highlight_node sample_groups
        { TOKENIZER_LANGUAGE_UNKNOWN := 0
          tokenizer_set_file := fun _ _ =>
            some ([(.TOKENIZER_TYPE, [105, 110, 116]), (.TOKENIZER_TEXT, [32, 120]),
              (.TOKENIZER_NEWLINE, [10])] ++ [(.TOKENIZER_COMMENT, [47, 47, 32, 99])]) }
        (sample_node [97] 1)).2.buf.tlines
      = [[127, 6, 127, 2, 105, 110, 116, 127, 6, 32, 120]] ∧
    (highlight_node sample_groups
        { TOKENIZER_LANGUAGE_UNKNOWN := 0
          tokenizer_set_file := fun _ _ =>
            some ([(.TOKENIZER_TYPE, [105, 110, 116]), (.TOKENIZER_TEXT, [32, 120]),
              (.TOKENIZER_NEWLINE, [10])] ++ [(.TOKENIZER_COMMENT, [47, 47, 32, 99])]) }
        (sample_node [97] 1)).2.buf
      = (highlight_node sample_groups
        { TOKENIZER_LANGUAGE_UNKNOWN := 0
          tokenizer_set_file := fun _ _ =>
            some [(.TOKENIZER_TYPE, [105, 110, 116]), (.TOKENIZER_TEXT, [32, 120]),
              (.TOKENIZER_NEWLINE, [10])] }
        (sample_node [97] 1)).2.buf :=
  ⟨by decide,
    (highlight_node_newlines sample_groups
      { TOKENIZER_LANGUAGE_UNKNOWN := 0
        tokenizer_set_file := fun _ _ =>
          some ([(.TOKENIZER_TYPE, [105, 110, 116]), (.TOKENIZER_TEXT, [32, 120]),
            (.TOKENIZER_NEWLINE, [10])] ++ [(.TOKENIZER_COMMENT, [47, 47, 32, 99])]) }
      { TOKENIZER_LANGUAGE_UNKNOWN := 0
        tokenizer_set_file := fun _ _ =>
          some [(.TOKENIZER_TYPE, [105, 110, 116]), (.TOKENIZER_TEXT, [32, 120]),
            (.TOKENIZER_NEWLINE, [10])] }
      (sample_node [97] 1)
      [(.TOKENIZER_TYPE, [105, 110, 116]), (.TOKENIZER_TEXT, [32, 120]),
        (.TOKENIZER_NEWLINE, [10])]
      [(.TOKENIZER_COMMENT, [47, 47, 32, 99])] rfl rfl (by decide) (by decide)).2.2⟩

/-! ## Segment highlight: the size of the output -/

theorem hls_loop_marker_gen (S : Nat) (rest : List Nat) (j s e : Int) (syn : Bool)
    (cur : Nat) :
    hls_loop S (HL_CHAR :: rest) j s e syn cur =
      if syn = true then
        match rest with
        | [] => [HL_CHAR, S]
        | _ :: r2 =>
          HL_CHAR :: S :: hls_loop S r2 (j + 2) (if j ≤ s then s + 2 else s)
            (if j ≤ e then e + 2 else e) true (rest.headD 0)
      else
        HL_CHAR :: hls_loop S rest (j + 1) (if j ≤ s then s + 2 else s)
          (if j ≤ e then e + 2 else e) false (rest.headD 0) := by
  have h1 : j ≠ (if j ≤ s then s + 2 else s) := by split <;> omega
  have h2 : j ≠ (if j ≤ e then e + 2 else e) := by split <;> omega
  rw [hls_loop.eq_def]
  cases syn <;> cases rest <;> simp [h1, h2]

theorem hls_loop_length (S : Nat) :
    ∀ (n : Nat) (l : List Nat), l.length ≤ n →
      ∀ (j s e : Int) (syn : Bool) (cur : Nat), s ≤ e →
        (hls_loop S l j s e syn cur).length
          ≤ l.length + (if j ≤ s then 2 else 0) + (if j ≤ e ∨ syn = true then 2 else 0) := by
  intro n
  induction n with
  | zero =>
    intro l hl j s e syn cur _
    have : l = [] := List.length_eq_zero.mp (Nat.le_zero.mp hl)
    subst this
    simp [hls_loop]
  | succ n ih =>
    intro l hl j s e syn cur hse
    match l, hl with
    | [], _ => simp [hls_loop]
    | c :: rest, hl =>
      have hr : rest.length ≤ n := by simp at hl; omega
      by_cases hc : c = HL_CHAR
      · subst hc
        rw [hls_loop_marker_gen]
        have hse2 : (if j ≤ s then s + 2 else s) ≤ (if j ≤ e then e + 2 else e) := by
          split_ifs <;> omega
        cases syn with
        | true =>
          simp only [if_true]
          match rest, hr with
          | [], _ => simp
          | g :: r2, hr =>
            have := ih r2 (by simp at hr; omega) (j + 2) (if j ≤ s then s + 2 else s)
              (if j ≤ e then e + 2 else e) true (List.headD (g :: r2) 0) hse2
            simp only [List.length_cons, or_true, if_true] at this ⊢
            have h3 : (if j + 2 ≤ (if j ≤ s then s + 2 else s) then 2 else 0)
                ≤ (if j ≤ s then 2 else 0) := by
              split_ifs <;> omega
            omega
        | false =>
          have := ih rest hr (j + 1) (if j ≤ s then s + 2 else s)
            (if j ≤ e then e + 2 else e) false (rest.headD 0) hse2
          simp only [List.length_cons, Bool.false_eq_true, or_false, if_false] at this ⊢
          have h3 : (if j + 1 ≤ (if j ≤ s then s + 2 else s) then 2 else 0)
              ≤ (if j ≤ s then 2 else 0) := by
            split_ifs <;> omega
          have h4 : (if j + 1 ≤ (if j ≤ e then e + 2 else e) then 2 else 0)
              ≤ (if j ≤ e then 2 else 0) := by
            split_ifs <;> omega
          omega
      · rw [hls_loop_text S c hc]
        by_cases h1 : j = s
        · rw [if_pos h1]
          have := ih rest hr (j + 1) s e true cur hse
          simp only [List.length_cons, or_true, if_true] at this ⊢
          have hm : (if j ≤ e ∨ syn = true then 2 else 0) = 2 := if_pos (Or.inl (by omega))
          have hs0 : (if j + 1 ≤ s then 2 else 0) = 0 := if_neg (by omega)
          have hs2 : (if j ≤ s then 2 else 0) = 2 := if_pos (by omega)
          rw [hs0] at this
          rw [hm, hs2]
          omega
        · rw [if_neg h1]
          by_cases h2 : j = e
          · rw [if_pos h2]
            have := ih rest hr (j + 1) s e false cur hse
            simp only [List.length_cons, Bool.false_eq_true, or_false] at this ⊢
            have hm : (if j ≤ e ∨ syn = true then 2 else 0) = 2 := if_pos (Or.inl (by omega))
            have hs0 : (if j + 1 ≤ s then 2 else 0) = 0 := if_neg (by omega)
            have he0 : (if j + 1 ≤ e then 2 else 0) = 0 := if_neg (by omega)
            rw [hs0, he0] at this
            rw [hm]
            omega
          · rw [if_neg h2]
            have := ih rest hr (j + 1) s e syn cur hse
            simp only [List.length_cons] at this ⊢
            have h3 : (if j + 1 ≤ s then 2 else 0) ≤ (if j ≤ s then 2 else 0) := by
              split_ifs <;> omega
            have h4 : (if j + 1 ≤ e ∨ syn = true then 2 else 0)
                ≤ (if j ≤ e ∨ syn = true then 2 else 0) := by
              cases syn with
              | false =>
                simp only [Bool.false_eq_true, or_false]
                split_ifs <;> omega
              | true => simp
            omega

/-- C37: for every line, well formed or not, and every range that passes the range check,
the number of bytes that `highlight_line_segment` writes before the terminator is at most
`strlen(orig) + 4`, so the output and its terminator fit in the `strlen(orig) + 5` bytes
allocated. -/
theorem highlight_line_segment_fits (G : hl_group_kind) (orig : List Nat) (start end_ : Int)
    (out : List Nat) (h : highlight_line_segment G orig start end_ = some out) :
    out.length ≤ orig.length + 4 ∧ out.length + 1 ≤ orig.length + 5 := by
  unfold highlight_line_segment at h
  simp only at h
  by_cases hc : start > end_ ∨ start > (orig.length : Int) ∨ start < 0 ∨
      end_ > (orig.length : Int) ∨ end_ < 0
  · rw [if_pos hc] at h; cases h
  · rw [if_neg hc] at h
    simp only [Option.some.injEq] at h
    have hb := hls_loop_length G.HLG_SEARCH orig.length orig le_rfl 0 start end_ false
      G.HLG_TEXT (by omega)
    rw [h] at hb
    have h1 : (if (0 : Int) ≤ start then 2 else 0) ≤ 2 := by split <;> omega
    have h2 : (if (0 : Int) ≤ end_ ∨ false = true then 2 else 0) ≤ 2 := by split <;> omega
    omega

/-- Witness of C37: a line that is not well formed (it ends in a marker byte) with the range
`[1, 2)`; both markers are inserted and the bound `strlen(orig) + 4` is reached. -/
theorem highlight_line_segment_fits_witness :
    highlight_line_segment sample_groups [97, 98, 99, 127] 1 2
      = some [97, 127, 7, 98, 127, 6, 99, 127] ∧
    ([97, 127, 7, 98, 127, 6, 99, 127].length ≤ [97, 98, 99, 127].length + 4 ∧
      [97, 127, 7, 98, 127, 6, 99, 127].length + 1 ≤ [97, 98, 99, 127].length + 5) :=
  ⟨by decide,
    highlight_line_segment_fits sample_groups [97, 98, 99, 127] 1 2
      [97, 127, 7, 98, 127, 6, 99, 127] (by decide)⟩


/-! ## hl_wprintw2 and hl_wprintw -/

theorem wprintw2_loop_decode (get_attr : Nat → Option Nat) (hattr : ∀ c, get_attr c ≠ none) :
    ∀ (n : Nat) (l : List Nat), l.length ≤ n → ∀ (color attr : Nat),
      get_attr color = some attr →
      wprintw2_loop get_attr l attr
        = (decode_loop l color).map (fun x => (x.1, get_attr x.2)) := by
  intro n
  induction n with
  | zero =>
    intro l hl color attr _
    have : l = [] := List.length_eq_zero.mp (Nat.le_zero.mp hl)
    subst this
    simp [wprintw2_loop, decode_loop]
  | succ n ih =>
    intro l hl color attr hca
    match l, hl with
    | [], _ => simp [wprintw2_loop, decode_loop]
    | c :: rest, hl =>
      have hr : rest.length ≤ n := by simp at hl; omega
      rw [wprintw2_loop.eq_def]
      simp only
      by_cases hc : c = HL_CHAR
      · subst hc
        rw [if_pos rfl]
        match rest, hr with
        | [], _ => simp [decode_loop]
        | g :: r, hr =>
          simp only
          cases hg : get_attr g with
          | none => exact absurd hg (hattr g)
          | some a =>
            simp only
            rw [decode_loop_marker]
            exact ih r (by simp at hr; omega) g a hg
      · rw [if_neg hc, decode_loop_text c hc, List.map_cons, ih rest hr color attr hca, hca]

theorem styled_cells_no_tab (get_attr : Nat → Option Nat) (T : Nat) :
    ∀ (cells : List (Nat × Nat)) (c : Nat), (∀ x ∈ cells, x.1 ≠ 9) →
      styled_cells get_attr T 0 c cells = cells.map (fun x => (x.1, get_attr x.2)) := by
  intro cells
  induction cells with
  | nil => intro c _; rfl
  | cons x cells ih =>
    intro c h
    obtain ⟨ch, g⟩ := x
    have hch : ch ≠ 9 := h (ch, g) (List.mem_cons_self _ _)
    rw [styled_cells_char _ _ _ _ _ _ hch, if_neg (by omega),
      ih (c + 1) (fun y hy => h y (List.mem_cons_of_mem _ hy))]
    rfl

/-- C31 as stated fails: for the line that holds a single tab, `hl_wprintw2` hands the tab
on as one cell (the byte 9), while `hl_wprintw` with offset 0, tab stop 8 and width 8 (the
expanded length) draws eight blanks. -/
theorem hl_wprintw2_tab_not_expanded :
    hl_wprintw2 sample_groups (fun c => some (c + 100)) [9] = [(9, some 106)] ∧
    hl_wprintw sample_groups (fun c => some (c + 100)) 8 [9] 8 0
      = [(32, some 106), (32, some 106), (32, some 106), (32, some 106), (32, some 106),
          (32, some 106), (32, some 106), (32, some 106)] := by
  decide

/-- C31, amended: for every well-formed attributed line without tabs (a positive tab stop,
a style lookup that succeeds), the cells drawn by `hl_wprintw` with offset 0 and a width at
least the length of the visible text are the cells drawn by `hl_wprintw2`, followed by the
trailing pad. -/
theorem hl_wprintw2_specialises (G : hl_group_kind) (get_attr : Nat → Option Nat)
    (tabstop : Nat) (line : List Nat) (width : Nat) (hwf : well_formed G line = true)
    (hT : 0 < tabstop) (hattr : ∀ c, get_attr c ≠ none) (htab : 9 ∉ strip line)
    (hw : (strip line).length ≤ width) :
    hl_wprintw G get_attr tabstop line width 0
      = hl_wprintw2 G get_attr line
        ++ List.replicate (width - (hl_wprintw2 G get_attr line).length) (32, none) ∧
    (hl_wprintw2 G get_attr line).map Prod.fst = strip line := by
  have hfst := decode_loop_fst G line.length line le_rfl hwf G.HLG_TEXT
  have h2 : hl_wprintw2 G get_attr line
      = (decode G line).map (fun x => (x.1, get_attr x.2)) := by
    unfold hl_wprintw2 decode
    cases hg : get_attr G.HLG_TEXT with
    | none => exact absurd hg (hattr _)
    | some a => exact wprintw2_loop_decode get_attr hattr line.length line le_rfl _ a hg
  have hnt : ∀ x ∈ decode G line, x.1 ≠ 9 := by
    intro x hx e
    apply htab
    rw [← hfst, ← e]
    exact List.mem_map_of_mem Prod.fst hx
  have hlen : (hl_wprintw2 G get_attr line).length = (strip line).length := by
    rw [h2, List.length_map, ← hfst, List.length_map]
    rfl
  refine ⟨?_, ?_⟩
  · rw [hl_wprintw_cells G get_attr tabstop line width 0 hwf hT hattr]
    unfold line_cells
    rw [List.drop_zero, styled_cells_no_tab get_attr tabstop _ 0 hnt, ← h2,
      List.take_append_eq_append_take, List.take_of_length_le (by omega),
      List.take_replicate]
    congr 2
    omega
  · rw [h2, List.map_map, ← hfst]
    rfl

/-- Witness of C31 (amended): a line with two directives and no tab, drawn 6 cells wide. -/
theorem hl_wprintw2_specialises_witness :
    (hl_wprintw sample_groups (fun c => some (c + 100)) 8 [127, 1, 97, 98, 127, 6, 99] 6 0
      = hl_wprintw2 sample_groups (fun c => some (c + 100)) [127, 1, 97, 98, 127, 6, 99]
        ++ List.replicate
          (6 - (hl_wprintw2 sample_groups (fun c => some (c + 100))
            [127, 1, 97, 98, 127, 6, 99]).length) (32, none) ∧
      (hl_wprintw2 sample_groups (fun c => some (c + 100))
          [127, 1, 97, 98, 127, 6, 99]).map Prod.fst
        = strip [127, 1, 97, 98, 127, 6, 99]) ∧
    hl_wprintw2 sample_groups (fun c => some (c + 100)) [127, 1, 97, 98, 127, 6, 99]
      = [(97, some 101), (98, some 101), (99, some 106)] :=
  ⟨hl_wprintw2_specialises sample_groups (fun c => some (c + 100)) 8
      [127, 1, 97, 98, 127, 6, 99] 6 (by decide) (by decide) (by intro c; simp) (by decide)
      (by decide), by decide⟩


/-! ## highlight_gdb: the progress of the loop -/

/-- C32 as stated fails: with a pattern that matches the empty string at the cursor (a
lookahead that sets a named group), one round on the chunk `a` appends two directives and
leaves the cursor at 0; the loop is never left, whatever the number of rounds, and
`highlight_gdb` stores no line. -/
theorem highlight_gdb_zero_length_match :
    match_step sample_groups lookahead_highlighter [97] 1 0
      = some (some ([127, 6, 127, 8], 0)) ∧
    (∀ fuel, match_loop sample_groups lookahead_highlighter [97] 1 fuel 0 = none) ∧
    (∀ fuel, highlight_gdb sample_groups lookahead_highlighter true [97] 1 fuel = none) := by
  have h : match_step sample_groups lookahead_highlighter [97] 1 0
      = some (some ([127, 6, 127, 8], 0)) := by decide
  have h2 := match_loop_stuck sample_groups lookahead_highlighter [97] 1 0 _ h
  refine ⟨h, h2, ?_⟩
  intro fuel
  unfold highlight_gdb
  rw [if_neg (by decide), if_neg (by decide), h2 fuel]

/-- C32, amended: for a chunk (the first `nChars` bytes of `buffer`) and a matcher whose
matches lie between the cursor and `nChars`, are not empty and have a non-empty named group,
every round that handles a match leaves the cursor at the end of the match, strictly
greater than before and at most `nChars`, so the loop is left after at most `nChars` rounds
that handle a match; nothing moves the cursor past a zero-length match. -/
theorem match_loop_progress (G : hl_group_kind) (hl : gdb_highlighter) (buffer : List Nat)
    (nChars : Nat) (hlen : nChars ≤ buffer.length) (hin : matches_inside hl buffer nChars)
    (hadv : matches_advance hl buffer nChars) :
    (∀ offset bytes next, offset ≤ nChars →
      match_step G hl buffer nChars offset = some (some (bytes, next)) →
        offset < next ∧ next ≤ nChars) ∧
    (∀ offset, offset ≤ nChars → match_step G hl buffer nChars offset ≠ none) ∧
    ∃ r, match_loop G hl buffer nChars (nChars + 1) 0 = some r := by
  refine ⟨?_, ?_, match_loop_defined G hl buffer nChars hlen hin hadv (nChars + 1) 0
    (Nat.zero_le _) (by omega)⟩
  · intro offset bytes next hoff h
    unfold match_step at h
    cases hre : hl.re buffer nChars offset with
    | none => simp [hre] at h
    | some ovector =>
      obtain ⟨matchStart, matchEnd, h0, h1, h2, h3⟩ := hin offset ovector hoff hre
      obtain ⟨⟨s2, e2, h02, hlt⟩, _, _⟩ := hadv offset ovector hoff hre
      rw [h0] at h02
      simp only [Option.some.injEq, Prod.mk.injEq] at h02
      obtain ⟨hs, he⟩ := h02
      subst hs he
      simp only [hre, h0] at h
      cases hg : name_table_loop G ovector hl.name_table 0 none with
      | none => simp [hg] at h
      | some og =>
        cases og with
        | none => simp [hg] at h
        | some hl_group =>
          simp only [hg] at h
          rw [ibuf_adds_eq buffer offset matchStart h1 (by omega),
            ibuf_adds_eq buffer matchStart matchEnd h2 (by omega)] at h
          simp only [Option.some.injEq, Prod.mk.injEq] at h
          omega
  · intro offset hoff
    unfold match_step
    cases hre : hl.re buffer nChars offset with
    | none => simp
    | some ovector =>
      obtain ⟨matchStart, matchEnd, h0, h1, h2, h3⟩ := hin offset ovector hoff hre
      obtain ⟨_, hb, hne⟩ := hadv offset ovector hoff hre
      obtain ⟨g, hg⟩ := name_table_loop_defined G ovector hl.name_table 0 none hb (Or.inr hne)
      simp only [h0, hg]
      rw [ibuf_adds_eq buffer offset matchStart h1 (by omega),
        ibuf_adds_eq buffer matchStart matchEnd h2 (by omega)]
      simp

/-- Witness of C32 (amended): the chunk `at src/a.c:10 0x1f` with the pattern of
`gdb_regexes`; the round at cursor 0 handles the path and moves the cursor to 13. -/
theorem match_loop_progress_witness :
    ((∀ offset bytes next, offset ≤ 18 →
        match_step sample_groups sample_highlighter path_chunk 18 offset
          = some (some (bytes, next)) → offset < next ∧ next ≤ 18) ∧
      (∀ offset, offset ≤ 18 →
        match_step sample_groups sample_highlighter path_chunk 18 offset ≠ none) ∧
      ∃ r, match_loop sample_groups sample_highlighter path_chunk 18 (18 + 1) 0 = some r) ∧
    match_step sample_groups sample_highlighter path_chunk 18 0
      = some (some ([127, 6, 97, 116, 32, 127, 9, 115, 114, 99, 47, 97, 46, 99, 58, 49, 48],
          13)) :=
  ⟨match_loop_progress sample_groups sample_highlighter path_chunk 18 (by decide)
      (matches_of_check sample_highlighter path_chunk 18 (by decide)).1
      (matches_of_check sample_highlighter path_chunk 18 (by decide)).2, by decide⟩


/-! ## parse: trimming, and the bounds of its writes -/

theorem parse_trim_stop (L : ctype_kind) (rv : List Nat) (i : Nat) :
    ∀ n, parse_trim L rv i n ≤ i + 1 ∨
      ∃ k, parse_trim L rv i n = k + 1 ∧ L.isspace (rv.getD k 0) = false := by
  intro n
  induction n with
  | zero => left; simp [parse_trim]
  | succ n ih =>
    rw [parse_trim]
    by_cases hc : n > i ∧ L.isspace (rv.getD n 0) = true
    · rw [if_pos hc]; exact ih
    · rw [if_neg hc]
      by_cases hn : n > i
      · right
        refine ⟨n, rfl, ?_⟩
        cases hs : L.isspace (rv.getD n 0) with
        | false => rfl
        | true => exact absurd ⟨hn, hs⟩ hc
      · left; omega

theorem parse_loop_length (L : ctype_kind) :
    ∀ (buf rv : List Nat) (i : Nat) (rv2 : List Nat) (i2 : Nat),
      parse_loop L buf rv i = some (rv2, i2) → rv2.length = rv.length := by
  have htab : ∀ (fuel : Nat) (rv : List Nat) (i : Nat) (rv2 : List Nat) (i2 : Nat),
      parse_tab 8 fuel rv i = some (rv2, i2) → rv2.length = rv.length := by
    intro fuel
    induction fuel with
    | zero => intro rv i rv2 i2 h; simp [parse_tab] at h
    | succ fuel ih =>
      intro rv i rv2 i2 h
      rw [parse_tab] at h
      by_cases hi : i < rv.length
      · rw [if_pos hi] at h
        by_cases hc : (i + 1) % 8 ≠ 0
        · rw [if_pos hc] at h
          rw [ih _ _ _ _ h, List.length_set]
        · rw [if_neg hc] at h
          simp only [Option.some.injEq, Prod.mk.injEq] at h
          rw [← h.1, List.length_set]
      · rw [if_neg hi] at h; cases h
  intro buf
  induction buf with
  | nil =>
    intro rv i rv2 i2 h
    simp only [parse_loop, Option.some.injEq, Prod.mk.injEq] at h
    rw [h.1]
  | cons c buf ih =>
    intro rv i rv2 i2 h
    rw [parse_loop] at h
    by_cases h8 : c = 8 ∨ c = 127
    · rw [if_pos h8] at h; exact ih _ _ _ _ h
    · rw [if_neg h8] at h
      by_cases h9 : c = 9
      · rw [if_pos h9] at h
        cases ht : parse_tab 8 8 rv i with
        | none => rw [ht] at h; cases h
        | some r =>
          obtain ⟨rv3, i3⟩ := r
          rw [ht] at h
          simp only at h
          rw [ih _ _ _ _ h, htab _ _ _ _ _ ht]
      · rw [if_neg h9] at h
        by_cases h13 : c = 13
        · rw [if_pos h13] at h; exact ih _ _ _ _ h
        · rw [if_neg h13] at h
          by_cases hp : L.isprint c = true
          · rw [if_pos hp] at h
            by_cases hi : i < rv.length
            · rw [if_pos hi] at h
              rw [ih _ _ _ _ h, List.length_set]
            · rw [if_neg hi] at h; cases h
          · rw [if_neg hp] at h; exact ih _ _ _ _ h

theorem parse_loop_fits (L : ctype_kind) :
    ∀ (buf s : List Nat) (m i : Nat), i ≤ s.length → buf.length + 7 * count buf 9 ≤ m →
      ∃ s2 m2 i2, parse_loop L buf (s ++ List.replicate m 0) i
          = some (s2 ++ List.replicate m2 0, i2) ∧ i2 ≤ s2.length := by
  intro buf
  induction buf with
  | nil => intro s m i hi _; exact ⟨s, m, i, rfl, hi⟩
  | cons c buf ih =>
    intro s m i hi hm
    rw [count_cons, List.length_cons] at hm
    rw [parse_loop]
    by_cases h8 : c = 8 ∨ c = 127
    · rw [if_pos h8]
      have h9 : c ≠ 9 := by rcases h8 with h | h <;> omega
      rw [if_neg h9] at hm
      exact ih s m _ (by split <;> omega) (by omega)
    · rw [if_neg h8]
      by_cases h9 : c = 9
      · rw [if_pos h9]
        rw [if_pos h9] at hm
        obtain ⟨m2, h1, h2⟩ := parse_tab_spec 8 s m i hi (by omega) (by omega)
        rw [h1]
        simp only
        have hl := fill_length s (8 - i % 8) i hi
        exact ih (fill s i (8 - i % 8)) m2 (i + (8 - i % 8)) (by omega) (by omega)
      · rw [if_neg h9]
        rw [if_neg h9] at hm
        by_cases h13 : c = 13
        · rw [if_pos h13]
          exact ih s m 0 (Nat.zero_le _) (by omega)
        · rw [if_neg h13]
          by_cases hp : L.isprint c = true
          · rw [if_pos hp,
              if_pos (by rw [List.length_append, List.length_replicate]; omega),
              set_pad s m i c hi (by omega)]
            have hl := put_length s i c hi
            exact ih (put s i c) (m - ((put s i c).length - s.length)) (i + 1) (by omega)
              (by omega)
          · rw [if_neg hp]
            exact ih s m i hi (by omega)

theorem parse_eq (L : ctype_kind) (pos : Nat) (orig buf : List Nat)
    (horig : ∀ x ∈ orig, x ≠ 0) (hpos : pos ≤ orig.length)
    (hbuf : ∀ c ∈ buf, L.isprint c = true → c ≠ 0) :
    ∃ (s2 : List Nat) (m2 i2 : Nat), (∀ x ∈ s2, x ≠ 0) ∧ i2 ≤ s2.length ∧ 1 ≤ m2 ∧
      s2.length + m2 = orig.length + buf.length + 7 * count buf 9 + 1 ∧
      parse L pos orig buf
        = some (s2.take (parse_trim L (s2 ++ List.replicate m2 0) i2 s2.length), i2) := by
  obtain ⟨s2, m2, i2, r1, r2, r3, r4, _⟩ := parse_loop_inv L (fun x => x ≠ 0) (by decide) buf
    hbuf orig (orig.length + buf.length + (8 - 1) * count buf 9 + 1 - orig.length) pos horig
    hpos (by omega)
  have hlen := parse_loop_length L _ _ _ _ _ r1
  simp only [List.length_append, List.length_replicate] at hlen
  refine ⟨s2, m2, i2, r2, r3, r4, by omega, ?_⟩
  unfold parse
  simp only
  rw [r1]
  simp only
  have hb := parse_trim_bounds L (s2 ++ List.replicate m2 0) i2 s2.length r3
  rw [strdup_pad s2 m2 r2 r4, strdup_cut s2 m2 _ r2 r4 hb.2]

/-- C33 as stated fails: the line `a` followed by three blanks, with the cursor at its end,
receives a carriage return and `x`; `parse` leaves the cursor at 1 and returns `x` followed
by one blank: the length 2 is more than the cursor and the last character is whitespace.
The trimming loop runs while `j > i`, so the byte at the cursor itself stays. -/
theorem parse_keeps_blank_at_cursor :
    parse c_locale 4 [97, 32, 32, 32] [13, 120] = some ([120, 32], 1) ∧
    ¬ ([120, 32].length ≤ 1) ∧ [120, 32].getLast? = some 32 ∧
    c_locale.isspace 32 = true := by
  decide

/-- C33, amended: after `parse` has processed a chunk (orig and the chunk C strings, the
entry cursor inside orig or at its end) and left the cursor at `pos2`, the line returned
carries no trailing whitespace beyond the cursor: either its length is at most `pos2 + 1`
or its last character is not whitespace. -/
theorem parse_trims_beyond_cursor (L : ctype_kind) (pos : Nat) (orig buf : List Nat)
    (hpos : pos ≤ orig.length) (hnul : 0 ∉ orig) (hbuf : 0 ∉ buf) :
    ∃ out pos2, parse L pos orig buf = some (out, pos2) ∧
      (out.length ≤ pos2 + 1 ∨ ∃ c, out.getLast? = some c ∧ L.isspace c = false) := by
  obtain ⟨s2, m2, i2, r1, r2, _, _, r5⟩ := parse_eq L pos orig buf
    (fun x hx e => hnul (e ▸ hx)) hpos (fun c hc _ e => hbuf (e ▸ hc))
  have hb := parse_trim_bounds L (s2 ++ List.replicate m2 0) i2 s2.length r2
  refine ⟨_, _, r5, ?_⟩
  rcases parse_trim_stop L (s2 ++ List.replicate m2 0) i2 s2.length with h | ⟨k, hk, hsp⟩
  · left
    rw [List.length_take]
    omega
  · right
    have hks : k < s2.length := by omega
    refine ⟨s2[k], ?_, ?_⟩
    · rw [List.getLast?_eq_getElem?, List.length_take, hk,
        Nat.min_eq_left (by omega), Nat.add_sub_cancel,
        List.getElem?_take_of_lt (by omega), List.getElem?_eq_getElem hks]
    · rw [List.getD_eq_getElem?_getD, List.getElem?_append_left hks,
        List.getElem?_eq_getElem hks] at hsp
      exact hsp

/-- Witness of C33 (amended): the input of the counterexample; the line returned has length
2, which is the cursor plus one. -/
theorem parse_trims_beyond_cursor_witness :
    ∃ out pos2, parse c_locale 4 [97, 32, 32, 32] [13, 120] = some (out, pos2) ∧
      (out.length ≤ pos2 + 1 ∨ ∃ c, out.getLast? = some c ∧ c_locale.isspace c = false) :=
  parse_trims_beyond_cursor c_locale 4 [97, 32, 32, 32] [13, 120] (by decide) (by decide)
    (by decide)

/-- C36: for every `orig` and chunk `buf` (C strings) and every entry cursor with
`pos <= |orig|`: the loop of `parse` runs to its end on an array of only
`|orig| + |buf| + 7 * count(buf, tab)` cells, so every index it writes is below that number;
on the array of one more cell that `parse` allocates, the terminator `rv[j + 1] = 0` is
written at an index that is at most that number, inside the array; `parse` returns, the
line returned is a C string no longer than that number, and the cursor on exit is at most
the length of the line returned.  Hence `scr_new` gives a scroller that `scr_add` can be called
on, and `scr_add` on such a scroller returns one again. -/
theorem parse_stays_inside (L : ctype_kind) (pos : Nat) (orig buf : List Nat)
    (hpos : pos ≤ orig.length) (hnul : 0 ∉ orig) (hbuf : 0 ∉ buf) :
    (∃ rv i, parse_loop L buf
        (orig ++ List.replicate (buf.length + 7 * count buf 9) 0) pos = some (rv, i) ∧
      rv.length = orig.length + buf.length + 7 * count buf 9) ∧
    (∃ rv i, parse_loop L buf
        (orig ++ List.replicate (buf.length + 7 * count buf 9 + 1) 0) pos = some (rv, i) ∧
      rv.length = orig.length + buf.length + 7 * count buf 9 + 1 ∧
      parse_trim L rv i (strdup rv).length ≤ orig.length + buf.length + 7 * count buf 9) ∧
    (∃ out pos2, parse L pos orig buf = some (out, pos2) ∧ pos2 ≤ out.length ∧ 0 ∉ out ∧
      out.length ≤ orig.length + buf.length + 7 * count buf 9) ∧
    (∀ width, width ≠ 0 → scr_valid (scr_new width)) ∧
    (∀ scr text, scr_valid scr → 0 ∉ text →
      ∃ scr2, scr_add L scr text = some scr2 ∧ scr_valid scr2) := by
  refine ⟨?_, ?_, ?_, ?_, ?_⟩
  · obtain ⟨s2, m2, i2, h, _⟩ := parse_loop_fits L buf orig (buf.length + 7 * count buf 9) pos
      hpos le_rfl
    refine ⟨_, i2, h, ?_⟩
    have := parse_loop_length L _ _ _ _ _ h
    rw [this, List.length_append, List.length_replicate]
    omega
  · obtain ⟨s2, m2, i2, r1, r2, r3, r4, _⟩ := parse_loop_inv L (fun x => x ≠ 0) (by decide)
      buf (fun c hc _ e => hbuf (e ▸ hc)) orig (buf.length + 7 * count buf 9 + 1) pos
      (fun x hx e => hnul (e ▸ hx)) hpos (by omega)
    have hlen := parse_loop_length L _ _ _ _ _ r1
    simp only [List.length_append, List.length_replicate] at hlen
    refine ⟨_, i2, r1, ?_, ?_⟩
    · rw [List.length_append, List.length_replicate]; omega
    · rw [strdup_pad s2 m2 r2 r4]
      have hb := parse_trim_bounds L (s2 ++ List.replicate m2 0) i2 s2.length r3
      omega
  · obtain ⟨s2, m2, i2, r1, r2, r3, r4, r5⟩ := parse_eq L pos orig buf
      (fun x hx e => hnul (e ▸ hx)) hpos (fun c hc _ e => hbuf (e ▸ hc))
    have hb := parse_trim_bounds L (s2 ++ List.replicate m2 0) i2 s2.length r2
    refine ⟨_, _, r5, ?_, ?_, ?_⟩
    · rw [List.length_take]; omega
    · intro hmem
      exact r1 0 (List.mem_of_mem_take hmem) rfl
    · rw [List.length_take]; omega
  · intro width hw
    exact ⟨hw, [], rfl, by simp, le_rfl⟩
  · intro scr text hv htext
    obtain ⟨hw, temp, hlast, hn, hp⟩ := hv
    obtain ⟨scr2, _, _, h1, _, _, _, _, h6, l2, h7, h8, h9⟩ :=
      scr_add_spec L (fun x => x ≠ 0) (by decide) (fun x hx => hx) scr text temp hw hlast
        (fun x hx e => hn (e ▸ hx)) hp (fun c hc _ e => htext (e ▸ hc))
    exact ⟨scr2, h1, by rw [h6]; exact hw, l2, h7, fun hmem => h9 0 hmem rfl, h8⟩

/-- Witness of C36: the line `ab` with the cursor at 2 and the chunk `c<tab>d`; the loop
writes the indices 2 to 8 of an array of 14 cells. -/
theorem parse_stays_inside_witness :
    ((∃ rv i, parse_loop c_locale [99, 9, 100]
          ([97, 98] ++ List.replicate ([99, 9, 100].length + 7 * count [99, 9, 100] 9) 0) 2
          = some (rv, i) ∧
        rv.length = [97, 98].length + [99, 9, 100].length + 7 * count [99, 9, 100] 9) ∧
      (∃ rv i, parse_loop c_locale [99, 9, 100]
          ([97, 98] ++ List.replicate ([99, 9, 100].length + 7 * count [99, 9, 100] 9 + 1) 0)
          2 = some (rv, i) ∧
        rv.length = [97, 98].length + [99, 9, 100].length + 7 * count [99, 9, 100] 9 + 1 ∧
        parse_trim c_locale rv i (strdup rv).length
          ≤ [97, 98].length + [99, 9, 100].length + 7 * count [99, 9, 100] 9) ∧
      (∃ out pos2, parse c_locale 2 [97, 98] [99, 9, 100] = some (out, pos2) ∧
        pos2 ≤ out.length ∧ 0 ∉ out ∧
        out.length ≤ [97, 98].length + [99, 9, 100].length + 7 * count [99, 9, 100] 9) ∧
      (∀ width, width ≠ 0 → scr_valid (scr_new width)) ∧
      (∀ scr text, scr_valid scr → 0 ∉ text →
        ∃ scr2, scr_add c_locale scr text = some scr2 ∧ scr_valid scr2)) ∧
    parse c_locale 2 [97, 98] [99, 9, 100]
      = some ([97, 98, 99, 32, 32, 32, 32, 32, 100], 9) :=
  ⟨parse_stays_inside c_locale 2 [97, 98] [99, 9, 100] (by decide) (by decide) (by decide),
    by decide⟩


/-! ## scroller.c: the view stays on a sub-row -/

theorem scr_sanity_id (scr : scroller) (hw : scr.width ≠ 0) (hd : scr.width ∣ scr.current_c) :
    scr_sanity scr = some scr := by
  unfold scr_sanity
  have hm : scr.current_c % scr.width = 0 := Nat.mod_eq_zero_of_dvd hd
  by_cases hc : scr.current_c > 0
  · rw [if_pos hc, if_neg hw, if_neg (by rw [hm]; simp)]
  · rw [if_neg hc]

theorem row_bound_zero (strict : Bool) (len : Nat) : row_bound strict 0 len := by
  cases strict <;> simp [row_bound]

theorem row_bound_sub (strict : Bool) (c w len : Nat) (h : row_bound strict c len) :
    row_bound strict (c - w) len := by
  cases strict <;> simp [row_bound] at * <;> omega

theorem row_bound_lt (strict : Bool) (c len : Nat) (h : c < len) : row_bound strict c len := by
  cases strict <;> simp [row_bound] <;> omega

theorem row_bound_le (strict : Bool) (c len : Nat) (h : row_bound strict c len) :
    c ≤ len := by
  cases strict <;> simp [row_bound] at h <;> omega

theorem last_sub_row_lt (w len : Nat) (h : w < len) : ((len - 1) / w) * w < len := by
  have := Nat.div_mul_le_self (len - 1) w
  omega

theorem last_sub_row (w c len : Nat) (hd : w ∣ c) (hlt : c < len)
    (hge : len ≤ c + w) : ((len - 1) / w) * w = c := by
  obtain ⟨k, rfl⟩ := hd
  have hk : (len - 1) / w = k := by
    apply Nat.div_eq_of_lt_le
    · rw [Nat.mul_comm]; omega
    · rw [Nat.add_mul, Nat.one_mul, Nat.mul_comm]; omega
  rw [hk, Nat.mul_comm]

theorem scr_up_loop_on_row (strict : Bool) (n : Nat) :
    ∀ scr : scroller, scr_on_row strict scr →
      ∃ s, scr_up_loop n scr = some s ∧ scr_on_row strict s ∧ s.buffer = scr.buffer ∧
        s.width = scr.width ∧ s.current_pos = scr.current_pos := by
  induction n with
  | zero => intro scr h; exact ⟨scr, rfl, h, rfl, rfl, rfl⟩
  | succ n ih =>
    intro scr h
    obtain ⟨hw, hd, line, hl, hb⟩ := h
    rw [scr_up_loop]
    by_cases hc : scr.current_c > 0
    · rw [if_pos hc]
      exact ih { scr with current_c := scr.current_c - scr.width }
        ⟨hw, Nat.dvd_sub' hd (dvd_refl _), line, hl, row_bound_sub strict _ _ _ hb⟩
    · rw [if_neg hc]
      by_cases hr : scr.current_r > 0
      · rw [if_pos hr]
        have hlen : scr.current_r < scr.buffer.length := by
          by_contra hge
          rw [List.getElem?_eq_none (by omega)] at hl
          exact Option.noConfusion hl
        have hprev : scr.buffer[scr.current_r - 1]? =
            some (scr.buffer.get ⟨scr.current_r - 1, by omega⟩) :=
          List.getElem?_eq_getElem (by omega)
        rw [hprev]
        simp only []
        by_cases hlong : (scr.buffer.get ⟨scr.current_r - 1, by omega⟩).length > scr.width
        · rw [if_pos hlong, if_neg hw]
          exact ih _ ⟨hw, Nat.dvd_mul_left _ _, _, hprev,
            row_bound_lt strict _ _ (last_sub_row_lt _ _ hlong)⟩
        · rw [if_neg hlong]
          have h0 : scr.current_c = 0 := by omega
          refine ih { scr with current_r := scr.current_r - 1 }
            ⟨hw, hd, _, hprev, ?_⟩
          show row_bound strict scr.current_c _
          rw [h0]
          exact row_bound_zero strict _
      · rw [if_neg hr]
        exact ⟨scr, rfl, ⟨hw, hd, line, hl, hb⟩, rfl, rfl, rfl⟩

theorem scr_down_loop_on_row (strict : Bool) (n : Nat) :
    ∀ scr : scroller, scr_on_row strict scr →
      ∃ s, scr_down_loop n scr = some s ∧ scr_on_row strict s ∧ s.buffer = scr.buffer ∧
        s.width = scr.width ∧ s.current_pos = scr.current_pos := by
  induction n with
  | zero => intro scr h; exact ⟨scr, rfl, h, rfl, rfl, rfl⟩
  | succ n ih =>
    intro scr h
    obtain ⟨hw, hd, line, hl, hb⟩ := h
    rw [scr_down_loop, hl]
    simp only []
    by_cases hc : (scr.current_c : Int) < (line.length : Int) - (scr.width : Int)
    · rw [if_pos hc]
      exact ih { scr with current_c := scr.current_c + scr.width }
        ⟨hw, Nat.dvd_add hd (dvd_refl _), line, hl,
          row_bound_lt strict _ _ (by show scr.current_c + scr.width < line.length; omega)⟩
    · rw [if_neg hc]
      by_cases hr : scr.current_r + 1 < scr.buffer.length
      · rw [if_pos hr]
        exact ih { scr with current_r := scr.current_r + 1, current_c := 0 }
          ⟨hw, Nat.dvd_zero _, _, List.getElem?_eq_getElem hr, row_bound_zero strict _⟩
      · rw [if_neg hr]
        exact ⟨scr, rfl, ⟨hw, hd, line, hl, hb⟩, rfl, rfl, rfl⟩

theorem scr_end_on_row (scr s : scroller) (h : scr_end scr = some s) :
    scr_on_row false s ∧ s.buffer = scr.buffer ∧ s.width = scr.width := by
  unfold scr_end at h
  cases hlast : scr.buffer.getLast? with
  | none => rw [hlast] at h; exact Option.noConfusion h
  | some line =>
    rw [hlast] at h
    simp only [] at h
    by_cases hw : scr.width = 0
    · rw [if_pos hw] at h; exact Option.noConfusion h
    · rw [if_neg hw] at h
      have hs := Option.some.inj h
      subst hs
      refine ⟨⟨hw, Nat.dvd_mul_left _ _, line, ?_, ?_⟩, rfl, rfl⟩
      · show scr.buffer[scr.buffer.length - 1]? = some line
        rw [← hlast, List.getLast?_eq_getElem?]
      · show (line.length / scr.width) * scr.width ≤ line.length
        exact Nat.div_mul_le_self _ _

theorem scr_add_ends (L : ctype_kind) (scr s : scroller) (buf : List Nat)
    (h : scr_add L scr buf = some s) : ∃ s0, scr_end s0 = some s := by
  unfold scr_add at h
  cases hlast : scr.buffer.getLast? with
  | none => rw [hlast] at h; exact Option.noConfusion h
  | some temp =>
    rw [hlast] at h
    simp only [] at h
    split at h
    · exact Option.noConfusion h
    · split at h
      · exact Option.noConfusion h
      · exact ⟨_, h⟩

/-- C34, counterexample: the line `ab` in a window two columns wide, the view at `r = 0`,
`c = 0`, where `c < max(1, 2)`.  `scr_end` sets `c = (2 / 2) * 2 = 2`, which is not below
`max(1, 2)`; and `scr_add` of the text `ab` to a new scroller of that width, which ends
with `scr_end`, leaves the same state. -/
theorem scr_end_past_last_sub_row :
    scr_on_row true
      { buffer := [[97, 98]], current_r := 0, current_c := 0, current_pos := 2, width := 2 } ∧
    scr_end
      { buffer := [[97, 98]], current_r := 0, current_c := 0, current_pos := 2, width := 2 }
      = some
      { buffer := [[97, 98]], current_r := 0, current_c := 2, current_pos := 2, width := 2 } ∧
    scr_on_row true (scr_new 2) ∧
    scr_add c_locale (scr_new 2) [97, 98] = some
      { buffer := [[97, 98]], current_r := 0, current_c := 2, current_pos := 2, width := 2 } ∧
    ¬ scr_on_row true
      { buffer := [[97, 98]], current_r := 0, current_c := 2, current_pos := 2, width := 2 } := by
  refine ⟨⟨by decide, by decide, [97, 98], rfl, by simp [row_bound]⟩, by decide,
    ⟨by decide, by decide, [], rfl, by simp [row_bound, scr_new]⟩, by decide, ?_⟩
  rintro ⟨_, _, line, hl, hb⟩
  have hline : line = [97, 98] := (Option.some.inj hl).symm
  subst hline
  simp [row_bound] at hb

/-- C34, amended: from a state in which row `r` exists, the width is positive and `c` is a
multiple of the width with `c` at most the length of line `r` (`strict = false`), each of
`scr_up(n)`, `scr_down(n)`, `scr_home` and `scr_end` returns and leaves such a state, on the
same buffer, and so does `scr_add` of a C string to a scroller whose last line holds the
cursor.  When moreover `c < max(1, length of line r)` (`strict = true`), `scr_up(n)`,
`scr_down(n)` and `scr_home` keep that too. -/
theorem scr_moves_stay_on_row (strict : Bool) (scr : scroller) (n : Nat)
    (h : scr_on_row strict scr) :
    (∃ s, scr_up scr n = some s ∧ scr_on_row strict s ∧ s.buffer = scr.buffer ∧
      s.width = scr.width) ∧
    (∃ s, scr_down scr n = some s ∧ scr_on_row strict s ∧ s.buffer = scr.buffer ∧
      s.width = scr.width) ∧
    scr_on_row strict (scr_home scr) ∧
    (∃ s, scr_end scr = some s ∧ scr_on_row false s ∧ s.buffer = scr.buffer ∧
      s.width = scr.width) ∧
    (∀ (L : ctype_kind) (text : List Nat), scr_valid scr → 0 ∉ text →
      ∃ s, scr_add L scr text = some s ∧ scr_on_row false s) := by
  have hw : scr.width ≠ 0 := h.1
  have hsan : scr_sanity scr = some scr := scr_sanity_id scr h.1 h.2.1
  obtain ⟨line, hl, hb⟩ := h.2.2
  have hlen : scr.current_r < scr.buffer.length := by
    by_contra hge
    rw [List.getElem?_eq_none (by omega)] at hl
    exact Option.noConfusion hl
  refine ⟨?_, ?_, ?_, ?_, ?_⟩
  · obtain ⟨s, h1, h2, h3, h4, _⟩ := scr_up_loop_on_row strict n scr h
    exact ⟨s, by unfold scr_up; rw [hsan]; exact h1, h2, h3, h4⟩
  · obtain ⟨s, h1, h2, h3, h4, _⟩ := scr_down_loop_on_row strict n scr h
    exact ⟨s, by unfold scr_down; rw [hsan]; exact h1, h2, h3, h4⟩
  · exact ⟨hw, Nat.dvd_zero _, _,
      (List.getElem?_eq_getElem (by omega) : scr.buffer[0]? = some (scr.buffer.get ⟨0, by omega⟩)),
      row_bound_zero strict _⟩
  · have hne : scr.buffer ≠ [] := by
      intro e
      rw [e] at hlen
      exact Nat.not_lt_zero _ hlen
    cases hlast : scr.buffer.getLast? with
    | none => exact absurd (List.getLast?_eq_none_iff.mp hlast) hne
    | some last =>
      have he : scr_end scr = some { scr with
          current_r := scr.buffer.length - 1
          current_c := (last.length / scr.width) * scr.width } := by
        unfold scr_end
        rw [hlast]
        simp only []
        rw [if_neg hw]
      obtain ⟨h1, h2, h3⟩ := scr_end_on_row scr _ he
      exact ⟨_, he, h1, h2, h3⟩
  · intro L text hv htext
    obtain ⟨_, temp, hlast, hnul, hpos⟩ := hv
    obtain ⟨scr2, _, _, h1, _⟩ :=
      scr_add_spec L (fun x => x ≠ 0) (by decide) (fun x hx => hx) scr text temp hw hlast
        (fun x hx e => hnul (e ▸ hx)) hpos (fun c hc _ e => htext (e ▸ hc))
    obtain ⟨s0, hs0⟩ := scr_add_ends L scr scr2 text h1
    exact ⟨scr2, h1, (scr_end_on_row s0 scr2 hs0).1⟩

/-- Witness of C34: the lines `abcde` and `fg` in a window two columns wide, the view on the
second sub-row of the first line. -/
theorem scr_moves_stay_on_row_witness :
    scr_on_row true
      { buffer := [[97, 98, 99, 100, 101], [102, 103]], current_r := 0, current_c := 2,
        current_pos := 2, width := 2 } ∧
    ((∃ s, scr_up
        { buffer := [[97, 98, 99, 100, 101], [102, 103]], current_r := 0, current_c := 2,
          current_pos := 2, width := 2 } 3 = some s ∧ scr_on_row true s ∧
        s.buffer = [[97, 98, 99, 100, 101], [102, 103]] ∧ s.width = 2) ∧
      (∃ s, scr_down
        { buffer := [[97, 98, 99, 100, 101], [102, 103]], current_r := 0, current_c := 2,
          current_pos := 2, width := 2 } 3 = some s ∧ scr_on_row true s ∧
        s.buffer = [[97, 98, 99, 100, 101], [102, 103]] ∧ s.width = 2) ∧
      scr_on_row true (scr_home
        { buffer := [[97, 98, 99, 100, 101], [102, 103]], current_r := 0, current_c := 2,
          current_pos := 2, width := 2 }) ∧
      (∃ s, scr_end
        { buffer := [[97, 98, 99, 100, 101], [102, 103]], current_r := 0, current_c := 2,
          current_pos := 2, width := 2 } = some s ∧ scr_on_row false s ∧
        s.buffer = [[97, 98, 99, 100, 101], [102, 103]] ∧ s.width = 2) ∧
      (∀ (L : ctype_kind) (text : List Nat),
        scr_valid
          { buffer := [[97, 98, 99, 100, 101], [102, 103]], current_r := 0, current_c := 2,
            current_pos := 2, width := 2 } → 0 ∉ text →
        ∃ s, scr_add L
          { buffer := [[97, 98, 99, 100, 101], [102, 103]], current_r := 0, current_c := 2,
            current_pos := 2, width := 2 } text = some s ∧ scr_on_row false s)) ∧
    scr_down
      { buffer := [[97, 98, 99, 100, 101], [102, 103]], current_r := 0, current_c := 2,
        current_pos := 2, width := 2 } 3 = some
      { buffer := [[97, 98, 99, 100, 101], [102, 103]], current_r := 1, current_c := 0,
        current_pos := 2, width := 2 } ∧
    scr_up
      { buffer := [[97, 98, 99, 100, 101], [102, 103]], current_r := 0, current_c := 2,
        current_pos := 2, width := 2 } 3 = some
      { buffer := [[97, 98, 99, 100, 101], [102, 103]], current_r := 0, current_c := 0,
        current_pos := 2, width := 2 } :=
  ⟨⟨by decide, by decide, [97, 98, 99, 100, 101], rfl, by simp [row_bound]⟩,
    scr_moves_stay_on_row true
      { buffer := [[97, 98, 99, 100, 101], [102, 103]], current_r := 0, current_c := 2,
        current_pos := 2, width := 2 } 3
      ⟨by decide, by decide, [97, 98, 99, 100, 101], rfl, by simp [row_bound]⟩,
    by decide, by decide⟩

/-! ## scroller.c: one row up and one row down -/

theorem scr_up_one_column (scr : scroller) (hw : scr.width ≠ 0)
    (hd : scr.width ∣ scr.current_c) (hc : scr.current_c > 0) :
    scr_up scr 1 = some { scr with current_c := scr.current_c - scr.width } := by
  unfold scr_up
  rw [scr_sanity_id scr hw hd]
  show scr_up_loop (0 + 1) scr = _
  rw [scr_up_loop, if_pos hc]
  rfl

theorem scr_up_one_row (scr : scroller) (line : List Nat) (hw : scr.width ≠ 0)
    (hc : scr.current_c = 0) (hr : scr.current_r > 0)
    (hl : scr.buffer[scr.current_r - 1]? = some line) :
    scr_up scr 1 = some { scr with
      current_r := scr.current_r - 1
      current_c := if line.length > scr.width then ((line.length - 1) / scr.width) * scr.width
        else 0 } := by
  unfold scr_up
  rw [scr_sanity_id scr hw (by rw [hc]; exact Nat.dvd_zero _)]
  show scr_up_loop (0 + 1) scr = _
  rw [scr_up_loop, if_neg (by omega), if_pos hr, hl]
  simp only []
  by_cases hlong : line.length > scr.width
  · rw [if_pos hlong, if_neg hw, if_pos hlong]
    rfl
  · rw [if_neg hlong, if_neg hlong]
    show some ({ scr with current_r := scr.current_r - 1 } : scroller) =
      some ({ scr with current_r := scr.current_r - 1, current_c := 0 } : scroller)
    rw [hc]

theorem scr_up_one_top (scr : scroller) (hw : scr.width ≠ 0)
    (hc : scr.current_c = 0) (hr : scr.current_r = 0) : scr_up scr 1 = some scr := by
  unfold scr_up
  rw [scr_sanity_id scr hw (by rw [hc]; exact Nat.dvd_zero _)]
  show scr_up_loop (0 + 1) scr = _
  rw [scr_up_loop, if_neg (by omega), if_neg (by omega)]

theorem scr_down_one_column (scr : scroller) (line : List Nat) (hw : scr.width ≠ 0)
    (hd : scr.width ∣ scr.current_c) (hl : scr.buffer[scr.current_r]? = some line)
    (hc : scr.current_c + scr.width < line.length) :
    scr_down scr 1 = some { scr with current_c := scr.current_c + scr.width } := by
  unfold scr_down
  rw [scr_sanity_id scr hw hd]
  show scr_down_loop (0 + 1) scr = _
  rw [scr_down_loop, hl]
  simp only []
  rw [if_pos (by omega)]
  rfl

theorem scr_down_one_row (scr : scroller) (line : List Nat) (hw : scr.width ≠ 0)
    (hd : scr.width ∣ scr.current_c) (hl : scr.buffer[scr.current_r]? = some line)
    (hc : line.length ≤ scr.current_c + scr.width)
    (hr : scr.current_r + 1 < scr.buffer.length) :
    scr_down scr 1 = some { scr with current_r := scr.current_r + 1, current_c := 0 } := by
  unfold scr_down
  rw [scr_sanity_id scr hw hd]
  show scr_down_loop (0 + 1) scr = _
  rw [scr_down_loop, hl]
  simp only []
  rw [if_neg (by omega), if_pos hr]
  rfl

theorem scr_down_one_bottom (scr : scroller) (line : List Nat) (hw : scr.width ≠ 0)
    (hd : scr.width ∣ scr.current_c) (hl : scr.buffer[scr.current_r]? = some line)
    (hc : line.length ≤ scr.current_c + scr.width)
    (hr : ¬ scr.current_r + 1 < scr.buffer.length) : scr_down scr 1 = some scr := by
  unfold scr_down
  rw [scr_sanity_id scr hw hd]
  show scr_down_loop (0 + 1) scr = _
  rw [scr_down_loop, hl]
  simp only []
  rw [if_neg (by omega), if_neg hr]

/-- C35: for a scroller state in which row `r` exists, the width is positive and `c` is a
multiple of the width with `c < max(1, length of line r)`: `scr_down(1)` returns, and if it
changed `r` or `c` then `scr_up(1)` on its result returns the state it started from;
`scr_up(1)` returns, and if it changed `r` or `c` then `scr_down(1)` on its result returns
the state it started from; with `r = 0` and `c = 0`, `scr_up(1)` changes nothing; and on
the last line, with no further sub-row (`length ≤ c + width`), `scr_down(1)` changes
nothing. -/
theorem scr_up_down_inverse (scr : scroller) (line : List Nat) (hw : scr.width ≠ 0)
    (hd : scr.width ∣ scr.current_c) (hl : scr.buffer[scr.current_r]? = some line)
    (hb : scr.current_c < max 1 line.length) :
    (∃ d, scr_down scr 1 = some d ∧
      (d.current_r ≠ scr.current_r ∨ d.current_c ≠ scr.current_c → scr_up d 1 = some scr)) ∧
    (∃ u, scr_up scr 1 = some u ∧
      (u.current_r ≠ scr.current_r ∨ u.current_c ≠ scr.current_c →
        scr_down u 1 = some scr)) ∧
    (scr.current_r = 0 → scr.current_c = 0 → scr_up scr 1 = some scr) ∧
    (scr.current_r + 1 = scr.buffer.length → line.length ≤ scr.current_c + scr.width →
      scr_down scr 1 = some scr) := by
  have hlen : scr.current_r < scr.buffer.length := by
    by_contra hge
    rw [List.getElem?_eq_none (by omega)] at hl
    exact Option.noConfusion hl
  have hwc : 0 < scr.current_c → scr.width ≤ scr.current_c := fun h => Nat.le_of_dvd h hd
  refine ⟨?_, ?_, ?_, ?_⟩
  · by_cases hc : scr.current_c + scr.width < line.length
    · refine ⟨_, scr_down_one_column scr line hw hd hl hc, fun _ => ?_⟩
      rw [scr_up_one_column { scr with current_c := scr.current_c + scr.width } hw
        (Nat.dvd_add hd (dvd_refl _))
        (by show scr.current_c + scr.width > 0; omega)]
      show some { scr with current_c := scr.current_c + scr.width - scr.width } = some scr
      rw [Nat.add_sub_cancel]
    · by_cases hr : scr.current_r + 1 < scr.buffer.length
      · refine ⟨_, scr_down_one_row scr line hw hd hl (by omega) hr, fun _ => ?_⟩
        rw [scr_up_one_row { scr with current_r := scr.current_r + 1, current_c := 0 } line hw
          rfl (by show scr.current_r + 1 > 0; omega) hl]
        show some { scr with
          current_r := scr.current_r + 1 - 1
          current_c := if line.length > scr.width then
            ((line.length - 1) / scr.width) * scr.width else 0 } = some scr
        have hcol : (if line.length > scr.width then
            ((line.length - 1) / scr.width) * scr.width else 0) = scr.current_c := by
          by_cases hlong : line.length > scr.width
          · rw [if_pos hlong]
            exact last_sub_row _ _ _ hd (by omega) (by omega)
          · rw [if_neg hlong]
            by_contra hne
            have := hwc (by omega)
            omega
        rw [hcol, Nat.add_sub_cancel]
      · exact ⟨scr, scr_down_one_bottom scr line hw hd hl (by omega) hr,
          fun h => h.elim (fun e => absurd rfl e) (fun e => absurd rfl e)⟩
  · by_cases hc : scr.current_c > 0
    · refine ⟨_, scr_up_one_column scr hw hd hc, fun _ => ?_⟩
      have hge := hwc hc
      rw [scr_down_one_column { scr with current_c := scr.current_c - scr.width } line hw
        (Nat.dvd_sub' hd (dvd_refl _)) hl
        (by show scr.current_c - scr.width + scr.width < line.length; omega)]
      show some { scr with current_c := scr.current_c - scr.width + scr.width } = some scr
      rw [Nat.sub_add_cancel hge]
    · have hc0 : scr.current_c = 0 := by omega
      by_cases hr : scr.current_r > 0
      · have hprev : scr.buffer[scr.current_r - 1]? =
            some (scr.buffer.get ⟨scr.current_r - 1, by omega⟩) :=
          List.getElem?_eq_getElem (by omega)
        refine ⟨_, scr_up_one_row scr _ hw hc0 hr hprev, fun _ => ?_⟩
        generalize scr.buffer.get ⟨scr.current_r - 1, by omega⟩ = prev at hprev
        have hcol : scr.width ∣ (if prev.length > scr.width then
            ((prev.length - 1) / scr.width) * scr.width else 0) := by
          by_cases hlong : prev.length > scr.width
          · rw [if_pos hlong]; exact Nat.dvd_mul_left _ _
          · rw [if_neg hlong]; exact Nat.dvd_zero _
        have hend : prev.length ≤ (if prev.length > scr.width then
            ((prev.length - 1) / scr.width) * scr.width else 0) + scr.width := by
          by_cases hlong : prev.length > scr.width
          · rw [if_pos hlong]
            have := Nat.lt_div_mul_add (a := prev.length - 1) (Nat.pos_of_ne_zero hw)
            omega
          · rw [if_neg hlong]; omega
        rw [scr_down_one_row { scr with
            current_r := scr.current_r - 1
            current_c := if prev.length > scr.width then
              ((prev.length - 1) / scr.width) * scr.width else 0 } prev hw hcol hprev hend
          (by show scr.current_r - 1 + 1 < scr.buffer.length; omega)]
        show some { scr with current_r := scr.current_r - 1 + 1, current_c := 0 } = some scr
        rw [Nat.sub_add_cancel hr, ← hc0]
      · exact ⟨scr, scr_up_one_top scr hw hc0 (by omega), fun h => h.elim (fun e => absurd rfl e) (fun e => absurd rfl e)⟩
  · intro hr hc
    exact scr_up_one_top scr hw hc hr
  · intro hr hc
    exact scr_down_one_bottom scr line hw hd hl hc (by omega)

/-- Witness of C35: the lines `abcde` and `fg` in a window two columns wide, the view on the
last sub-row of the first line; one row down moves to the second line, and one row up from
there comes back. -/
theorem scr_up_down_inverse_witness :
    ((∃ d, scr_down
        { buffer := [[97, 98, 99, 100, 101], [102, 103]], current_r := 0, current_c := 4,
          current_pos := 2, width := 2 } 1 = some d ∧
      (d.current_r ≠ 0 ∨ d.current_c ≠ 4 → scr_up d 1 = some
        { buffer := [[97, 98, 99, 100, 101], [102, 103]], current_r := 0, current_c := 4,
          current_pos := 2, width := 2 })) ∧
    (∃ u, scr_up
        { buffer := [[97, 98, 99, 100, 101], [102, 103]], current_r := 0, current_c := 4,
          current_pos := 2, width := 2 } 1 = some u ∧
      (u.current_r ≠ 0 ∨ u.current_c ≠ 4 → scr_down u 1 = some
        { buffer := [[97, 98, 99, 100, 101], [102, 103]], current_r := 0, current_c := 4,
          current_pos := 2, width := 2 })) ∧
    ((0 : Nat) = 0 → (4 : Nat) = 0 → scr_up
        { buffer := [[97, 98, 99, 100, 101], [102, 103]], current_r := 0, current_c := 4,
          current_pos := 2, width := 2 } 1 = some
        { buffer := [[97, 98, 99, 100, 101], [102, 103]], current_r := 0, current_c := 4,
          current_pos := 2, width := 2 }) ∧
    (0 + 1 = ([[97, 98, 99, 100, 101], [102, 103]] : List (List Nat)).length →
      ([97, 98, 99, 100, 101] : List Nat).length ≤ 4 + 2 → scr_down
        { buffer := [[97, 98, 99, 100, 101], [102, 103]], current_r := 0, current_c := 4,
          current_pos := 2, width := 2 } 1 = some
        { buffer := [[97, 98, 99, 100, 101], [102, 103]], current_r := 0, current_c := 4,
          current_pos := 2, width := 2 })) ∧
    scr_down
      { buffer := [[97, 98, 99, 100, 101], [102, 103]], current_r := 0, current_c := 4,
        current_pos := 2, width := 2 } 1 = some
      { buffer := [[97, 98, 99, 100, 101], [102, 103]], current_r := 1, current_c := 0,
        current_pos := 2, width := 2 } ∧
    scr_up
      { buffer := [[97, 98, 99, 100, 101], [102, 103]], current_r := 1, current_c := 0,
        current_pos := 2, width := 2 } 1 = some
      { buffer := [[97, 98, 99, 100, 101], [102, 103]], current_r := 0, current_c := 4,
        current_pos := 2, width := 2 } ∧
    scr_up
      { buffer := [[97, 98, 99, 100, 101], [102, 103]], current_r := 0, current_c := 4,
        current_pos := 2, width := 2 } 1 = some
      { buffer := [[97, 98, 99, 100, 101], [102, 103]], current_r := 0, current_c := 2,
        current_pos := 2, width := 2 } :=
  ⟨scr_up_down_inverse
      { buffer := [[97, 98, 99, 100, 101], [102, 103]], current_r := 0, current_c := 4,
        current_pos := 2, width := 2 } [97, 98, 99, 100, 101]
      (by decide) (by decide) rfl (by decide),
    by decide, by decide, by decide⟩

end Cgdb
